import Mathlib

/-!
# Consensus engine core of the NUC chain (ethash fork): shallow embedding and proofs

The definitions below transcribe, function by function, the Go sources

* `consensus/ethash/consensus.go` (header verifier, difficulty calculator, seal
  verifier, `accumulateRewards`),
* `consensus/ethash/consensus_reward.go` (`MiningUsers`, `CoinbaseTxs`, codec),
* `consensus/ethash/consensus_reward3.go` (`NUCReward4` and the class gatherers),
* `consensus/ethash/nuc_token/v1/nuc_token.go` (`Struct1.CanGetMaxReward`).

Conventions of the embedding:

* `*big.Int` is `Int`; `big.Int.Div` is Euclidean division, which is `/` on `Int`.
* `uint64` values are `Nat`; every conversion that can wrap is written with an
  explicit `% 2^64`.
* A Go `error` result is an `Option Err`, `none` being `nil`.
* A Go map is the list of its entries (distinct keys). The order in which a
  `for ... range` visits a map is not fixed by Go: it is the parameter `RangeOrder`,
  and every statement about a loop over a map holds for every visiting order.
* Code of other packages (protocol constants, hashing, the VM behind the registry
  calls, the state database) is taken as a parameter.
-/

namespace Nuc

/-! ## Basic types -/

/-- One octet. -/
abbrev Byte := Fin 256

/-- A `common.Hash` (32 octets), kept as its octet string. -/
abbrev Hash := List Byte

/-- A `common.Address`: exactly 20 octets. -/
structure Address where
  bytes : List Byte
  len : bytes.length = 20
  deriving DecidableEq

/-- The address whose 19 leading octets are zero and whose last octet is `b`. -/
def Address.ofByte (b : Byte) : Address :=
  ⟨List.replicate 19 0 ++ [b], by simp⟩

/-- The all-zero address, `common.HexToAddress(ZERO_ADDR)`. -/
def zeroAddress : Address := Address.ofByte 0

/-- Go `DefaultCoinbaseAddr`: twenty zero octets. -/
def DefaultCoinbaseAddr : Address := zeroAddress

/-- Go `int64(x)` for a `uint64` value `x`. -/
def toInt64 (x : Nat) : Int :=
  if x % 2 ^ 64 < 2 ^ 63 then ((x % 2 ^ 64 : Nat) : Int) else ((x % 2 ^ 64 : Nat) : Int) - 2 ^ 64

/-- Reduction of an exact integer into the `int64` range (two's complement wrap). -/
def wrapInt64 (x : Int) : Int :=
  (x + 2 ^ 63) % 2 ^ 64 - 2 ^ 63

/-- Go `uint64(x)` for an `int64` value `x`. -/
def toUint64 (x : Int) : Nat :=
  (x % 2 ^ 64).toNat

/-- Go `big.Int.Uint64()`: the low 64 bits of the absolute value. -/
def bigUint64 (x : Int) : Nat :=
  x.natAbs % 2 ^ 64

/-- Go `new(big.Int).SetBytes(b)`: the big-endian value of an octet string. -/
def bigBE (b : List Byte) : Nat :=
  b.foldl (fun acc x => acc * 256 + x.val) 0

/-- Constants of package `params` used by the engine; their values are chain
configuration and are taken as parameters. -/
structure Params where
  MaximumExtraDataSize : Nat
  GasLimitBoundDivisor : Nat
  MinGasLimit : Nat
  DifficultyBoundDivisor : Int
  MinimumDifficulty : Int
  DurationLimit : Int

/-- The values of the scenarios of the specification (the stock ethash values). -/
def stockParams : Params :=
  { MaximumExtraDataSize := 32
    GasLimitBoundDivisor := 1024
    MinGasLimit := 5000
    DifficultyBoundDivisor := 2048
    MinimumDifficulty := 131072
    DurationLimit := 13 }

/-- The fork schedule of `params.ChainConfig` (a fork is absent when its block is
`none`). -/
structure ChainConfig where
  HomesteadBlock : Option Int
  ByzantiumBlock : Option Int
  ConstantinopleBlock : Option Int
  deriving DecidableEq

/-- Go `types.Header`. -/
structure Header where
  Version : Nat
  ParentHash : Hash
  UncleHash : Hash
  Coinbase : Address
  Root : Hash
  TxHash : Hash
  ReceiptHash : Hash
  Bloom : List Byte
  Difficulty : Int
  NUCDifficulty : Int
  CoinbaseTxs : List Byte
  Number : Int
  GasLimit : Nat
  GasUsed : Nat
  Time : Nat
  Extra : List Byte
  MixDigest : Hash
  Nonce : Nat
  deriving DecidableEq

/-- The errors the engine returns. The `fmt.Errorf` errors keep the values they
print. -/
inductive Err where
  | extraTooLong (got max : Nat)
  | ErrFutureBlock
  | errZeroBlockTime
  | invalidDifficulty (got want : Int)
  | invalidGasLimitCap (got max : Nat)
  | invalidGasUsed (got gasLimit : Nat)
  | invalidGasLimit (got want limit : Nat)
  | ErrInvalidNumber
  | ErrUnknownAncestor
  | errTooManyUncles
  | errDuplicateUncle
  | errUncleIsAncestor
  | errDanglingUncle
  | errInvalidDifficulty
  | errInvalidMixDigest
  | errInvalidPoW
  | forkCheck (code : Nat)
  deriving DecidableEq, Repr

/-! ## Difficulty calculator (`consensus.go`, lines 320-499) -/

/-- Go `expDiffPeriod`. -/
def expDiffPeriod : Int := 100000

/-- Go `big.Int.Exp(2, y, nil)`: `2^y` for `y > 0` and `1` for `y ≤ 0`. -/
def bigExp2 (y : Int) : Int :=
  2 ^ y.toNat

/-- Go `math.BigMax`. -/
def BigMax (x y : Int) : Int :=
  if x < y then y else x

/-- Go `calcDifficultyFrontier(time, parent)`. -/
def calcDifficultyFrontier (P : Params) (time : Nat) (parent : Header) : Int :=
  let adjust := parent.Difficulty / P.DifficultyBoundDivisor
  let bigTime : Int := time
  let bigParentTime : Int := parent.Time
  let diff :=
    if bigTime - bigParentTime < P.DurationLimit then parent.Difficulty + adjust
    else parent.Difficulty - adjust
  let diff := if diff < P.MinimumDifficulty then P.MinimumDifficulty else diff
  let periodCount := (parent.Number + 1) / expDiffPeriod
  if periodCount > 1 then
    let expDiff := bigExp2 (periodCount - 2)
    let diff := diff + expDiff
    BigMax diff P.MinimumDifficulty
  else diff

/-- Go `CalcDifficulty(config, time, parent)`: the body returns the Frontier rule
at once; the fork switch is commented out in the source. -/
def CalcDifficulty (P : Params) (_config : ChainConfig) (time : Nat) (parent : Header) : Int :=
  calcDifficultyFrontier P time parent

/-! ## Seal verifier (`consensus.go`, lines 501-571) -/

/-- Go `ethash.config.PowMode`. -/
inductive Mode where
  | ModeNormal
  | ModeShared
  | ModeTest
  | ModeFake
  | ModeFullFake
  deriving DecidableEq, Repr

/-- One field handed to `rlp.Encode` by `SealHash`. -/
inductive RlpField where
  | uint (n : Nat)
  | big (i : Int)
  | octets (b : List Byte)
  deriving DecidableEq

/-- The proof-of-work machinery of one engine instance that lies outside the
verified sources: Keccak-256 over the RLP list encoding, the epoch dataset and
cache, and the two hashimoto functions. Each hashimoto returns `(digest, result)`. -/
structure Pow where
  rlpKeccak : List RlpField → Hash
  datasetGenerated : Nat → Bool
  datasetSize : Nat → Nat
  hashimotoFull : Nat → Hash → Nat → List Byte × List Byte
  hashimotoLight : Nat → Nat → Hash → Nat → List Byte × List Byte

/-- Go `Ethash.SealHash(header)`. -/
def SealHash (pow : Pow) (header : Header) : Hash :=
  pow.rlpKeccak
    [ .uint header.Version, .octets header.ParentHash, .octets header.UncleHash,
      .octets header.Coinbase.bytes, .octets header.Root, .octets header.TxHash,
      .octets header.ReceiptHash, .octets header.Bloom, .big header.Difficulty,
      .big header.NUCDifficulty, .octets header.CoinbaseTxs, .big header.Number,
      .uint header.GasLimit, .uint header.GasUsed, .uint header.Time,
      .octets header.Extra ]

/-- The engine. `own` is an engine with `shared == nil`; `sharing` is an engine
whose `shared` field points to another engine. -/
inductive Ethash where
  | own (PowMode : Mode) (fakeFail : Nat) (pow : Pow)
  | sharing (PowMode : Mode) (fakeFail : Nat) (shared : Ethash)

/-- Go `ethash.config.PowMode`. -/
def Ethash.PowMode : Ethash → Mode
  | .own m _ _ => m
  | .sharing m _ _ => m

/-- Modelled from the spec: `two256`, the constant `2^256` of the target test
(`big_be(result) ≤ 2^256 / nuc_difficulty`); its declaration is in a file of the
package that is not among the sources. -/
def two256 : Int := 2 ^ 256

/-- The `(digest, result)` pair recomputed by `verifySeal`: the dataset variant
when a full DAG was requested and is generated, the cache variant otherwise. -/
def sealValues (mode : Mode) (pow : Pow) (header : Header) (fulldag : Bool) :
    List Byte × List Byte :=
  let number := bigUint64 header.Number
  if fulldag && pow.datasetGenerated number then
    pow.hashimotoFull number (SealHash pow header) header.Nonce
  else
    let size := if mode = Mode.ModeTest then 32 * 1024 else pow.datasetSize number
    pow.hashimotoLight size number (SealHash pow header) header.Nonce

/-- Go `ethash.verifySeal(chain, header, fulldag)`. -/
def verifySeal : Ethash → Header → Bool → Option Err
  | .sharing mode fakeFail shared, header, fulldag =>
    if mode = Mode.ModeFake ∨ mode = Mode.ModeFullFake then
      if fakeFail = bigUint64 header.Number then some Err.errInvalidPoW else none
    else verifySeal shared header fulldag
  | .own mode fakeFail pow, header, fulldag =>
    if mode = Mode.ModeFake ∨ mode = Mode.ModeFullFake then
      if fakeFail = bigUint64 header.Number then some Err.errInvalidPoW else none
    else if header.NUCDifficulty ≤ 0 then some Err.errInvalidDifficulty
    else
      let dr := sealValues mode pow header fulldag
      if header.MixDigest ≠ dr.1 then some Err.errInvalidMixDigest
      else
        let target := two256 / header.NUCDifficulty
        if (bigBE dr.2 : Int) > target then some Err.errInvalidPoW
        else none

/-- Go `ethash.VerifySeal(chain, header)`. -/
def VerifySeal (ethash : Ethash) (header : Header) : Option Err :=
  verifySeal ethash header false

/-! ## Header verifier (`consensus.go`, lines 257-318) -/

/-- What `verifyHeader` reads besides its arguments: the constants of `params`,
the chain configuration, the wall clock (`time.Now().Unix()`, seconds), and the
two fork checks of package `misc`. -/
structure VerifyEnv where
  params : Params
  config : ChainConfig
  now : Nat
  VerifyDAOHeaderExtraData : ChainConfig → Header → Option Err
  VerifyForkHashes : ChainConfig → Header → Bool → Option Err

/-- Go `allowedFutureBlockTime`, in seconds. -/
def allowedFutureBlockTime : Nat := 60

/-- Go `ethash.verifyHeader(chain, header, parent, uncle, seal)`; `checkSeal` is the
argument `seal`. -/
def verifyHeader (ethash : Ethash) (env : VerifyEnv) (header parent : Header)
    (uncle checkSeal : Bool) : Option Err :=
  if header.Extra.length > env.params.MaximumExtraDataSize then
    some (Err.extraTooLong header.Extra.length env.params.MaximumExtraDataSize)
  else if !uncle && decide (header.Time > (env.now + allowedFutureBlockTime) % 2 ^ 64) then
    some Err.ErrFutureBlock
  else if header.Time ≤ parent.Time then some Err.errZeroBlockTime
  else
    let expected := CalcDifficulty env.params env.config header.Time parent
    if expected ≠ header.Difficulty then
      some (Err.invalidDifficulty header.Difficulty expected)
    else
      let cap : Nat := 0x7fffffffffffffff
      if header.GasLimit > cap then some (Err.invalidGasLimitCap header.GasLimit cap)
      else if header.GasUsed > header.GasLimit then
        some (Err.invalidGasUsed header.GasUsed header.GasLimit)
      else
        let diff := wrapInt64 (toInt64 parent.GasLimit - toInt64 header.GasLimit)
        let diff := if diff < 0 then wrapInt64 (diff * -1) else diff
        let limit := parent.GasLimit / env.params.GasLimitBoundDivisor
        if toUint64 diff ≥ limit ∨ header.GasLimit < env.params.MinGasLimit then
          some (Err.invalidGasLimit header.GasLimit parent.GasLimit limit)
        else if header.Number - parent.Number ≠ 1 then some Err.ErrInvalidNumber
        else
          match (if checkSeal then VerifySeal ethash header else none) with
          | some e => some e
          | none =>
            match env.VerifyDAOHeaderExtraData env.config header with
            | some e => some e
            | none => env.VerifyForkHashes env.config header uncle


/-! ## The header checks as the specification lists them -/

/-- The first failed check of a list of `(check passes, error)` pairs. -/
def firstFailure : List (Bool × Err) → Option Err
  | [] => none
  | (ok, e) :: rest => if ok then firstFailure rest else some e

/-- The checks of the header verifier in the order of the specification (section
4.1, items 1 to 7), written over exact integers, each with the error it raises. -/
def headerChecksSpec (env : VerifyEnv) (header parent : Header) (uncle : Bool) :
    List (Bool × Err) :=
  let limit : Nat := parent.GasLimit / env.params.GasLimitBoundDivisor
  let boundErr := Err.invalidGasLimit header.GasLimit parent.GasLimit limit
  [ (decide (header.Extra.length ≤ env.params.MaximumExtraDataSize),
      Err.extraTooLong header.Extra.length env.params.MaximumExtraDataSize),
    (uncle || decide (header.Time ≤ env.now + 60), Err.ErrFutureBlock),
    (decide (header.Time > parent.Time), Err.errZeroBlockTime),
    (decide (header.Difficulty = CalcDifficulty env.params env.config header.Time parent),
      Err.invalidDifficulty header.Difficulty
        (CalcDifficulty env.params env.config header.Time parent)),
    (decide (header.GasLimit ≤ 2 ^ 63 - 1),
      Err.invalidGasLimitCap header.GasLimit (2 ^ 63 - 1)),
    (decide (header.GasUsed ≤ header.GasLimit),
      Err.invalidGasUsed header.GasUsed header.GasLimit),
    (decide (|(parent.GasLimit : Int) - (header.GasLimit : Int)| < (limit : Int)), boundErr),
    (decide (header.GasLimit ≥ env.params.MinGasLimit), boundErr),
    (decide (header.Number - parent.Number = 1), Err.ErrInvalidNumber) ]

/-! ## The Frontier rule as the specification states it -/

/-- The Frontier difficulty of the specification (section 4.3): `d + bomb` with floor
divisions, `d` the adjusted parent difficulty floored by `MIN_DIFF`, and the bomb
`2^(period - 2)` when `period > 1`. -/
def frontierSpec (P : Params) (time : Nat) (parent : Header) : Int :=
  let adjust := Int.fdiv parent.Difficulty P.DifficultyBoundDivisor
  let d :=
    if (time : Int) - (parent.Time : Int) < P.DurationLimit
    then max (parent.Difficulty + adjust) P.MinimumDifficulty
    else max (parent.Difficulty - adjust) P.MinimumDifficulty
  let period := Int.fdiv (parent.Number + 1) 100000
  let bomb : Int := if period > 1 then 2 ^ (period - 2).toNat else 0
  d + bomb

/-! ## Example data -/

/-- A header with every field empty or zero. -/
def zeroHeader : Header :=
  { Version := 0, ParentHash := [], UncleHash := [], Coinbase := zeroAddress, Root := [],
    TxHash := [], ReceiptHash := [], Bloom := [], Difficulty := 0, NUCDifficulty := 0,
    CoinbaseTxs := [], Number := 0, GasLimit := 0, GasUsed := 0, Time := 0, Extra := [],
    MixDigest := [], Nonce := 0 }

/-- The parent of scenario 1 of the specification: time 1000, difficulty 131072,
number 0, with a gas limit of 8000000. -/
def exampleParent : Header :=
  { zeroHeader with Time := 1000, Difficulty := 131072, NUCDifficulty := 131072,
                    GasLimit := 8000000 }

/-- A child of `exampleParent` at time 1005 that passes every header check. -/
def exampleChild : Header :=
  { zeroHeader with Time := 1005, Difficulty := 131136, NUCDifficulty := 131136,
                    Number := 1, GasLimit := 8000000, GasUsed := 21000 }

/-- An environment with the stock constants, the clock at 2000 s and fork checks
that accept. -/
def exampleEnv : VerifyEnv :=
  { params := stockParams
    config := { HomesteadBlock := none, ByzantiumBlock := none, ConstantinopleBlock := none }
    now := 2000
    VerifyDAOHeaderExtraData := fun _ _ => none
    VerifyForkHashes := fun _ _ _ => none }

/-- A proof-of-work oracle whose mix digest is empty and whose result is `0x01`. -/
def examplePow : Pow :=
  { rlpKeccak := fun _ => []
    datasetGenerated := fun _ => false
    datasetSize := fun _ => 0
    hashimotoFull := fun _ _ _ => ([], [1])
    hashimotoLight := fun _ _ _ _ => ([], [1]) }

/-- A normal-mode engine without a shared engine. -/
def exampleEthash : Ethash := Ethash.own Mode.ModeNormal 0 examplePow

/-! ## Registry tuples and the registry caller (`nuc_token/v1/nuc_token.go`) -/

/-- Go `v1.Struct0`: one record of a registry member. -/
structure Struct0 where
  CreateTime : Int
  deriving DecidableEq

/-- Go `v1.Struct1`: a PoC member as returned by `AllPocers`. -/
structure Struct1 where
  Records : List Struct0
  UserAddr : Address
  GetReward : Int
  Index : Int
  MortageBalance : Int
  BindPoolAddr : Address
  deriving DecidableEq

/-- Go `v1.Struct2`: a PoW member as returned by `AllPowers`. -/
structure Struct2 where
  CreateTime : Int
  Index : Int
  BuyBalance : Int
  BindPoolAddr : Address
  PocAddrs : List Address
  UserAddr : Address
  Records : List Struct0
  deriving DecidableEq

/-- Go `v1.Struct3`: a pool operator as returned by `AllPoolers`. -/
structure Struct3 where
  CreateTime : Int
  Index : Int
  BuyBalance : Int
  PowAddrs : List Address
  PocAddrs : List Address
  UserAddr : Address
  deriving DecidableEq

/-- Go `Struct1.CanGetMaxReward()`. Both `Mul` and `Div` have `this.MortageBalance` as
their receiver, so the call also overwrites the member's `MortageBalance`: the
result is the returned value together with the member after the call. -/
def Struct1.CanGetMaxReward (this : Struct1) : Int × Struct1 :=
  let reward := this.MortageBalance * 120
  let reward := reward / 100
  (reward, { this with MortageBalance := reward })

/-- What the methods of `v1.NUCCaller` return for the block being finalized. Each
method ABI-encodes a call, runs it in the VM against the pre-state and decodes the
output; the VM and the ABI codec are outside the sources, so the return values are
parameters. `none` is a non-nil `error`. The two arguments of the paged methods are
`offset` and `pageSize`. -/
structure NUCCaller where
  PocerCount : Option Int
  AllPocers : Int → Int → Option (List Struct1)
  PowerCount : Option Int
  AllPowers : Int → Int → Option (List Struct2)
  PoolerCount : Option Int
  AllPoolers : Int → Int → Option (List Struct3)
  GetRewardRatio : Option Int

/-! ## State database -/

/-- A mutation of the state database. -/
inductive StateOp where
  | addBalance (addr : Address) (amount : Int)
  | addAllPocBalance (addr : Address) (amount : Int)
  deriving DecidableEq

/-- Modelled from the spec: the state database of section 6 (`GetBalance`,
`AddBalance`, `GetAllPocBalance`, `AddAllPocBalance`), which is outside the sources:
a balance and a cumulative PoC-reward counter per address. `journal` lists the
mutating calls, oldest first. -/
structure StateDB where
  balance : Address → Int
  allPocBalance : Address → Int
  journal : List StateOp

/-- Modelled from the spec: `state.GetAllPocBalance(addr)`. -/
def StateDB.GetAllPocBalance (s : StateDB) (addr : Address) : Int :=
  s.allPocBalance addr

/-- Modelled from the spec: `state.AddBalance(addr, amount)`. -/
def StateDB.AddBalance (s : StateDB) (addr : Address) (amount : Int) : StateDB :=
  { s with
    balance := fun a => if a = addr then s.balance a + amount else s.balance a
    journal := s.journal ++ [StateOp.addBalance addr amount] }

/-- Modelled from the spec: `state.AddAllPocBalance(addr, amount)`. -/
def StateDB.AddAllPocBalance (s : StateDB) (addr : Address) (amount : Int) : StateDB :=
  { s with
    allPocBalance := fun a => if a = addr then s.allPocBalance a + amount else s.allPocBalance a
    journal := s.journal ++ [StateOp.addAllPocBalance addr amount] }

/-- The amount of a journal entry when it is a balance credit. -/
def StateOp.credit : StateOp → Int
  | .addBalance _ amount => amount
  | .addAllPocBalance _ _ => 0

/-- The sum of all balance credits of a journal. -/
def totalCredits (journal : List StateOp) : Int :=
  (journal.map StateOp.credit).sum

/-- The addresses for which a journal holds a call of `AddAllPocBalance`. -/
def pocCallAddrs (journal : List StateOp) : List Address :=
  journal.filterMap (fun op =>
    match op with
    | .addAllPocBalance a _ => some a
    | .addBalance _ _ => none)

/-! ## Mining users (`consensus_reward.go`, lines 19-170) -/

/-- Go `MiningUser`. The `Child` set is kept as the list of its addresses. -/
structure MiningUser where
  HasBind : Bool
  Address : Nuc.Address
  PoolAddress : Nuc.Address
  Weight : Int
  Reward : Int
  MortageBalance : Int
  CanPocBalance : Int
  Child : List Nuc.Address
  deriving DecidableEq

/-- Go `MiningUsers`, a map from address to user: the list of its users, the key of a
user being its `Address` field. -/
abbrev MiningUsers := List MiningUser

/-- Go `CoinbaseUserReward`. -/
structure CoinbaseUserReward where
  PoolReward : Int
  PocReward : Int
  PowReward : Int
  PostReward : Int
  deriving DecidableEq

/-- Go `CoinbaseTxs`, a map from address to reward record: the list of its entries. -/
abbrev CoinbaseTxs := List (Address × CoinbaseUserReward)

/-- The order in which a `for ... range` visits the entries of a map. Go leaves it
unspecified, so it is a parameter: for each range statement (`site`) and each map it
gives the entries in the order of the visit, a permutation of the entries. -/
structure RangeOrder where
  users : Nat → List MiningUser → List MiningUser
  users_perm : ∀ site l, (users site l).Perm l
  records : Nat → CoinbaseTxs → CoinbaseTxs
  records_perm : ∀ site l, (records site l).Perm l

/-- The visiting order that follows the order of insertion. -/
def insertionOrder : RangeOrder :=
  { users := fun _ l => l
    users_perm := fun _ l => List.Perm.refl l
    records := fun _ l => l
    records_perm := fun _ l => List.Perm.refl l }

/-- The visiting order opposite to the order of insertion. -/
def reverseOrder : RangeOrder :=
  { users := fun _ l => l.reverse
    users_perm := fun _ l => List.reverse_perm l
    records := fun _ l => l.reverse
    records_perm := fun _ l => List.reverse_perm l }

/-- Go `MiningUsers.Has`. -/
def MiningUsers.Has (this : MiningUsers) (addr : Address) : Bool :=
  this.any (fun u => decide (u.Address = addr))

/-- The assignment `(*this)[addr].field = ...`: `f` applied to the user stored under
`addr`. -/
def MiningUsers.modify (this : MiningUsers) (addr : Address) (f : MiningUser → MiningUser) :
    MiningUsers :=
  this.map (fun u => if u.Address = addr then f u else u)

/-- Go `MiningUsers.AddWeight`. -/
def MiningUsers.AddWeight (this : MiningUsers) (addr : Address) : MiningUsers :=
  if !this.Has addr then this
  else this.modify addr (fun u => { u with Weight := u.Weight + 1 })

/-- Go `MiningUsers.AddWeightCount`. -/
def MiningUsers.AddWeightCount (this : MiningUsers) (addr : Address) (count : Int) :
    MiningUsers :=
  if !this.Has addr then this
  else this.modify addr (fun u => { u with Weight := u.Weight + count })

/-- Go `MiningUsers.SetBind`. -/
def MiningUsers.SetBind (this : MiningUsers) (addr : Address) (hasBind : Bool) : MiningUsers :=
  if !this.Has addr then this
  else this.modify addr (fun u => { u with HasBind := hasBind })

/-- Go `MiningUsers.SetBindAddr`. -/
def MiningUsers.SetBindAddr (this : MiningUsers) (addr poolAddr : Address) : MiningUsers :=
  if !this.Has addr then this
  else this.modify addr (fun u => { u with HasBind := true, PoolAddress := poolAddr })

/-- Go `MiningUsers.SetMortageBalance`. The user's `MortageBalance` is set to the
pointer `balance`; `Mul` and `Div` then have that same `big.Int` as receiver and
their result is stored as `CanPocBalance`. So both fields, and the caller's
`balance`, end as `balance * 120 / 100`. The second component is the caller's
`balance` after the call. -/
def MiningUsers.SetMortageBalance (this : MiningUsers) (addr : Address) (balance : Int) :
    MiningUsers × Int :=
  if !this.Has addr then (this, balance)
  else
    let balance := balance * 120
    let balance := balance / 100
    (this.modify addr (fun u => { u with MortageBalance := balance, CanPocBalance := balance }),
      balance)

/-- Go `MiningUsers.Add`. -/
def MiningUsers.Add (this : MiningUsers) (addr : Address) : MiningUsers :=
  if this.Has addr then this
  else if addr = zeroAddress then this
  else this ++ [{ HasBind := false, Address := addr, PoolAddress := zeroAddress, Weight := 1,
                  Reward := 0, MortageBalance := 0, CanPocBalance := 0, Child := [] }]

/-- Go `MiningUsers.AllWeight`; the range statement is site 0. -/
def MiningUsers.AllWeight (ord : RangeOrder) (this : MiningUsers) : Int :=
  (ord.users 0 this).foldl (fun allCount v => allCount + v.Weight) 0

/-- Go `CoinbaseTxs.Has`. -/
def CoinbaseTxs.Has (this : CoinbaseTxs) (addr : Address) : Bool :=
  this.any (fun e => decide (e.1 = addr))

/-- Go `CoinbaseTxs.Add`. -/
def CoinbaseTxs.Add (this : CoinbaseTxs) (addr : Address) : CoinbaseTxs :=
  if this.Has addr then this
  else this ++ [(addr, { PoolReward := 0, PocReward := 0, PowReward := 0, PostReward := 0 })]

/-- The assignment to `(*this)[addr]`: `f` applied to the record stored under `addr`. -/
def CoinbaseTxs.modify (this : CoinbaseTxs) (addr : Address)
    (f : CoinbaseUserReward → CoinbaseUserReward) : CoinbaseTxs :=
  this.map (fun e => if e.1 = addr then (e.1, f e.2) else e)

/-- The map lookup `(*this)[addr]`. -/
def CoinbaseTxs.get? (this : CoinbaseTxs) (addr : Address) : Option CoinbaseUserReward :=
  (this.find? (fun e => decide (e.1 = addr))).map Prod.snd

/-- The map lookup `this[addr]` of a `MiningUsers`. -/
def MiningUsers.get? (this : MiningUsers) (addr : Address) : Option MiningUser :=
  this.find? (fun u => decide (u.Address = addr))

/-! ## Reward constants (`consensus.go`, lines 45-63)

`big.NewInt(1e+18).Mul(big.NewInt(1e+18), big.NewInt(12))` stores the product of the
two arguments of `Mul` in the receiver, so its value is `10^18 * 12`. -/

/-- Go `FrontierBlockReward`. -/
def FrontierBlockReward : Int := 1000000000000000000 * 12

/-- Go `PowBlockReward`. -/
def PowBlockReward : Int := 2000000000000000000

/-- Go `PocBlockReward`. -/
def PocBlockReward : Int := 1000000000000000000 * 10

/-- Go `PoolBlockReward`. -/
def PoolBlockReward : Int := 1000000000000000000

/-! ## Class gatherers and `NUCReward4` (`consensus_reward3.go`) -/

/-- Go `math1.Ceil(float64(count) / float64(pageSize))` with `pageSize = 1000`, as the
exact ceiling (the `float64` computation is exact for every count below `2^53`). -/
def pageCount (count : Nat) : Nat :=
  (count + 999) / 1000

/-- The page loop of a gatherer, `for page := 0; page < int(pageCount); page++`, with
`n` pages still to fetch: the page at `offset = page * 1000` is fetched with
`pageSize = 1000`, an error returns the users gathered so far, and otherwise `body`
runs on every tuple of the page in order. -/
def gatherPages {α : Type} (fetch : Int → Int → Option (List α))
    (body : MiningUsers → α → MiningUsers) : Nat → Nat → MiningUsers → MiningUsers
  | 0, _, l => l
  | n + 1, page, l =>
    match fetch ((page * 1000 : Nat) : Int) 1000 with
    | none => l
    | some users => gatherPages fetch body n (page + 1) (users.foldl body l)

/-- The body of the inner loop of `GetAllPocers3`. -/
def pocerBody (state : StateDB) (l : MiningUsers) (u : Struct1) : MiningUsers :=
  let called := u.CanGetMaxReward
  let maxReward := called.1
  let u := called.2
  let hasGetReward := state.GetAllPocBalance u.UserAddr
  if maxReward ≤ hasGetReward then l
  else
    let l := l.Add u.UserAddr
    let l := if u.BindPoolAddr ≠ zeroAddress then l.SetBindAddr u.UserAddr u.BindPoolAddr else l
    let l := (l.SetMortageBalance u.UserAddr u.MortageBalance).1
    l.AddWeightCount u.UserAddr ((u.Records.length : Int) - 1)

/-- Go `GetAllPocers3`. -/
def GetAllPocers3 (state : StateDB) (caller : NUCCaller) : MiningUsers :=
  match caller.PocerCount with
  | none => []
  | some allCount =>
    gatherPages caller.AllPocers (pocerBody state) (pageCount (bigUint64 allCount)) 0 []

/-- The body of the inner loop of `GetAllPowers3`. -/
def powerBody (l : MiningUsers) (u : Struct2) : MiningUsers :=
  let l := l.Add u.UserAddr
  let l := l.AddWeightCount u.UserAddr ((u.Records.length : Int) - 1)
  if u.BindPoolAddr ≠ zeroAddress then l.SetBindAddr u.UserAddr u.BindPoolAddr else l

/-- Go `GetAllPowers3`. -/
def GetAllPowers3 (caller : NUCCaller) : MiningUsers :=
  match caller.PowerCount with
  | none => []
  | some allCount =>
    gatherPages caller.AllPowers powerBody (pageCount (bigUint64 allCount)) 0 []

/-- The body of the inner loop of `GetAllPoolers3`. -/
def poolerBody (l : MiningUsers) (u : Struct3) : MiningUsers :=
  l.Add u.UserAddr

/-- Go `GetAllPoolers3`. -/
def GetAllPoolers3 (caller : NUCCaller) : MiningUsers :=
  match caller.PoolerCount with
  | none => []
  | some allCount =>
    gatherPages caller.AllPoolers poolerBody (pageCount (bigUint64 allCount)) 0 []

/-- Go `GetRewardByType3`. `math.BigPow(2, int64(ratio))` is `big.Int.Exp`, which is `1`
for an exponent that is not positive. -/
def GetRewardByType3 (reward : Int) (header : Header) (caller : NUCCaller) : Int :=
  match caller.GetRewardRatio with
  | none => 0
  | some ratioBigData =>
    let ratio := bigUint64 ratioBigData
    let ratio := if ratio = 25 ∧ header.Number ≤ 10000 then 0 else ratio
    let ratioBig := bigExp2 (toInt64 ratio)
    let newReward := reward
    if ratio > 1 then reward / ratioBig else newReward

/-- The body of the two reward loops of `NUCReward4` (the PoC loop and the PoW loop
have the same text): the visited `user` receives its share, the pool it is bound to
receives 10 % of it when that pool is a key of `allPoolers`. The state of the loop is
the class map and `allPoolers`. -/
def rewardBody (everyUserReward : Int) (acc : MiningUsers × MiningUsers) (user : MiningUser) :
    MiningUsers × MiningUsers :=
  let users := acc.1
  let allPoolers := acc.2
  let r := everyUserReward * user.Weight
  if !user.HasBind then
    let r := r / 2
    (users.modify user.Address (fun u => { u with Reward := u.Reward + r }), allPoolers)
  else
    let poolR := r * 10
    let poolR := poolR / 100
    let r := r - poolR
    let allPoolers :=
      if allPoolers.Has user.PoolAddress then
        allPoolers.modify user.PoolAddress (fun p => { p with Reward := p.Reward + poolR })
      else allPoolers
    (users.modify user.Address (fun u => { u with Reward := u.Reward + r }), allPoolers)

/-- The body of the loops of `MergeCoinbasetxs3`; `add` is the addition to the field
of the class (`PocReward`, `PowReward` or `PoolReward`). -/
def mergeBody (add : Int → CoinbaseUserReward → CoinbaseUserReward)
    (coinbaseTxs : CoinbaseTxs) (user : MiningUser) : CoinbaseTxs :=
  let coinbaseTxs := if !coinbaseTxs.Has user.Address then coinbaseTxs.Add user.Address
                     else coinbaseTxs
  coinbaseTxs.modify user.Address (add user.Reward)

/-- Go `MergeCoinbasetxs3`; the range statements are sites 3, 4 and 5. -/
def MergeCoinbasetxs3 (ord : RangeOrder) (pocUsers powUsers poolUsers : MiningUsers) :
    CoinbaseTxs :=
  let coinbaseTxs : CoinbaseTxs := []
  let coinbaseTxs := (ord.users 3 pocUsers).foldl
    (mergeBody (fun r e => { e with PocReward := e.PocReward + r })) coinbaseTxs
  let coinbaseTxs := (ord.users 4 powUsers).foldl
    (mergeBody (fun r e => { e with PowReward := e.PowReward + r })) coinbaseTxs
  (ord.users 5 poolUsers).foldl
    (mergeBody (fun r e => { e with PoolReward := e.PoolReward + r })) coinbaseTxs

/-- The share of one class member, `everyPocUserReward` or `everyPowUserReward` of
`NUCReward4`: the class reward divided by the total weight when that is positive,
the class reward itself otherwise. -/
def everyUserReward (classReward allWeight : Int) : Int :=
  if allWeight > 0 then classReward / allWeight else classReward

/-- Go `NUCReward4`; the two reward loops are the range sites 1 and 2. -/
def NUCReward4 (ord : RangeOrder) (header : Header) (state : StateDB) (caller : NUCCaller) :
    CoinbaseTxs :=
  let allPoolers := GetAllPoolers3 caller
  let allPocers := GetAllPocers3 state caller
  let pocReward := GetRewardByType3 PocBlockReward header caller
  let allPocerWeight := allPocers.AllWeight ord
  let everyPocUserReward := everyUserReward pocReward allPocerWeight
  let afterPoc := (ord.users 1 allPocers).foldl (rewardBody everyPocUserReward)
    (allPocers, allPoolers)
  let allPocers := afterPoc.1
  let allPoolers := afterPoc.2
  let allPowers := GetAllPowers3 caller
  let powReward := GetRewardByType3 PowBlockReward header caller
  let allPowerWeight := allPowers.AllWeight ord
  let everyPowUserReward := everyUserReward powReward allPowerWeight
  let afterPow := (ord.users 2 allPowers).foldl (rewardBody everyPowUserReward)
    (allPowers, allPoolers)
  let allPowers := afterPow.1
  let allPoolers := afterPow.2
  MergeCoinbasetxs3 ord allPocers allPowers allPoolers

/-! ## Coinbase record codec (`consensus_reward.go`, lines 454-579) -/

/-- The octets of `n`, most significant first and without leading zeros; `fuel`
bounds the number of octets. -/
def natBytesAux : Nat → Nat → List Byte
  | 0, _ => []
  | fuel + 1, n => if n = 0 then [] else natBytesAux fuel (n / 256) ++ [Fin.ofNat (n % 256)]

/-- Go `big.Int.Bytes()`: the big-endian octets of the absolute value. -/
def bigBytes (x : Int) : List Byte :=
  natBytesAux x.natAbs x.natAbs

/-- Go `FormatUint64Bytes`. -/
def FormatUint64Bytes (reward : Int) : List Byte :=
  let l := (bigBytes reward).length
  let b := if l < 8 then List.replicate (8 - l) (0 : Byte) else []
  let b := b ++ bigBytes reward
  b.take 8

/-- Go `FormatUint64Bytes2`. -/
def FormatUint64Bytes2 (reward : Int) : List Byte :=
  let l := (bigBytes reward).length
  let b := if l ≠ 8 then List.replicate (8 - l) (0 : Byte) else []
  b ++ bigBytes reward

/-- Go `CoinbaseTxs.Encode`; `site` names the range statement of the call. -/
def CoinbaseTxs.Encode (ord : RangeOrder) (site : Nat) (this : CoinbaseTxs) : List Byte :=
  (ord.records site this).foldl
    (fun b e =>
      let b := b ++ e.1.bytes
      let b := b ++ FormatUint64Bytes e.2.PocReward
      let b := b ++ FormatUint64Bytes e.2.PowReward
      b ++ FormatUint64Bytes e.2.PoolReward)
    []

/-- Modelled from the spec: `common.BytesToAddress` (package `common` is outside the
sources), which reads the 20-octet `addr(20)` field of an entry: an octet string longer
than 20 is cropped from the left, a shorter one is padded with zeros on the left. -/
def BytesToAddress (b : List Byte) : Address :=
  ⟨List.replicate (20 - (b.drop (b.length - 20)).length) 0 ++ b.drop (b.length - 20), by
    simp only [List.length_append, List.length_replicate, List.length_drop]; omega⟩

/-- The loop of `DecodeFromBytes` on the octets `b[i:]` that remain, with `coTxs` the
records decoded so far. The loop ends when no octet remains. The result is `none`
when an entry is cut short, where the slice expressions of the source reach past
`len(b)`. `fuel` bounds the number of iterations. -/
def decodeEntries : Nat → List Byte → CoinbaseTxs → Option CoinbaseTxs
  | _, [], coTxs => some coTxs
  | 0, _ :: _, _ => none
  | fuel + 1, x :: xs, coTxs =>
    let b := x :: xs
    if b.length < 44 then none
    else
      let addr := BytesToAddress (b.take 20)
      let coTxs := coTxs.Add addr
      let coTxs := coTxs.modify addr
        (fun e => { e with PocReward := bigBE ((b.drop 20).take 8) })
      let coTxs := coTxs.modify addr
        (fun e => { e with PowReward := bigBE ((b.drop 28).take 8) })
      let coTxs := coTxs.modify addr
        (fun e => { e with PoolReward := bigBE ((b.drop 36).take 8) })
      decodeEntries fuel (b.drop 44) coTxs

/-- Go `DecodeFromBytes(coinbaseTxs)`; `FromHex` is `common.FromHex`, of a package outside
the sources. -/
def DecodeFromBytes (FromHex : String → List Byte) (coinbaseTxs : String) :
    Option CoinbaseTxs :=
  let b := FromHex coinbaseTxs
  decodeEntries b.length b []

/-! ## Finalization (`consensus.go`, lines 642-708) -/

/-- The two fields of a transaction that the reward engine reads. -/
structure Transaction where
  GasPrice : Int
  Gas : Nat
  deriving DecidableEq

/-- The body of the uncle loop of `accumulateRewards`; the state of the loop is the
state database and `fee`. -/
def uncleBody (blockReward : Int) (header : Header) (acc : StateDB × Int) (uncle : Header) :
    StateDB × Int :=
  let r := uncle.Number + 8
  let r := r - header.Number
  let r := r * blockReward
  let r := r / 8
  let state := acc.1.AddBalance uncle.Coinbase r
  let r := blockReward / 32
  (state, acc.2 + r)

/-- The body of the transaction loop of `accumulateRewards`. -/
def txBody (fee : Int) (tx : Transaction) : Int :=
  let fee := fee + tx.GasPrice * (tx.Gas : Int)
  let fee := fee * 70
  fee / 100

/-- The state database and `fee` after the uncle loop and the transaction loop of
`accumulateRewards`. -/
def feeLoops (state : StateDB) (header : Header) (uncles : List Header)
    (txs : List Transaction) : StateDB × Int :=
  let blockReward := FrontierBlockReward
  let afterUncles := uncles.foldl (uncleBody blockReward header) (state, 0)
  (afterUncles.1, txs.foldl txBody afterUncles.2)

/-- Go `teamFee` of `accumulateRewards`. -/
def teamFeeOf (fee : Int) : Int :=
  fee * 5 / 100

/-- Go `powFee` of `accumulateRewards` before it is divided among the addresses. -/
def powFeeOf (fee : Int) : Int :=
  fee * 95 / 100

/-- The body of the loop of `accumulateRewards` over the coinbase records; the state
of the loop is the state database and `allBlockReward`. -/
def payBody (powFee : Int) (acc : StateDB × Int) (e : Address × CoinbaseUserReward) :
    StateDB × Int :=
  let addr := e.1
  let user := e.2
  let powReward := if user.PowReward > 0 then user.PowReward else 0
  let poolReward := if user.PoolReward > 0 then user.PoolReward else 0
  let pocReward := if user.PocReward > 0 then user.PocReward else 0
  let state := if user.PocReward > 0 then acc.1.AddAllPocBalance addr pocReward else acc.1
  let reward := pocReward + powReward
  let reward := reward + poolReward
  let reward := reward + powFee
  let state := if reward > 0 then state.AddBalance addr reward else state
  (state, acc.2 + reward)

/-- The effects of `accumulateRewards`: the state database, the header, and the
`(key, value)` pair put into the mining-rewards database by `Save`. -/
structure Finalized where
  state : StateDB
  header : Header
  saved : List Byte × List Byte

/-- Go `accumulateRewards`. The loop over the records is range site 6, the `Encode` for
the header is site 7 and the `Encode` inside `Save` is site 8. -/
def accumulateRewards (ord : RangeOrder) (caller : NUCCaller) (state : StateDB)
    (header : Header) (uncles : List Header) (txs : List Transaction) : Finalized :=
  let blockReward := FrontierBlockReward
  let afterFees := feeLoops state header uncles txs
  let state := afterFees.1
  let fee := afterFees.2
  let teamFee := teamFeeOf fee
  let powFee := powFeeOf fee
  let ctxs := NUCReward4 ord header state caller
  let powFee := if ctxs.length > 0 then powFee / (ctxs.length : Int) else powFee
  let paid := (ord.records 6 ctxs).foldl (payBody powFee) (state, 0)
  let state := paid.1
  let allBlockReward := paid.2
  let state :=
    if allBlockReward < blockReward then
      state.AddBalance DefaultCoinbaseAddr (blockReward - allBlockReward)
    else state
  let state := if teamFee > 0 then state.AddBalance DefaultCoinbaseAddr teamFee else state
  let header := { header with CoinbaseTxs := ctxs.Encode ord 7 }
  { state := state, header := header, saved := (bigBytes header.Number, ctxs.Encode ord 8) }


/-! ## The fee recurrence as the specification states it -/

/-- The fee recurrence of the specification over the transactions of a block:
`f_0 = 0` and `f_i = floor((f_(i-1) + gas_price_i * gas_i) * 70 / 100)`, the `i`-th
transaction being `txs[i-1]`. -/
def feeRecurrence (txs : List Transaction) : Nat → Int
  | 0 => 0
  | i + 1 =>
    match txs.get? i with
    | some tx => Int.fdiv ((feeRecurrence txs i + tx.GasPrice * (tx.Gas : Int)) * 70) 100
    | none => feeRecurrence txs i

/-- A state database with zero balances, zero counters and an empty journal. -/
def emptyState : StateDB :=
  { balance := fun _ => 0, allPocBalance := fun _ => 0, journal := [] }

/-- A sealed header for `exampleEthash`: empty mix digest, difficulty target 2. -/
def exampleSealed : Header :=
  { exampleChild with NUCDifficulty := 2 }

/-! ## Auxiliary definitions for the codec proofs -/

/-- The 44 octets that `Encode` appends for one entry. -/
def entryBytes (e : Address × CoinbaseUserReward) : List Byte :=
  e.1.bytes ++ (FormatUint64Bytes e.2.PocReward ++
    (FormatUint64Bytes e.2.PowReward ++ FormatUint64Bytes e.2.PoolReward))

/-- The concatenation of the octets of the entries of a list. -/
def concatEntries : List (Address × CoinbaseUserReward) → List Byte
  | [] => []
  | e :: rest => entryBytes e ++ concatEntries rest

/-- One iteration of the loop of `DecodeFromBytes` on an entry with address `a` and
amounts `poc`, `pow`, `pool`. -/
def decodeStep (coTxs : CoinbaseTxs) (a : Address) (poc pow pool : Int) : CoinbaseTxs :=
  (((coTxs.Add a).modify a (fun e => { e with PocReward := poc })).modify a
    (fun e => { e with PowReward := pow })).modify a (fun e => { e with PoolReward := pool })

/-- The three amounts of a record that the 44-octet layout carries, with its address. -/
def wireFields (e : Address × CoinbaseUserReward) : Address × Int × Int × Int :=
  (e.1, e.2.PocReward, e.2.PowReward, e.2.PoolReward)

/-- A record as `DecodeFromBytes` rebuilds it: the three amounts of the layout and a
zero PoST amount. -/
def erasePost (e : Address × CoinbaseUserReward) : Address × CoinbaseUserReward :=
  (e.1, { PoolReward := e.2.PoolReward, PocReward := e.2.PocReward,
          PowReward := e.2.PowReward, PostReward := 0 })

/-- A record set whose three serialized amounts all fit the 8-octet fields. -/
def FitsWire (s : CoinbaseTxs) : Prop :=
  ∀ e ∈ s, (0 ≤ e.2.PocReward ∧ e.2.PocReward < 2 ^ 64) ∧
    (0 ≤ e.2.PowReward ∧ e.2.PowReward < 2 ^ 64) ∧
    (0 ≤ e.2.PoolReward ∧ e.2.PoolReward < 2 ^ 64)

/-- An instance of the hex codec around `DecodeFromBytes`: the digit of a nibble. -/
def hexDigit (n : Nat) : Char :=
  if n < 10 then Char.ofNat (48 + n) else Char.ofNat (87 + n)

/-- An instance of the hex codec: two lower-case digits per octet, no prefix
(`hex.EncodeToString`). -/
def hexString (b : List Byte) : String :=
  String.mk (b.foldr (fun x cs => hexDigit (x.val / 16) :: hexDigit (x.val % 16) :: cs) [])

/-- An instance of the hex codec: the value of a hex digit (`0` for any other
character). -/
def hexValue (c : Char) : Nat :=
  if 48 ≤ c.toNat ∧ c.toNat ≤ 57 then c.toNat - 48
  else if 97 ≤ c.toNat ∧ c.toNat ≤ 102 then c.toNat - 87
  else if 65 ≤ c.toNat ∧ c.toNat ≤ 70 then c.toNat - 55
  else 0

/-- An instance of the hex codec: the octets of a list of digit pairs. -/
def hexPairs : List Char → List Byte
  | c1 :: c2 :: rest => Fin.ofNat (hexValue c1 * 16 + hexValue c2) :: hexPairs rest
  | _ => []

/-- An instance of the hex codec: `common.FromHex`, which drops a leading `0x` or
`0X`, pads an odd number of digits with a leading `0`, and decodes the digit pairs. -/
def fromHexString (s : String) : List Byte :=
  let cs := s.data
  let cs :=
    match cs with
    | c1 :: c2 :: rest =>
      if c1.toNat = 48 ∧ (c2.toNat = 120 ∨ c2.toNat = 88) then rest else cs
    | _ => cs
  let cs := if cs.length % 2 = 1 then Char.ofNat 48 :: cs else cs
  hexPairs cs

/-- A record set with one address whose PoC amount is `2^64`. -/
def oversizeRecords : CoinbaseTxs :=
  [(Address.ofByte 1, { PoolReward := 0, PocReward := 2 ^ 64, PowReward := 0, PostReward := 0 })]

/-- A record set with two addresses and amounts that fit 8 octets. -/
def exampleRecords : CoinbaseTxs :=
  [(Address.ofByte 2, { PoolReward := 7, PocReward := 5000000000000000000, PowReward := 0,
                        PostReward := 0 }),
   (Address.ofByte 1, { PoolReward := 0, PocReward := 0, PowReward := 1000000000000000000,
                        PostReward := 3 })]

/-! ## Auxiliary definitions for the reward proofs -/

/-- The keys of a `MiningUsers` map. -/
def MiningUsers.keys (l : MiningUsers) : List Address :=
  l.map (fun u => u.Address)

/-- The tuples that the page loop of a gatherer visits, in order: the pages fetched
before the first error. -/
def scanPages {α : Type} (fetch : Int → Int → Option (List α)) : Nat → Nat → List α
  | 0, _ => []
  | n + 1, page =>
    match fetch ((page * 1000 : Nat) : Int) 1000 with
    | none => []
    | some users => users ++ scanPages fetch n (page + 1)

/-- The PoC members of the registry that `GetAllPocers3` visits. -/
def pocListing (caller : NUCCaller) : List Struct1 :=
  match caller.PocerCount with
  | none => []
  | some allCount => scanPages caller.AllPocers (pageCount (bigUint64 allCount)) 0

/-- A freshly gathered class map: distinct keys and no reward yet. -/
def Gathered (l : MiningUsers) : Prop :=
  l.keys.Nodup ∧ ∀ u ∈ l, u.Reward = 0

/-- What a class member keeps of the per-weight share `s`, in the words of the
specification (section 4.5, step 3): `s * weight` less the 10 % forwarded to its pool
when it has a binding, half of `s * weight` when it has none. -/
def memberShare (s : Int) (m : MiningUser) : Int :=
  if m.HasBind then s * m.Weight - Int.fdiv (s * m.Weight * 10) 100
  else Int.fdiv (s * m.Weight) 2

/-- The 10 % of `s * weight` that a bound member forwards to its pool address. -/
def forwarded (s : Int) (m : MiningUser) : Int :=
  if m.HasBind then Int.fdiv (s * m.Weight * 10) 100 else 0

/-- The sum of `f` over the users of a list that satisfy `p`. -/
def sumOver (l : List MiningUser) (p : MiningUser → Bool) (f : MiningUser → Int) : Int :=
  ((l.filter p).map f).sum

/-- A user with `r` added to its reward accumulator. -/
def addReward (r : Int) (u : MiningUser) : MiningUser :=
  { u with Reward := u.Reward + r }

/-- A class member after a reward loop of `NUCReward4` that visited `xs` with the
per-weight share `s`. -/
def creditOwn (xs : MiningUsers) (s : Int) (u : MiningUser) : MiningUser :=
  addReward (sumOver xs (fun x => decide (x.Address = u.Address)) (memberShare s)) u

/-- A pool operator after a reward loop of `NUCReward4` that visited `xs` with the
per-weight share `s`. -/
def creditPool (xs : MiningUsers) (s : Int) (p : MiningUser) : MiningUser :=
  addReward (sumOver xs (fun x => decide (x.PoolAddress = p.Address)) (forwarded s)) p

/-- The record that `CoinbaseTxs.Add` inserts. -/
def zeroRecord : CoinbaseUserReward :=
  { PoolReward := 0, PocReward := 0, PowReward := 0, PostReward := 0 }

/-- The effect of one iteration of a loop of `MergeCoinbasetxs3` on the record stored
under the address `a`. -/
def viewStep (add : Int → CoinbaseUserReward → CoinbaseUserReward) (a : Address)
    (v : Option CoinbaseUserReward) (u : MiningUser) : Option CoinbaseUserReward :=
  if u.Address = a then some (add u.Reward (v.getD zeroRecord)) else v

/-- The keys of a `CoinbaseTxs` map. -/
def CoinbaseTxs.keys (c : CoinbaseTxs) : List Address :=
  c.map Prod.fst

/-- The per-weight share of the PoC class in `NUCReward4` (`everyPocUserReward`). -/
def pocShareUnit (ord : RangeOrder) (header : Header) (state : StateDB) (caller : NUCCaller) :
    Int :=
  everyUserReward (GetRewardByType3 PocBlockReward header caller)
    ((GetAllPocers3 state caller).AllWeight ord)

/-- The per-weight share of the PoW class in `NUCReward4` (`everyPowUserReward`). -/
def powShareUnit (ord : RangeOrder) (header : Header) (caller : NUCCaller) : Int :=
  everyUserReward (GetRewardByType3 PowBlockReward header caller)
    ((GetAllPowers3 caller).AllWeight ord)

/-- A registry with one PoC member (address `0x..01`, one record, stake 100, bound to
the address `0x..09`), no PoW member, no pool operator and reward ratio 0. -/
def unregisteredPoolCaller : NUCCaller :=
  { PocerCount := some 1
    AllPocers := fun offset _ =>
      if offset = 0 then
        some [{ Records := [⟨0⟩], UserAddr := Address.ofByte 1, GetReward := 0, Index := 0,
                MortageBalance := 100, BindPoolAddr := Address.ofByte 9 }]
      else some []
    PowerCount := some 0
    AllPowers := fun _ _ => some []
    PoolerCount := some 0
    AllPoolers := fun _ _ => some []
    GetRewardRatio := some 0 }

/-! ## Auxiliary definitions for the finalization proofs -/

/-- The `reward` that the loop of `accumulateRewards` computes for one record, with
`powFee` the share of the fee pool per address. -/
def rewardOf (powFee : Int) (e : Address × CoinbaseUserReward) : Int :=
  max e.2.PocReward 0 + max e.2.PowReward 0 + max e.2.PoolReward 0 + powFee

/-- The reward that `accumulateRewards` credits to the coinbase of an uncle. -/
def uncleReward (header uncle : Header) : Int :=
  (uncle.Number + 8 - header.Number) * FrontierBlockReward / 8

/-- The share of the fee pool per address in `accumulateRewards`: `powFee` after the
division by the number of records. -/
def powFeeShare (fee : Int) (ctxs : CoinbaseTxs) : Int :=
  if ctxs.length > 0 then powFeeOf fee / (ctxs.length : Int) else powFeeOf fee

/-- The sum of the rewards of all records, `allBlockReward` of `accumulateRewards`. -/
def paidTotal (powFee : Int) (ctxs : CoinbaseTxs) : Int :=
  (ctxs.map (rewardOf powFee)).sum

/-- A registry without members: every count is zero. -/
def emptyCaller : NUCCaller :=
  { PocerCount := some 0
    AllPocers := fun _ _ => some []
    PowerCount := some 0
    AllPowers := fun _ _ => some []
    PoolerCount := some 0
    AllPoolers := fun _ _ => some []
    GetRewardRatio := some 0 }

/-- A registry with one PoC member (`0x..01`, stake 100) and one PoW member (`0x..02`),
each with one record and bound to the registered pool operator `0x..03`. -/
def pooledCaller : NUCCaller :=
  { PocerCount := some 1
    AllPocers := fun offset _ =>
      if offset = 0 then
        some [{ Records := [⟨0⟩], UserAddr := Address.ofByte 1, GetReward := 0, Index := 0,
                MortageBalance := 100, BindPoolAddr := Address.ofByte 3 }]
      else some []
    PowerCount := some 1
    AllPowers := fun offset _ =>
      if offset = 0 then
        some [{ CreateTime := 0, Index := 0, BuyBalance := 0, BindPoolAddr := Address.ofByte 3,
                PocAddrs := [], UserAddr := Address.ofByte 2, Records := [⟨0⟩] }]
      else some []
    PoolerCount := some 1
    AllPoolers := fun offset _ =>
      if offset = 0 then
        some [{ CreateTime := 0, Index := 0, BuyBalance := 0, PowAddrs := [], PocAddrs := [],
                UserAddr := Address.ofByte 3 }]
      else some []
    GetRewardRatio := some 0 }

/-- The PoC member of `zeroAddressCaller`: stake 100 under the all-zero address. -/
def zeroAddressMember : Struct1 :=
  { Records := [⟨0⟩], UserAddr := zeroAddress, GetReward := 0, Index := 0,
    MortageBalance := 100, BindPoolAddr := zeroAddress }

/-- A registry whose only PoC member has the all-zero address. -/
def zeroAddressCaller : NUCCaller :=
  { emptyCaller with
    PocerCount := some 1
    AllPocers := fun offset _ => if offset = 0 then some [zeroAddressMember] else some [] }

/-- The PoC member of `unregisteredPoolCaller` as the registry lists it. -/
def listedPocer : Struct1 :=
  { Records := [⟨0⟩], UserAddr := Address.ofByte 1, GetReward := 0, Index := 0,
    MortageBalance := 100, BindPoolAddr := Address.ofByte 9 }

/-- The PoC member of `unregisteredPoolCaller` as `GetAllPocers3` gathers it. -/
def gatheredPocer : MiningUser :=
  { HasBind := true, Address := Address.ofByte 1, PoolAddress := Address.ofByte 9, Weight := 1,
    Reward := 0, MortageBalance := 144, CanPocBalance := 144, Child := [] }

/-- A state in which the PoC counter of `0x..01` has reached 120. -/
def cappedState : StateDB :=
  { balance := fun _ => 0
    allPocBalance := fun a => if a = Address.ofByte 1 then 120 else 0
    journal := [] }

/-- A header with number 5. -/
def headerFive : Header := { zeroHeader with Number := 5 }

/-- An uncle with number 4 whose coinbase is `0x..07`. -/
def uncleFour : Header := { zeroHeader with Number := 4, Coinbase := Address.ofByte 7 }

/-! ## Auxiliary definitions for the serialization-order and gas-bound proofs -/

/-- A visiting order that differs from one range statement to the next: the statements
with an even number visit the records in the order opposite to insertion, the others
in the order of insertion. -/
def alternatingOrder : RangeOrder :=
  { users := fun _ l => l
    users_perm := fun _ l => List.Perm.refl l
    records := fun site l => if site % 2 = 0 then l.reverse else l
    records_perm := fun site l => by
      show List.Perm (if site % 2 = 0 then l.reverse else l) l
      split
      · exact List.reverse_perm l
      · exact List.Perm.refl l }

/-- A parent whose gas limit is the largest `uint64`, as an unverified genesis header
can carry. -/
def wideParent : Header :=
  { exampleParent with GasLimit := 2 ^ 64 - 1 }

/-- A child of `wideParent` with the minimum gas limit of 5000. -/
def lowGasChild : Header :=
  { exampleChild with GasLimit := 5000, GasUsed := 0 }

/-! ## Uncle verifier (`consensus.go`, lines 200-255) -/

/-- Go `types.Block`, as far as the engine reads it: the header and the uncle
headers. -/
structure Block where
  header : Header
  uncles : List Header
  deriving DecidableEq

/-- Go `consensus.ChainReader`, as far as the verifiers use it: `GetHeader` and
`GetBlock` are `none` where the Go method returns nil. The chain configuration of
`chain.Config()` is in `VerifyEnv`. -/
structure ChainReader where
  GetHeader : Hash → Nat → Option Header
  GetBlock : Hash → Nat → Option Block

/-- Go `maxUncles`. -/
def maxUncles : Nat := 2

/-- The loop of `VerifyUncles` that gathers the past uncles and the ancestors, with `i`
iterations left. `hashOf` is `Header.Hash()`, of a package outside the sources. The
set `uncles` is the list of the hashes added; the map `ancestors` is the list of its
assignments, latest first, so that the first match of a key is its current value. -/
def gatherAncestors (hashOf : Header → Hash) (chain : ChainReader) :
    Nat → Hash → Nat → List Hash × List (Hash × Header) → List Hash × List (Hash × Header)
  | 0, _, _, acc => acc
  | i + 1, parent, number, (uncles, ancestors) =>
    match chain.GetBlock parent number with
    | none => (uncles, ancestors)
    | some ancestor =>
      let ancestors := (hashOf ancestor.header, ancestor.header) :: ancestors
      let uncles := ancestor.uncles.foldl (fun s uncle => hashOf uncle :: s) uncles
      gatherAncestors hashOf chain i ancestor.header.ParentHash
        ((number + 2 ^ 64 - 1) % 2 ^ 64) (uncles, ancestors)

/-- The loop of `VerifyUncles` over the uncles of the block, with `uncles` the set of
hashes seen so far; `parentHash` is `block.ParentHash()`. -/
def uncleLoop (ethash : Ethash) (env : VerifyEnv) (hashOf : Header → Hash) (parentHash : Hash)
    (ancestors : List (Hash × Header)) : List Header → List Hash → Option Err
  | [], _ => none
  | uncle :: rest, uncles =>
    let hash := hashOf uncle
    if hash ∈ uncles then some Err.errDuplicateUncle
    else
      let uncles := hash :: uncles
      if (ancestors.lookup hash).isSome then some Err.errUncleIsAncestor
      else
        match ancestors.lookup uncle.ParentHash with
        | none => some Err.errDanglingUncle
        | some parent =>
          if uncle.ParentHash = parentHash then some Err.errDanglingUncle
          else
            match verifyHeader ethash env uncle parent true true with
            | some err => some err
            | none => uncleLoop ethash env hashOf parentHash ancestors rest uncles

/-- Go `ethash.VerifyUncles(chain, block)`. -/
def VerifyUncles (hashOf : Header → Hash) (ethash : Ethash) (env : VerifyEnv)
    (chain : ChainReader) (block : Block) : Option Err :=
  if ethash.PowMode = Mode.ModeFullFake then none
  else if block.uncles.length > maxUncles then some Err.errTooManyUncles
  else if block.uncles.length = 0 then none
  else
    let number := (bigUint64 block.header.Number + 2 ^ 64 - 1) % 2 ^ 64
    let parent := block.header.ParentHash
    let gathered := gatherAncestors hashOf chain 7 parent number ([], [])
    let ancestors := (hashOf block.header, block.header) :: gathered.2
    let uncles := hashOf block.header :: gathered.1
    uncleLoop ethash env hashOf block.header.ParentHash ancestors block.uncles uncles

/-! ## Auxiliary definitions for the uncle proofs -/

/-- The ancestors that the gathering loop of `VerifyUncles` retrieves, nearest first,
with `i` iterations left. -/
def collectedFrom (chain : ChainReader) : Nat → Hash → Nat → List Block
  | 0, _, _ => []
  | i + 1, parent, number =>
    match chain.GetBlock parent number with
    | none => []
    | some ancestor =>
      ancestor :: collectedFrom chain i ancestor.header.ParentHash
        ((number + 2 ^ 64 - 1) % 2 ^ 64)

/-- The up to 7 ancestors of `block` that `VerifyUncles` collects. -/
def collectedAncestors (chain : ChainReader) (block : Block) : List Block :=
  collectedFrom chain 7 block.header.ParentHash
    ((bigUint64 block.header.Number + 2 ^ 64 - 1) % 2 ^ 64)

/-- The set `uncles` of `VerifyUncles` when the loop over the uncles of the block
starts. -/
def seenUncles (hashOf : Header → Hash) (chain : ChainReader) (block : Block) : List Hash :=
  hashOf block.header ::
    (gatherAncestors hashOf chain 7 block.header.ParentHash
      ((bigUint64 block.header.Number + 2 ^ 64 - 1) % 2 ^ 64) ([], [])).1

/-- The map `ancestors` of `VerifyUncles` when the loop over the uncles of the block
starts. -/
def knownAncestors (hashOf : Header → Hash) (chain : ChainReader) (block : Block) :
    List (Hash × Header) :=
  (hashOf block.header, block.header) ::
    (gatherAncestors hashOf chain 7 block.header.ParentHash
      ((bigUint64 block.header.Number + 2 ^ 64 - 1) % 2 ^ 64) ([], [])).2

/-- The verdict of one iteration of the loop over the uncles: the error it returns,
or `none` when the uncle passes its four checks. -/
def uncleVerdict (ethash : Ethash) (env : VerifyEnv) (hashOf : Header → Hash)
    (parentHash : Hash) (ancestors : List (Hash × Header)) (uncles : List Hash)
    (uncle : Header) : Option Err :=
  uncleLoop ethash env hashOf parentHash ancestors [uncle] uncles

/-- A stand-in for the header hash in the examples: the number and the nonce. -/
def exampleHash (h : Header) : Hash :=
  [Fin.ofNat h.Number.toNat, Fin.ofNat h.Nonce]

/-- The block at number 1 of the example chain, a child of `exampleParent`. -/
def parentBlock : Block :=
  { header := { exampleChild with ParentHash := exampleHash exampleParent }, uncles := [] }

/-- A chain of two blocks: `exampleParent` at number 0 and `parentBlock` at number 1. -/
def exampleChain : ChainReader :=
  { GetHeader := fun _ _ => none
    GetBlock := fun h n =>
      if h = exampleHash parentBlock.header ∧ n = 1 then some parentBlock
      else if h = exampleHash exampleParent ∧ n = 0 then
        some { header := exampleParent, uncles := [] }
      else none }

/-- A block at number 2 on top of `parentBlock`, with the given uncles. -/
def blockTwo (uncles : List Header) : Block :=
  { header := { zeroHeader with Number := 2, ParentHash := exampleHash parentBlock.header },
    uncles := uncles }

/-- A sealed child of `exampleParent` that is not on the example chain: a valid
uncle of `blockTwo`. -/
def validUncle : Header :=
  { exampleSealed with ParentHash := exampleHash exampleParent, Nonce := 1 }

/-- A header whose parent is the parent of `blockTwo`. -/
def siblingUncle : Header :=
  { zeroHeader with Number := 2, ParentHash := exampleHash parentBlock.header, Nonce := 5 }

/-- A header whose parent is not on the example chain. -/
def strayUncle : Header :=
  { zeroHeader with Number := 1, ParentHash := [9, 9], Nonce := 9 }

/-- An engine in `ModeFullFake`. -/
def fullFakeEthash : Ethash := Ethash.own Mode.ModeFullFake 0 examplePow

/-! ## Auxiliary definitions for the member-weight proofs -/

/-- The PoW members of the registry that `GetAllPowers3` visits. -/
def powListing (caller : NUCCaller) : List Struct2 :=
  match caller.PowerCount with
  | none => []
  | some allCount => scanPages caller.AllPowers (pageCount (bigUint64 allCount)) 0

/-- The user that the body of the loop of `GetAllPocers3` stores for a member whose
address is new to the class map: `Add` sets the weight to 1 and `AddWeightCount` adds
`len(Records) - 1`. -/
def pocMember (u : Struct1) : MiningUser :=
  { HasBind := decide (u.BindPoolAddr ≠ zeroAddress)
    Address := u.UserAddr
    PoolAddress := if u.BindPoolAddr ≠ zeroAddress then u.BindPoolAddr else zeroAddress
    Weight := 1 + ((u.Records.length : Int) - 1)
    Reward := 0
    MortageBalance := u.MortageBalance * 120 / 100 * 120 / 100
    CanPocBalance := u.MortageBalance * 120 / 100 * 120 / 100
    Child := [] }

/-- The user that the body of the loop of `GetAllPowers3` stores for a member whose
address is new to the class map. -/
def powMember (u : Struct2) : MiningUser :=
  { HasBind := decide (u.BindPoolAddr ≠ zeroAddress)
    Address := u.UserAddr
    PoolAddress := if u.BindPoolAddr ≠ zeroAddress then u.BindPoolAddr else zeroAddress
    Weight := 1 + ((u.Records.length : Int) - 1)
    Reward := 0
    MortageBalance := 0
    CanPocBalance := 0
    Child := [] }

/-- A PoC member with a stake of 100 and no record. -/
def recordlessMember : Struct1 :=
  { Records := [], UserAddr := Address.ofByte 1, GetReward := 0, Index := 0,
    MortageBalance := 100, BindPoolAddr := zeroAddress }

/-- A registry whose only member is the PoC member `recordlessMember`. -/
def recordlessCaller : NUCCaller :=
  { emptyCaller with
    PocerCount := some 1
    AllPocers := fun offset _ => if offset = 0 then some [recordlessMember] else some [] }

/-! ## Auxiliary definitions for the fee-share proofs -/

/-- The amounts of the calls of `AddBalance` for the address `a` in a journal, oldest
first. -/
def balanceCalls (journal : List StateOp) (a : Address) : List Int :=
  journal.filterMap (fun op =>
    match op with
    | .addBalance b x => if b = a then some x else none
    | .addAllPocBalance _ _ => none)

/-- The journal entries of one iteration of the loop of `accumulateRewards` over the
coinbase records. -/
def payOps (powFee : Int) (e : Address × CoinbaseUserReward) : List StateOp :=
  (if e.2.PocReward > 0 then [StateOp.addAllPocBalance e.1 e.2.PocReward] else []) ++
    (if rewardOf powFee e > 0 then [StateOp.addBalance e.1 (rewardOf powFee e)] else [])

/-- The journal entries of the loop of `accumulateRewards` over the records `es`, in
the order of the visit. -/
def payJournal (powFee : Int) : CoinbaseTxs → List StateOp
  | [] => []
  | e :: rest => payOps powFee e ++ payJournal powFee rest

/-- The journal entries of the two credits to the default coinbase that end
`accumulateRewards`, with `paid` the value of `allBlockReward`. -/
def sinkOps (paid teamFee : Int) : List StateOp :=
  (if paid < FrontierBlockReward then
      [StateOp.addBalance DefaultCoinbaseAddr (FrontierBlockReward - paid)] else []) ++
    (if teamFee > 0 then [StateOp.addBalance DefaultCoinbaseAddr teamFee] else [])

/-- A registry with one PoC member (`0x..01`, one record, stake 100, no binding) and
one pool operator (`0x..03`) to which no member is bound. -/
def idlePoolCaller : NUCCaller :=
  { emptyCaller with
    PocerCount := some 1
    AllPocers := fun offset _ =>
      if offset = 0 then
        some [{ Records := [⟨0⟩], UserAddr := Address.ofByte 1, GetReward := 0, Index := 0,
                MortageBalance := 100, BindPoolAddr := zeroAddress }]
      else some []
    PoolerCount := some 1
    AllPoolers := fun offset _ =>
      if offset = 0 then
        some [{ CreateTime := 0, Index := 0, BuyBalance := 0, PowAddrs := [], PocAddrs := [],
                UserAddr := Address.ofByte 3 }]
      else some [] }

/-! ## Auxiliary definitions for the page-error proofs -/

/-- The tuples of the `k` pages `start, start + 1, ...` of a paged listing, in order. -/
def concatFrom {α : Type} (pages : Nat → List α) (start : Nat) : Nat → List α
  | 0 => []
  | k + 1 => pages start ++ concatFrom pages (start + 1) k

/-- A registry of 1001 PoC members, hence two pages: the first page holds the member
`listedPocer`, the call for the second page fails. -/
def brokenPageCaller : NUCCaller :=
  { emptyCaller with
    PocerCount := some 1001
    AllPocers := fun offset _ => if offset = 0 then some [listedPocer] else none }

/-! ## Single and batch header verification (`consensus.go`, lines 101-200), `Prepare`
(lines 573-583) -/

/-- Go `ethash.VerifyHeader(chain, header, seal)`; `hashOf` is `Header.Hash()`, of a
package outside the sources, and `checkSeal` is the argument `seal`. -/
def VerifyHeader (hashOf : Header → Hash) (ethash : Ethash) (env : VerifyEnv)
    (chain : ChainReader) (header : Header) (checkSeal : Bool) : Option Err :=
  if ethash.PowMode = Mode.ModeFullFake then none
  else
    let number := bigUint64 header.Number
    if (chain.GetHeader (hashOf header) number).isSome then none
    else
      match chain.GetHeader header.ParentHash ((number + 2 ^ 64 - 1) % 2 ^ 64) with
      | none => some Err.ErrUnknownAncestor
      | some parent => verifyHeader ethash env header parent false checkSeal

/-- Go `ethash.verifyHeaderWorker(chain, headers, seals, index)`. The outer `none` is
the run-time panic of an index out of range; `some r` is the returned `error` `r`. -/
def verifyHeaderWorker (hashOf : Header → Hash) (ethash : Ethash) (env : VerifyEnv)
    (chain : ChainReader) (headers : List Header) (seals : List Bool) (index : Nat) :
    Option (Option Err) :=
  match headers.get? index with
  | none => none
  | some header =>
    let parent : Option Header :=
      if index = 0 then
        chain.GetHeader header.ParentHash ((bigUint64 header.Number + 2 ^ 64 - 1) % 2 ^ 64)
      else
        match headers.get? (index - 1) with
        | none => none
        | some prev => if hashOf prev = header.ParentHash then some prev else none
    match parent with
    | none => some (some Err.ErrUnknownAncestor)
    | some parent =>
      if (chain.GetHeader (hashOf header) (bigUint64 header.Number)).isSome then some none
      else
        match seals.get? index with
        | none => none
        | some s => some (verifyHeader ethash env header parent false s)

/-- Go `ethash.Prepare(chain, header)`: the returned `error` and the header after the
call. -/
def Prepare (env : VerifyEnv) (chain : ChainReader) (header : Header) : Option Err × Header :=
  match chain.GetHeader header.ParentHash ((bigUint64 header.Number + 2 ^ 64 - 1) % 2 ^ 64) with
  | none => (some Err.ErrUnknownAncestor, header)
  | some parent =>
    let header := { header with
      Difficulty := CalcDifficulty env.params env.config header.Time parent }
    let header := { header with NUCDifficulty := header.Difficulty }
    (none, header)

/-- A chain that knows `exampleParent` at number 0 (its genesis, whose parent it does
not hold) and the header of `parentBlock` at number 1. -/
def headerChain : ChainReader :=
  { GetHeader := fun h n =>
      if h = exampleHash exampleParent ∧ n = 0 then some exampleParent
      else if h = exampleHash parentBlock.header ∧ n = 1 then some parentBlock.header
      else none
    GetBlock := fun _ _ => none }

/-- A header at number 1 on top of `exampleParent` that `headerChain` does not know. -/
def freshChild : Header :=
  { exampleSealed with ParentHash := exampleHash exampleParent, Nonce := 4 }

/-! ## The Homestead and Byzantium difficulty rules (`consensus.go`, lines 355-465) -/

/-- Go `makeDifficultyCalculator(bombDelay)(time, parent)`. `EmptyUncleHash` is
`types.EmptyUncleHash`, of a package outside the sources. -/
def makeDifficultyCalculator (P : Params) (EmptyUncleHash : Hash) (bombDelay : Int)
    (time : Nat) (parent : Header) : Int :=
  let bombDelayFromParent := bombDelay - 1
  let bigTime : Int := time
  let bigParentTime : Int := parent.Time
  let x := bigTime - bigParentTime
  let x := x / 9
  let x := if parent.UncleHash = EmptyUncleHash then 1 - x else 2 - x
  let x := if x < -99 then -99 else x
  let y := parent.Difficulty / P.DifficultyBoundDivisor
  let x := y * x
  let x := parent.Difficulty + x
  let x := if x < P.MinimumDifficulty then P.MinimumDifficulty else x
  let fakeBlockNumber : Int :=
    if parent.Number ≥ bombDelayFromParent then parent.Number - bombDelayFromParent else 0
  let periodCount := fakeBlockNumber / expDiffPeriod
  if periodCount > 1 then
    let y := periodCount - 2
    let y := bigExp2 y
    x + y
  else x

/-- Go `calcDifficultyConstantinople`. -/
def calcDifficultyConstantinople (P : Params) (EmptyUncleHash : Hash) (time : Nat)
    (parent : Header) : Int :=
  makeDifficultyCalculator P EmptyUncleHash 5000000 time parent

/-- Go `calcDifficultyByzantium`. -/
def calcDifficultyByzantium (P : Params) (EmptyUncleHash : Hash) (time : Nat)
    (parent : Header) : Int :=
  makeDifficultyCalculator P EmptyUncleHash 3000000 time parent

/-- Go `calcDifficultyHomestead(time, parent)`. -/
def calcDifficultyHomestead (P : Params) (time : Nat) (parent : Header) : Int :=
  let bigTime : Int := time
  let bigParentTime : Int := parent.Time
  let x := bigTime - bigParentTime
  let x := x / 10
  let x := 1 - x
  let x := if x < -99 then -99 else x
  let y := parent.Difficulty / P.DifficultyBoundDivisor
  let x := y * x
  let x := parent.Difficulty + x
  let x := if x < P.MinimumDifficulty then P.MinimumDifficulty else x
  let periodCount := parent.Number + 1
  let periodCount := periodCount / expDiffPeriod
  if periodCount > 1 then
    let y := periodCount - 2
    let y := bigExp2 y
    x + y
  else x

/-! ## The Homestead and Byzantium rules as the specification states them -/

/-- The difficulty expression of the specification (section 4.3) for the rules after
Frontier: `max(parent.diff + parent.diff / DIFF_BOUND_DIV * x, MIN_DIFF) + bomb` with
floor divisions, `x = max(u - (time - parent.time) / step, -99)`,
`fake_block = max(parent.number - bomb_delay + 1, 0)`, `period = fake_block / 100000`
and `bomb = 2^(period - 2)` if `period > 1`, else `0`. -/
def adjustedSpec (P : Params) (u step bombDelay : Int) (time : Nat) (parent : Header) : Int :=
  let x := max (u - Int.fdiv ((time : Int) - (parent.Time : Int)) step) (-99)
  let fakeBlock := max (parent.Number - bombDelay + 1) 0
  let period := Int.fdiv fakeBlock 100000
  let bomb : Int := if period > 1 then 2 ^ (period - 2).toNat else 0
  max (parent.Difficulty + Int.fdiv parent.Difficulty P.DifficultyBoundDivisor * x)
    P.MinimumDifficulty + bomb

/-- The chain configuration of `TestCalcDifficulty`: Homestead at block 1150000. -/
def testConfig : ChainConfig :=
  { HomesteadBlock := some 1150000, ByzantiumBlock := none, ConstantinopleBlock := none }

/-- A parent at number 1150000, time 1000, with difficulty 2048000. -/
def homesteadParent : Header :=
  { zeroHeader with Number := 1150000, Time := 1000, Difficulty := 2048000,
                    NUCDifficulty := 2048000 }

/-! ## Difficulty by miner account (`consensus/nuc_consensus.go`, lines 75-99) -/

/-- Modelled from the spec: `state.GetBalance(addr)`. -/
def StateDB.GetBalance (s : StateDB) (addr : Address) : Int :=
  s.balance addr

/-- Go `GetNUCDifficultyByMinerAccount(node_diff, minerAddr, chain, parentHash, number)`.
`StateAt` is the method `chain.StateAt(root)` of `consensus.ChainReader`, `none` when
it returns an error. -/
def GetNUCDifficultyByMinerAccount (node_diff : Int) (minerAddr : Address)
    (chain : ChainReader) (StateAt : Hash → Option StateDB) (parentHash : Hash)
    (number : Nat) : Int :=
  let currentDiff := node_diff
  match chain.GetBlock parentHash number with
  | none => currentDiff
  | some parentBlock =>
    match StateAt parentBlock.header.Root with
    | none => currentDiff
    | some stateDb =>
      let needReduceDiffBalance : Nat := 1000
      let oneNUC : Int := 1000000000000000000
      let balance := stateDb.GetBalance minerAddr
      let balance := balance / oneNUC
      if bigUint64 balance > needReduceDiffBalance then currentDiff / 2 else currentDiff

/-! ## Auxiliary definitions for the fake-mode and miner-account proofs -/

/-- Go `ethash.fakeFail`. -/
def Ethash.fakeFail : Ethash → Nat
  | .own _ f _ => f
  | .sharing _ f _ => f

/-- A state in which the miner `0x..07` holds 1000 NUC and one wei. -/
def minerState : StateDB :=
  { balance := fun a => if a = Address.ofByte 7 then 1000000000000000000001 else 0
    allPocBalance := fun _ => 0
    journal := [] }

/-- The user `0x..01`, weight 1 and no stake yet. -/
def soleUser : MiningUser :=
  { HasBind := false, Address := Address.ofByte 1, PoolAddress := zeroAddress, Weight := 1,
    Reward := 0, MortageBalance := 0, CanPocBalance := 0, Child := [] }

/-- A class map with the single user `soleUser`. -/
def singleUser : MiningUsers :=
  [soleUser]

/-! ## Auxiliary definitions for the NUC-difficulty proofs -/

/-- A proof-of-work oracle whose mix digest is empty and whose result is 32 octets
`0xff`, the largest 32-octet value. -/
def widePow : Pow :=
  { rlpKeccak := fun _ => []
    datasetGenerated := fun _ => false
    datasetSize := fun _ => 0
    hashimotoFull := fun _ _ _ => ([], List.replicate 32 255)
    hashimotoLight := fun _ _ _ _ => ([], List.replicate 32 255) }

/-- The example child with NUC difficulty 1. -/
def unitSealed : Header :=
  { exampleChild with NUCDifficulty := 1 }

/-- The parent of scenario 1 with the difficulty `2^22`, well above `MIN_DIFF`. -/
def heavyParent : Header :=
  { exampleParent with Difficulty := 4194304 }

/-! ## The 44-octet entries of an octet string, as the specification reads them -/

/-- One entry of the coinbase-record layout: the address and the PoC, PoW and Pool
amounts. -/
structure WireEntry where
  addr : Address
  poc : Int
  pow : Int
  pool : Int
  deriving DecidableEq

/-- The first `n` entries of the layout `addr(20) || poc(8) || pow(8) || pool(8)` in the
octet string `b`, in order. -/
def wireEntries : Nat → List Byte → List WireEntry
  | 0, _ => []
  | n + 1, b =>
    { addr := BytesToAddress (b.take 20)
      poc := bigBE ((b.drop 20).take 8)
      pow := bigBE ((b.drop 28).take 8)
      pool := bigBE ((b.drop 36).take 8) } :: wireEntries n (b.drop 44)

/-- The record of an entry: its three amounts and a PoST amount of 0. -/
def WireEntry.record (e : WireEntry) : CoinbaseUserReward :=
  { PoolReward := e.pool, PocReward := e.poc, PowReward := e.pow, PostReward := 0 }

/-- The record of the last entry of `es` with address `a`, if there is one. -/
def lastEntry (es : List WireEntry) (a : Address) : Option CoinbaseUserReward :=
  (es.reverse.find? (fun e => decide (e.addr = a))).map WireEntry.record

/-- Two entries for the address `0x01..01` (20 octets `01`): amounts 1, 2, 3 and then
amounts 4, 5, 6. -/
def twiceListed : List Byte :=
  List.replicate 20 1 ++ ([0, 0, 0, 0, 0, 0, 0, 1] ++ ([0, 0, 0, 0, 0, 0, 0, 2]
    ++ ([0, 0, 0, 0, 0, 0, 0, 3] ++ (List.replicate 20 1 ++ ([0, 0, 0, 0, 0, 0, 0, 4]
    ++ ([0, 0, 0, 0, 0, 0, 0, 5] ++ [0, 0, 0, 0, 0, 0, 0, 6]))))))

/-! ## Batch verification (`consensus.go`, lines 121-184)

`VerifyHeaders` starts `workers` worker goroutines and one coordinator goroutine and
returns at once. The goroutines are modelled as a transition system: a state holds the
variables of the coordinator, the shared slice `errors` and the contents of the
channels, and each step is one communication of the source. -/

/-- The state of a batch. `inIndex`, `out` and `checked` are the variables `in`, `out`
and `checked` of the coordinator; `errors` is the shared slice; `busy` lists the
indices that a worker has received from `inputs` and not yet sent on `done`; `done`
and `errorsOut` are the contents of the two buffered channels, oldest first
(`errorsOut` is the results channel, which nobody but the caller reads); `returned`
tells that the coordinator has returned; `abortClosed` that the caller has closed
`abort`. -/
structure HeaderBatch where
  inIndex : Nat
  out : Nat
  checked : Nat → Bool
  errors : Nat → Option Err
  busy : List Nat
  done : List Nat
  errorsOut : List (Option Err)
  returned : Bool
  abortClosed : Bool

/-- One communication of the goroutines of `VerifyHeaders`: the coordinator sends `in`
to a worker, a worker stores its verdict for `index` and sends `index` on `done`, the
coordinator receives from `done`, the coordinator receives from the closed `abort`;
and the caller closes `abort`. -/
inductive Action where
  | send
  | finish (index : Nat)
  | collect
  | abort
  | closeAbort
  deriving DecidableEq

/-- Whether an action is a step of a goroutine of `VerifyHeaders` (and not of the
caller). -/
def Action.isStep : Action → Bool
  | .closeAbort => false
  | _ => true

/-- Go `workers`: `runtime.GOMAXPROCS(0)`, lowered to `len(headers)`. -/
def workerCount (GOMAXPROCS n : Nat) : Nat :=
  if n < GOMAXPROCS then n else GOMAXPROCS

/-- The loop `for checked[index] = true; checked[out]; out++ { ... }` of the
coordinator after the initial statement, for `n` headers: each round sends
`errors[out]` on `errorsOut` and returns from the coordinator when `out` is `n - 1`.
`fuel` bounds the number of rounds. -/
def emitLoop (n : Nat) : Nat → HeaderBatch → HeaderBatch
  | 0, s => s
  | fuel + 1, s =>
    if s.checked s.out then
      let s := { s with errorsOut := s.errorsOut ++ [s.errors s.out] }
      if s.out = n - 1 then { s with returned := true }
      else emitLoop n fuel { s with out := s.out + 1 }
    else s

/-- The effect of an action on a batch of `n` headers with `workers` workers, `none`
when the action is not possible in the state. `verdict index` is the result of the
worker for `index`, `none` when the worker panics. A send needs `in < n` (afterwards
`inputs` is nil) and an idle worker; a finish needs room in `done`, whose capacity is
`workers`. -/
def batchStep (n workers : Nat) (verdict : Nat → Option (Option Err)) :
    Action → HeaderBatch → Option HeaderBatch
  | .send, s =>
    if s.returned = false ∧ s.inIndex < n ∧ s.busy.length < workers then
      some { s with busy := s.busy ++ [s.inIndex], inIndex := s.inIndex + 1 }
    else none
  | .finish index, s =>
    if index ∈ s.busy ∧ s.done.length < workers then
      match verdict index with
      | none => none
      | some r =>
        some { s with errors := fun j => if j = index then r else s.errors j
                      busy := s.busy.erase index
                      done := s.done ++ [index] }
    else none
  | .collect, s =>
    if s.returned then none
    else
      match s.done with
      | [] => none
      | index :: rest =>
        some (emitLoop n n
          { s with done := rest, checked := fun j => if j = index then true else s.checked j })
  | .abort, s =>
    if s.returned = false ∧ s.abortClosed = true then some { s with returned := true } else none
  | .closeAbort, s => some { s with abortClosed := true }

/-- The state after a sequence of actions, `none` when one of them is not possible. -/
def runSchedule (step : Action → HeaderBatch → Option HeaderBatch) :
    List Action → HeaderBatch → Option HeaderBatch
  | [], s => some s
  | a :: rest, s =>
    match step a s with
    | none => none
    | some t => runSchedule step rest t

/-- Go `ethash.VerifyHeaders(chain, headers, seals)`: the state in which the call
returns. A full-fake engine and an empty batch start no goroutine and leave
`len(headers)` nil results in the results channel. -/
def VerifyHeaders (ethash : Ethash) (headers : List Header) : HeaderBatch :=
  if ethash.PowMode = Mode.ModeFullFake ∨ headers.length = 0 then
    { inIndex := 0, out := 0, checked := fun _ => false, errors := fun _ => none, busy := [],
      done := [], errorsOut := List.replicate headers.length none, returned := true,
      abortClosed := false }
  else
    { inIndex := 0, out := 0, checked := fun _ => false, errors := fun _ => none, busy := [],
      done := [], errorsOut := [], returned := false, abortClosed := false }

/-- The verdict of a batch for the header at `index`: nil under a full-fake engine,
which verifies nothing, and the result of `verifyHeaderWorker` otherwise. -/
def batchVerdict (hashOf : Header → Hash) (ethash : Ethash) (env : VerifyEnv)
    (chain : ChainReader) (headers : List Header) (seals : List Bool) (index : Nat) :
    Option (Option Err) :=
  if ethash.PowMode = Mode.ModeFullFake then some none
  else verifyHeaderWorker hashOf ethash env chain headers seals index

/-- The steps of the goroutines that `VerifyHeaders` starts for `headers`. -/
def headersStep (hashOf : Header → Hash) (ethash : Ethash) (env : VerifyEnv)
    (chain : ChainReader) (headers : List Header) (seals : List Bool) (GOMAXPROCS : Nat) :
    Action → HeaderBatch → Option HeaderBatch :=
  batchStep headers.length (workerCount GOMAXPROCS headers.length)
    (batchVerdict hashOf ethash env chain headers seals)

/-- What holds in every state of a batch of `n` headers. -/
structure BatchInv (n : Nat) (verdict : Nat → Option (Option Err)) (s : HeaderBatch) :
    Prop where
  inIndex_le : s.inIndex ≤ n
  busy_lt : ∀ i ∈ s.busy, i < s.inIndex
  done_lt : ∀ i ∈ s.done, i < s.inIndex
  settled : ∀ i, (i ∈ s.done ∨ s.checked i = true) → verdict i = some (s.errors i)
  covered : ∀ i, i < s.inIndex → i ∈ s.busy ∨ i ∈ s.done ∨ s.checked i = true
  delivered : s.errorsOut.map some = (List.range s.errorsOut.length).map verdict
  running : s.returned = false →
    s.errorsOut.length = s.out ∧ s.out < n ∧ s.checked s.out = false ∧
      ∀ j, j < s.out → s.checked j = true
  stopped : s.returned = true →
    s.errorsOut.length ≤ n ∧ (s.abortClosed = false → s.errorsOut.length = n)

/-- The progress measure of a batch: it grows with every step of a goroutine. -/
def batchMeasure (s : HeaderBatch) : Int :=
  3 * (s.inIndex : Int) - 2 * (s.busy.length : Int) - (s.done.length : Int)
    + (if s.returned then 1 else 0)

/-- Three headers of which the first is the example child. -/
def threeHeaders : List Header :=
  [exampleChild, { exampleChild with Number := 2 }, { exampleChild with Number := 3 }]

/-- A schedule for three headers and two workers in which the worker for header 1
finishes before the worker for header 0. -/
def outOfOrder : List Action :=
  [Action.send, Action.send, Action.finish 1, Action.finish 0, Action.collect, Action.collect,
   Action.send, Action.finish 2, Action.collect]

/-! # Theorems -/

/-! ## Machine-integer lemmas -/

theorem toInt64_of_le (p : Nat) (hp : p ≤ 2 ^ 63 - 1) : toInt64 p = p := by
  unfold toInt64; split <;> omega

theorem gasDiff_exact (p h : Nat) (hp : p ≤ 2 ^ 63 - 1) (hh : h ≤ 2 ^ 63 - 1) :
    (toUint64 (if wrapInt64 (toInt64 p - toInt64 h) < 0
        then wrapInt64 (wrapInt64 (toInt64 p - toInt64 h) * -1)
        else wrapInt64 (toInt64 p - toInt64 h)) : Int) = |(p : Int) - (h : Int)| := by
  rw [toInt64_of_le p hp, toInt64_of_le h hh]
  have e3 : wrapInt64 ((p : Int) - h) = (p : Int) - h := by unfold wrapInt64; omega
  rw [e3]
  split
  · have e4 : wrapInt64 (((p : Int) - h) * -1) = (h : Int) - p := by unfold wrapInt64; omega
    rw [e4]; unfold toUint64
    rw [abs_of_neg (by omega)]; omega
  · unfold toUint64
    rw [abs_of_nonneg (by omega)]; omega

/-! ## Header verifier -/

theorem firstFailure_eq_none (l : List (Bool × Err)) :
    firstFailure l = none ↔ ∀ p ∈ l, p.1 = true := by
  induction l with
  | nil => simp [firstFailure]
  | cons p rest ih =>
    obtain ⟨ok, e⟩ := p
    cases ok <;> simp [firstFailure, ih]

theorem verifyHeader_eq_firstFailure (ethash : Ethash) (env : VerifyEnv)
    (header parent : Header) (uncle : Bool)
    (hparent : parent.GasLimit ≤ 2 ^ 63 - 1)
    (hnow : env.now + 60 < 2 ^ 64)
    (hdao : env.VerifyDAOHeaderExtraData env.config header = none)
    (hfork : env.VerifyForkHashes env.config header uncle = none) :
    verifyHeader ethash env header parent uncle false
      = firstFailure (headerChecksSpec env header parent uncle) := by
  have hmod : (env.now + allowedFutureBlockTime) % 2 ^ 64 = env.now + 60 := by
    unfold allowedFutureBlockTime; omega
  unfold verifyHeader headerChecksSpec
  simp only [firstFailure, hmod, decide_eq_true_eq, Bool.false_eq_true, ↓reduceIte, hdao, hfork]
  by_cases h1 : header.Extra.length > env.params.MaximumExtraDataSize
  · have h1n : ¬ header.Extra.length ≤ env.params.MaximumExtraDataSize := by omega
    rw [if_pos h1, if_neg h1n]
  have h1p : header.Extra.length ≤ env.params.MaximumExtraDataSize := by omega
  rw [if_neg h1, if_pos h1p]
  by_cases h2 : (!uncle && decide (header.Time > env.now + 60)) = true
  · have h2n : ¬ (uncle || decide (header.Time ≤ env.now + 60)) = true := by
      cases uncle <;> simp at h2 ⊢
      omega
    rw [if_pos h2, if_neg h2n]
  have h2p : (uncle || decide (header.Time ≤ env.now + 60)) = true := by
    cases uncle <;> simp at h2 ⊢
    omega
  rw [if_neg h2, if_pos h2p]
  by_cases h3 : header.Time ≤ parent.Time
  · have h3n : ¬ header.Time > parent.Time := by omega
    rw [if_pos h3, if_neg h3n]
  have h3p : header.Time > parent.Time := by omega
  rw [if_neg h3, if_pos h3p]
  by_cases h4 : CalcDifficulty env.params env.config header.Time parent ≠ header.Difficulty
  · have h4n : ¬ header.Difficulty = CalcDifficulty env.params env.config header.Time parent :=
      fun h => h4 h.symm
    rw [if_pos h4, if_neg h4n]
  have h4p : header.Difficulty = CalcDifficulty env.params env.config header.Time parent := by
    rw [ne_eq, not_not] at h4; exact h4.symm
  rw [if_neg h4, if_pos h4p]
  by_cases h5 : header.GasLimit > 0x7fffffffffffffff
  · have h5n : ¬ header.GasLimit ≤ 2 ^ 63 - 1 := by omega
    rw [if_pos h5, if_neg h5n]
    norm_num
  have h5p : header.GasLimit ≤ 2 ^ 63 - 1 := by omega
  rw [if_neg h5, if_pos h5p]
  by_cases h6 : header.GasUsed > header.GasLimit
  · have h6n : ¬ header.GasUsed ≤ header.GasLimit := by omega
    rw [if_pos h6, if_neg h6n]
  have h6p : header.GasUsed ≤ header.GasLimit := by omega
  rw [if_neg h6, if_pos h6p]
  have hgas := gasDiff_exact parent.GasLimit header.GasLimit hparent h5p
  by_cases h7 : |(parent.GasLimit : Int) - (header.GasLimit : Int)|
      < ((parent.GasLimit / env.params.GasLimitBoundDivisor : Nat) : Int)
  swap
  · rw [if_neg h7, if_pos]
    left
    rw [← hgas] at h7
    omega
  rw [if_pos h7]
  by_cases h8 : header.GasLimit ≥ env.params.MinGasLimit
  swap
  · rw [if_neg h8, if_pos]
    right; omega
  rw [if_pos h8, if_neg]
  swap
  · rw [← hgas] at h7
    omega
  by_cases h9 : header.Number - parent.Number = 1
  · rw [if_neg (not_not.mpr h9), if_pos h9]
  · rw [if_pos h9, if_neg h9]

/-- C1. With `check_seal = false`, the fork checks passing, `parent.gas_limit ≤ 2^63-1`
and a clock for which `now + 60` is a `uint64`: `verifyHeader` returns ok exactly
when the nine conditions of the specification hold, and in every case its verdict is
the error of the first failing check in the order of the specification. -/
theorem verifyHeader_spec (ethash : Ethash) (env : VerifyEnv) (header parent : Header)
    (uncle : Bool)
    (hparent : parent.GasLimit ≤ 2 ^ 63 - 1)
    (hnow : env.now + 60 < 2 ^ 64)
    (hdao : env.VerifyDAOHeaderExtraData env.config header = none)
    (hfork : env.VerifyForkHashes env.config header uncle = none) :
    (verifyHeader ethash env header parent uncle false = none ↔
      header.Extra.length ≤ env.params.MaximumExtraDataSize ∧
      (uncle = true ∨ header.Time ≤ env.now + 60) ∧
      header.Time > parent.Time ∧
      header.Difficulty = CalcDifficulty env.params env.config header.Time parent ∧
      header.GasLimit ≤ 2 ^ 63 - 1 ∧
      header.GasUsed ≤ header.GasLimit ∧
      |(parent.GasLimit : Int) - (header.GasLimit : Int)|
        < ((parent.GasLimit / env.params.GasLimitBoundDivisor : Nat) : Int) ∧
      header.GasLimit ≥ env.params.MinGasLimit ∧
      header.Number - parent.Number = 1) ∧
    verifyHeader ethash env header parent uncle false
      = firstFailure (headerChecksSpec env header parent uncle) := by
  have heq := verifyHeader_eq_firstFailure ethash env header parent uncle hparent hnow hdao hfork
  refine ⟨?_, heq⟩
  rw [heq, firstFailure_eq_none]
  simp only [headerChecksSpec, List.mem_cons, List.mem_singleton, forall_eq_or_imp, forall_eq,
    decide_eq_true_eq, Bool.or_eq_true, List.not_mem_nil, IsEmpty.forall_iff, implies_true,
    and_true]

/-- Witness of C1: the example child of the example parent is accepted. -/
theorem verifyHeader_spec_witness :
    exampleParent.GasLimit ≤ 2 ^ 63 - 1 ∧ exampleEnv.now + 60 < 2 ^ 64 ∧
    verifyHeader exampleEthash exampleEnv exampleChild exampleParent false false = none :=
  ⟨by decide, by decide,
    ((verifyHeader_spec exampleEthash exampleEnv exampleChild exampleParent false
      (by decide) (by decide) rfl rfl).1).2 (by decide)⟩


/-! ## Seal verifier -/

/-- C2. In normal mode (neither fake mode, no shared engine), with `(digest, result)`
the recomputed hashimoto output: `verifySeal` returns the non-positive-difficulty
error if `nuc_difficulty ≤ 0`, otherwise `InvalidMixDigest` if the digest differs from
`header.mix_digest`, otherwise `InvalidPoW` if `big_be(result)` exceeds
`floor(2^256 / nuc_difficulty)`, otherwise ok; hence for a positive `nuc_difficulty` it
accepts exactly when the digest matches and the result is within the target, and a
wrong digest is reported as `InvalidMixDigest` whatever the result is. -/
theorem verifySeal_normal_mode (mode : Mode) (fakeFail : Nat) (pow : Pow) (header : Header)
    (fulldag : Bool) (hmode : mode ≠ Mode.ModeFake ∧ mode ≠ Mode.ModeFullFake) :
    (verifySeal (Ethash.own mode fakeFail pow) header fulldag =
      if header.NUCDifficulty ≤ 0 then some Err.errInvalidDifficulty
      else if (sealValues mode pow header fulldag).1 ≠ header.MixDigest then
        some Err.errInvalidMixDigest
      else if bigBE (sealValues mode pow header fulldag).2
          > 2 ^ 256 / header.NUCDifficulty.toNat then some Err.errInvalidPoW
      else none) ∧
    (0 < header.NUCDifficulty →
      (verifySeal (Ethash.own mode fakeFail pow) header fulldag = none ↔
        (sealValues mode pow header fulldag).1 = header.MixDigest ∧
        bigBE (sealValues mode pow header fulldag).2
          ≤ 2 ^ 256 / header.NUCDifficulty.toNat)) ∧
    (0 < header.NUCDifficulty →
      (sealValues mode pow header fulldag).1 ≠ header.MixDigest →
      verifySeal (Ethash.own mode fakeFail pow) header fulldag
        = some Err.errInvalidMixDigest) := by
  have hfake : ¬ (mode = Mode.ModeFake ∨ mode = Mode.ModeFullFake) := by
    rintro (h | h)
    · exact hmode.1 h
    · exact hmode.2 h
  have htarget : 0 < header.NUCDifficulty →
      (((bigBE (sealValues mode pow header fulldag).2 : Nat) : Int)
          > two256 / header.NUCDifficulty ↔
        bigBE (sealValues mode pow header fulldag).2
          > 2 ^ 256 / header.NUCDifficulty.toNat) := by
    intro hpos
    obtain ⟨n, hn⟩ := Int.eq_ofNat_of_zero_le (le_of_lt hpos)
    rw [hn, Int.toNat_ofNat]
    have h2 : two256 = ((2 ^ 256 : Nat) : Int) := by unfold two256; norm_cast
    rw [h2, ← Int.ofNat_ediv]
    exact Int.ofNat_lt
  have hmain : verifySeal (Ethash.own mode fakeFail pow) header fulldag =
      if header.NUCDifficulty ≤ 0 then some Err.errInvalidDifficulty
      else if (sealValues mode pow header fulldag).1 ≠ header.MixDigest then
        some Err.errInvalidMixDigest
      else if bigBE (sealValues mode pow header fulldag).2
          > 2 ^ 256 / header.NUCDifficulty.toNat then some Err.errInvalidPoW
      else none := by
    unfold verifySeal
    rw [if_neg hfake]
    by_cases hd : header.NUCDifficulty ≤ 0
    · rw [if_pos hd, if_pos hd]
    rw [if_neg hd, if_neg hd]
    have hpos : 0 < header.NUCDifficulty := by omega
    by_cases hm : header.MixDigest ≠ (sealValues mode pow header fulldag).1
    · rw [if_pos hm, if_pos (fun h => hm h.symm)]
    have hm2 : ¬ (sealValues mode pow header fulldag).1 ≠ header.MixDigest := by
      rw [ne_eq, not_not] at hm ⊢; exact hm.symm
    rw [if_neg hm, if_neg hm2]
    by_cases ht : bigBE (sealValues mode pow header fulldag).2
        > 2 ^ 256 / header.NUCDifficulty.toNat
    · rw [if_pos ((htarget hpos).mpr ht), if_pos ht]
    · rw [if_neg (fun h => ht ((htarget hpos).mp h)), if_neg ht]
  refine ⟨hmain, ?_, ?_⟩
  · intro hpos
    rw [hmain, if_neg (by omega)]
    by_cases hm : (sealValues mode pow header fulldag).1 ≠ header.MixDigest
    · rw [if_pos hm]; simp [hm]
    rw [if_neg hm]
    rw [ne_eq, not_not] at hm
    by_cases ht : bigBE (sealValues mode pow header fulldag).2
        > 2 ^ 256 / header.NUCDifficulty.toNat
    · rw [if_pos ht]
      exact ⟨fun h => (by cases h), fun h => absurd h.2 (Nat.not_le.mpr ht)⟩
    · rw [if_neg ht]
      exact ⟨fun _ => ⟨hm, Nat.not_lt.mp ht⟩, fun _ => rfl⟩
  · intro hpos hm
    rw [hmain, if_neg (by omega), if_pos hm]

/-- Witness of C2: in normal mode the example engine accepts the example seal. -/
theorem verifySeal_normal_mode_witness :
    (Mode.ModeNormal ≠ Mode.ModeFake ∧ Mode.ModeNormal ≠ Mode.ModeFullFake) ∧
    (0 < exampleSealed.NUCDifficulty →
      (verifySeal (Ethash.own Mode.ModeNormal 0 examplePow) exampleSealed false = none ↔
        (sealValues Mode.ModeNormal examplePow exampleSealed false).1 = exampleSealed.MixDigest ∧
        bigBE (sealValues Mode.ModeNormal examplePow exampleSealed false).2
          ≤ 2 ^ 256 / exampleSealed.NUCDifficulty.toNat)) :=
  ⟨by decide,
    (verifySeal_normal_mode Mode.ModeNormal 0 examplePow exampleSealed false (by decide)).2.1⟩

/-! ## Difficulty calculator -/

/-- C3. For a positive `DIFF_BOUND_DIV`, every parent header and every time,
`calcDifficultyFrontier(time, parent)` is `d + bomb` of the specification:
`adjust = floor(parent.difficulty / DIFF_BOUND_DIV)`, `d` the parent difficulty plus
(block time below `DURATION_LIMIT`) or minus `adjust`, floored by `MIN_DIFF`,
`period = floor((parent.number + 1) / 100000)` and `bomb = 2^(period - 2)` if
`period > 1`, else `0`. -/
theorem calcDifficultyFrontier_eq_spec (P : Params) (time : Nat) (parent : Header)
    (hdiv : 0 < P.DifficultyBoundDivisor) :
    calcDifficultyFrontier P time parent = frontierSpec P time parent := by
  unfold calcDifficultyFrontier frontierSpec
  have e1 : Int.fdiv parent.Difficulty P.DifficultyBoundDivisor
      = parent.Difficulty / P.DifficultyBoundDivisor :=
    Int.fdiv_eq_ediv _ (le_of_lt hdiv)
  have e2 : Int.fdiv (parent.Number + 1) 100000 = (parent.Number + 1) / expDiffPeriod :=
    Int.fdiv_eq_ediv _ (by norm_num)
  simp only [e1, e2, bigExp2, BigMax]
  have hpow : (0 : Int) < 2 ^ ((parent.Number + 1) / expDiffPeriod - 2).toNat := by positivity
  split_ifs <;> omega

/-- Witness of C3: scenario 1 of the specification (parent at time 1000 with difficulty
131072, child at time 1005) gives 131136. -/
theorem calcDifficultyFrontier_eq_spec_witness :
    0 < stockParams.DifficultyBoundDivisor ∧
    calcDifficultyFrontier stockParams 1005 exampleParent
      = frontierSpec stockParams 1005 exampleParent :=
  ⟨by decide, calcDifficultyFrontier_eq_spec stockParams 1005 exampleParent (by decide)⟩

/-- C4. For every chain config, time and parent, `CalcDifficulty` is the Frontier rule,
whatever forks the config activates, and its value does not depend on
`parent.uncle_hash`. -/
theorem CalcDifficulty_is_frontier (P : Params) (config : ChainConfig) (time : Nat)
    (parent : Header) :
    CalcDifficulty P config time parent = calcDifficultyFrontier P time parent ∧
    (∀ config2 : ChainConfig,
      CalcDifficulty P config2 time parent = CalcDifficulty P config time parent) ∧
    (∀ uncleHash : Hash,
      CalcDifficulty P config time { parent with UncleHash := uncleHash }
        = CalcDifficulty P config time parent) :=
  ⟨rfl, fun _ => rfl, fun _ => rfl⟩


/-! ## Fee pool -/

theorem txs_foldl_take (txs : List Transaction) (k : Nat) (hk : k ≤ txs.length) :
    (txs.take k).foldl txBody 0 = feeRecurrence txs k := by
  induction k with
  | zero => simp [feeRecurrence]
  | succ k ih =>
    have hlt : k < txs.length := hk
    have hget : txs.get? k = some (txs.get ⟨k, hlt⟩) := List.get?_eq_get hlt
    have hget2 : txs[k]? = some (txs.get ⟨k, hlt⟩) := by
      rw [← List.get?_eq_getElem?]; exact hget
    rw [List.take_succ, List.foldl_append, ih (le_of_lt hlt), hget2]
    simp only [feeRecurrence, hget, Option.toList, List.foldl_cons, List.foldl_nil, txBody]
    exact (Int.fdiv_eq_ediv _ (by norm_num : (0 : Int) ≤ 100)).symm

/-- C5. For every list of transactions and no uncles, the fee accumulator of
`accumulateRewards` is `f_n` of the recurrence `f_0 = 0`,
`f_i = floor((f_(i-1) + gas_price_i * gas_i) * 70 / 100)`: the 70 % scaling is applied
to the running accumulator after each transaction (two transactions of fee 100 give
119, not 140); then `team_fee = floor(f_n * 5 / 100)` and
`pow_fee = floor(f_n * 95 / 100)`; the state is not touched by the fee loops. -/
theorem fee_is_compounding_recurrence (state : StateDB) (header : Header)
    (txs : List Transaction) :
    (feeLoops state header [] txs).2 = feeRecurrence txs txs.length ∧
    teamFeeOf (feeLoops state header [] txs).2
      = Int.fdiv (feeRecurrence txs txs.length * 5) 100 ∧
    powFeeOf (feeLoops state header [] txs).2
      = Int.fdiv (feeRecurrence txs txs.length * 95) 100 ∧
    (feeLoops state header [] txs).1 = state ∧
    (feeLoops state header [] [⟨1, 100⟩, ⟨1, 100⟩]).2 = 119 := by
  have h : (feeLoops state header [] txs).2 = feeRecurrence txs txs.length := by
    have := txs_foldl_take txs txs.length (le_refl _)
    rw [List.take_length] at this
    simpa [feeLoops] using this
  refine ⟨h, ?_, ?_, rfl, by norm_num [feeLoops, txBody]⟩
  · rw [h]; exact (Int.fdiv_eq_ediv _ (by norm_num : (0 : Int) ≤ 100)).symm
  · rw [h]; exact (Int.fdiv_eq_ediv _ (by norm_num : (0 : Int) ≤ 100)).symm


/-! ## Coinbase record codec -/

theorem bigBE_append_singleton (l : List Byte) (b : Byte) :
    bigBE (l ++ [b]) = bigBE l * 256 + b.val := by
  simp [bigBE, List.foldl_append]

theorem bigBE_natBytesAux (fuel n : Nat) (h : n ≤ fuel) : bigBE (natBytesAux fuel n) = n := by
  induction fuel generalizing n with
  | zero =>
    have h0 : n = 0 := by omega
    subst h0
    rfl
  | succ f ih =>
    unfold natBytesAux
    split
    · rename_i h0; subst h0; rfl
    · rw [bigBE_append_singleton, ih (n / 256) (by omega)]
      simp only [Fin.ofNat, Nat.succ_eq_add_one]
      omega

theorem natBytesAux_length_le (fuel n k : Nat) (h : n < 256 ^ k) :
    (natBytesAux fuel n).length ≤ k := by
  induction fuel generalizing n k with
  | zero => simp [natBytesAux]
  | succ f ih =>
    unfold natBytesAux
    split
    · simp
    · rename_i h0
      cases k with
      | zero => simp at h; omega
      | succ k =>
        have hdiv : n / 256 < 256 ^ k := by
          rw [Nat.div_lt_iff_lt_mul (by norm_num)]
          rw [pow_succ] at h
          exact h
        have := ih (n / 256) k hdiv
        simp only [List.length_append, List.length_singleton]
        omega

theorem bigBE_replicate_zero_append (k : Nat) (l : List Byte) :
    bigBE (List.replicate k (0 : Byte) ++ l) = bigBE l := by
  induction k with
  | zero => simp
  | succ k ih =>
    rw [List.replicate_succ, List.cons_append]
    unfold bigBE at ih ⊢
    rw [List.foldl_cons]
    simpa using ih

theorem FormatUint64Bytes_fits (r : Int) (h0 : 0 ≤ r) (h1 : r < 2 ^ 64) :
    (FormatUint64Bytes r).length = 8 ∧ (bigBE (FormatUint64Bytes r) : Int) = r := by
  obtain ⟨n, rfl⟩ := Int.eq_ofNat_of_zero_le h0
  have hn : n < 256 ^ 8 := by
    have : (n : Int) < 2 ^ 64 := h1
    norm_num at this ⊢
    exact_mod_cast this
  have hlen : (bigBytes (n : Int)).length ≤ 8 := by
    unfold bigBytes
    simp only [Int.natAbs_ofNat]
    exact natBytesAux_length_le n n 8 hn
  have hval : bigBE (bigBytes (n : Int)) = n := by
    unfold bigBytes
    simp only [Int.natAbs_ofNat]
    exact bigBE_natBytesAux n n (le_refl _)
  have hform : FormatUint64Bytes (n : Int)
      = List.replicate (8 - (bigBytes (n : Int)).length) (0 : Byte) ++ bigBytes (n : Int) := by
    unfold FormatUint64Bytes
    by_cases hl : (bigBytes (n : Int)).length < 8
    · simp only [hl, ↓reduceIte]
      apply List.take_of_length_le
      simp only [List.length_append, List.length_replicate]
      omega
    · have h8 : (bigBytes (n : Int)).length = 8 := by omega
      simp only []
      rw [if_neg hl, h8]
      simp only [List.nil_append, Nat.sub_self, List.replicate_zero]
      apply List.take_of_length_le
      omega
  constructor
  · rw [hform]
    simp only [List.length_append, List.length_replicate]
    omega
  · rw [hform, bigBE_replicate_zero_append, hval]

theorem BytesToAddress_bytes (a : Address) : BytesToAddress a.bytes = a := by
  obtain ⟨b, hb⟩ := a
  simp [BytesToAddress, hb]

theorem entry_slices (A B C D rest : List Byte) (hA : A.length = 20) (hB : B.length = 8)
    (hC : C.length = 8) (hD : D.length = 8) :
    (A ++ (B ++ (C ++ D)) ++ rest).take 20 = A ∧
    ((A ++ (B ++ (C ++ D)) ++ rest).drop 20).take 8 = B ∧
    ((A ++ (B ++ (C ++ D)) ++ rest).drop 28).take 8 = C ∧
    ((A ++ (B ++ (C ++ D)) ++ rest).drop 36).take 8 = D ∧
    (A ++ (B ++ (C ++ D)) ++ rest).drop 44 = rest := by
  have e0 : A ++ (B ++ (C ++ D)) ++ rest = A ++ (B ++ (C ++ (D ++ rest))) := by
    simp [List.append_assoc]
  have d20 : (A ++ (B ++ (C ++ (D ++ rest)))).drop 20 = B ++ (C ++ (D ++ rest)) :=
    List.drop_left' hA
  have d28 : (A ++ (B ++ (C ++ (D ++ rest)))).drop 28 = C ++ (D ++ rest) := by
    have : (28 : Nat) = 20 + 8 := rfl
    rw [this, ← List.drop_drop, d20]
    exact List.drop_left' hB
  have d36 : (A ++ (B ++ (C ++ (D ++ rest)))).drop 36 = D ++ rest := by
    have : (36 : Nat) = 28 + 8 := rfl
    rw [this, ← List.drop_drop, d28]
    exact List.drop_left' hC
  have d44 : (A ++ (B ++ (C ++ (D ++ rest)))).drop 44 = rest := by
    have : (44 : Nat) = 36 + 8 := rfl
    rw [this, ← List.drop_drop, d36]
    exact List.drop_left' hD
  rw [e0, d20, d28, d36, d44]
  exact ⟨List.take_left' hA, List.take_left' hB, List.take_left' hC, List.take_left' hD, rfl⟩


theorem encode_foldl_eq (l : List (Address × CoinbaseUserReward)) (init : List Byte) :
    l.foldl
      (fun b e =>
        let b := b ++ e.1.bytes
        let b := b ++ FormatUint64Bytes e.2.PocReward
        let b := b ++ FormatUint64Bytes e.2.PowReward
        b ++ FormatUint64Bytes e.2.PoolReward)
      init = init ++ concatEntries l := by
  induction l generalizing init with
  | nil => simp [concatEntries]
  | cons e rest ih =>
    rw [List.foldl_cons, ih]
    simp [concatEntries, entryBytes, List.append_assoc]

theorem Encode_eq_concat (ord : RangeOrder) (site : Nat) (s : CoinbaseTxs) :
    s.Encode ord site = concatEntries (ord.records site s) := by
  unfold CoinbaseTxs.Encode
  rw [encode_foldl_eq]
  simp

theorem FitsWire_cons (e : Address × CoinbaseUserReward) (es : CoinbaseTxs)
    (h : FitsWire (e :: es)) : FitsWire [e] ∧ FitsWire es := by
  constructor
  · intro x hx
    exact h x (by simp at hx; simp [hx])
  · intro x hx
    exact h x (List.mem_cons_of_mem _ hx)

theorem concatEntries_length (es : CoinbaseTxs) (h : FitsWire es) :
    (concatEntries es).length = 44 * es.length := by
  induction es with
  | nil => rfl
  | cons e rest ih =>
    have hh := FitsWire_cons e rest h
    have he := h e (List.mem_cons_self _ _)
    have h1 := (FormatUint64Bytes_fits _ he.1.1 he.1.2).1
    have h2 := (FormatUint64Bytes_fits _ he.2.1.1 he.2.1.2).1
    have h3 := (FormatUint64Bytes_fits _ he.2.2.1 he.2.2.2).1
    simp only [concatEntries, entryBytes, List.length_append, List.length_cons, ih hh.2,
      e.1.len, h1, h2, h3]
    omega

theorem CoinbaseTxs.modify_absent_key (acc : CoinbaseTxs) (a : Address)
    (f : CoinbaseUserReward → CoinbaseUserReward) (h : acc.Has a = false) :
    acc.modify a f = acc := by
  unfold CoinbaseTxs.modify
  unfold CoinbaseTxs.Has at h
  rw [List.any_eq_false] at h
  conv_rhs => rw [← List.map_id acc]
  apply List.map_congr_left
  intro e he
  have := h e he
  simp only [decide_eq_true_eq] at this
  simp [this]

theorem decodeStep_fresh (acc : CoinbaseTxs) (a : Address) (poc pow pool : Int)
    (h : acc.Has a = false) :
    decodeStep acc a poc pow pool
      = acc ++ [(a, { PoolReward := pool, PocReward := poc, PowReward := pow,
                      PostReward := 0 })] := by
  unfold decodeStep CoinbaseTxs.Add
  rw [h]
  simp only [Bool.false_eq_true, ↓reduceIte]
  have hm : ∀ (r : CoinbaseUserReward) (f : CoinbaseUserReward → CoinbaseUserReward),
      CoinbaseTxs.modify (acc ++ [(a, r)]) a f = acc ++ [(a, f r)] := by
    intro r f
    have h1 := CoinbaseTxs.modify_absent_key acc a f h
    unfold CoinbaseTxs.modify at h1 ⊢
    rw [List.map_append, h1]
    simp
  rw [hm, hm, hm]

theorem decodeEntries_concat (es : CoinbaseTxs) (acc : CoinbaseTxs) (fuel : Nat)
    (hfuel : es.length ≤ fuel) (hfit : FitsWire es) :
    decodeEntries fuel (concatEntries es) acc
      = some (es.foldl
          (fun c e => decodeStep c e.1 e.2.PocReward e.2.PowReward e.2.PoolReward) acc) := by
  induction es generalizing acc fuel with
  | nil => cases fuel <;> rfl
  | cons e rest ih =>
    have hh := FitsWire_cons e rest hfit
    have he := hfit e (List.mem_cons_self _ _)
    have h1 := FormatUint64Bytes_fits _ he.1.1 he.1.2
    have h2 := FormatUint64Bytes_fits _ he.2.1.1 he.2.1.2
    have h3 := FormatUint64Bytes_fits _ he.2.2.1 he.2.2.2
    have hsl := entry_slices e.1.bytes (FormatUint64Bytes e.2.PocReward)
      (FormatUint64Bytes e.2.PowReward) (FormatUint64Bytes e.2.PoolReward)
      (concatEntries rest) e.1.len h1.1 h2.1 h3.1
    have hlen : (concatEntries (e :: rest)).length = 44 * (rest.length + 1) := by
      rw [concatEntries_length _ hfit]; rfl
    cases fuel with
    | zero => simp at hfuel
    | succ f =>
      have hf : rest.length ≤ f := by simpa using hfuel
      obtain ⟨x, xs, hb⟩ : ∃ x xs, concatEntries (e :: rest) = x :: xs := by
        cases hc : concatEntries (e :: rest) with
        | nil => rw [hc] at hlen; simp at hlen
        | cons x xs => exact ⟨x, xs, rfl⟩
      rw [hb]
      unfold decodeEntries
      rw [← hb]
      have hnot : ¬ (concatEntries (e :: rest)).length < 44 := by omega
      simp only [hnot, ↓reduceIte]
      have hce : concatEntries (e :: rest)
          = e.1.bytes ++ (FormatUint64Bytes e.2.PocReward ++
              (FormatUint64Bytes e.2.PowReward ++ FormatUint64Bytes e.2.PoolReward))
            ++ concatEntries rest := rfl
      rw [hce, hsl.1, hsl.2.1, hsl.2.2.1, hsl.2.2.2.1, hsl.2.2.2.2, BytesToAddress_bytes,
        h1.2, h2.2, h3.2, ih _ f hf hh.2, List.foldl_cons]
      rfl

theorem decode_fold_fresh (es acc : CoinbaseTxs)
    (hnodup : ((acc ++ es).map Prod.fst).Nodup) :
    es.foldl (fun c e => decodeStep c e.1 e.2.PocReward e.2.PowReward e.2.PoolReward) acc
      = acc ++ es.map erasePost := by
  induction es generalizing acc with
  | nil => simp
  | cons e rest ih =>
    have hfresh : acc.Has e.1 = false := by
      unfold CoinbaseTxs.Has
      rw [List.any_eq_false]
      intro x hx
      simp only [decide_eq_true_eq]
      intro hxe
      rw [List.map_append, List.map_cons] at hnodup
      have hdis := (List.nodup_append.mp hnodup).2.2
      exact hdis (List.mem_map_of_mem Prod.fst hx) (by rw [hxe]; exact List.mem_cons_self _ _)
    rw [List.foldl_cons, decodeStep_fresh _ _ _ _ _ hfresh, ih]
    · simp [erasePost]
    · simpa [List.append_assoc] using hnodup


set_option maxRecDepth 100000

/-- C10, as stated, fails: the record set with one address and a PoC amount of
`2^64` (a non-negative amount) is encoded and decoded, through a hex codec that
returns the encoded octets unchanged, to a PoC amount of `2^56`. -/
theorem roundtrip_fails_above_uint64 :
    (∀ e ∈ oversizeRecords, 0 ≤ e.2.PocReward ∧ 0 ≤ e.2.PowReward ∧ 0 ≤ e.2.PoolReward) ∧
    fromHexString (hexString (oversizeRecords.Encode insertionOrder 7))
      = oversizeRecords.Encode insertionOrder 7 ∧
    oversizeRecords.get? (Address.ofByte 1)
      = some { PoolReward := 0, PocReward := 2 ^ 64, PowReward := 0, PostReward := 0 } ∧
    (DecodeFromBytes fromHexString (hexString (oversizeRecords.Encode insertionOrder 7))).map
        (fun d => d.get? (Address.ofByte 1))
      = some (some { PoolReward := 0, PocReward := 2 ^ 56, PowReward := 0, PostReward := 0 }) := by
  decide

/-- C10, amended. For every coinbase record set (distinct addresses) whose PoC, PoW
and Pool amounts are non-negative and below `2^64`, every visiting order of `Encode`
and every hex codec that gives the encoded octets back: `DecodeFromBytes` of the hex
of the encoding succeeds and returns a set with the same addresses and, for each
address, the same `PocReward`, `PowReward` and `PoolReward` (and `PostReward = 0`). -/
theorem decode_encode_roundtrip (ord : RangeOrder) (site : Nat) (s : CoinbaseTxs)
    (FromHex : String → List Byte) (hex : List Byte → String)
    (hkeys : (s.map Prod.fst).Nodup) (hfit : FitsWire s)
    (hhex : FromHex (hex (s.Encode ord site)) = s.Encode ord site) :
    ∃ d, DecodeFromBytes FromHex (hex (s.Encode ord site)) = some d ∧
      (d.map Prod.fst).Perm (s.map Prod.fst) ∧
      (d.map wireFields).Perm (s.map wireFields) ∧
      (∀ e ∈ d, e.2.PostReward = 0) := by
  have hperm := ord.records_perm site s
  have hfit2 : FitsWire (ord.records site s) := fun e he => hfit e (hperm.mem_iff.mp he)
  have hkeys2 : ((ord.records site s).map Prod.fst).Nodup :=
    (hperm.map Prod.fst).nodup_iff.mpr hkeys
  refine ⟨(ord.records site s).map erasePost, ?_, ?_, ?_, ?_⟩
  · unfold DecodeFromBytes
    simp only [hhex]
    rw [Encode_eq_concat, decodeEntries_concat _ _ _ ?_ hfit2, decode_fold_fresh _ _ ?_]
    · simp
    · simpa using hkeys2
    · rw [concatEntries_length _ hfit2]; omega
  · have : ((ord.records site s).map erasePost).map Prod.fst
        = (ord.records site s).map Prod.fst := by
      rw [List.map_map]; rfl
    rw [this]
    exact hperm.map Prod.fst
  · have : ((ord.records site s).map erasePost).map wireFields
        = (ord.records site s).map wireFields := by
      rw [List.map_map]; rfl
    rw [this]
    exact hperm.map wireFields
  · intro e he
    obtain ⟨x, _, rfl⟩ := List.mem_map.mp he
    rfl

/-- Witness of the amended C10: the example record set, visited in reverse order. -/
theorem decode_encode_roundtrip_witness :
    (exampleRecords.map Prod.fst).Nodup ∧ FitsWire exampleRecords ∧
    fromHexString (hexString (exampleRecords.Encode reverseOrder 7))
      = exampleRecords.Encode reverseOrder 7 ∧
    ∃ d, DecodeFromBytes fromHexString (hexString (exampleRecords.Encode reverseOrder 7))
        = some d ∧
      (d.map Prod.fst).Perm (exampleRecords.map Prod.fst) ∧
      (d.map wireFields).Perm (exampleRecords.map wireFields) ∧
      (∀ e ∈ d, e.2.PostReward = 0) :=
  ⟨by decide, by unfold FitsWire; decide, by decide,
    decode_encode_roundtrip reverseOrder 7 exampleRecords fromHexString hexString
      (by decide) (by unfold FitsWire; decide) (by decide)⟩


/-! ## Mining users and gatherers -/

theorem MiningUsers.Has_iff (l : MiningUsers) (a : Address) :
    l.Has a = true ↔ a ∈ l.keys := by
  unfold MiningUsers.Has MiningUsers.keys
  simp only [List.any_eq_true, decide_eq_true_eq, List.mem_map]

theorem MiningUsers.Has_eq_false_iff (l : MiningUsers) (a : Address) :
    l.Has a = false ↔ a ∉ l.keys := by
  rw [← MiningUsers.Has_iff]; simp

theorem MiningUsers.modify_keys (l : MiningUsers) (a : Address) (f : MiningUser → MiningUser)
    (hf : ∀ u, (f u).Address = u.Address) : (l.modify a f).keys = l.keys := by
  unfold MiningUsers.modify MiningUsers.keys
  rw [List.map_map]
  apply List.map_congr_left
  intro u _
  simp only [Function.comp]
  split
  · exact hf u
  · rfl

theorem MiningUsers.modify_rewards (l : MiningUsers) (a : Address) (f : MiningUser → MiningUser)
    (hf : ∀ u, (f u).Reward = u.Reward) (h0 : ∀ u ∈ l, u.Reward = 0) :
    ∀ u ∈ l.modify a f, u.Reward = 0 := by
  intro u hu
  unfold MiningUsers.modify at hu
  obtain ⟨v, hv, rfl⟩ := List.mem_map.mp hu
  split
  · rw [hf]; exact h0 v hv
  · exact h0 v hv

theorem MiningUsers.Add_keys (l : MiningUsers) (a : Address) :
    (l.Add a).keys = if a ∈ l.keys ∨ a = zeroAddress then l.keys else l.keys ++ [a] := by
  unfold MiningUsers.Add
  by_cases h : l.Has a = true
  · rw [if_pos h, if_pos (Or.inl ((MiningUsers.Has_iff l a).mp h))]
  · rw [if_neg h]
    have hn : a ∉ l.keys := fun hm => h ((MiningUsers.Has_iff l a).mpr hm)
    by_cases hz : a = zeroAddress
    · rw [if_pos hz, if_pos (Or.inr hz)]
    · rw [if_neg hz, if_neg (by rintro (h1 | h1); exact hn h1; exact hz h1)]
      simp [MiningUsers.keys]

theorem Gathered.Add (l : MiningUsers) (a : Address) (h : Gathered l) : Gathered (l.Add a) := by
  constructor
  · rw [MiningUsers.Add_keys]
    split
    · exact h.1
    · rename_i hn
      rw [not_or] at hn
      rw [List.nodup_append]
      refine ⟨h.1, List.nodup_singleton a, ?_⟩
      intro x hx hx2
      simp only [List.mem_singleton] at hx2
      subst hx2
      exact hn.1 hx
  · intro u hu
    unfold MiningUsers.Add at hu
    split at hu
    · exact h.2 u hu
    · split at hu
      · exact h.2 u hu
      · rcases List.mem_append.mp hu with h1 | h1
        · exact h.2 u h1
        · simp only [List.mem_singleton] at h1
          subst h1; rfl

theorem Gathered.modify (l : MiningUsers) (a : Address) (f : MiningUser → MiningUser)
    (hk : ∀ u, (f u).Address = u.Address) (hr : ∀ u, (f u).Reward = u.Reward)
    (h : Gathered l) : Gathered (l.modify a f) :=
  ⟨by rw [MiningUsers.modify_keys l a f hk]; exact h.1,
    MiningUsers.modify_rewards l a f hr h.2⟩

theorem Gathered.AddWeightCount (l : MiningUsers) (a : Address) (c : Int) (h : Gathered l) :
    Gathered (l.AddWeightCount a c) := by
  unfold MiningUsers.AddWeightCount
  split
  · exact h
  · exact Gathered.modify l a _ (fun _ => rfl) (fun _ => rfl) h

theorem Gathered.SetBindAddr (l : MiningUsers) (a p : Address) (h : Gathered l) :
    Gathered (l.SetBindAddr a p) := by
  unfold MiningUsers.SetBindAddr
  split
  · exact h
  · exact Gathered.modify l a _ (fun _ => rfl) (fun _ => rfl) h

theorem Gathered.SetMortageBalance (l : MiningUsers) (a : Address) (b : Int) (h : Gathered l) :
    Gathered (l.SetMortageBalance a b).1 := by
  unfold MiningUsers.SetMortageBalance
  split
  · exact h
  · exact Gathered.modify l a _ (fun _ => rfl) (fun _ => rfl) h

theorem MiningUsers.AddWeightCount_keys (l : MiningUsers) (a : Address) (c : Int) :
    (l.AddWeightCount a c).keys = l.keys := by
  unfold MiningUsers.AddWeightCount
  split
  · rfl
  · exact MiningUsers.modify_keys l a _ (fun _ => rfl)

theorem MiningUsers.SetBindAddr_keys (l : MiningUsers) (a p : Address) :
    (l.SetBindAddr a p).keys = l.keys := by
  unfold MiningUsers.SetBindAddr
  split
  · rfl
  · exact MiningUsers.modify_keys l a _ (fun _ => rfl)

theorem MiningUsers.SetMortageBalance_keys (l : MiningUsers) (a : Address) (b : Int) :
    (l.SetMortageBalance a b).1.keys = l.keys := by
  unfold MiningUsers.SetMortageBalance
  split
  · rfl
  · exact MiningUsers.modify_keys l a _ (fun _ => rfl)

theorem gatherPages_eq_foldl {α : Type} (fetch : Int → Int → Option (List α))
    (body : MiningUsers → α → MiningUsers) (n page : Nat) (l : MiningUsers) :
    gatherPages fetch body n page l = (scanPages fetch n page).foldl body l := by
  induction n generalizing page l with
  | zero => rfl
  | succ n ih =>
    unfold gatherPages scanPages
    cases fetch ((page * 1000 : Nat) : Int) 1000 with
    | none => rfl
    | some users => simp only [List.foldl_append]; exact ih _ _

theorem foldl_invariant {α β : Type} (P : β → Prop) (body : β → α → β)
    (hbody : ∀ l u, P l → P (body l u)) (us : List α) (l : β) (h : P l) :
    P (us.foldl body l) := by
  induction us generalizing l with
  | nil => exact h
  | cons u rest ih => exact ih _ (hbody l u h)

theorem pocerBody_keys (state : StateDB) (l : MiningUsers) (u : Struct1) :
    (pocerBody state l u).keys =
      if u.MortageBalance * 120 / 100 ≤ state.allPocBalance u.UserAddr then l.keys
      else (l.Add u.UserAddr).keys := by
  unfold pocerBody Struct1.CanGetMaxReward StateDB.GetAllPocBalance
  simp only []
  split
  · rfl
  · rw [MiningUsers.AddWeightCount_keys, MiningUsers.SetMortageBalance_keys]
    split
    · rw [MiningUsers.SetBindAddr_keys]
    · rfl

theorem Gathered.pocerBody (state : StateDB) (l : MiningUsers) (u : Struct1) (h : Gathered l) :
    Gathered (pocerBody state l u) := by
  unfold Nuc.pocerBody
  simp only []
  split
  · exact h
  · apply Gathered.AddWeightCount
    apply Gathered.SetMortageBalance
    split
    · exact Gathered.SetBindAddr _ _ _ (Gathered.Add _ _ h)
    · exact Gathered.Add _ _ h

theorem Gathered.powerBody (l : MiningUsers) (u : Struct2) (h : Gathered l) :
    Gathered (powerBody l u) := by
  unfold Nuc.powerBody
  simp only []
  split
  · exact Gathered.SetBindAddr _ _ _ (Gathered.AddWeightCount _ _ _ (Gathered.Add _ _ h))
  · exact Gathered.AddWeightCount _ _ _ (Gathered.Add _ _ h)

theorem Gathered.poolerBody (l : MiningUsers) (u : Struct3) (h : Gathered l) :
    Gathered (poolerBody l u) :=
  Gathered.Add _ _ h

theorem Gathered.nil : Gathered [] :=
  ⟨List.nodup_nil, fun _ hu => by cases hu⟩

theorem GetAllPocers3_eq_foldl (state : StateDB) (caller : NUCCaller) :
    GetAllPocers3 state caller = (pocListing caller).foldl (pocerBody state) [] := by
  unfold GetAllPocers3 pocListing
  cases caller.PocerCount with
  | none => rfl
  | some c => exact gatherPages_eq_foldl _ _ _ _ _

theorem Gathered.GetAllPocers3 (state : StateDB) (caller : NUCCaller) :
    Gathered (GetAllPocers3 state caller) := by
  rw [GetAllPocers3_eq_foldl]
  exact foldl_invariant Gathered _ (fun l u h => Gathered.pocerBody state l u h) _ _ Gathered.nil

theorem Gathered.GetAllPowers3 (caller : NUCCaller) : Gathered (GetAllPowers3 caller) := by
  unfold Nuc.GetAllPowers3
  cases caller.PowerCount with
  | none => exact Gathered.nil
  | some c =>
    show Gathered (gatherPages _ _ _ _ _)
    rw [gatherPages_eq_foldl]
    exact foldl_invariant Gathered _ (fun l u h => Gathered.powerBody l u h) _ _ Gathered.nil

theorem Gathered.GetAllPoolers3 (caller : NUCCaller) : Gathered (GetAllPoolers3 caller) := by
  unfold Nuc.GetAllPoolers3
  cases caller.PoolerCount with
  | none => exact Gathered.nil
  | some c =>
    show Gathered (gatherPages _ _ _ _ _)
    rw [gatherPages_eq_foldl]
    exact foldl_invariant Gathered _ (fun l u h => Gathered.poolerBody l u h) _ _ Gathered.nil

theorem pocers_keys_iff (state : StateDB) (us : List Struct1) (l : MiningUsers) (a : Address) :
    a ∈ (us.foldl (pocerBody state) l).keys ↔
      a ∈ l.keys ∨ ∃ u ∈ us, u.UserAddr = a ∧ a ≠ zeroAddress ∧
        state.allPocBalance a < u.MortageBalance * 120 / 100 := by
  induction us generalizing l with
  | nil => simp
  | cons u rest ih =>
    rw [List.foldl_cons, ih, pocerBody_keys]
    by_cases hcap : u.MortageBalance * 120 / 100 ≤ state.allPocBalance u.UserAddr
    · rw [if_pos hcap]
      constructor
      · rintro (h | ⟨v, hv, h1, h2, h3⟩)
        · exact Or.inl h
        · exact Or.inr ⟨v, List.mem_cons_of_mem _ hv, h1, h2, h3⟩
      · rintro (h | ⟨v, hv, h1, h2, h3⟩)
        · exact Or.inl h
        · rcases List.mem_cons.mp hv with rfl | hv
          · subst h1; omega
          · exact Or.inr ⟨v, hv, h1, h2, h3⟩
    · rw [if_neg hcap, MiningUsers.Add_keys]
      constructor
      · rintro (h | ⟨v, hv, h1, h2, h3⟩)
        · split at h
          · exact Or.inl h
          · rename_i hn
            rw [not_or] at hn
            rcases List.mem_append.mp h with h | h
            · exact Or.inl h
            · simp only [List.mem_singleton] at h
              subst h
              exact Or.inr ⟨u, List.mem_cons_self _ _, rfl, hn.2, by omega⟩
        · exact Or.inr ⟨v, List.mem_cons_of_mem _ hv, h1, h2, h3⟩
      · rintro (h | ⟨v, hv, h1, h2, h3⟩)
        · left
          split
          · exact h
          · exact List.mem_append_left _ h
        · rcases List.mem_cons.mp hv with rfl | hv
          · subst h1
            left
            split
            · rename_i hc
              rcases hc with hc | hc
              · exact hc
              · exact absurd hc h2
            · exact List.mem_append_right _ (List.mem_singleton_self _)
          · exact Or.inr ⟨v, hv, h1, h2, h3⟩


/-! ## The reward loops of `NUCReward4` -/

theorem sumOver_cons (x : MiningUser) (xs : List MiningUser) (p : MiningUser → Bool)
    (f : MiningUser → Int) :
    sumOver (x :: xs) p f = (if p x = true then f x else 0) + sumOver xs p f := by
  unfold sumOver
  by_cases h : p x = true
  · simp [List.filter_cons, h]
  · simp [List.filter_cons, h]

theorem sumOver_perm (xs l : List MiningUser) (h : xs.Perm l) (p : MiningUser → Bool)
    (f : MiningUser → Int) : sumOver xs p f = sumOver l p f := by
  unfold sumOver
  exact ((h.filter p).map f).sum_eq

theorem filter_key_eq_singleton (l : MiningUsers) (m : MiningUser) (hm : m ∈ l)
    (hnodup : l.keys.Nodup) :
    l.filter (fun x => decide (x.Address = m.Address)) = [m] := by
  induction l with
  | nil => cases hm
  | cons x rest ih =>
    unfold MiningUsers.keys at hnodup
    rw [List.map_cons, List.nodup_cons] at hnodup
    rcases List.mem_cons.mp hm with rfl | hm
    · rw [List.filter_cons]
      simp only [decide_True, ↓reduceIte, List.cons.injEq, true_and]
      rw [List.filter_eq_nil_iff]
      intro y hy
      simp only [decide_eq_true_eq]
      intro hye
      exact hnodup.1 (by rw [← hye]; exact List.mem_map_of_mem _ hy)
    · have hne : x.Address ≠ m.Address := by
        intro hxe
        exact hnodup.1 (by rw [hxe]; exact List.mem_map_of_mem _ hm)
      rw [List.filter_cons]
      simp only [hne, decide_False, Bool.false_eq_true, ↓reduceIte]
      exact ih hm hnodup.2

theorem sumOver_key (l : MiningUsers) (m : MiningUser) (hm : m ∈ l)
    (hnodup : l.keys.Nodup) (f : MiningUser → Int) :
    sumOver l (fun x => decide (x.Address = m.Address)) f = f m := by
  unfold sumOver
  rw [filter_key_eq_singleton l m hm hnodup]
  simp

theorem sumOver_absent (l : MiningUsers) (a : Address) (ha : a ∉ l.keys)
    (f : MiningUser → Int) :
    sumOver l (fun x => decide (x.Address = a)) f = 0 := by
  unfold sumOver
  have : l.filter (fun x => decide (x.Address = a)) = [] := by
    rw [List.filter_eq_nil_iff]
    intro y hy
    simp only [decide_eq_true_eq]
    intro hye
    exact ha (by rw [← hye]; exact List.mem_map_of_mem _ hy)
  rw [this]; rfl

theorem MiningUsers.modify_of_not_has (l : MiningUsers) (a : Address)
    (f : MiningUser → MiningUser) (h : ¬ l.Has a = true) : l.modify a f = l := by
  unfold MiningUsers.modify
  conv_rhs => rw [← List.map_id l]
  apply List.map_congr_left
  intro u hu
  have hne : u.Address ≠ a := by
    intro he
    exact h ((MiningUsers.Has_iff l a).mpr (by rw [← he]; exact List.mem_map_of_mem _ hu))
  simp [hne]

theorem rewardBody_eq (s : Int) (us ps : MiningUsers) (x : MiningUser) :
    rewardBody s (us, ps) x =
      (us.modify x.Address (addReward (memberShare s x)),
       ps.modify x.PoolAddress (addReward (forwarded s x))) := by
  have h2 : Int.fdiv (s * x.Weight) 2 = s * x.Weight / 2 :=
    Int.fdiv_eq_ediv _ (by norm_num : (0 : Int) ≤ 2)
  have h100 : Int.fdiv (s * x.Weight * 10) 100 = s * x.Weight * 10 / 100 :=
    Int.fdiv_eq_ediv _ (by norm_num : (0 : Int) ≤ 100)
  unfold rewardBody memberShare forwarded addReward
  cases hb : x.HasBind
  · simp only [Bool.not_false, ↓reduceIte, Bool.false_eq_true, h2]
    congr 1
    unfold MiningUsers.modify
    conv_lhs => rw [← List.map_id ps]
    apply List.map_congr_left
    intro p _
    split <;> simp
  · simp only [Bool.not_true, Bool.false_eq_true, ↓reduceIte, h100]
    congr 1
    split
    · rfl
    · rename_i hh
      exact (MiningUsers.modify_of_not_has ps _ _ hh).symm

theorem rewardLoop_eq (s : Int) (xs us ps : MiningUsers) :
    xs.foldl (rewardBody s) (us, ps) =
      (us.map (creditOwn xs s), ps.map (creditPool xs s)) := by
  show xs.foldl (rewardBody s) (us, ps) =
      (us.map (fun u =>
          addReward (sumOver xs (fun x => decide (x.Address = u.Address)) (memberShare s)) u),
       ps.map (fun p =>
          addReward (sumOver xs (fun x => decide (x.PoolAddress = p.Address)) (forwarded s)) p))
  induction xs generalizing us ps with
  | nil =>
    simp only [List.foldl_nil, sumOver, List.filter_nil, List.map_nil, List.sum_nil, add_zero,
      addReward]
    congr 1
    · exact (List.map_id us).symm
    · exact (List.map_id ps).symm
  | cons x rest ih =>
    rw [List.foldl_cons, rewardBody_eq, ih]
    unfold MiningUsers.modify
    rw [List.map_map, List.map_map]
    congr 1
    · apply List.map_congr_left
      intro u _
      simp only [Function.comp, sumOver_cons, decide_eq_true_eq, addReward]
      by_cases h : u.Address = x.Address
      · simp only [h, ↓reduceIte]
        congr 1
        ring
      · have h2 : ¬ x.Address = u.Address := fun e => h e.symm
        simp only [h, h2, ↓reduceIte, zero_add]
    · apply List.map_congr_left
      intro p _
      simp only [Function.comp, sumOver_cons, decide_eq_true_eq, addReward]
      by_cases h : p.Address = x.PoolAddress
      · simp only [h, ↓reduceIte]
        congr 1
        ring
      · have h2 : ¬ x.PoolAddress = p.Address := fun e => h e.symm
        simp only [h, h2, ↓reduceIte, zero_add]


/-! ## `MergeCoinbasetxs3` -/

theorem CoinbaseTxs.has_iff_mem_keys (c : CoinbaseTxs) (a : Address) :
    c.Has a = true ↔ a ∈ c.keys := by
  unfold CoinbaseTxs.Has CoinbaseTxs.keys
  simp only [List.any_eq_true, decide_eq_true_eq, List.mem_map]

theorem CoinbaseTxs.get?_eq_none_iff (c : CoinbaseTxs) (a : Address) :
    c.get? a = none ↔ a ∉ c.keys := by
  unfold CoinbaseTxs.get? CoinbaseTxs.keys
  simp only [Option.map_eq_none', List.find?_eq_none, decide_eq_true_eq, List.mem_map,
    not_exists, not_and]

theorem CoinbaseTxs.get?_append (c d : CoinbaseTxs) (a : Address) :
    CoinbaseTxs.get? (c ++ d) a = (c.get? a).orElse (fun _ => d.get? a) := by
  unfold CoinbaseTxs.get?
  rw [List.find?_append]
  cases List.find? (fun e => decide (e.1 = a)) c <;> rfl

theorem CoinbaseTxs.get?_Add (c : CoinbaseTxs) (a b : Address) :
    (c.Add b).get? a
      = if c.Has b = true then c.get? a
        else if a = b then some zeroRecord else c.get? a := by
  unfold CoinbaseTxs.Add
  by_cases h : c.Has b = true
  · rw [if_pos h, if_pos h]
  · rw [if_neg h, if_neg h, CoinbaseTxs.get?_append]
    by_cases hab : a = b
    · subst hab
      have hnone : c.get? a = none :=
        (CoinbaseTxs.get?_eq_none_iff c a).mpr (fun hm => h ((CoinbaseTxs.has_iff_mem_keys c a).mpr hm))
      rw [if_pos rfl, hnone]
      simp [CoinbaseTxs.get?, zeroRecord]
    · rw [if_neg hab]
      have hb : ¬ b = a := fun e => hab e.symm
      cases c.get? a <;> simp [CoinbaseTxs.get?, hb]

theorem CoinbaseTxs.get?_modify (c : CoinbaseTxs) (a b : Address)
    (f : CoinbaseUserReward → CoinbaseUserReward) :
    (c.modify b f).get? a = if a = b then (c.get? a).map f else c.get? a := by
  induction c with
  | nil => simp [CoinbaseTxs.modify, CoinbaseTxs.get?]
  | cons e rest ih =>
    unfold CoinbaseTxs.modify CoinbaseTxs.get? at ih ⊢
    rw [List.map_cons, List.find?_cons, List.find?_cons]
    by_cases heb : e.1 = b
    · by_cases hea : e.1 = a
      · have hab : a = b := by rw [← hea, heb]
        simp [heb, hea, hab]
      · have hab : ¬ a = b := by rw [← heb]; exact fun h => hea h.symm
        have hba : ¬ b = a := fun h => hab h.symm
        simp only [heb, ↓reduceIte, hab, hba, decide_False, Bool.false_eq_true] at ih ⊢
        exact ih
    · by_cases hea : e.1 = a
      · have hab : ¬ a = b := by rw [← hea]; exact heb
        simp [heb, hea, hab]
      · simp only [heb, hea, ↓reduceIte, decide_False]
        exact ih

theorem mergeBody_get? (add : Int → CoinbaseUserReward → CoinbaseUserReward)
    (c : CoinbaseTxs) (u : MiningUser) (a : Address) :
    (mergeBody add c u).get? a = viewStep add a (c.get? a) u := by
  unfold mergeBody viewStep
  simp only []
  rw [CoinbaseTxs.get?_modify]
  by_cases hua : u.Address = a
  · subst hua
    rw [if_pos rfl, if_pos rfl]
    by_cases hh : c.Has u.Address = true
    · simp only [hh, Bool.not_true, Bool.false_eq_true, ↓reduceIte]
      have hsome : c.get? u.Address ≠ none := fun hn =>
        ((CoinbaseTxs.get?_eq_none_iff c _).mp hn) ((CoinbaseTxs.has_iff_mem_keys c _).mp hh)
      cases hg : c.get? u.Address with
      | none => exact absurd hg hsome
      | some r => rfl
    · have hh2 : c.Has u.Address = false := by simpa using hh
      have hnone : c.get? u.Address = none :=
        (CoinbaseTxs.get?_eq_none_iff c _).mpr (fun hm => hh ((CoinbaseTxs.has_iff_mem_keys c _).mpr hm))
      simp only [hh2, Bool.not_false, ↓reduceIte]
      rw [CoinbaseTxs.get?_Add, if_neg hh, if_pos rfl, hnone]
      rfl
  · have hau : ¬ a = u.Address := fun e => hua e.symm
    rw [if_neg hau, if_neg hua]
    split
    · rw [CoinbaseTxs.get?_Add]
      split
      · rfl
      · rfl
    · rfl

theorem mergeLoop_get? (add : Int → CoinbaseUserReward → CoinbaseUserReward)
    (us : List MiningUser) (c : CoinbaseTxs) (a : Address) :
    (us.foldl (mergeBody add) c).get? a = us.foldl (viewStep add a) (c.get? a) := by
  induction us generalizing c with
  | nil => rfl
  | cons u rest ih => rw [List.foldl_cons, List.foldl_cons, ih, mergeBody_get?]

theorem viewLoop_isSome (add : Int → CoinbaseUserReward → CoinbaseUserReward) (a : Address)
    (us : MiningUsers) (v : Option CoinbaseUserReward) :
    (us.foldl (viewStep add a) v).isSome = true ↔ v.isSome = true ∨ a ∈ us.keys := by
  induction us generalizing v with
  | nil => simp [MiningUsers.keys]
  | cons u rest ih =>
    rw [List.foldl_cons, ih]
    unfold viewStep MiningUsers.keys
    by_cases hua : u.Address = a
    · simp [hua]
    · have hau : ¬ a = u.Address := fun e => hua e.symm
      simp [hua, hau]

theorem viewLoop_field (π : CoinbaseUserReward → Int)
    (add : Int → CoinbaseUserReward → CoinbaseUserReward) (k : Int)
    (hadd : ∀ r e, π (add r e) = π e + k * r) (a : Address)
    (us : MiningUsers) (v : Option CoinbaseUserReward) :
    π ((us.foldl (viewStep add a) v).getD zeroRecord)
      = π (v.getD zeroRecord)
        + k * sumOver us (fun x => decide (x.Address = a)) (fun x => x.Reward) := by
  induction us generalizing v with
  | nil => simp [sumOver]
  | cons u rest ih =>
    rw [List.foldl_cons, ih, sumOver_cons]
    unfold viewStep
    by_cases hua : u.Address = a
    · simp only [hua, ↓reduceIte, Option.getD_some, hadd, decide_True]
      ring
    · simp only [hua, ↓reduceIte, decide_False, Bool.false_eq_true, zero_add]


theorem CoinbaseTxs.modify_keeps_keys (c : CoinbaseTxs) (a : Address)
    (f : CoinbaseUserReward → CoinbaseUserReward) : (c.modify a f).keys = c.keys := by
  unfold CoinbaseTxs.modify CoinbaseTxs.keys
  rw [List.map_map]
  apply List.map_congr_left
  intro e _
  simp only [Function.comp]
  split <;> rfl

theorem CoinbaseTxs.Add_keys_nodup (c : CoinbaseTxs) (a : Address) (h : c.keys.Nodup) :
    (c.Add a).keys.Nodup := by
  unfold CoinbaseTxs.Add
  split
  · exact h
  · rename_i hh
    have hn : a ∉ c.keys := fun hm => hh ((CoinbaseTxs.has_iff_mem_keys c a).mpr hm)
    unfold CoinbaseTxs.keys at h hn ⊢
    rw [List.map_append, List.nodup_append]
    refine ⟨h, by simp, ?_⟩
    intro x hx hx2
    simp only [List.map_cons, List.map_nil, List.mem_singleton] at hx2
    subst hx2
    exact hn hx

theorem mergeBody_keys_nodup (add : Int → CoinbaseUserReward → CoinbaseUserReward)
    (c : CoinbaseTxs) (u : MiningUser) (h : c.keys.Nodup) : (mergeBody add c u).keys.Nodup := by
  unfold mergeBody
  simp only []
  rw [CoinbaseTxs.modify_keeps_keys]
  split
  · exact CoinbaseTxs.Add_keys_nodup c _ h
  · exact h

theorem Merge_keys_nodup (ord : RangeOrder) (pocU powU poolU : MiningUsers) :
    (MergeCoinbasetxs3 ord pocU powU poolU).keys.Nodup := by
  unfold MergeCoinbasetxs3
  simp only []
  apply foldl_invariant (fun c : CoinbaseTxs => c.keys.Nodup) _
    (fun c u h => mergeBody_keys_nodup _ c u h)
  apply foldl_invariant (fun c : CoinbaseTxs => c.keys.Nodup) _
    (fun c u h => mergeBody_keys_nodup _ c u h)
  apply foldl_invariant (fun c : CoinbaseTxs => c.keys.Nodup) _
    (fun c u h => mergeBody_keys_nodup _ c u h)
  exact List.nodup_nil

theorem keys_perm (xs l : MiningUsers) (h : xs.Perm l) (a : Address) :
    a ∈ MiningUsers.keys xs ↔ a ∈ MiningUsers.keys l := by
  unfold MiningUsers.keys
  exact (h.map _).mem_iff

theorem Merge_get? (ord : RangeOrder) (pocU powU poolU : MiningUsers) (a : Address) :
    (((MergeCoinbasetxs3 ord pocU powU poolU).get? a).isSome = true ↔
      a ∈ pocU.keys ∨ a ∈ powU.keys ∨ a ∈ poolU.keys) ∧
    (((MergeCoinbasetxs3 ord pocU powU poolU).get? a).getD zeroRecord).PocReward
      = sumOver pocU (fun x => decide (x.Address = a)) (fun x => x.Reward) ∧
    (((MergeCoinbasetxs3 ord pocU powU poolU).get? a).getD zeroRecord).PowReward
      = sumOver powU (fun x => decide (x.Address = a)) (fun x => x.Reward) ∧
    (((MergeCoinbasetxs3 ord pocU powU poolU).get? a).getD zeroRecord).PoolReward
      = sumOver poolU (fun x => decide (x.Address = a)) (fun x => x.Reward) := by
  have hget : (MergeCoinbasetxs3 ord pocU powU poolU).get? a
      = (ord.users 5 poolU).foldl
          (viewStep (fun r e => { e with PoolReward := e.PoolReward + r }) a)
          ((ord.users 4 powU).foldl
            (viewStep (fun r e => { e with PowReward := e.PowReward + r }) a)
            ((ord.users 3 pocU).foldl
              (viewStep (fun r e => { e with PocReward := e.PocReward + r }) a) none)) := by
    unfold MergeCoinbasetxs3
    simp only []
    rw [mergeLoop_get?, mergeLoop_get?, mergeLoop_get?]
    rfl
  rw [hget]
  have p3 := ord.users_perm 3 pocU
  have p4 := ord.users_perm 4 powU
  have p5 := ord.users_perm 5 poolU
  refine ⟨?_, ?_, ?_, ?_⟩
  · rw [viewLoop_isSome, viewLoop_isSome, viewLoop_isSome, keys_perm _ _ p3, keys_perm _ _ p4,
      keys_perm _ _ p5]
    simp only [Option.isSome_none, Bool.false_eq_true, false_or]
    tauto
  · rw [viewLoop_field (fun e => e.PocReward) _ 0 (fun r e => by simp),
      viewLoop_field (fun e => e.PocReward) _ 0 (fun r e => by simp),
      viewLoop_field (fun e => e.PocReward) _ 1 (fun r e => by simp),
      sumOver_perm _ _ p3]
    simp [zeroRecord]
  · rw [viewLoop_field (fun e => e.PowReward) _ 0 (fun r e => by simp),
      viewLoop_field (fun e => e.PowReward) _ 1 (fun r e => by simp),
      viewLoop_field (fun e => e.PowReward) _ 0 (fun r e => by simp),
      sumOver_perm _ _ p4]
    simp [zeroRecord]
  · rw [viewLoop_field (fun e => e.PoolReward) _ 1 (fun r e => by simp),
      viewLoop_field (fun e => e.PoolReward) _ 0 (fun r e => by simp),
      viewLoop_field (fun e => e.PoolReward) _ 0 (fun r e => by simp),
      sumOver_perm _ _ p5]
    simp [zeroRecord]

theorem sumOver_map_reward (l : MiningUsers) (g : MiningUser → MiningUser)
    (hg : ∀ u, (g u).Address = u.Address) (a : Address) :
    sumOver (l.map g) (fun x => decide (x.Address = a)) (fun x => x.Reward)
      = sumOver l (fun x => decide (x.Address = a)) (fun x => (g x).Reward) := by
  unfold sumOver
  rw [List.filter_map, List.map_map]
  have : ((fun x => decide (x.Address = a)) ∘ g) = (fun x => decide (x.Address = a)) := by
    funext u
    simp [Function.comp, hg]
  rw [this]
  rfl

theorem map_keys (l : MiningUsers) (g : MiningUser → MiningUser)
    (hg : ∀ u, (g u).Address = u.Address) : MiningUsers.keys (l.map g) = l.keys := by
  unfold MiningUsers.keys
  rw [List.map_map]
  apply List.map_congr_left
  intro u _
  exact hg u

theorem NUCReward4_eq (ord : RangeOrder) (header : Header) (state : StateDB)
    (caller : NUCCaller) :
    NUCReward4 ord header state caller =
      MergeCoinbasetxs3 ord
        ((GetAllPocers3 state caller).map
          (creditOwn (ord.users 1 (GetAllPocers3 state caller))
            (pocShareUnit ord header state caller)))
        ((GetAllPowers3 caller).map
          (creditOwn (ord.users 2 (GetAllPowers3 caller)) (powShareUnit ord header caller)))
        (((GetAllPoolers3 caller).map
          (creditPool (ord.users 1 (GetAllPocers3 state caller))
            (pocShareUnit ord header state caller))).map
          (creditPool (ord.users 2 (GetAllPowers3 caller)) (powShareUnit ord header caller))) := by
  unfold NUCReward4 pocShareUnit powShareUnit
  simp only [rewardLoop_eq]

theorem creditOwn_Address (xs : MiningUsers) (s : Int) (u : MiningUser) :
    (creditOwn xs s u).Address = u.Address := rfl

theorem creditPool_Address (xs : MiningUsers) (s : Int) (u : MiningUser) :
    (creditPool xs s u).Address = u.Address := rfl

theorem class_reward_at (l xs : MiningUsers) (hG : Gathered l) (hperm : xs.Perm l) (s : Int)
    (m : MiningUser) (hm : m ∈ l) :
    sumOver (l.map (creditOwn xs s)) (fun x => decide (x.Address = m.Address))
        (fun x => x.Reward)
      = memberShare s m := by
  rw [sumOver_map_reward l (creditOwn xs s) (creditOwn_Address xs s),
    sumOver_key l m hm hG.1]
  simp only [creditOwn, addReward, hG.2 m hm, zero_add]
  rw [sumOver_perm _ _ hperm, sumOver_key l m hm hG.1]

theorem class_reward_absent (l : MiningUsers) (g : MiningUser → MiningUser)
    (hg : ∀ u, (g u).Address = u.Address) (a : Address) (ha : a ∉ l.keys) :
    sumOver (l.map g) (fun x => decide (x.Address = a)) (fun x => x.Reward) = 0 := by
  rw [sumOver_map_reward _ g hg]
  exact sumOver_absent l a ha _

theorem pool_reward_at (l xs1 ys1 xs2 ys2 : MiningUsers) (hG : Gathered l)
    (h1 : xs1.Perm ys1) (h2 : xs2.Perm ys2) (s1 s2 : Int) (p : MiningUser) (hp : p ∈ l) :
    sumOver ((l.map (creditPool xs1 s1)).map (creditPool xs2 s2))
        (fun x => decide (x.Address = p.Address)) (fun x => x.Reward)
      = sumOver ys1 (fun x => decide (x.PoolAddress = p.Address)) (forwarded s1)
        + sumOver ys2 (fun x => decide (x.PoolAddress = p.Address)) (forwarded s2) := by
  rw [List.map_map,
    sumOver_map_reward l (creditPool xs2 s2 ∘ creditPool xs1 s1) (fun _ => rfl),
    sumOver_key l p hp hG.1]
  simp only [Function.comp, creditPool, addReward, hG.2 p hp, zero_add]
  rw [sumOver_perm _ _ h1, sumOver_perm _ _ h2]

theorem get?_of_isSome_getD (v : Option CoinbaseUserReward) (h : v.isSome = true) :
    v = some (v.getD zeroRecord) := by
  cases v with
  | none => cases h
  | some r => rfl

theorem NUCReward4_poc_absent (ord : RangeOrder) (header : Header) (state : StateDB)
    (caller : NUCCaller) (a : Address) (ha : a ∉ (GetAllPocers3 state caller).keys)
    (r : CoinbaseUserReward) (hr : (NUCReward4 ord header state caller).get? a = some r) :
    r.PocReward = 0 := by
  rw [NUCReward4_eq] at hr
  have h := congrArg (fun v => (v.getD zeroRecord).PocReward) hr
  simp only [Option.getD_some] at h
  rw [← h, (Merge_get? ord _ _ _ a).2.1]
  exact class_reward_absent _ _ (creditOwn_Address _ _) a ha

theorem NUCReward4_isSome (ord : RangeOrder) (header : Header) (state : StateDB)
    (caller : NUCCaller) (a : Address) :
    ((NUCReward4 ord header state caller).get? a).isSome = true ↔
      a ∈ (GetAllPocers3 state caller).keys ∨ a ∈ (GetAllPowers3 caller).keys ∨
        a ∈ (GetAllPoolers3 caller).keys := by
  rw [NUCReward4_eq, (Merge_get? ord _ _ _ a).1, map_keys _ _ (creditOwn_Address _ _),
    map_keys _ _ (creditOwn_Address _ _), map_keys _ _ (creditPool_Address _ _),
    map_keys _ _ (creditPool_Address _ _)]

theorem NUCReward4_poc_member (ord : RangeOrder) (header : Header) (state : StateDB)
    (caller : NUCCaller) (m : MiningUser) (hm : m ∈ GetAllPocers3 state caller) :
    ∃ r, (NUCReward4 ord header state caller).get? m.Address = some r ∧
      r.PocReward = memberShare (pocShareUnit ord header state caller) m := by
  have his := (NUCReward4_isSome ord header state caller m.Address).mpr
    (Or.inl (List.mem_map_of_mem _ hm))
  refine ⟨_, get?_of_isSome_getD _ his, ?_⟩
  rw [NUCReward4_eq, (Merge_get? ord _ _ _ m.Address).2.1]
  exact class_reward_at _ _ (Gathered.GetAllPocers3 state caller) (ord.users_perm 1 _) _ m hm

theorem NUCReward4_pow_member (ord : RangeOrder) (header : Header) (state : StateDB)
    (caller : NUCCaller) (m : MiningUser) (hm : m ∈ GetAllPowers3 caller) :
    ∃ r, (NUCReward4 ord header state caller).get? m.Address = some r ∧
      r.PowReward = memberShare (powShareUnit ord header caller) m := by
  have his := (NUCReward4_isSome ord header state caller m.Address).mpr
    (Or.inr (Or.inl (List.mem_map_of_mem _ hm)))
  refine ⟨_, get?_of_isSome_getD _ his, ?_⟩
  rw [NUCReward4_eq, (Merge_get? ord _ _ _ m.Address).2.2.1]
  exact class_reward_at _ _ (Gathered.GetAllPowers3 caller) (ord.users_perm 2 _) _ m hm

theorem NUCReward4_pool_member (ord : RangeOrder) (header : Header) (state : StateDB)
    (caller : NUCCaller) (p : MiningUser) (hp : p ∈ GetAllPoolers3 caller) :
    ∃ r, (NUCReward4 ord header state caller).get? p.Address = some r ∧
      r.PoolReward
        = sumOver (GetAllPocers3 state caller) (fun x => decide (x.PoolAddress = p.Address))
            (forwarded (pocShareUnit ord header state caller))
          + sumOver (GetAllPowers3 caller) (fun x => decide (x.PoolAddress = p.Address))
            (forwarded (powShareUnit ord header caller)) := by
  have his := (NUCReward4_isSome ord header state caller p.Address).mpr
    (Or.inr (Or.inr (List.mem_map_of_mem _ hp)))
  refine ⟨_, get?_of_isSome_getD _ his, ?_⟩
  rw [NUCReward4_eq, (Merge_get? ord _ _ _ p.Address).2.2.2]
  exact pool_reward_at _ _ _ _ _ (Gathered.GetAllPoolers3 caller) (ord.users_perm 1 _)
    (ord.users_perm 2 _) _ _ p hp

theorem NUCReward4_pool_absent (ord : RangeOrder) (header : Header) (state : StateDB)
    (caller : NUCCaller) (a : Address) (ha : a ∉ (GetAllPoolers3 caller).keys)
    (r : CoinbaseUserReward) (hr : (NUCReward4 ord header state caller).get? a = some r) :
    r.PoolReward = 0 := by
  rw [NUCReward4_eq] at hr
  have h := congrArg (fun v => (v.getD zeroRecord).PoolReward) hr
  simp only [Option.getD_some] at h
  rw [← h, (Merge_get? ord _ _ _ a).2.2.2, List.map_map]
  exact class_reward_absent _ (creditPool _ _ ∘ creditPool _ _) (fun _ => rfl) a ha


theorem everyUserReward_pos (R W : Int) (h : 0 < W) : everyUserReward R W = Int.fdiv R W := by
  unfold everyUserReward
  rw [if_pos h, Int.fdiv_eq_ediv _ (le_of_lt h)]

/-- C6, as stated, fails: a PoC member bound to an address that is not a registered pool
operator forwards `10^18` (10 % of its `10^19`) and keeps `9 * 10^18`, but no pool
reward is recorded for its pool address: `NUCReward4` returns no record for it. -/
theorem forwarded_share_dropped_without_pool :
    (∃ m ∈ GetAllPocers3 emptyState unregisteredPoolCaller,
      m.Address = Address.ofByte 1 ∧ m.HasBind = true ∧ m.PoolAddress = Address.ofByte 9 ∧
      forwarded (pocShareUnit insertionOrder zeroHeader emptyState unregisteredPoolCaller) m
        = 1000000000000000000) ∧
    (NUCReward4 insertionOrder zeroHeader emptyState unregisteredPoolCaller).get?
      (Address.ofByte 9) = none ∧
    NUCReward4 insertionOrder zeroHeader emptyState unregisteredPoolCaller
      = [(Address.ofByte 1, { PoolReward := 0, PocReward := 9000000000000000000,
                              PowReward := 0, PostReward := 0 })] := by
  decide

/-- C6, amended. In `NUCReward4`, for each of the classes PoC and PoW with class reward
`R` and total class weight `W`, the per-weight share `s` is `floor(R / W)` when `W > 0`;
every class member `m` ends with the class reward `floor(s * m.weight / 2)` when it has no
binding and `s * m.weight - floor(s * m.weight * 10 / 100)` when it has one; the pool
reward recorded for a registered pool operator is the sum of the amounts
`floor(s * m.weight * 10 / 100)` forwarded by the PoC and PoW members bound to it; and
for an address that is not a registered pool operator no pool reward is recorded (the
amount forwarded to it is credited to nobody). -/
theorem NUCReward4_class_shares (ord : RangeOrder) (header : Header) (state : StateDB)
    (caller : NUCCaller) :
    (0 < (GetAllPocers3 state caller).AllWeight ord →
      pocShareUnit ord header state caller
        = Int.fdiv (GetRewardByType3 PocBlockReward header caller)
            ((GetAllPocers3 state caller).AllWeight ord)) ∧
    (0 < (GetAllPowers3 caller).AllWeight ord →
      powShareUnit ord header caller
        = Int.fdiv (GetRewardByType3 PowBlockReward header caller)
            ((GetAllPowers3 caller).AllWeight ord)) ∧
    (∀ m ∈ GetAllPocers3 state caller,
      ∃ r, (NUCReward4 ord header state caller).get? m.Address = some r ∧
        r.PocReward = memberShare (pocShareUnit ord header state caller) m) ∧
    (∀ m ∈ GetAllPowers3 caller,
      ∃ r, (NUCReward4 ord header state caller).get? m.Address = some r ∧
        r.PowReward = memberShare (powShareUnit ord header caller) m) ∧
    (∀ p ∈ GetAllPoolers3 caller,
      ∃ r, (NUCReward4 ord header state caller).get? p.Address = some r ∧
        r.PoolReward
          = sumOver (GetAllPocers3 state caller)
              (fun x => decide (x.PoolAddress = p.Address))
              (forwarded (pocShareUnit ord header state caller))
            + sumOver (GetAllPowers3 caller)
              (fun x => decide (x.PoolAddress = p.Address))
              (forwarded (powShareUnit ord header caller))) ∧
    (∀ a, a ∉ (GetAllPoolers3 caller).keys →
      ∀ r, (NUCReward4 ord header state caller).get? a = some r → r.PoolReward = 0) :=
  ⟨fun h => everyUserReward_pos _ _ h, fun h => everyUserReward_pos _ _ h,
    fun m hm => NUCReward4_poc_member ord header state caller m hm,
    fun m hm => NUCReward4_pow_member ord header state caller m hm,
    fun p hp => NUCReward4_pool_member ord header state caller p hp,
    fun a ha r hr => NUCReward4_pool_absent ord header state caller a ha r hr⟩


/-! ## Finalization -/

theorem totalCredits_append (j : List StateOp) (op : StateOp) :
    totalCredits (j ++ [op]) = totalCredits j + op.credit := by
  simp [totalCredits]

theorem pocCallAddrs_append_balance (j : List StateOp) (a : Address) (x : Int) :
    pocCallAddrs (j ++ [StateOp.addBalance a x]) = pocCallAddrs j := by
  simp [pocCallAddrs, List.filterMap_append]

theorem pocCallAddrs_append_poc (j : List StateOp) (a : Address) (x : Int) :
    pocCallAddrs (j ++ [StateOp.addAllPocBalance a x]) = pocCallAddrs j ++ [a] := by
  simp [pocCallAddrs, List.filterMap_append]

theorem payBody_spec (powFee : Int) (st : StateDB) (acc : Int)
    (e : Address × CoinbaseUserReward) :
    (payBody powFee (st, acc) e).2 = acc + rewardOf powFee e ∧
    (∀ a, (payBody powFee (st, acc) e).1.allPocBalance a
      = st.allPocBalance a + if e.1 = a then max e.2.PocReward 0 else 0) ∧
    totalCredits (payBody powFee (st, acc) e).1.journal
      = totalCredits st.journal + max (rewardOf powFee e) 0 ∧
    pocCallAddrs (payBody powFee (st, acc) e).1.journal
      = pocCallAddrs st.journal ++ (if e.2.PocReward > 0 then [e.1] else []) := by
  have hr : (if e.2.PocReward > 0 then e.2.PocReward else 0)
      + (if e.2.PowReward > 0 then e.2.PowReward else 0)
      + (if e.2.PoolReward > 0 then e.2.PoolReward else 0) + powFee = rewardOf powFee e := by
    unfold rewardOf
    have h1 : (if e.2.PocReward > 0 then e.2.PocReward else 0) = max e.2.PocReward 0 := by
      split <;> omega
    have h2 : (if e.2.PowReward > 0 then e.2.PowReward else 0) = max e.2.PowReward 0 := by
      split <;> omega
    have h3 : (if e.2.PoolReward > 0 then e.2.PoolReward else 0) = max e.2.PoolReward 0 := by
      split <;> omega
    rw [h1, h2, h3]
  unfold payBody
  refine ⟨?_, ?_, ?_, ?_⟩
  · simp only [hr]
  · intro a
    simp only [hr]
    by_cases hp : e.2.PocReward > 0 <;> by_cases hw : rewardOf powFee e > 0 <;>
      by_cases hea : e.1 = a <;>
      simp only [hp, hw, hea, ↓reduceIte, StateDB.AddBalance, StateDB.AddAllPocBalance] <;>
      first
        | omega
        | (have hae : ¬ a = e.1 := fun h => hea h.symm
           simp only [hae, ↓reduceIte]; omega)
  · simp only [hr]
    by_cases hp : e.2.PocReward > 0 <;> by_cases hw : rewardOf powFee e > 0 <;>
      simp only [hp, hw, ↓reduceIte, StateDB.AddBalance, StateDB.AddAllPocBalance,
        totalCredits_append, StateOp.credit] <;> omega
  · simp only [hr]
    by_cases hp : e.2.PocReward > 0 <;> by_cases hw : rewardOf powFee e > 0 <;>
      simp only [hp, hw, ↓reduceIte, StateDB.AddBalance, StateDB.AddAllPocBalance,
        pocCallAddrs_append_balance, pocCallAddrs_append_poc, List.append_nil]


theorem payLoop_spec (powFee : Int) (es : CoinbaseTxs) (st : StateDB) (acc : Int) :
    (es.foldl (payBody powFee) (st, acc)).2 = acc + (es.map (rewardOf powFee)).sum ∧
    (∀ a, (es.foldl (payBody powFee) (st, acc)).1.allPocBalance a
      = st.allPocBalance a
        + ((es.filter (fun e => decide (e.1 = a))).map (fun e => max e.2.PocReward 0)).sum) ∧
    totalCredits (es.foldl (payBody powFee) (st, acc)).1.journal
      = totalCredits st.journal + (es.map (fun e => max (rewardOf powFee e) 0)).sum ∧
    pocCallAddrs (es.foldl (payBody powFee) (st, acc)).1.journal
      = pocCallAddrs st.journal
        ++ (es.filter (fun e => decide (e.2.PocReward > 0))).map Prod.fst := by
  induction es generalizing st acc with
  | nil => simp
  | cons e rest ih =>
    have hs := payBody_spec powFee st acc e
    have hpair : payBody powFee (st, acc) e
        = ((payBody powFee (st, acc) e).1, (payBody powFee (st, acc) e).2) := rfl
    rw [List.foldl_cons, hpair]
    have h := ih (payBody powFee (st, acc) e).1 (payBody powFee (st, acc) e).2
    refine ⟨?_, ?_, ?_, ?_⟩
    · rw [h.1, hs.1, List.map_cons, List.sum_cons]; ring
    · intro a
      rw [h.2.1 a, hs.2.1 a, List.filter_cons]
      by_cases hea : e.1 = a
      · simp only [hea, decide_True, ↓reduceIte, List.map_cons, List.sum_cons]; ring
      · simp only [hea, decide_False, Bool.false_eq_true, ↓reduceIte, add_zero]
    · rw [h.2.2.1, hs.2.2.1, List.map_cons, List.sum_cons]; ring
    · rw [h.2.2.2, hs.2.2.2, List.filter_cons]
      by_cases hp : e.2.PocReward > 0
      · simp [hp]
      · simp [hp]

theorem uncleLoop_spec (header : Header) (uncles : List Header) (st : StateDB) (fee : Int) :
    (uncles.foldl (uncleBody FrontierBlockReward header) (st, fee)).2
      = fee + (uncles.length : Int) * (FrontierBlockReward / 32) ∧
    (uncles.foldl (uncleBody FrontierBlockReward header) (st, fee)).1.allPocBalance
      = st.allPocBalance ∧
    totalCredits (uncles.foldl (uncleBody FrontierBlockReward header) (st, fee)).1.journal
      = totalCredits st.journal + (uncles.map (uncleReward header)).sum ∧
    pocCallAddrs (uncles.foldl (uncleBody FrontierBlockReward header) (st, fee)).1.journal
      = pocCallAddrs st.journal := by
  induction uncles generalizing st fee with
  | nil => simp
  | cons u rest ih =>
    rw [List.foldl_cons]
    have h := ih (uncleBody FrontierBlockReward header (st, fee) u).1
      (uncleBody FrontierBlockReward header (st, fee) u).2
    have hpair : uncleBody FrontierBlockReward header (st, fee) u
        = ((uncleBody FrontierBlockReward header (st, fee) u).1,
           (uncleBody FrontierBlockReward header (st, fee) u).2) := rfl
    rw [hpair]
    refine ⟨?_, ?_, ?_, ?_⟩
    · rw [h.1]
      simp only [uncleBody, List.length_cons, Nat.cast_add, Nat.cast_one]
      ring
    · rw [h.2.1]; rfl
    · rw [h.2.2.1]
      simp only [uncleBody, StateDB.AddBalance, totalCredits_append, StateOp.credit,
        List.map_cons, List.sum_cons, uncleReward]
      ring
    · rw [h.2.2.2]
      simp only [uncleBody, StateDB.AddBalance, pocCallAddrs_append_balance]

theorem txLoop_nonneg (txs : List Transaction) (fee : Int) (h0 : 0 ≤ fee)
    (hprice : ∀ tx ∈ txs, 0 ≤ tx.GasPrice) : 0 ≤ txs.foldl txBody fee := by
  induction txs generalizing fee with
  | nil => exact h0
  | cons tx rest ih =>
    rw [List.foldl_cons]
    apply ih
    · unfold txBody
      have hp := hprice tx (List.mem_cons_self _ _)
      have hg : (0 : Int) ≤ (tx.Gas : Int) := Int.ofNat_nonneg _
      have : 0 ≤ (fee + tx.GasPrice * (tx.Gas : Int)) * 70 := by positivity
      exact Int.ediv_nonneg this (by norm_num)
    · intro t ht
      exact hprice t (List.mem_cons_of_mem _ ht)

theorem feeLoops_spec (state : StateDB) (header : Header) (uncles : List Header)
    (txs : List Transaction) :
    (feeLoops state header uncles txs).1.allPocBalance = state.allPocBalance ∧
    totalCredits (feeLoops state header uncles txs).1.journal
      = totalCredits state.journal + (uncles.map (uncleReward header)).sum ∧
    pocCallAddrs (feeLoops state header uncles txs).1.journal = pocCallAddrs state.journal ∧
    ((∀ tx ∈ txs, 0 ≤ tx.GasPrice) → 0 ≤ (feeLoops state header uncles txs).2) := by
  have h := uncleLoop_spec header uncles state 0
  unfold feeLoops
  refine ⟨h.2.1, h.2.2.1, h.2.2.2, ?_⟩
  intro hprice
  apply txLoop_nonneg _ _ _ hprice
  rw [h.1]
  have : (0 : Int) ≤ FrontierBlockReward / 32 := by unfold FrontierBlockReward; norm_num
  positivity

theorem GetAllPocers3_congr (s1 s2 : StateDB) (caller : NUCCaller)
    (h : s1.allPocBalance = s2.allPocBalance) :
    GetAllPocers3 s1 caller = GetAllPocers3 s2 caller := by
  have hb : pocerBody s1 = pocerBody s2 := by
    funext l u
    unfold pocerBody StateDB.GetAllPocBalance
    rw [h]
  unfold GetAllPocers3
  rw [hb]

theorem NUCReward4_congr (ord : RangeOrder) (header : Header) (s1 s2 : StateDB)
    (caller : NUCCaller) (h : s1.allPocBalance = s2.allPocBalance) :
    NUCReward4 ord header s1 caller = NUCReward4 ord header s2 caller := by
  unfold NUCReward4
  rw [GetAllPocers3_congr s1 s2 caller h]


theorem accumulateRewards_state (ord : RangeOrder) (caller : NUCCaller) (state : StateDB)
    (header : Header) (uncles : List Header) (txs : List Transaction) :
    (accumulateRewards ord caller state header uncles txs).state =
      (if teamFeeOf (feeLoops state header uncles txs).2 > 0 then
        StateDB.AddBalance
          (if ((ord.records 6 (NUCReward4 ord header state caller)).foldl
                (payBody (powFeeShare (feeLoops state header uncles txs).2
                  (NUCReward4 ord header state caller)))
                ((feeLoops state header uncles txs).1, 0)).2 < FrontierBlockReward then
            StateDB.AddBalance
              ((ord.records 6 (NUCReward4 ord header state caller)).foldl
                (payBody (powFeeShare (feeLoops state header uncles txs).2
                  (NUCReward4 ord header state caller)))
                ((feeLoops state header uncles txs).1, 0)).1
              DefaultCoinbaseAddr
              (FrontierBlockReward
                - ((ord.records 6 (NUCReward4 ord header state caller)).foldl
                    (payBody (powFeeShare (feeLoops state header uncles txs).2
                      (NUCReward4 ord header state caller)))
                    ((feeLoops state header uncles txs).1, 0)).2)
          else
            ((ord.records 6 (NUCReward4 ord header state caller)).foldl
              (payBody (powFeeShare (feeLoops state header uncles txs).2
                (NUCReward4 ord header state caller)))
              ((feeLoops state header uncles txs).1, 0)).1)
          DefaultCoinbaseAddr (teamFeeOf (feeLoops state header uncles txs).2)
      else
        (if ((ord.records 6 (NUCReward4 ord header state caller)).foldl
              (payBody (powFeeShare (feeLoops state header uncles txs).2
                (NUCReward4 ord header state caller)))
              ((feeLoops state header uncles txs).1, 0)).2 < FrontierBlockReward then
          StateDB.AddBalance
            ((ord.records 6 (NUCReward4 ord header state caller)).foldl
              (payBody (powFeeShare (feeLoops state header uncles txs).2
                (NUCReward4 ord header state caller)))
              ((feeLoops state header uncles txs).1, 0)).1
            DefaultCoinbaseAddr
            (FrontierBlockReward
              - ((ord.records 6 (NUCReward4 ord header state caller)).foldl
                  (payBody (powFeeShare (feeLoops state header uncles txs).2
                    (NUCReward4 ord header state caller)))
                  ((feeLoops state header uncles txs).1, 0)).2)
        else
          ((ord.records 6 (NUCReward4 ord header state caller)).foldl
            (payBody (powFeeShare (feeLoops state header uncles txs).2
              (NUCReward4 ord header state caller)))
            ((feeLoops state header uncles txs).1, 0)).1)) := by
  have hc := NUCReward4_congr ord header (feeLoops state header uncles txs).1 state caller
    (feeLoops_spec state header uncles txs).1
  unfold accumulateRewards powFeeShare
  simp only [hc]

theorem accumulateRewards_spec (ord : RangeOrder) (caller : NUCCaller) (state : StateDB)
    (header : Header) (uncles : List Header) (txs : List Transaction) :
    (∀ a, (accumulateRewards ord caller state header uncles txs).state.allPocBalance a
      = state.allPocBalance a
        + (((NUCReward4 ord header state caller).filter (fun e => decide (e.1 = a))).map
            (fun e => max e.2.PocReward 0)).sum) ∧
    totalCredits (accumulateRewards ord caller state header uncles txs).state.journal
      = totalCredits state.journal + (uncles.map (uncleReward header)).sum
        + ((NUCReward4 ord header state caller).map (fun e =>
            max (rewardOf (powFeeShare (feeLoops state header uncles txs).2
              (NUCReward4 ord header state caller)) e) 0)).sum
        + max (FrontierBlockReward
            - paidTotal (powFeeShare (feeLoops state header uncles txs).2
                (NUCReward4 ord header state caller)) (NUCReward4 ord header state caller)) 0
        + max (teamFeeOf (feeLoops state header uncles txs).2) 0 ∧
    pocCallAddrs (accumulateRewards ord caller state header uncles txs).state.journal
      = pocCallAddrs state.journal
        ++ ((ord.records 6 (NUCReward4 ord header state caller)).filter
            (fun e => decide (e.2.PocReward > 0))).map Prod.fst := by
  have hperm := ord.records_perm 6 (NUCReward4 ord header state caller)
  have hf := feeLoops_spec state header uncles txs
  have hp := payLoop_spec (powFeeShare (feeLoops state header uncles txs).2
      (NUCReward4 ord header state caller))
    (ord.records 6 (NUCReward4 ord header state caller))
    (feeLoops state header uncles txs).1 0
  have hsum1 : ((ord.records 6 (NUCReward4 ord header state caller)).map
      (rewardOf (powFeeShare (feeLoops state header uncles txs).2
        (NUCReward4 ord header state caller)))).sum
      = paidTotal (powFeeShare (feeLoops state header uncles txs).2
          (NUCReward4 ord header state caller)) (NUCReward4 ord header state caller) :=
    (hperm.map _).sum_eq
  have hsum2 : ((ord.records 6 (NUCReward4 ord header state caller)).map (fun e =>
      max (rewardOf (powFeeShare (feeLoops state header uncles txs).2
        (NUCReward4 ord header state caller)) e) 0)).sum
      = ((NUCReward4 ord header state caller).map (fun e =>
          max (rewardOf (powFeeShare (feeLoops state header uncles txs).2
            (NUCReward4 ord header state caller)) e) 0)).sum :=
    (hperm.map _).sum_eq
  have hsum3 : ∀ a, (((ord.records 6 (NUCReward4 ord header state caller)).filter
        (fun e => decide (e.1 = a))).map (fun e => max e.2.PocReward 0)).sum
      = (((NUCReward4 ord header state caller).filter (fun e => decide (e.1 = a))).map
          (fun e => max e.2.PocReward 0)).sum :=
    fun a => ((hperm.filter _).map _).sum_eq
  rw [accumulateRewards_state]
  rw [hp.1, hsum1, zero_add] 
  refine ⟨?_, ?_, ?_⟩
  · intro a
    split <;> split <;>
      simp only [StateDB.AddBalance, hp.2.1 a, hsum3 a, hf.1]
  · split <;> split <;>
      simp only [StateDB.AddBalance, totalCredits_append, StateOp.credit, hp.2.2.1, hsum2,
        hf.2.1] <;> omega
  · split <;> split <;>
      simp only [StateDB.AddBalance, pocCallAddrs_append_balance, hp.2.2.2, hf.2.2.1]



theorem NUCReward4_keys_nodup (ord : RangeOrder) (header : Header) (state : StateDB)
    (caller : NUCCaller) : (NUCReward4 ord header state caller).keys.Nodup := by
  rw [NUCReward4_eq]
  exact Merge_keys_nodup ord _ _ _

theorem CoinbaseTxs.filter_key (c : CoinbaseTxs) (a : Address) (h : c.keys.Nodup) :
    c.filter (fun e => decide (e.1 = a))
      = match c.get? a with
        | some r => [(a, r)]
        | none => [] := by
  induction c with
  | nil => rfl
  | cons e rest ih =>
    unfold CoinbaseTxs.keys at h
    rw [List.map_cons, List.nodup_cons] at h
    rw [List.filter_cons]
    by_cases hea : e.1 = a
    · have hnone : CoinbaseTxs.get? rest a = none :=
        (CoinbaseTxs.get?_eq_none_iff rest a).mpr (by rw [← hea]; exact h.1)
      have hrest := ih h.2
      rw [hnone] at hrest
      have hget : CoinbaseTxs.get? (e :: rest) a = some e.2 := by
        simp [CoinbaseTxs.get?, List.find?_cons, hea]
      rw [hget, hrest]
      simp only [hea, decide_True, ↓reduceIte]
      rw [← hea]
    · have hget : CoinbaseTxs.get? (e :: rest) a = CoinbaseTxs.get? rest a := by
        simp [CoinbaseTxs.get?, List.find?_cons, hea]
      rw [hget]
      simp only [hea, decide_False, Bool.false_eq_true, ↓reduceIte]
      exact ih h.2

theorem CoinbaseTxs.get?_of_mem (c : CoinbaseTxs) (e : Address × CoinbaseUserReward)
    (h : c.keys.Nodup) (he : e ∈ c) : c.get? e.1 = some e.2 := by
  have hf := CoinbaseTxs.filter_key c e.1 h
  have hmem : e ∈ c.filter (fun x => decide (x.1 = e.1)) := by
    rw [List.mem_filter]
    exact ⟨he, by simp⟩
  rw [hf] at hmem
  cases hg : c.get? e.1 with
  | none => rw [hg] at hmem; cases hmem
  | some r =>
    rw [hg] at hmem
    simp only [List.mem_singleton] at hmem
    rw [hmem]

theorem capped_member_not_gathered (state : StateDB) (caller : NUCCaller) (u : Struct1)
    (honce : ∀ v ∈ pocListing caller, v.UserAddr = u.UserAddr → v = u)
    (hcap : u.MortageBalance * 120 / 100 ≤ state.allPocBalance u.UserAddr) :
    u.UserAddr ∉ (GetAllPocers3 state caller).keys := by
  rw [GetAllPocers3_eq_foldl, pocers_keys_iff]
  rintro (h | ⟨v, hv, h1, _, h3⟩)
  · cases h
  · have := honce v hv h1
    subst this
    omega

theorem uncapped_member_gathered (state : StateDB) (caller : NUCCaller) (u : Struct1)
    (hu : u ∈ pocListing caller) (hz : u.UserAddr ≠ zeroAddress)
    (hcap : state.allPocBalance u.UserAddr < u.MortageBalance * 120 / 100) :
    u.UserAddr ∈ (GetAllPocers3 state caller).keys := by
  rw [GetAllPocers3_eq_foldl, pocers_keys_iff]
  exact Or.inr ⟨u, hu, rfl, hz, hcap⟩

theorem counter_after (ord : RangeOrder) (caller : NUCCaller) (state : StateDB)
    (header : Header) (uncles : List Header) (txs : List Transaction) (a : Address) :
    (accumulateRewards ord caller state header uncles txs).state.allPocBalance a
      = state.allPocBalance a
        + match (NUCReward4 ord header state caller).get? a with
          | some r => max r.PocReward 0
          | none => 0 := by
  rw [(accumulateRewards_spec ord caller state header uncles txs).1 a,
    CoinbaseTxs.filter_key _ a (NUCReward4_keys_nodup ord header state caller)]
  cases (NUCReward4 ord header state caller).get? a <;> simp

/-! ## Reward conservation -/

/-- C7, as stated, fails. (a) With one uncle, an empty registry and no transaction the
credits add up to `22518750000000000000` while `FrontierBlockReward + team_fee` is
`12018750000000000000`, and there is no participant. (b) Without uncles, with three
participants whose class rewards add up to the base reward and one transaction, the
credits exceed `FrontierBlockReward + team_fee` by `13965000000000`. -/
theorem conservation_fails :
    (totalCredits
        (accumulateRewards insertionOrder emptyCaller emptyState headerFive [uncleFour]
          []).state.journal = 22518750000000000000 ∧
      FrontierBlockReward + teamFeeOf (feeLoops emptyState headerFive [uncleFour] []).2
        = 12018750000000000000 ∧
      NUCReward4 insertionOrder headerFive emptyState emptyCaller = []) ∧
    (totalCredits
        (accumulateRewards insertionOrder pooledCaller emptyState zeroHeader []
          [⟨1000000000, 21000⟩]).state.journal = 12000014700000000000 ∧
      FrontierBlockReward + teamFeeOf (feeLoops emptyState zeroHeader [] [⟨1000000000, 21000⟩]).2
        = 12000000735000000000 ∧
      (NUCReward4 insertionOrder zeroHeader emptyState pooledCaller).length = 3) := by
  decide

theorem powFeeShare_nonneg (fee : Int) (ctxs : CoinbaseTxs) (h : 0 ≤ fee) :
    0 ≤ powFeeShare fee ctxs := by
  have h95 : 0 ≤ powFeeOf fee := by
    unfold powFeeOf
    exact Int.ediv_nonneg (by positivity) (by norm_num)
  unfold powFeeShare
  split
  · exact Int.ediv_nonneg h95 (Int.ofNat_nonneg _)
  · exact h95

theorem rewardOf_nonneg (powFee : Int) (e : Address × CoinbaseUserReward) (h : 0 ≤ powFee) :
    0 ≤ rewardOf powFee e := by
  unfold rewardOf
  omega

/-- C7, amended. For every execution of `accumulateRewards` with non-negative gas
prices (any registry content, transactions and uncles), the sum of all balance credits
(to the non-sink addresses and to the default coinbase sink) equals the sum of the uncle
rewards plus `max(FrontierBlockReward, paid)` plus `team_fee`, where `paid` is the sum of
the per-address rewards (class rewards plus `pow_fee` shares); so with no uncles and
`paid ≤ FrontierBlockReward` it equals `FrontierBlockReward + team_fee` exactly. -/
theorem credits_conservation (ord : RangeOrder) (caller : NUCCaller) (state : StateDB)
    (header : Header) (uncles : List Header) (txs : List Transaction)
    (hprice : ∀ tx ∈ txs, 0 ≤ tx.GasPrice) :
    totalCredits (accumulateRewards ord caller state header uncles txs).state.journal
        - totalCredits state.journal
      = (uncles.map (uncleReward header)).sum
        + max FrontierBlockReward
            (paidTotal (powFeeShare (feeLoops state header uncles txs).2
              (NUCReward4 ord header state caller)) (NUCReward4 ord header state caller))
        + teamFeeOf (feeLoops state header uncles txs).2 ∧
    (uncles = [] →
      paidTotal (powFeeShare (feeLoops state header uncles txs).2
          (NUCReward4 ord header state caller)) (NUCReward4 ord header state caller)
        ≤ FrontierBlockReward →
      totalCredits (accumulateRewards ord caller state header uncles txs).state.journal
          - totalCredits state.journal
        = FrontierBlockReward + teamFeeOf (feeLoops state header uncles txs).2) := by
  have hfee : 0 ≤ (feeLoops state header uncles txs).2 :=
    (feeLoops_spec state header uncles txs).2.2.2 hprice
  have hshare := powFeeShare_nonneg (feeLoops state header uncles txs).2
    (NUCReward4 ord header state caller) hfee
  have hteam : 0 ≤ teamFeeOf (feeLoops state header uncles txs).2 := by
    unfold teamFeeOf
    exact Int.ediv_nonneg (by positivity) (by norm_num)
  have hmax : ((NUCReward4 ord header state caller).map (fun e =>
      max (rewardOf (powFeeShare (feeLoops state header uncles txs).2
        (NUCReward4 ord header state caller)) e) 0)).sum
      = paidTotal (powFeeShare (feeLoops state header uncles txs).2
          (NUCReward4 ord header state caller)) (NUCReward4 ord header state caller) := by
    unfold paidTotal
    congr 1
    apply List.map_congr_left
    intro e _
    exact max_eq_left (rewardOf_nonneg _ e hshare)
  have hmain := (accumulateRewards_spec ord caller state header uncles txs).2.1
  rw [hmax] at hmain
  constructor
  · rw [hmain]; omega
  · intro hu hpaid
    subst hu
    rw [hmain]
    simp only [List.map_nil, List.sum_nil]
    omega

/-- Witness of the amended C7: the registry with three participants and one transaction
of gas price `10^9`. -/
theorem credits_conservation_witness :
    (∀ tx ∈ [(⟨1000000000, 21000⟩ : Transaction)], 0 ≤ tx.GasPrice) ∧
    totalCredits
        (accumulateRewards insertionOrder pooledCaller emptyState zeroHeader []
          [⟨1000000000, 21000⟩]).state.journal - totalCredits emptyState.journal
      = (([] : List Header).map (uncleReward zeroHeader)).sum
        + max FrontierBlockReward
            (paidTotal (powFeeShare (feeLoops emptyState zeroHeader [] [⟨1000000000, 21000⟩]).2
              (NUCReward4 insertionOrder zeroHeader emptyState pooledCaller))
              (NUCReward4 insertionOrder zeroHeader emptyState pooledCaller))
        + teamFeeOf (feeLoops emptyState zeroHeader [] [⟨1000000000, 21000⟩]).2 :=
  ⟨by decide,
    (credits_conservation insertionOrder pooledCaller emptyState zeroHeader []
      [⟨1000000000, 21000⟩] (by decide)).1⟩


/-! ## The PoC cap -/

theorem cap_fdiv (M : Int) : Int.fdiv (M * 120) 100 = M * 120 / 100 :=
  Int.fdiv_eq_ediv _ (by norm_num : (0 : Int) ≤ 100)

/-- C8, as stated, fails: the PoC member with stake 100 has the cap
`floor(100 * 120 / 100) = 120` and a counter of 0 before the block; after
`accumulateRewards` its counter is `9 * 10^18`. -/
theorem poc_cap_exceeded :
    listedPocer ∈ pocListing unregisteredPoolCaller ∧
    listedPocer.MortageBalance = 100 ∧
    emptyState.GetAllPocBalance listedPocer.UserAddr
      ≤ Int.fdiv (listedPocer.MortageBalance * 120) 100 ∧
    (accumulateRewards insertionOrder unregisteredPoolCaller emptyState zeroHeader []
      []).state.GetAllPocBalance listedPocer.UserAddr = 9000000000000000000 ∧
    ¬ ((accumulateRewards insertionOrder unregisteredPoolCaller emptyState zeroHeader []
        []).state.GetAllPocBalance listedPocer.UserAddr
      ≤ Int.fdiv (listedPocer.MortageBalance * 120) 100) := by
  decide

/-- C8, amended. The PoC reward is gated by the 120 % cap, not clamped to it. After
`accumulateRewards` the cumulative PoC counter of every address is the counter before
plus the PoC amount recorded for the address in this block (when positive); for a PoC
member listed once whose counter has reached `floor(M * 120 / 100)` before the block the
counter is unchanged; and a member of the PoC class receives its full share
(`memberShare`), whatever the distance of its counter to the cap. -/
theorem poc_counter_gated_not_clamped (ord : RangeOrder) (caller : NUCCaller)
    (state : StateDB) (header : Header) (uncles : List Header) (txs : List Transaction) :
    (∀ a, (accumulateRewards ord caller state header uncles txs).state.GetAllPocBalance a
      = state.GetAllPocBalance a
        + match (NUCReward4 ord header state caller).get? a with
          | some r => max r.PocReward 0
          | none => 0) ∧
    (∀ u ∈ pocListing caller,
      (∀ v ∈ pocListing caller, v.UserAddr = u.UserAddr → v = u) →
      Int.fdiv (u.MortageBalance * 120) 100 ≤ state.GetAllPocBalance u.UserAddr →
      (accumulateRewards ord caller state header uncles txs).state.GetAllPocBalance u.UserAddr
        = state.GetAllPocBalance u.UserAddr) ∧
    (∀ m ∈ GetAllPocers3 state caller,
      (accumulateRewards ord caller state header uncles txs).state.GetAllPocBalance m.Address
        = state.GetAllPocBalance m.Address
          + max (memberShare (pocShareUnit ord header state caller) m) 0) := by
  unfold StateDB.GetAllPocBalance
  refine ⟨fun a => counter_after ord caller state header uncles txs a, ?_, ?_⟩
  · intro u _ honce hcap
    rw [cap_fdiv] at hcap
    have hnot := capped_member_not_gathered state caller u honce hcap
    rw [counter_after]
    cases hg : (NUCReward4 ord header state caller).get? u.UserAddr with
    | none => simp
    | some r =>
      have := NUCReward4_poc_absent ord header state caller u.UserAddr hnot r hg
      simp [this]
  · intro m hm
    obtain ⟨r, hr, hshare⟩ := NUCReward4_poc_member ord header state caller m hm
    rw [counter_after, hr]
    simp only [hshare]

/-- Witness of the amended C8: the member with stake 100 whose counter is already 120
keeps the counter 120. -/
theorem poc_counter_gated_not_clamped_witness :
    listedPocer ∈ pocListing unregisteredPoolCaller ∧
    (∀ v ∈ pocListing unregisteredPoolCaller, v.UserAddr = listedPocer.UserAddr →
      v = listedPocer) ∧
    Int.fdiv (listedPocer.MortageBalance * 120) 100
      ≤ cappedState.GetAllPocBalance listedPocer.UserAddr ∧
    (accumulateRewards insertionOrder unregisteredPoolCaller cappedState zeroHeader []
      []).state.GetAllPocBalance listedPocer.UserAddr
      = cappedState.GetAllPocBalance listedPocer.UserAddr :=
  ⟨by decide, by decide, by decide,
    (poc_counter_gated_not_clamped insertionOrder unregisteredPoolCaller cappedState
      zeroHeader [] []).2.1 listedPocer (by decide) (by decide) (by decide)⟩

/-- C9, as stated, fails in its converse: the registry member with the all-zero address
is listed once and is strictly below the cap (counter 0, cap 120), but `GetAllPocers3`
does not add it. -/
theorem zero_address_member_not_added :
    pocListing zeroAddressCaller = [zeroAddressMember] ∧
    emptyState.GetAllPocBalance zeroAddressMember.UserAddr
      < Int.fdiv (zeroAddressMember.MortageBalance * 120) 100 ∧
    GetAllPocers3 emptyState zeroAddressCaller = [] ∧
    zeroAddressMember.UserAddr ∉ (GetAllPocers3 emptyState zeroAddressCaller).keys := by
  decide

/-- C9, amended. For every PoC registry member `m` visited by `GetAllPocers3`: if `m` is
listed once and `get_all_poc_balance(m) ≥ floor(m.mortage * 120 / 100)` in the pre-state,
then `GetAllPocers3` does not add `m` to the PoC class, the PoC amount recorded for `m`
by `NUCReward4` is 0 (if a record exists at all), and `accumulateRewards` does not call
`add_all_poc_balance` for `m`; conversely a member strictly below the cap whose address
is not the all-zero address is added. -/
theorem poc_cap_gate (ord : RangeOrder) (caller : NUCCaller) (state : StateDB)
    (header : Header) (uncles : List Header) (txs : List Transaction) (u : Struct1)
    (hu : u ∈ pocListing caller) :
    ((∀ v ∈ pocListing caller, v.UserAddr = u.UserAddr → v = u) →
      Int.fdiv (u.MortageBalance * 120) 100 ≤ state.GetAllPocBalance u.UserAddr →
      u.UserAddr ∉ (GetAllPocers3 state caller).keys ∧
      (∀ r, (NUCReward4 ord header state caller).get? u.UserAddr = some r →
        r.PocReward = 0) ∧
      (pocCallAddrs (accumulateRewards ord caller state header uncles txs).state.journal).count
          u.UserAddr
        = (pocCallAddrs state.journal).count u.UserAddr) ∧
    (state.GetAllPocBalance u.UserAddr < Int.fdiv (u.MortageBalance * 120) 100 →
      u.UserAddr ≠ zeroAddress →
      u.UserAddr ∈ (GetAllPocers3 state caller).keys) := by
  unfold StateDB.GetAllPocBalance
  rw [cap_fdiv]
  constructor
  · intro honce hcap
    have hnot := capped_member_not_gathered state caller u honce hcap
    have hrec : ∀ r, (NUCReward4 ord header state caller).get? u.UserAddr = some r →
        r.PocReward = 0 :=
      fun r hr => NUCReward4_poc_absent ord header state caller u.UserAddr hnot r hr
    refine ⟨hnot, hrec, ?_⟩
    rw [(accumulateRewards_spec ord caller state header uncles txs).2.2, List.count_append]
    have hzero : List.count u.UserAddr
        (((ord.records 6 (NUCReward4 ord header state caller)).filter
          (fun e => decide (e.2.PocReward > 0))).map Prod.fst) = 0 := by
      rw [List.count_eq_zero]
      intro hmem
      obtain ⟨e, he, hea⟩ := List.mem_map.mp hmem
      rw [List.mem_filter] at he
      have hin : e ∈ NUCReward4 ord header state caller :=
        (ord.records_perm 6 _).mem_iff.mp he.1
      have hget := CoinbaseTxs.get?_of_mem _ e (NUCReward4_keys_nodup ord header state caller)
        hin
      rw [hea] at hget
      have h0 := hrec e.2 hget
      have hpos : e.2.PocReward > 0 := by simpa using he.2
      omega
    rw [hzero, add_zero]
  · intro hcap hz
    exact uncapped_member_gathered state caller u hu hz hcap

/-- Witness of the amended C9: the member with stake 100 and counter 120 is not added,
and no call of `add_all_poc_balance` is made for it. -/
theorem poc_cap_gate_witness :
    listedPocer ∈ pocListing unregisteredPoolCaller ∧
    (∀ v ∈ pocListing unregisteredPoolCaller, v.UserAddr = listedPocer.UserAddr →
      v = listedPocer) ∧
    Int.fdiv (listedPocer.MortageBalance * 120) 100
      ≤ cappedState.GetAllPocBalance listedPocer.UserAddr ∧
    listedPocer.UserAddr ∉ (GetAllPocers3 cappedState unregisteredPoolCaller).keys ∧
    (pocCallAddrs (accumulateRewards insertionOrder unregisteredPoolCaller cappedState
        zeroHeader [] []).state.journal).count listedPocer.UserAddr
      = (pocCallAddrs cappedState.journal).count listedPocer.UserAddr :=
  ⟨by decide, by decide, by decide,
    ((poc_cap_gate insertionOrder unregisteredPoolCaller cappedState zeroHeader [] []
      listedPocer (by decide)).1 (by decide) (by decide)).1,
    ((poc_cap_gate insertionOrder unregisteredPoolCaller cappedState zeroHeader [] []
      listedPocer (by decide)).1 (by decide) (by decide)).2.2⟩

/-- Witness of the amended C6: the PoC member gathered from the example registry keeps
its share of the PoC class reward. -/
theorem NUCReward4_class_shares_witness :
    gatheredPocer ∈ GetAllPocers3 emptyState unregisteredPoolCaller ∧
    ∃ r, (NUCReward4 insertionOrder zeroHeader emptyState unregisteredPoolCaller).get?
          gatheredPocer.Address = some r ∧
      r.PocReward
        = memberShare (pocShareUnit insertionOrder zeroHeader emptyState unregisteredPoolCaller)
            gatheredPocer :=
  ⟨by decide,
    (NUCReward4_class_shares insertionOrder zeroHeader emptyState
      unregisteredPoolCaller).2.2.1 gatheredPocer (by decide)⟩

/-! ## Layout and order of the serialized records -/

theorem FormatUint64Bytes_length (r : Int) : (FormatUint64Bytes r).length = 8 := by
  unfold FormatUint64Bytes
  simp only []
  split
  · rename_i h
    simp only [List.length_take, List.length_append, List.length_replicate]
    omega
  · rename_i h
    simp only [List.nil_append, List.length_take]
    omega

theorem entryBytes_length (e : Address × CoinbaseUserReward) : (entryBytes e).length = 44 := by
  simp only [entryBytes, List.length_append, e.1.len, FormatUint64Bytes_length]

theorem concatEntries_length_eq (es : CoinbaseTxs) :
    (concatEntries es).length = 44 * es.length := by
  induction es with
  | nil => rfl
  | cons e rest ih =>
    simp only [concatEntries, List.length_append, List.length_cons, ih, entryBytes_length]
    omega

theorem FormatUint64Bytes_padded (x : Int) (h0 : 0 ≤ x) (h1 : x < 2 ^ 64) :
    FormatUint64Bytes x = List.replicate (8 - (bigBytes x).length) (0 : Byte) ++ bigBytes x := by
  obtain ⟨n, rfl⟩ := Int.eq_ofNat_of_zero_le h0
  have hn : n < 256 ^ 8 := by
    have : (n : Int) < 2 ^ 64 := h1
    norm_num at this ⊢
    exact_mod_cast this
  have hlen : (bigBytes (n : Int)).length ≤ 8 := by
    unfold bigBytes
    simp only [Int.natAbs_ofNat]
    exact natBytesAux_length_le n n 8 hn
  unfold FormatUint64Bytes
  simp only []
  split
  · apply List.take_of_length_le
    simp only [List.length_append, List.length_replicate]
    omega
  · rename_i h
    have h8 : (bigBytes (n : Int)).length = 8 := by omega
    simp only [List.nil_append, h8, Nat.sub_self, List.replicate_zero]
    apply List.take_of_length_le
    omega

/-- Counterexample to C11 as stated: for the PoC amount `2^64` the 8-octet field that
`Encode` emits is `01 00 00 00 00 00 00 00`, the big-endian value `2^56`, not the
value of the amount. -/
theorem encode_field_truncates :
    oversizeRecords.get? (Address.ofByte 1)
      = some { PoolReward := 0, PocReward := 2 ^ 64, PowReward := 0, PostReward := 0 } ∧
    ((oversizeRecords.Encode insertionOrder 7).drop 20).take 8 = [1, 0, 0, 0, 0, 0, 0, 0] ∧
    (bigBE (((oversizeRecords.Encode insertionOrder 7).drop 20).take 8) : Int) = 2 ^ 56 ∧
    (bigBE (((oversizeRecords.Encode insertionOrder 7).drop 20).take 8) : Int) ≠ 2 ^ 64 := by
  decide

/-- C11, amended. For every coinbase record set `s` and every visiting order, `Encode`
has length exactly `44 * |s|` and is the concatenation of the entries of `s`, each
visited once, of 44 octets `addr(20) || poc(8) || pow(8) || pool(8)`; the PoST amount
is not emitted; and each 8-octet field of an amount in `[0, 2^64)` is the big-endian
value of the amount, padded with zeros on the left. -/
theorem Encode_layout (ord : RangeOrder) (site : Nat) (s : CoinbaseTxs) :
    (s.Encode ord site).length = 44 * s.length ∧
    s.Encode ord site = concatEntries (ord.records site s) ∧
    (ord.records site s).Perm s ∧
    (s.keys.Nodup → (ord.records site s).keys.Nodup) ∧
    (∀ e : Address × CoinbaseUserReward,
      entryBytes e = e.1.bytes ++ (FormatUint64Bytes e.2.PocReward ++
        (FormatUint64Bytes e.2.PowReward ++ FormatUint64Bytes e.2.PoolReward)) ∧
      e.1.bytes.length = 20 ∧
      (FormatUint64Bytes e.2.PocReward).length = 8 ∧
      (FormatUint64Bytes e.2.PowReward).length = 8 ∧
      (FormatUint64Bytes e.2.PoolReward).length = 8 ∧
      ∀ p : Int, entryBytes (e.1, { e.2 with PostReward := p }) = entryBytes e) ∧
    (∀ x : Int, 0 ≤ x → x < 2 ^ 64 →
      FormatUint64Bytes x = List.replicate (8 - (bigBytes x).length) (0 : Byte) ++ bigBytes x ∧
      (bigBE (FormatUint64Bytes x) : Int) = x) := by
  have hperm := ord.records_perm site s
  refine ⟨?_, Encode_eq_concat ord site s, hperm, ?_, ?_, ?_⟩
  · rw [Encode_eq_concat, concatEntries_length_eq, hperm.length_eq]
  · intro h
    unfold CoinbaseTxs.keys at h ⊢
    exact (hperm.map Prod.fst).nodup_iff.mpr h
  · intro e
    exact ⟨rfl, e.1.len, FormatUint64Bytes_length _, FormatUint64Bytes_length _,
      FormatUint64Bytes_length _, fun _ => rfl⟩
  · intro x h0 h1
    exact ⟨FormatUint64Bytes_padded x h0 h1, (FormatUint64Bytes_fits x h0 h1).2⟩

/-- Witness of the amended C11: the example record set, whose amounts fit 8 octets. -/
theorem Encode_layout_witness :
    exampleRecords.keys.Nodup ∧ (0 : Int) ≤ 5000000000000000000 ∧
    (5000000000000000000 : Int) < 2 ^ 64 ∧
    (exampleRecords.Encode insertionOrder 7).length = 44 * exampleRecords.length ∧
    (insertionOrder.records 7 exampleRecords).keys.Nodup ∧
    (bigBE (FormatUint64Bytes 5000000000000000000) : Int) = 5000000000000000000 :=
  ⟨by decide, by decide, by decide, (Encode_layout insertionOrder 7 exampleRecords).1,
    (Encode_layout insertionOrder 7 exampleRecords).2.2.2.1 (by decide),
    ((Encode_layout insertionOrder 7 exampleRecords).2.2.2.2.2 5000000000000000000
      (by decide) (by decide)).2⟩

/-- Counterexample to C12 as stated: `Encode` of the example set in insertion order
puts address `..02` before address `..01`; the opposite visiting order gives other
octets for the same set; and under a visiting order that differs between the two
`Encode` calls of `accumulateRewards` the octets put into the header differ from the
octets saved. -/
theorem encode_order_not_canonical :
    (exampleRecords.Encode insertionOrder 7).take 20 = (Address.ofByte 2).bytes ∧
    ((exampleRecords.Encode insertionOrder 7).drop 44).take 20 = (Address.ofByte 1).bytes ∧
    bigBE (Address.ofByte 1).bytes < bigBE (Address.ofByte 2).bytes ∧
    exampleRecords.Encode reverseOrder 7 ≠ exampleRecords.Encode insertionOrder 7 ∧
    (accumulateRewards alternatingOrder pooledCaller emptyState zeroHeader [] []).header.CoinbaseTxs
      ≠ (accumulateRewards alternatingOrder pooledCaller emptyState zeroHeader [] []).saved.2 := by
  decide

theorem perm_short_eq {α : Type} (l s : List α) (h : l.Perm s) (hs : s.length ≤ 1) : l = s := by
  match s, hs with
  | [], _ => exact List.perm_nil.mp h
  | [a], _ => exact List.perm_singleton.mp h

/-- C12, amended. `Encode` emits the 44-octet entries in the order in which the range
statement visits the map, which is not a sorted order: its output is the concatenation
of the entries in the visiting order. Two encodings of the same set hold the same
entries, possibly in different order, and are identical when the visiting orders
agree, in particular for a set of at most one address. The octets that
`accumulateRewards` writes to the header and the octets that `Save` stores are two
such encodings of the same record set. -/
theorem Encode_follows_range_order (ord ord2 : RangeOrder) (site site2 : Nat)
    (s : CoinbaseTxs) (caller : NUCCaller) (state : StateDB) (header : Header)
    (uncles : List Header) (txs : List Transaction) :
    s.Encode ord site = concatEntries (ord.records site s) ∧
    (ord.records site s).Perm (ord2.records site2 s) ∧
    (ord.records site s = ord2.records site2 s → s.Encode ord site = s.Encode ord2 site2) ∧
    (s.length ≤ 1 → s.Encode ord site = s.Encode ord2 site2) ∧
    (accumulateRewards ord caller state header uncles txs).header.CoinbaseTxs
      = (NUCReward4 ord header (feeLoops state header uncles txs).1 caller).Encode ord 7 ∧
    (accumulateRewards ord caller state header uncles txs).saved.2
      = (NUCReward4 ord header (feeLoops state header uncles txs).1 caller).Encode ord 8 := by
  have h1 := ord.records_perm site s
  have h2 := ord2.records_perm site2 s
  refine ⟨Encode_eq_concat ord site s, h1.trans h2.symm, ?_, ?_, rfl, rfl⟩
  · intro h
    rw [Encode_eq_concat, Encode_eq_concat, h]
  · intro hs
    rw [Encode_eq_concat, Encode_eq_concat, perm_short_eq _ _ h1 hs, perm_short_eq _ _ h2 hs]

/-- Witness of the amended C12: a one-address set encodes to the same octets under
the two example visiting orders, and the visiting orders of the two sites agree under
the insertion order. -/
theorem Encode_follows_range_order_witness :
    oversizeRecords.length ≤ 1 ∧
    insertionOrder.records 7 exampleRecords = insertionOrder.records 8 exampleRecords ∧
    oversizeRecords.Encode insertionOrder 7 = oversizeRecords.Encode reverseOrder 8 ∧
    exampleRecords.Encode insertionOrder 7 = exampleRecords.Encode insertionOrder 8 :=
  ⟨by decide, rfl,
    (Encode_follows_range_order insertionOrder reverseOrder 7 8 oversizeRecords emptyCaller
      emptyState zeroHeader [] []).2.2.2.1 (by decide),
    (Encode_follows_range_order insertionOrder insertionOrder 7 8 exampleRecords emptyCaller
      emptyState zeroHeader [] []).2.2.1 rfl⟩

/-! ## The gas-limit bound -/

/-- Counterexample to C13 as stated: the parent gas limit `2^64 - 1` and the header
gas limit 5000 differ by far more than `parent.gas_limit / 1024`, yet `verifyHeader`
accepts the header: `int64(parent.GasLimit)` is `-1`, so the difference the code
compares is 5001. -/
theorem gas_bound_wraps :
    wideParent.GasLimit < 2 ^ 64 ∧
    |(wideParent.GasLimit : Int) - (lowGasChild.GasLimit : Int)|
      ≥ ((wideParent.GasLimit / exampleEnv.params.GasLimitBoundDivisor : Nat) : Int) ∧
    toInt64 wideParent.GasLimit = -1 ∧
    verifyHeader exampleEthash exampleEnv lowGasChild wideParent false false = none := by
  decide

/-- C13, amended. For every header and every parent whose gas limit is at most
`2^63 - 1` (the cap that `verifyHeader` enforces on every header it accepts), if
`|parent.gas_limit - header.gas_limit| >= parent.gas_limit / GAS_BOUND_DIV` as exact
integers, then `verifyHeader` returns an error, whatever the engine, the clock, the
fork checks and the flags. -/
theorem verifyHeader_gas_bound (ethash : Ethash) (env : VerifyEnv) (header parent : Header)
    (uncle checkSeal : Bool)
    (hparent : parent.GasLimit ≤ 2 ^ 63 - 1)
    (hgap : |(parent.GasLimit : Int) - (header.GasLimit : Int)|
      ≥ ((parent.GasLimit / env.params.GasLimitBoundDivisor : Nat) : Int)) :
    ∃ e, verifyHeader ethash env header parent uncle checkSeal = some e := by
  unfold verifyHeader
  split
  · exact ⟨_, rfl⟩
  split
  · exact ⟨_, rfl⟩
  split
  · exact ⟨_, rfl⟩
  simp only []
  split
  · exact ⟨_, rfl⟩
  split
  · exact ⟨_, rfl⟩
  rename_i h5
  have h5p : header.GasLimit ≤ 2 ^ 63 - 1 := by omega
  split
  · exact ⟨_, rfl⟩
  have hgas := gasDiff_exact parent.GasLimit header.GasLimit hparent h5p
  rw [if_pos]
  · exact ⟨_, rfl⟩
  · left
    rw [← hgas] at hgap
    omega

/-- Witness of the amended C13: a header that halves the gas limit of the example
parent is rejected. -/
theorem verifyHeader_gas_bound_witness :
    exampleParent.GasLimit ≤ 2 ^ 63 - 1 ∧
    ∃ e, verifyHeader exampleEthash exampleEnv { exampleChild with GasLimit := 4000000 }
      exampleParent false true = some e :=
  ⟨by decide,
    verifyHeader_gas_bound exampleEthash exampleEnv { exampleChild with GasLimit := 4000000 }
      exampleParent false true (by decide) (by decide)⟩

/-! ## Uncle verifier -/

theorem lookup_isSome_iff (l : List (Hash × Header)) (k : Hash) :
    (l.lookup k).isSome = true ↔ k ∈ l.map Prod.fst := by
  induction l with
  | nil => simp
  | cons p rest ih =>
    obtain ⟨a, b⟩ := p
    by_cases h : k = a
    · subst h
      simp [List.lookup]
    · have hb : (k == a) = false := by simpa using h
      simp only [List.lookup, hb, ih, List.map_cons, List.mem_cons, h, false_or]

theorem lookup_eq_none_iff (l : List (Hash × Header)) (k : Hash) :
    l.lookup k = none ↔ k ∉ l.map Prod.fst := by
  rw [← lookup_isSome_iff]
  cases l.lookup k <;> simp

theorem foldl_hash_mem (hashOf : Header → Hash) (l : List Header) (init : List Hash) (h : Hash) :
    h ∈ l.foldl (fun s uncle => hashOf uncle :: s) init ↔ (∃ v ∈ l, hashOf v = h) ∨ h ∈ init := by
  induction l generalizing init with
  | nil => simp
  | cons x rest ih =>
    rw [List.foldl_cons, ih]
    simp only [List.mem_cons, exists_eq_or_imp]
    constructor
    · rintro (h1 | h1 | h1)
      · exact Or.inl (Or.inr h1)
      · exact Or.inl (Or.inl h1.symm)
      · exact Or.inr h1
    · rintro ((h1 | h1) | h1)
      · exact Or.inr (Or.inl h1.symm)
      · exact Or.inl h1
      · exact Or.inr (Or.inr h1)

theorem collectedFrom_length_le (chain : ChainReader) (i : Nat) (parent : Hash) (number : Nat) :
    (collectedFrom chain i parent number).length ≤ i := by
  induction i generalizing parent number with
  | zero => simp [collectedFrom]
  | succ i ih =>
    unfold collectedFrom
    split
    · simp
    · simp only [List.length_cons]
      have := ih ‹Block›.header.ParentHash ((number + 2 ^ 64 - 1) % 2 ^ 64)
      omega

theorem gatherAncestors_keys (hashOf : Header → Hash) (chain : ChainReader) (i : Nat)
    (parent : Hash) (number : Nat) (uncles : List Hash) (ancestors : List (Hash × Header))
    (k : Hash) :
    k ∈ (gatherAncestors hashOf chain i parent number (uncles, ancestors)).2.map Prod.fst ↔
      k ∈ (collectedFrom chain i parent number).map (fun b => hashOf b.header) ∨
      k ∈ ancestors.map Prod.fst := by
  induction i generalizing parent number uncles ancestors with
  | zero => simp [gatherAncestors, collectedFrom]
  | succ i ih =>
    unfold gatherAncestors collectedFrom
    split
    · simp
    · rename_i ancestor _
      simp only [ih, List.map_cons, List.mem_cons]
      constructor
      · rintro (h1 | h1 | h1)
        · exact Or.inl (Or.inr h1)
        · exact Or.inl (Or.inl h1)
        · exact Or.inr h1
      · rintro ((h1 | h1) | h1)
        · exact Or.inr (Or.inl h1)
        · exact Or.inl h1
        · exact Or.inr (Or.inr h1)

theorem gatherAncestors_uncles (hashOf : Header → Hash) (chain : ChainReader) (i : Nat)
    (parent : Hash) (number : Nat) (uncles : List Hash) (ancestors : List (Hash × Header))
    (h : Hash) :
    h ∈ (gatherAncestors hashOf chain i parent number (uncles, ancestors)).1 ↔
      (∃ A ∈ collectedFrom chain i parent number, ∃ v ∈ A.uncles, hashOf v = h) ∨
      h ∈ uncles := by
  induction i generalizing parent number uncles ancestors with
  | zero => simp [gatherAncestors, collectedFrom]
  | succ i ih =>
    unfold gatherAncestors collectedFrom
    split
    · simp
    · rename_i ancestor _
      simp only [ih, foldl_hash_mem, List.mem_cons, exists_eq_or_imp]
      constructor
      · rintro (h1 | h1 | h1)
        · exact Or.inl (Or.inr h1)
        · exact Or.inl (Or.inl h1)
        · exact Or.inr h1
      · rintro ((h1 | h1) | h1)
        · exact Or.inr (Or.inl h1)
        · exact Or.inl h1
        · exact Or.inr (Or.inr h1)

theorem knownAncestors_keys (hashOf : Header → Hash) (chain : ChainReader) (block : Block)
    (k : Hash) :
    k ∈ (knownAncestors hashOf chain block).map Prod.fst ↔
      k = hashOf block.header ∨
      k ∈ (collectedAncestors chain block).map (fun b => hashOf b.header) := by
  unfold knownAncestors collectedAncestors
  simp only [List.map_cons, List.mem_cons, gatherAncestors_keys]
  simp

theorem seenUncles_mem (hashOf : Header → Hash) (chain : ChainReader) (block : Block)
    (h : Hash) :
    h ∈ seenUncles hashOf chain block ↔
      h = hashOf block.header ∨
      ∃ A ∈ collectedAncestors chain block, ∃ v ∈ A.uncles, hashOf v = h := by
  unfold seenUncles collectedAncestors
  simp only [List.mem_cons, gatherAncestors_uncles]
  simp

theorem uncleLoop_cons (ethash : Ethash) (env : VerifyEnv) (hashOf : Header → Hash)
    (parentHash : Hash) (ancestors : List (Hash × Header)) (u : Header) (rest : List Header)
    (s : List Hash) :
    uncleLoop ethash env hashOf parentHash ancestors (u :: rest) s =
      match uncleVerdict ethash env hashOf parentHash ancestors s u with
      | some e => some e
      | none => uncleLoop ethash env hashOf parentHash ancestors rest (hashOf u :: s) := by
  unfold uncleVerdict
  simp only [uncleLoop]
  split
  · rfl
  split
  · rfl
  split
  · rfl
  split
  · rfl
  split
  · rfl
  · rfl

theorem uncleLoop_append (ethash : Ethash) (env : VerifyEnv) (hashOf : Header → Hash)
    (parentHash : Hash) (ancestors : List (Hash × Header)) (pre rest : List Header)
    (s : List Hash) :
    uncleLoop ethash env hashOf parentHash ancestors (pre ++ rest) s =
      match uncleLoop ethash env hashOf parentHash ancestors pre s with
      | some e => some e
      | none =>
        uncleLoop ethash env hashOf parentHash ancestors rest ((pre.map hashOf).reverse ++ s) := by
  induction pre generalizing s with
  | nil => simp [uncleLoop]
  | cons u pre ih =>
    rw [List.cons_append, uncleLoop_cons, uncleLoop_cons]
    cases uncleVerdict ethash env hashOf parentHash ancestors s u with
    | some e => rfl
    | none =>
      simp only [ih, List.map_cons, List.reverse_cons, List.append_assoc, List.singleton_append]

theorem uncleVerdict_duplicate (ethash : Ethash) (env : VerifyEnv) (hashOf : Header → Hash)
    (parentHash : Hash) (ancestors : List (Hash × Header)) (s : List Hash) (u : Header)
    (h : hashOf u ∈ s) :
    uncleVerdict ethash env hashOf parentHash ancestors s u = some Err.errDuplicateUncle := by
  unfold uncleVerdict
  simp only [uncleLoop, h, ↓reduceIte]

theorem uncleVerdict_ancestor (ethash : Ethash) (env : VerifyEnv) (hashOf : Header → Hash)
    (parentHash : Hash) (ancestors : List (Hash × Header)) (s : List Hash) (u : Header)
    (h : hashOf u ∉ s) (ha : hashOf u ∈ ancestors.map Prod.fst) :
    uncleVerdict ethash env hashOf parentHash ancestors s u = some Err.errUncleIsAncestor := by
  unfold uncleVerdict
  have ha2 := (lookup_isSome_iff ancestors (hashOf u)).mpr ha
  simp only [uncleLoop, h, ↓reduceIte, ha2]

theorem uncleVerdict_sibling (ethash : Ethash) (env : VerifyEnv) (hashOf : Header → Hash)
    (parentHash : Hash) (ancestors : List (Hash × Header)) (s : List Hash) (u : Header)
    (hsib : u.ParentHash = parentHash) :
    (uncleVerdict ethash env hashOf parentHash ancestors s u = some Err.errDuplicateUncle ∨
     uncleVerdict ethash env hashOf parentHash ancestors s u = some Err.errUncleIsAncestor ∨
     uncleVerdict ethash env hashOf parentHash ancestors s u = some Err.errDanglingUncle) ∧
    (hashOf u ∉ s → hashOf u ∉ ancestors.map Prod.fst →
      uncleVerdict ethash env hashOf parentHash ancestors s u = some Err.errDanglingUncle) := by
  unfold uncleVerdict
  simp only [uncleLoop]
  constructor
  · split
    · exact Or.inl rfl
    split
    · exact Or.inr (Or.inl rfl)
    split
    · exact Or.inr (Or.inr rfl)
    · simp [hsib]
  · intro h1 h2
    have h3 : ¬ (ancestors.lookup (hashOf u)).isSome = true := by
      rw [lookup_isSome_iff]; exact h2
    rw [if_neg h1, if_neg h3]
    split
    · rfl
    · simp [hsib]

theorem VerifyUncles_eq_loop (hashOf : Header → Hash) (ethash : Ethash) (env : VerifyEnv)
    (chain : ChainReader) (block : Block) (hmode : ethash.PowMode ≠ Mode.ModeFullFake)
    (hlen : block.uncles.length ≤ 2) :
    VerifyUncles hashOf ethash env chain block =
      uncleLoop ethash env hashOf block.header.ParentHash (knownAncestors hashOf chain block)
        block.uncles (seenUncles hashOf chain block) := by
  unfold VerifyUncles
  have h2 : ¬ block.uncles.length > maxUncles := by unfold maxUncles; omega
  rw [if_neg hmode, if_neg h2]
  split
  · rename_i h0
    have : block.uncles = [] := List.length_eq_zero.mp h0
    rw [this]
    rfl
  · rfl

/-- Counterexample to C14 as stated: a block of the example chain that lists twice an
uncle whose parent is unknown. The first copy fails the dangling check before the
second copy is looked at, so the verdict is `errDanglingUncle`. -/
theorem duplicate_after_dangling :
    exampleEthash.PowMode = Mode.ModeNormal ∧
    (blockTwo [strayUncle, strayUncle]).uncles.length = 2 ∧
    VerifyUncles exampleHash exampleEthash exampleEnv exampleChain
      (blockTwo [strayUncle, strayUncle]) = some Err.errDanglingUncle := by
  decide

/-- C14, amended. Outside `ModeFullFake`, `VerifyUncles` rejects every block that has
two uncles with equal hash: with more than 2 uncles the error is the too-many-uncles
error; with exactly two it is the error of the first uncle when the first uncle
alone is rejected, and `errDuplicateUncle` when the first uncle alone passes. -/
theorem VerifyUncles_duplicate (hashOf : Header → Hash) (ethash : Ethash) (env : VerifyEnv)
    (chain : ChainReader) (block : Block)
    (hmode : ethash.PowMode ≠ Mode.ModeFullFake)
    (hdup : ¬ (block.uncles.map hashOf).Nodup) :
    (∃ e, VerifyUncles hashOf ethash env chain block = some e) ∧
    (block.uncles.length > 2 →
      VerifyUncles hashOf ethash env chain block = some Err.errTooManyUncles) ∧
    (block.uncles.length ≤ 2 →
      VerifyUncles hashOf ethash env chain block =
        match VerifyUncles hashOf ethash env chain
            { block with uncles := block.uncles.take 1 } with
        | some e => some e
        | none => some Err.errDuplicateUncle) := by
  have hmany : block.uncles.length > 2 →
      VerifyUncles hashOf ethash env chain block = some Err.errTooManyUncles := by
    intro h
    unfold VerifyUncles
    rw [if_neg hmode, if_pos (by unfold maxUncles; exact h)]
  have hfew : block.uncles.length ≤ 2 →
      VerifyUncles hashOf ethash env chain block =
        match VerifyUncles hashOf ethash env chain
            { block with uncles := block.uncles.take 1 } with
        | some e => some e
        | none => some Err.errDuplicateUncle := by
    intro hlen
    obtain ⟨hd, us⟩ := block
    match us, hlen, hdup with
    | [], _, hd0 => exact absurd List.nodup_nil hd0
    | [u], _, hd1 => exact absurd (List.nodup_singleton _) hd1
    | [u1, u2], _, hd2 =>
      have heq : hashOf u1 = hashOf u2 := by
        by_contra hne
        apply hd2
        simp [hne]
      rw [VerifyUncles_eq_loop _ _ _ _ _ hmode (by simp),
        VerifyUncles_eq_loop _ _ _ _ _ hmode (by simp)]
      show uncleLoop ethash env hashOf hd.ParentHash
          (knownAncestors hashOf chain ⟨hd, [u1, u2]⟩) [u1, u2]
          (seenUncles hashOf chain ⟨hd, [u1, u2]⟩) =
        match uncleLoop ethash env hashOf hd.ParentHash
          (knownAncestors hashOf chain ⟨hd, [u1, u2]⟩) [u1]
          (seenUncles hashOf chain ⟨hd, [u1, u2]⟩) with
        | some e => some e
        | none => some Err.errDuplicateUncle
      rw [uncleLoop_cons, uncleLoop_cons _ _ _ _ _ u1 []]
      cases uncleVerdict ethash env hashOf hd.ParentHash
          (knownAncestors hashOf chain ⟨hd, [u1, u2]⟩)
          (seenUncles hashOf chain ⟨hd, [u1, u2]⟩) u1 with
      | some e => rfl
      | none =>
        simp only [uncleLoop]
        rw [if_pos (by simp [heq])]
  refine ⟨?_, hmany, hfew⟩
  by_cases h : block.uncles.length > 2
  · exact ⟨_, hmany h⟩
  · rw [hfew (by omega)]
    cases VerifyUncles hashOf ethash env chain { block with uncles := block.uncles.take 1 } with
    | some e => exact ⟨e, rfl⟩
    | none => exact ⟨_, rfl⟩

/-- Witness of the amended C14: a block of the example chain that lists a valid uncle
twice is rejected with `errDuplicateUncle`. -/
theorem VerifyUncles_duplicate_witness :
    exampleEthash.PowMode ≠ Mode.ModeFullFake ∧
    ¬ ((blockTwo [validUncle, validUncle]).uncles.map exampleHash).Nodup ∧
    (blockTwo [validUncle, validUncle]).uncles.length ≤ 2 ∧
    VerifyUncles exampleHash exampleEthash exampleEnv exampleChain
      (blockTwo [validUncle, validUncle]) =
      (match VerifyUncles exampleHash exampleEthash exampleEnv exampleChain
          { blockTwo [validUncle, validUncle] with
            uncles := (blockTwo [validUncle, validUncle]).uncles.take 1 } with
      | some e => some e
      | none => some Err.errDuplicateUncle) :=
  ⟨by decide, by decide, by decide,
    (VerifyUncles_duplicate exampleHash exampleEthash exampleEnv exampleChain
      (blockTwo [validUncle, validUncle]) (by decide) (by decide)).2.2 (by decide)⟩

/-- Counterexample to C15 as stated: a block of the example chain whose first uncle is
the header of its own parent and whose second uncle has the parent hash of the block.
The first uncle fails the ancestor check, so the verdict is `errUncleIsAncestor`. -/
theorem sibling_after_ancestor :
    exampleEthash.PowMode = Mode.ModeNormal ∧
    siblingUncle ∈ (blockTwo [parentBlock.header, siblingUncle]).uncles ∧
    siblingUncle.ParentHash = (blockTwo [parentBlock.header, siblingUncle]).header.ParentHash ∧
    VerifyUncles exampleHash exampleEthash exampleEnv exampleChain
      (blockTwo [parentBlock.header, siblingUncle]) = some Err.errUncleIsAncestor := by
  decide

/-- C15, amended. Outside `ModeFullFake`, `VerifyUncles` rejects every block that has
an uncle whose `parent_hash` is exactly `block.parent_hash`. With at most 2 uncles the
error is `errDanglingUncle` when that uncle is reached, the uncles before it passing
their checks, and its hash is neither in the set of seen uncles (the past uncles, the
hash of the block, the earlier uncles of the block) nor the hash of a known
ancestor. -/
theorem VerifyUncles_sibling (hashOf : Header → Hash) (ethash : Ethash) (env : VerifyEnv)
    (chain : ChainReader) (block : Block) (u : Header)
    (hmode : ethash.PowMode ≠ Mode.ModeFullFake)
    (hmem : u ∈ block.uncles)
    (hsib : u.ParentHash = block.header.ParentHash) :
    (∃ e, VerifyUncles hashOf ethash env chain block = some e) ∧
    (∀ pre post, block.uncles = pre ++ u :: post → block.uncles.length ≤ 2 →
      VerifyUncles hashOf ethash env chain { block with uncles := pre } = none →
      hashOf u ∉ pre.map hashOf →
      hashOf u ∉ seenUncles hashOf chain block →
      hashOf u ∉ (knownAncestors hashOf chain block).map Prod.fst →
      VerifyUncles hashOf ethash env chain block = some Err.errDanglingUncle) := by
  constructor
  · by_cases h : block.uncles.length > 2
    · refine ⟨Err.errTooManyUncles, ?_⟩
      unfold VerifyUncles
      rw [if_neg hmode, if_pos (by unfold maxUncles; exact h)]
    · obtain ⟨pre, post, hsplit⟩ := List.append_of_mem hmem
      rw [VerifyUncles_eq_loop _ _ _ _ _ hmode (by omega), hsplit, uncleLoop_append]
      cases uncleLoop ethash env hashOf block.header.ParentHash
          (knownAncestors hashOf chain block) pre (seenUncles hashOf chain block) with
      | some e => exact ⟨e, rfl⟩
      | none =>
        simp only []
        rw [uncleLoop_cons]
        rcases (uncleVerdict_sibling ethash env hashOf block.header.ParentHash
          (knownAncestors hashOf chain block)
          ((pre.map hashOf).reverse ++ seenUncles hashOf chain block) u hsib).1
          with h1 | h1 | h1 <;> rw [h1] <;> exact ⟨_, rfl⟩
  · intro pre post hsplit hlen hpre h1 h2 h3
    have hprelen : pre.length ≤ 2 := by
      have := congrArg List.length hsplit
      simp only [List.length_append, List.length_cons] at this
      omega
    have hpre2 := VerifyUncles_eq_loop hashOf ethash env chain { block with uncles := pre }
      hmode hprelen
    rw [hpre] at hpre2
    have hpre3 : uncleLoop ethash env hashOf block.header.ParentHash
        (knownAncestors hashOf chain block) pre (seenUncles hashOf chain block) = none :=
      hpre2.symm
    rw [VerifyUncles_eq_loop _ _ _ _ _ hmode hlen, hsplit, uncleLoop_append, hpre3]
    simp only []
    rw [uncleLoop_cons, (uncleVerdict_sibling ethash env hashOf block.header.ParentHash
      (knownAncestors hashOf chain block)
      ((pre.map hashOf).reverse ++ seenUncles hashOf chain block) u hsib).2 ?_ h3]
    simp only [List.mem_append, List.mem_reverse, not_or]
    exact ⟨h1, h2⟩

/-- Witness of the amended C15: a block of the example chain whose only uncle is a
sibling of the block is rejected with `errDanglingUncle`. -/
theorem VerifyUncles_sibling_witness :
    exampleEthash.PowMode ≠ Mode.ModeFullFake ∧
    siblingUncle ∈ (blockTwo [siblingUncle]).uncles ∧
    siblingUncle.ParentHash = (blockTwo [siblingUncle]).header.ParentHash ∧
    VerifyUncles exampleHash exampleEthash exampleEnv exampleChain (blockTwo [siblingUncle])
      = some Err.errDanglingUncle :=
  ⟨by decide, by decide, by decide,
    (VerifyUncles_sibling exampleHash exampleEthash exampleEnv exampleChain
      (blockTwo [siblingUncle]) siblingUncle (by decide) (by decide) (by decide)).2
      [] [] rfl (by decide) (by decide) (by decide) (by decide) (by decide)⟩

/-- Counterexample to C16 as stated: the parent of the block is on the example chain
and the only uncle is the header of that parent, yet an engine in `ModeFullFake`
accepts the block; and in normal mode an uncle that is an ancestor, listed after an
uncle with an unknown parent, is not reached: the verdict is `errDanglingUncle`. -/
theorem ancestor_uncle_not_reported :
    exampleChain.GetBlock (blockTwo [parentBlock.header]).header.ParentHash 1 = some parentBlock ∧
    VerifyUncles exampleHash fullFakeEthash exampleEnv exampleChain
      (blockTwo [parentBlock.header]) = none ∧
    exampleEthash.PowMode = Mode.ModeNormal ∧
    parentBlock ∈ collectedAncestors exampleChain (blockTwo [strayUncle, parentBlock.header]) ∧
    exampleHash parentBlock.header
      ∉ seenUncles exampleHash exampleChain (blockTwo [strayUncle, parentBlock.header]) ∧
    VerifyUncles exampleHash exampleEthash exampleEnv exampleChain
      (blockTwo [strayUncle, parentBlock.header]) = some Err.errDanglingUncle := by
  decide

/-- C16, amended. Outside `ModeFullFake`, for every block with one or two uncles: an
uncle whose hash is the hash of one of the up to 7 collected ancestors, in particular
of the parent of the block when the chain returns it, makes `VerifyUncles` return
`errUncleIsAncestor` when the uncle is reached, the uncles before it passing their
checks, and its hash is not in the set of seen uncles: it is neither the hash of the
block, nor the hash of an uncle of a collected ancestor, nor the hash of an earlier
uncle of the block. -/
theorem VerifyUncles_ancestor (hashOf : Header → Hash) (ethash : Ethash) (env : VerifyEnv)
    (chain : ChainReader) (block : Block) (u : Header)
    (hmode : ethash.PowMode ≠ Mode.ModeFullFake)
    (hlen : block.uncles.length ≤ 2) :
    (∀ P rest, block.uncles = u :: rest →
      chain.GetBlock block.header.ParentHash
        ((bigUint64 block.header.Number + 2 ^ 64 - 1) % 2 ^ 64) = some P →
      hashOf u = hashOf P.header →
      hashOf u ∉ seenUncles hashOf chain block →
      VerifyUncles hashOf ethash env chain block = some Err.errUncleIsAncestor) ∧
    (∀ A ∈ collectedAncestors chain block, ∀ pre post, block.uncles = pre ++ u :: post →
      hashOf u = hashOf A.header →
      VerifyUncles hashOf ethash env chain { block with uncles := pre } = none →
      hashOf u ∉ pre.map hashOf →
      hashOf u ∉ seenUncles hashOf chain block →
      VerifyUncles hashOf ethash env chain block = some Err.errUncleIsAncestor) ∧
    (collectedAncestors chain block).length ≤ 7 ∧
    (∀ h, h ∈ seenUncles hashOf chain block ↔
      h = hashOf block.header ∨
      ∃ A ∈ collectedAncestors chain block, ∃ v ∈ A.uncles, hashOf v = h) := by
  have hgen : ∀ A ∈ collectedAncestors chain block, ∀ pre post,
      block.uncles = pre ++ u :: post →
      hashOf u = hashOf A.header →
      VerifyUncles hashOf ethash env chain { block with uncles := pre } = none →
      hashOf u ∉ pre.map hashOf →
      hashOf u ∉ seenUncles hashOf chain block →
      VerifyUncles hashOf ethash env chain block = some Err.errUncleIsAncestor := by
    intro A hA pre post hsplit hhash hpre h1 h2
    have hprelen : pre.length ≤ 2 := by
      have := congrArg List.length hsplit
      simp only [List.length_append, List.length_cons] at this
      omega
    have hpre2 := VerifyUncles_eq_loop hashOf ethash env chain { block with uncles := pre }
      hmode hprelen
    rw [hpre] at hpre2
    have hpre3 : uncleLoop ethash env hashOf block.header.ParentHash
        (knownAncestors hashOf chain block) pre (seenUncles hashOf chain block) = none :=
      hpre2.symm
    have hkey : hashOf u ∈ (knownAncestors hashOf chain block).map Prod.fst := by
      rw [knownAncestors_keys]
      right
      rw [hhash]
      exact List.mem_map.mpr ⟨A, hA, rfl⟩
    rw [VerifyUncles_eq_loop _ _ _ _ _ hmode hlen, hsplit, uncleLoop_append, hpre3]
    simp only []
    rw [uncleLoop_cons, uncleVerdict_ancestor _ _ _ _ _ _ _ ?_ hkey]
    simp only [List.mem_append, List.mem_reverse, not_or]
    exact ⟨h1, h2⟩
  refine ⟨?_, hgen, collectedFrom_length_le chain 7 _ _, seenUncles_mem hashOf chain block⟩
  intro P rest hsplit hget hhash hfresh
  have hP : P ∈ collectedAncestors chain block := by
    unfold collectedAncestors collectedFrom
    rw [hget]
    exact List.mem_cons_self _ _
  have hnone : VerifyUncles hashOf ethash env chain { block with uncles := [] } = none := by
    rw [VerifyUncles_eq_loop _ _ _ _ _ hmode (by simp)]
    rfl
  exact hgen P hP [] rest hsplit hhash hnone (by simp) hfresh

/-- Witness of the amended C16: in normal mode a block of the example chain whose only
uncle is the header of its parent is rejected with `errUncleIsAncestor`. -/
theorem VerifyUncles_ancestor_witness :
    exampleEthash.PowMode ≠ Mode.ModeFullFake ∧
    (blockTwo [parentBlock.header]).uncles.length ≤ 2 ∧
    exampleChain.GetBlock (blockTwo [parentBlock.header]).header.ParentHash
      ((bigUint64 (blockTwo [parentBlock.header]).header.Number + 2 ^ 64 - 1) % 2 ^ 64)
      = some parentBlock ∧
    exampleHash parentBlock.header
      ∉ seenUncles exampleHash exampleChain (blockTwo [parentBlock.header]) ∧
    VerifyUncles exampleHash exampleEthash exampleEnv exampleChain
      (blockTwo [parentBlock.header]) = some Err.errUncleIsAncestor :=
  ⟨by decide, by decide, by decide, by decide,
    (VerifyUncles_ancestor exampleHash exampleEthash exampleEnv exampleChain
      (blockTwo [parentBlock.header]) parentBlock.header (by decide) (by decide)).1
      parentBlock [] rfl (by decide) rfl (by decide)⟩

/-- Counterexample to C17 as stated: an engine in `ModeFullFake` accepts a block with
three uncles. -/
theorem full_fake_accepts_three_uncles :
    fullFakeEthash.PowMode = Mode.ModeFullFake ∧
    (blockTwo [validUncle, siblingUncle, strayUncle]).uncles.length = 3 ∧
    VerifyUncles exampleHash fullFakeEthash exampleEnv exampleChain
      (blockTwo [validUncle, siblingUncle, strayUncle]) = none := by
  decide

/-- C17, amended. Outside `ModeFullFake`, `VerifyUncles` returns the too-many-uncles
error for every block with more than 2 uncles, whatever the chain holds; a block with
0 uncles is accepted in every mode; in `ModeFullFake` every block is accepted. -/
theorem VerifyUncles_count (hashOf : Header → Hash) (ethash : Ethash) (env : VerifyEnv)
    (chain : ChainReader) (block : Block) :
    (ethash.PowMode ≠ Mode.ModeFullFake → block.uncles.length > 2 →
      ∀ chain2 : ChainReader,
        VerifyUncles hashOf ethash env chain2 block = some Err.errTooManyUncles) ∧
    (block.uncles.length = 0 → VerifyUncles hashOf ethash env chain block = none) ∧
    (ethash.PowMode = Mode.ModeFullFake → VerifyUncles hashOf ethash env chain block = none) := by
  refine ⟨?_, ?_, ?_⟩
  · intro hmode h chain2
    unfold VerifyUncles
    rw [if_neg hmode, if_pos (by unfold maxUncles; exact h)]
  · intro h0
    unfold VerifyUncles
    simp [h0, maxUncles]
  · intro hmode
    unfold VerifyUncles
    rw [if_pos hmode]

/-- Witness of the amended C17: the normal-mode engine rejects a block with three
uncles on the example chain, and accepts a block without uncles. -/
theorem VerifyUncles_count_witness :
    exampleEthash.PowMode ≠ Mode.ModeFullFake ∧
    (blockTwo [validUncle, siblingUncle, strayUncle]).uncles.length > 2 ∧
    (blockTwo []).uncles.length = 0 ∧
    VerifyUncles exampleHash exampleEthash exampleEnv exampleChain
      (blockTwo [validUncle, siblingUncle, strayUncle]) = some Err.errTooManyUncles ∧
    VerifyUncles exampleHash exampleEthash exampleEnv exampleChain (blockTwo []) = none :=
  ⟨by decide, by decide, by decide,
    (VerifyUncles_count exampleHash exampleEthash exampleEnv exampleChain
      (blockTwo [validUncle, siblingUncle, strayUncle])).1 (by decide) (by decide) exampleChain,
    (VerifyUncles_count exampleHash exampleEthash exampleEnv exampleChain
      (blockTwo [])).2.1 (by decide)⟩

/-! ## Weight and binding of the gathered members -/

theorem MiningUsers.get?_none_iff_absent (l : MiningUsers) (a : Address) :
    l.get? a = none ↔ a ∉ l.keys := by
  unfold MiningUsers.get? MiningUsers.keys
  simp [List.find?_eq_none]

theorem MiningUsers.get?_after_modify (l : MiningUsers) (a b : Address) (f : MiningUser → MiningUser)
    (hf : ∀ u, (f u).Address = u.Address) :
    (l.modify b f).get? a = if a = b then (l.get? a).map f else l.get? a := by
  induction l with
  | nil => simp [MiningUsers.modify, MiningUsers.get?]
  | cons e rest ih =>
    unfold MiningUsers.modify MiningUsers.get? at ih ⊢
    rw [List.map_cons, List.find?_cons, List.find?_cons]
    by_cases heb : e.Address = b
    · by_cases hea : e.Address = a
      · have hab : a = b := by rw [← hea, heb]
        have hfa : (f e).Address = b := by rw [hf, heb]
        simp [heb, hea, hab, hfa]
      · have hab : ¬ a = b := by rw [← heb]; exact fun h => hea h.symm
        have hfa : ¬ (f e).Address = a := by rw [hf]; exact hea
        rw [if_pos heb, if_neg hab] at *
        simp only [hfa, hea, decide_False]
        exact ih
    · by_cases hea : e.Address = a
      · have hab : ¬ a = b := by rw [← hea]; exact heb
        simp [heb, hea, hab]
      · simp only [heb, hea, ↓reduceIte, decide_False]
        exact ih

theorem MiningUsers.get?_append_singleton (l : MiningUsers) (m : MiningUser) (a : Address) :
    MiningUsers.get? (l ++ [m]) a
      = match l.get? a with
        | some x => some x
        | none => if m.Address = a then some m else none := by
  unfold MiningUsers.get?
  rw [List.find?_append]
  cases List.find? (fun u => decide (u.Address = a)) l with
  | some x => rfl
  | none => by_cases h : m.Address = a <;> simp [List.find?_cons, h]

theorem MiningUsers.get?_Add_other (l : MiningUsers) (a b : Address) (hab : a ≠ b) :
    (l.Add b).get? a = l.get? a := by
  unfold MiningUsers.Add
  split
  · rfl
  split
  · rfl
  · rw [MiningUsers.get?_append_singleton]
    have hba : ¬ b = a := fun h => hab h.symm
    cases l.get? a <;> simp [hba]

theorem MiningUsers.get?_Add_fresh (l : MiningUsers) (a : Address) (hnew : a ∉ l.keys)
    (hz : a ≠ zeroAddress) :
    (l.Add a).get? a
      = some { HasBind := false, Address := a, PoolAddress := zeroAddress, Weight := 1,
               Reward := 0, MortageBalance := 0, CanPocBalance := 0, Child := [] } := by
  unfold MiningUsers.Add
  have hhas : ¬ l.Has a = true := fun h => hnew ((MiningUsers.Has_iff l a).mp h)
  rw [if_neg hhas, if_neg hz, MiningUsers.get?_append_singleton,
    (MiningUsers.get?_none_iff_absent l a).mpr hnew]
  simp

theorem MiningUsers.get?_AddWeightCount (l : MiningUsers) (a b : Address) (c : Int) :
    (l.AddWeightCount b c).get? a
      = if a = b then (l.get? a).map (fun u => { u with Weight := u.Weight + c })
        else l.get? a := by
  rw [← MiningUsers.get?_after_modify l a b (fun u => { u with Weight := u.Weight + c })
    (fun _ => rfl)]
  unfold MiningUsers.AddWeightCount
  split
  · rename_i h
    rw [MiningUsers.modify_of_not_has]
    simpa using h
  · rfl

theorem MiningUsers.get?_SetBindAddr (l : MiningUsers) (a b p : Address) :
    (l.SetBindAddr b p).get? a
      = if a = b then (l.get? a).map (fun u => { u with HasBind := true, PoolAddress := p })
        else l.get? a := by
  rw [← MiningUsers.get?_after_modify l a b (fun u => { u with HasBind := true, PoolAddress := p })
    (fun _ => rfl)]
  unfold MiningUsers.SetBindAddr
  split
  · rename_i h
    rw [MiningUsers.modify_of_not_has]
    simpa using h
  · rfl

theorem MiningUsers.get?_SetMortageBalance (l : MiningUsers) (a b : Address) (x : Int) :
    (l.SetMortageBalance b x).1.get? a
      = if a = b then
          (l.get? a).map (fun u =>
            { u with MortageBalance := x * 120 / 100, CanPocBalance := x * 120 / 100 })
        else l.get? a := by
  rw [← MiningUsers.get?_after_modify l a b (fun u =>
    { u with MortageBalance := x * 120 / 100, CanPocBalance := x * 120 / 100 }) (fun _ => rfl)]
  unfold MiningUsers.SetMortageBalance
  split
  · rename_i h
    rw [MiningUsers.modify_of_not_has]
    simpa using h
  · rfl

theorem pocerBody_get?_other (state : StateDB) (l : MiningUsers) (u : Struct1) (a : Address)
    (h : a ≠ u.UserAddr) : (pocerBody state l u).get? a = l.get? a := by
  unfold pocerBody Struct1.CanGetMaxReward
  simp only []
  split
  · rfl
  · rw [MiningUsers.get?_AddWeightCount, if_neg h,
      MiningUsers.get?_SetMortageBalance, if_neg h]
    split
    · rw [MiningUsers.get?_SetBindAddr, if_neg h,
        MiningUsers.get?_Add_other _ _ _ h]
    · rw [MiningUsers.get?_Add_other _ _ _ h]

theorem pocerBody_get?_fresh (state : StateDB) (l : MiningUsers) (u : Struct1)
    (hnew : u.UserAddr ∉ l.keys) (hz : u.UserAddr ≠ zeroAddress)
    (hcap : state.allPocBalance u.UserAddr < u.MortageBalance * 120 / 100) :
    (pocerBody state l u).get? u.UserAddr = some (pocMember u) := by
  unfold pocerBody Struct1.CanGetMaxReward StateDB.GetAllPocBalance pocMember
  simp only []
  rw [if_neg (by omega)]
  rw [MiningUsers.get?_AddWeightCount, if_pos rfl,
    MiningUsers.get?_SetMortageBalance, if_pos rfl]
  split
  · rename_i hb
    rw [MiningUsers.get?_SetBindAddr, if_pos rfl,
      MiningUsers.get?_Add_fresh _ _ hnew hz]
    simp [hb]
  · rename_i hb
    rw [MiningUsers.get?_Add_fresh _ _ hnew hz]
    simp [hb]

theorem powerBody_get?_other (l : MiningUsers) (u : Struct2) (a : Address)
    (h : a ≠ u.UserAddr) : (powerBody l u).get? a = l.get? a := by
  unfold powerBody
  simp only []
  split
  · rw [MiningUsers.get?_SetBindAddr, if_neg h,
      MiningUsers.get?_AddWeightCount, if_neg h,
      MiningUsers.get?_Add_other _ _ _ h]
  · rw [MiningUsers.get?_AddWeightCount, if_neg h,
      MiningUsers.get?_Add_other _ _ _ h]

theorem powerBody_get?_fresh (l : MiningUsers) (u : Struct2)
    (hnew : u.UserAddr ∉ l.keys) (hz : u.UserAddr ≠ zeroAddress) :
    (powerBody l u).get? u.UserAddr = some (powMember u) := by
  unfold powerBody powMember
  simp only []
  split
  · rename_i hb
    rw [MiningUsers.get?_SetBindAddr, if_pos rfl,
      MiningUsers.get?_AddWeightCount, if_pos rfl,
      MiningUsers.get?_Add_fresh _ _ hnew hz]
    simp [hb]
  · rename_i hb
    rw [MiningUsers.get?_AddWeightCount, if_pos rfl,
      MiningUsers.get?_Add_fresh _ _ hnew hz]
    simp [hb]

theorem MiningUsers.get?_member (l : MiningUsers) (m : MiningUser) (h : l.keys.Nodup)
    (hm : m ∈ l) : l.get? m.Address = some m := by
  induction l with
  | nil => cases hm
  | cons e rest ih =>
    unfold MiningUsers.keys at h
    rw [List.map_cons, List.nodup_cons] at h
    unfold MiningUsers.get?
    rw [List.find?_cons]
    rcases List.mem_cons.mp hm with h1 | h1
    · subst h1
      simp
    · have hne : ¬ e.Address = m.Address := by
        intro he
        apply h.1
        rw [he]
        exact List.mem_map_of_mem _ h1
      simp only [hne, decide_False]
      exact ih h.2 h1

theorem pocerBody_get?_own (state : StateDB) (l : MiningUsers) (u : Struct1)
    (hnew : u.UserAddr ∉ l.keys) :
    (pocerBody state l u).get? u.UserAddr
      = if state.allPocBalance u.UserAddr < u.MortageBalance * 120 / 100 ∧
          u.UserAddr ≠ zeroAddress then some (pocMember u) else none := by
  have hnone := (MiningUsers.get?_none_iff_absent l u.UserAddr).mpr hnew
  by_cases hcap : state.allPocBalance u.UserAddr < u.MortageBalance * 120 / 100
  · by_cases hz : u.UserAddr = zeroAddress
    · rw [if_neg (by simp [hz])]
      have hadd : l.Add u.UserAddr = l := by
        unfold MiningUsers.Add
        split <;> rfl
      unfold pocerBody Struct1.CanGetMaxReward StateDB.GetAllPocBalance
      simp only []
      rw [if_neg (by omega), MiningUsers.get?_AddWeightCount, if_pos rfl,
        MiningUsers.get?_SetMortageBalance, if_pos rfl, hadd]
      split
      · rw [MiningUsers.get?_SetBindAddr, if_pos rfl, hnone]
        rfl
      · rw [hnone]
        rfl
    · rw [if_pos ⟨hcap, hz⟩]
      exact pocerBody_get?_fresh state l u hnew hz hcap
  · rw [if_neg (by intro h; exact hcap h.1)]
    unfold pocerBody Struct1.CanGetMaxReward StateDB.GetAllPocBalance
    simp only []
    rw [if_pos (by omega)]
    exact hnone

theorem powerBody_get?_own (l : MiningUsers) (u : Struct2) (hnew : u.UserAddr ∉ l.keys) :
    (powerBody l u).get? u.UserAddr
      = if u.UserAddr ≠ zeroAddress then some (powMember u) else none := by
  have hnone := (MiningUsers.get?_none_iff_absent l u.UserAddr).mpr hnew
  by_cases hz : u.UserAddr = zeroAddress
  · rw [if_neg (by simp [hz])]
    have hadd : l.Add u.UserAddr = l := by
      unfold MiningUsers.Add
      split <;> rfl
    unfold powerBody
    simp only []
    split
    · rw [MiningUsers.get?_SetBindAddr, if_pos rfl, MiningUsers.get?_AddWeightCount, if_pos rfl,
        hadd, hnone]
      rfl
    · rw [MiningUsers.get?_AddWeightCount, if_pos rfl, hadd, hnone]
      rfl
  · rw [if_pos hz]
    exact powerBody_get?_fresh l u hnew hz

theorem fold_get?_other {α : Type} (body : MiningUsers → α → MiningUsers) (key : α → Address)
    (a : Address) (hbody : ∀ l u, a ≠ key u → (body l u).get? a = l.get? a)
    (us : List α) (l : MiningUsers) (h : ∀ v ∈ us, key v ≠ a) :
    (us.foldl body l).get? a = l.get? a := by
  induction us generalizing l with
  | nil => rfl
  | cons v rest ih =>
    rw [List.foldl_cons, ih _ (fun w hw => h w (List.mem_cons_of_mem _ hw)),
      hbody l v (fun he => h v (List.mem_cons_self _ _) he.symm)]

theorem fold_get?_once {α : Type} (body : MiningUsers → α → MiningUsers) (key : α → Address)
    (expected : α → Option MiningUser)
    (hother : ∀ l u a, a ≠ key u → (body l u).get? a = l.get? a)
    (hown : ∀ l u, key u ∉ l.keys → (body l u).get? (key u) = expected u)
    (us : List α) (l : MiningUsers) (u : α) (hu : u ∈ us)
    (hcount : (us.map key).count (key u) = 1) (hnew : key u ∉ l.keys) :
    (us.foldl body l).get? (key u) = expected u := by
  induction us generalizing l with
  | nil => cases hu
  | cons v rest ih =>
    rw [List.foldl_cons]
    rw [List.map_cons, List.count_cons] at hcount
    by_cases hv : key v = key u
    · have h0 : (rest.map key).count (key u) = 0 := by
        simp only [hv, beq_self_eq_true, ↓reduceIte] at hcount
        omega
      have hrest : ∀ w ∈ rest, key w ≠ key u := by
        intro w hw he
        have := List.count_eq_zero.mp h0
        exact this (by rw [← he]; exact List.mem_map_of_mem _ hw)
      have huv : u = v := by
        rcases List.mem_cons.mp hu with h1 | h1
        · exact h1
        · exact absurd rfl (hrest u h1)
      subst huv
      rw [fold_get?_other body key (key u) (fun l w hne => hother l w (key u) hne) rest _ hrest]
      exact hown l u hnew
    · have hbeq : (key v == key u) = false := by simpa using hv
      simp only [hbeq, Bool.false_eq_true, ↓reduceIte, Nat.add_zero] at hcount
      have hu2 : u ∈ rest := by
        rcases List.mem_cons.mp hu with h1 | h1
        · exact absurd (by rw [h1]) hv
        · exact h1
      apply ih _ hu2 hcount
      rw [← MiningUsers.get?_none_iff_absent, hother l v (key u) (fun he => hv he.symm),
        MiningUsers.get?_none_iff_absent]
      exact hnew

theorem GetAllPowers3_eq_foldl (caller : NUCCaller) :
    GetAllPowers3 caller = (powListing caller).foldl powerBody [] := by
  unfold GetAllPowers3 powListing
  cases caller.PowerCount with
  | none => rfl
  | some c => exact gatherPages_eq_foldl _ _ _ _ _

/-- Counterexample to C18 as stated: a PoC member listed once with no record is
gathered with weight 0, while `max(1, len(records))` is 1. -/
theorem recordless_member_weight_zero :
    pocListing recordlessCaller = [recordlessMember] ∧
    recordlessMember.Records.length = 0 ∧
    (GetAllPocers3 emptyState recordlessCaller).map (fun m => (m.Address, m.Weight))
      = [(recordlessMember.UserAddr, 0)] ∧
    max (1 : Int) (recordlessMember.Records.length : Int) = 1 := by
  decide

/-- C18, amended. For every PoC member gathered by `GetAllPocers3` and every PoW member
gathered by `GetAllPowers3` whose address the registry lists once, the weight of the
member is `len(records)`: it is `max(1, len(records))` when the member has at least
one record and 0 when it has none. The member has `has_bind = true` if and only if
its registry binding address is non-zero, in which case `pool_address` is that
address. -/
theorem gathered_member_weight (state : StateDB) (caller : NUCCaller) :
    (∀ m ∈ GetAllPocers3 state caller, ∀ u ∈ pocListing caller, u.UserAddr = m.Address →
      ((pocListing caller).map (fun v => v.UserAddr)).count u.UserAddr = 1 →
      m.Weight = u.Records.length ∧
      (u.Records ≠ [] → m.Weight = max 1 (u.Records.length : Int)) ∧
      (m.HasBind = true ↔ u.BindPoolAddr ≠ zeroAddress) ∧
      (u.BindPoolAddr ≠ zeroAddress → m.PoolAddress = u.BindPoolAddr)) ∧
    (∀ m ∈ GetAllPowers3 caller, ∀ u ∈ powListing caller, u.UserAddr = m.Address →
      ((powListing caller).map (fun v => v.UserAddr)).count u.UserAddr = 1 →
      m.Weight = u.Records.length ∧
      (u.Records ≠ [] → m.Weight = max 1 (u.Records.length : Int)) ∧
      (m.HasBind = true ↔ u.BindPoolAddr ≠ zeroAddress) ∧
      (u.BindPoolAddr ≠ zeroAddress → m.PoolAddress = u.BindPoolAddr)) := by
  constructor
  · intro m hm u hu haddr hcount
    have hget := MiningUsers.get?_member _ m (Gathered.GetAllPocers3 state caller).1 hm
    rw [← haddr, GetAllPocers3_eq_foldl,
      fold_get?_once (pocerBody state) (fun v => v.UserAddr) _
        (fun l v a hne => pocerBody_get?_other state l v a hne)
        (fun l v hnew => pocerBody_get?_own state l v hnew)
        (pocListing caller) [] u hu hcount (by simp [MiningUsers.keys])] at hget
    split at hget
    · have hm2 : m = pocMember u := (Option.some.inj hget).symm
      subst hm2
      have hlen : (0 : Int) < u.Records.length ∨ u.Records = [] := by
        cases hr : u.Records with
        | nil => right; rfl
        | cons x xs => left; simp
      refine ⟨by simp only [pocMember]; omega, ?_, by simp [pocMember], ?_⟩
      · intro hne
        have hpos : (0 : Int) < u.Records.length := by
          rcases hlen with h1 | h1
          · exact h1
          · exact absurd h1 hne
        simp only [pocMember]
        omega
      · intro hb
        simp [pocMember, hb]
    · cases hget
  · intro m hm u hu haddr hcount
    have hget := MiningUsers.get?_member _ m (Gathered.GetAllPowers3 caller).1 hm
    rw [← haddr, GetAllPowers3_eq_foldl,
      fold_get?_once powerBody (fun v => v.UserAddr) _
        (fun l v a hne => powerBody_get?_other l v a hne)
        (fun l v hnew => powerBody_get?_own l v hnew)
        (powListing caller) [] u hu hcount (by simp [MiningUsers.keys])] at hget
    split at hget
    · have hm2 : m = powMember u := (Option.some.inj hget).symm
      subst hm2
      have hlen : (0 : Int) < u.Records.length ∨ u.Records = [] := by
        cases hr : u.Records with
        | nil => right; rfl
        | cons x xs => left; simp
      refine ⟨by simp only [powMember]; omega, ?_, by simp [powMember], ?_⟩
      · intro hne
        have hpos : (0 : Int) < u.Records.length := by
          rcases hlen with h1 | h1
          · exact h1
          · exact absurd h1 hne
        simp only [powMember]
        omega
      · intro hb
        simp [powMember, hb]
    · cases hget

/-- Witness of the amended C18: the PoC member of the example registry, listed once
with one record and bound to the pool `0x..03`. -/
theorem gathered_member_weight_witness :
    pocMember listedPocer ∈ GetAllPocers3 emptyState unregisteredPoolCaller ∧
    listedPocer ∈ pocListing unregisteredPoolCaller ∧
    ((pocListing unregisteredPoolCaller).map (fun v => v.UserAddr)).count listedPocer.UserAddr
      = 1 ∧
    (pocMember listedPocer).Weight = 1 ∧
    ((pocMember listedPocer).HasBind = true ↔ listedPocer.BindPoolAddr ≠ zeroAddress) :=
  ⟨by decide, by decide, by decide,
    ((gathered_member_weight emptyState unregisteredPoolCaller).1 (pocMember listedPocer)
      (by decide) listedPocer (by decide) rfl (by decide)).1,
    ((gathered_member_weight emptyState unregisteredPoolCaller).1 (pocMember listedPocer)
      (by decide) listedPocer (by decide) rfl (by decide)).2.2.1⟩

/-! ## The reward ratio -/

theorem bigUint64_of_small (n : Nat) (h : n < 2 ^ 63) : bigUint64 (n : Int) = n := by
  unfold bigUint64
  simp only [Int.natAbs_ofNat]
  omega

/-- Counterexample to C19 as stated: with the registry ratio 1 the PoW base reward is
returned unchanged, not halved; and at block 10000 the ratio 25 is clamped, so the
base reward is returned unchanged, not divided by `2^25`. -/
theorem ratio_one_and_block_10000 :
    GetRewardByType3 PowBlockReward { zeroHeader with Number := 20000 }
      { emptyCaller with GetRewardRatio := some 1 } = PowBlockReward ∧
    Int.fdiv PowBlockReward (2 ^ 1) = 1000000000000000000 ∧
    GetRewardByType3 PowBlockReward { zeroHeader with Number := 10000 }
      { emptyCaller with GetRewardRatio := some 25 } = PowBlockReward ∧
    Int.fdiv PowBlockReward (2 ^ 25) = 59604644775 := by
  decide

/-- C19, amended. For every class base reward `B`, every block number `n` and every
registry ratio `r` below `2^63` returned by `GetRewardRatio`, with `r' = 0` when
`r = 25` and `n <= 10000` and `r' = r` in every other case: `GetRewardByType3` returns
`floor(B / 2^r')` when `r' > 1` and `B` when `r' <= 1`. So the ratio 1 leaves the
reward unchanged, and at `n = 10000` the ratio 25 is clamped. -/
theorem GetRewardByType3_spec (B : Int) (header : Header) (caller : NUCCaller) (r : Int)
    (hr : caller.GetRewardRatio = some r) (h0 : 0 ≤ r) (h1 : r < 2 ^ 63) :
    (r = 25 ∧ header.Number ≤ 10000 → GetRewardByType3 B header caller = B) ∧
    (r ≤ 1 → GetRewardByType3 B header caller = B) ∧
    (1 < r → ¬ (r = 25 ∧ header.Number ≤ 10000) →
      GetRewardByType3 B header caller = Int.fdiv B (2 ^ r.toNat)) := by
  obtain ⟨n, rfl⟩ := Int.eq_ofNat_of_zero_le h0
  have hn : n < 2 ^ 63 := by
    have : (n : Int) < 2 ^ 63 := h1
    norm_num at this ⊢
    exact_mod_cast this
  unfold GetRewardByType3
  simp only [hr, bigUint64_of_small n hn]
  refine ⟨?_, ?_, ?_⟩
  · rintro ⟨h25, hnum⟩
    have h25n : n = 25 := by exact_mod_cast h25
    have hc : (if n = 25 ∧ header.Number ≤ 10000 then 0 else n) = 0 := if_pos ⟨h25n, hnum⟩
    rw [hc]
    rfl
  · intro hle
    have hle2 : n ≤ 1 := by exact_mod_cast hle
    have hc : ¬ (if n = 25 ∧ header.Number ≤ 10000 then 0 else n) > 1 := by
      split <;> omega
    rw [if_neg hc]
  · intro hlt hnot
    have hlt2 : 1 < n := by exact_mod_cast hlt
    have hnot2 : ¬ (n = 25 ∧ header.Number ≤ 10000) := by
      rintro ⟨h25, hnum⟩
      exact hnot ⟨by exact_mod_cast h25, hnum⟩
    have hc : (if n = 25 ∧ header.Number ≤ 10000 then 0 else n) = n := if_neg hnot2
    rw [hc, if_pos hlt2]
    have hto : toInt64 n = (n : Int) := toInt64_of_le n (by omega)
    unfold bigExp2
    rw [hto, Int.fdiv_eq_ediv _ (by positivity)]

/-- Witness of the amended C19: the ratio 2 at block 20000 quarters the PoW base
reward. -/
theorem GetRewardByType3_spec_witness :
    (0 : Int) ≤ 2 ∧ (2 : Int) < 2 ^ 63 ∧ (1 : Int) < 2 ∧
    GetRewardByType3 PowBlockReward { zeroHeader with Number := 20000 }
      { emptyCaller with GetRewardRatio := some 2 } = Int.fdiv PowBlockReward (2 ^ (2 : Int).toNat) :=
  ⟨by decide, by decide, by decide,
    (GetRewardByType3_spec PowBlockReward { zeroHeader with Number := 20000 }
      { emptyCaller with GetRewardRatio := some 2 } 2 rfl (by decide) (by decide)).2.2
      (by decide) (by decide)⟩

/-! ## The shares of the fee pool -/

theorem payBody_journal (powFee : Int) (st : StateDB) (acc : Int)
    (e : Address × CoinbaseUserReward) :
    (payBody powFee (st, acc) e).1.journal = st.journal ++ payOps powFee e := by
  have hr : (if e.2.PocReward > 0 then e.2.PocReward else 0)
      + (if e.2.PowReward > 0 then e.2.PowReward else 0)
      + (if e.2.PoolReward > 0 then e.2.PoolReward else 0) + powFee = rewardOf powFee e := by
    unfold rewardOf
    have h1 : (if e.2.PocReward > 0 then e.2.PocReward else 0) = max e.2.PocReward 0 := by
      split <;> omega
    have h2 : (if e.2.PowReward > 0 then e.2.PowReward else 0) = max e.2.PowReward 0 := by
      split <;> omega
    have h3 : (if e.2.PoolReward > 0 then e.2.PoolReward else 0) = max e.2.PoolReward 0 := by
      split <;> omega
    rw [h1, h2, h3]
  unfold payBody payOps
  simp only [hr]
  by_cases hp : e.2.PocReward > 0 <;> by_cases hw : rewardOf powFee e > 0 <;>
    simp [hp, hw, StateDB.AddBalance, StateDB.AddAllPocBalance]

theorem payLoop_journal (powFee : Int) (es : CoinbaseTxs) (st : StateDB) (acc : Int) :
    (es.foldl (payBody powFee) (st, acc)).1.journal = st.journal ++ payJournal powFee es := by
  induction es generalizing st acc with
  | nil => simp [payJournal]
  | cons e rest ih =>
    have hpair : payBody powFee (st, acc) e
        = ((payBody powFee (st, acc) e).1, (payBody powFee (st, acc) e).2) := rfl
    rw [List.foldl_cons, hpair, ih, payBody_journal, payJournal, List.append_assoc]

theorem balanceCalls_append (j1 j2 : List StateOp) (a : Address) :
    balanceCalls (j1 ++ j2) a = balanceCalls j1 a ++ balanceCalls j2 a := by
  unfold balanceCalls
  rw [List.filterMap_append]

theorem balanceCalls_payOps (powFee : Int) (e : Address × CoinbaseUserReward) (a : Address) :
    balanceCalls (payOps powFee e) a
      = if e.1 = a ∧ rewardOf powFee e > 0 then [rewardOf powFee e] else [] := by
  unfold payOps balanceCalls
  by_cases hp : e.2.PocReward > 0 <;> by_cases hw : rewardOf powFee e > 0 <;>
    by_cases ha : e.1 = a <;> simp [hp, hw, ha]

theorem balanceCalls_sinkOps (paid teamFee : Int) (a : Address) (ha : a ≠ DefaultCoinbaseAddr) :
    balanceCalls (sinkOps paid teamFee) a = [] := by
  have hne : ¬ DefaultCoinbaseAddr = a := fun h => ha h.symm
  unfold sinkOps balanceCalls
  by_cases h1 : paid < FrontierBlockReward <;> by_cases h2 : teamFee > 0 <;>
    simp [h1, h2, hne]

theorem balanceCalls_payJournal (powFee : Int) (es : CoinbaseTxs) (a : Address)
    (h : es.keys.Nodup) :
    balanceCalls (payJournal powFee es) a
      = match es.get? a with
        | some r => if rewardOf powFee (a, r) > 0 then [rewardOf powFee (a, r)] else []
        | none => [] := by
  induction es with
  | nil => rfl
  | cons e rest ih =>
    unfold CoinbaseTxs.keys at h
    rw [List.map_cons, List.nodup_cons] at h
    rw [payJournal, balanceCalls_append, balanceCalls_payOps, ih h.2]
    by_cases hea : e.1 = a
    · have hnone : CoinbaseTxs.get? rest a = none :=
        (CoinbaseTxs.get?_eq_none_iff rest a).mpr (by rw [← hea]; exact h.1)
      have hget : CoinbaseTxs.get? (e :: rest) a = some e.2 := by
        simp [CoinbaseTxs.get?, List.find?_cons, hea]
      rw [hnone, hget]
      subst hea
      by_cases hw : rewardOf powFee e > 0 <;> simp [hw]
    · have hget : CoinbaseTxs.get? (e :: rest) a = CoinbaseTxs.get? rest a := by
        simp [CoinbaseTxs.get?, List.find?_cons, hea]
      rw [hget]
      simp [hea]

theorem MiningUsers.Add_no_zero (l : MiningUsers) (a : Address)
    (h : zeroAddress ∉ l.keys) : zeroAddress ∉ (l.Add a).keys := by
  rw [MiningUsers.Add_keys]
  split
  · exact h
  · rename_i hn
    rw [not_or] at hn
    intro hm
    rcases List.mem_append.mp hm with h1 | h1
    · exact h h1
    · simp only [List.mem_singleton] at h1
      exact hn.2 h1.symm

theorem pocers_no_zero (state : StateDB) (caller : NUCCaller) :
    zeroAddress ∉ (GetAllPocers3 state caller).keys := by
  rw [GetAllPocers3_eq_foldl, pocers_keys_iff]
  rintro (h | ⟨_, _, _, h2, _⟩)
  · cases h
  · exact h2 rfl

theorem powers_no_zero (caller : NUCCaller) : zeroAddress ∉ (GetAllPowers3 caller).keys := by
  rw [GetAllPowers3_eq_foldl]
  apply foldl_invariant (fun l : MiningUsers => zeroAddress ∉ l.keys) powerBody
  · intro l u hl
    unfold powerBody
    simp only []
    split
    · rw [MiningUsers.SetBindAddr_keys, MiningUsers.AddWeightCount_keys]
      exact MiningUsers.Add_no_zero l _ hl
    · rw [MiningUsers.AddWeightCount_keys]
      exact MiningUsers.Add_no_zero l _ hl
  · simp [MiningUsers.keys]

theorem poolers_no_zero (caller : NUCCaller) : zeroAddress ∉ (GetAllPoolers3 caller).keys := by
  unfold GetAllPoolers3
  cases caller.PoolerCount with
  | none => simp [MiningUsers.keys]
  | some c =>
    simp only []
    rw [gatherPages_eq_foldl]
    apply foldl_invariant (fun l : MiningUsers => zeroAddress ∉ l.keys) poolerBody
    · intro l u hl
      exact MiningUsers.Add_no_zero l _ hl
    · simp [MiningUsers.keys]

theorem NUCReward4_keys_iff (ord : RangeOrder) (header : Header) (state : StateDB)
    (caller : NUCCaller) (a : Address) :
    a ∈ (NUCReward4 ord header state caller).keys ↔
      a ∈ (GetAllPocers3 state caller).keys ∨ a ∈ (GetAllPowers3 caller).keys ∨
        a ∈ (GetAllPoolers3 caller).keys := by
  rw [← NUCReward4_isSome ord header state caller a]
  have h := CoinbaseTxs.get?_eq_none_iff (NUCReward4 ord header state caller) a
  cases hg : (NUCReward4 ord header state caller).get? a with
  | none =>
    rw [hg] at h
    simp only [Option.isSome_none, Bool.false_eq_true, iff_false]
    exact h.mp rfl
  | some r =>
    rw [hg] at h
    simp only [Option.isSome_some, iff_true]
    by_contra hn
    exact absurd (h.mpr hn) (by simp)

theorem accumulateRewards_journal (ord : RangeOrder) (caller : NUCCaller) (state : StateDB)
    (header : Header) (uncles : List Header) (txs : List Transaction) :
    (accumulateRewards ord caller state header uncles txs).state.journal
      = (feeLoops state header uncles txs).1.journal
        ++ (payJournal (powFeeShare (feeLoops state header uncles txs).2
              (NUCReward4 ord header state caller))
            (ord.records 6 (NUCReward4 ord header state caller))
          ++ sinkOps
            (((ord.records 6 (NUCReward4 ord header state caller)).map
              (rewardOf (powFeeShare (feeLoops state header uncles txs).2
                (NUCReward4 ord header state caller)))).sum)
            (teamFeeOf (feeLoops state header uncles txs).2)) := by
  have hp := payLoop_spec (powFeeShare (feeLoops state header uncles txs).2
      (NUCReward4 ord header state caller))
    (ord.records 6 (NUCReward4 ord header state caller)) (feeLoops state header uncles txs).1 0
  have hj := payLoop_journal (powFeeShare (feeLoops state header uncles txs).2
      (NUCReward4 ord header state caller))
    (ord.records 6 (NUCReward4 ord header state caller)) (feeLoops state header uncles txs).1 0
  rw [accumulateRewards_state]
  rw [hp.1, Int.zero_add]
  unfold sinkOps
  split <;> split <;> simp [StateDB.AddBalance, hj]

/-- Counterexample to C20 as stated: a registry with one unbound PoC member and one
pool operator to which no member is bound. The union has 2 addresses, but in a block
without transactions only the PoC member receives a reward, and the pool operator,
whose three amounts and whose share are 0, gets no `AddBalance` call at all; in a
block with one transaction the fee pool is divided by 2, and the pool operator, which
has no class reward, is credited a share. -/
theorem idle_pool_counted :
    NUCReward4 insertionOrder zeroHeader emptyState idlePoolCaller
      = [(Address.ofByte 1, { PoolReward := 0, PocReward := 5000000000000000000,
                              PowReward := 0, PostReward := 0 }),
         (Address.ofByte 3, { PoolReward := 0, PocReward := 0, PowReward := 0,
                              PostReward := 0 })] ∧
    balanceCalls (accumulateRewards insertionOrder idlePoolCaller emptyState zeroHeader [] []
      ).state.journal (Address.ofByte 1) = [5000000000000000000] ∧
    balanceCalls (accumulateRewards insertionOrder idlePoolCaller emptyState zeroHeader [] []
      ).state.journal (Address.ofByte 3) = [] ∧
    powFeeOf (feeLoops emptyState zeroHeader [] [⟨1000000000, 21000⟩]).2 = 13965000000000 ∧
    balanceCalls (accumulateRewards insertionOrder idlePoolCaller emptyState zeroHeader []
      [⟨1000000000, 21000⟩]).state.journal (Address.ofByte 3) = [6982500000000] := by
  decide

/-- C20, amended. In `accumulateRewards`, with `n` the number of coinbase records, which
is the number of distinct addresses in the union of the PoC, PoW and Pool class maps
whether or not a class reward of the address is positive, the share of the fee pool
is `floor(pow_fee / n)` when `n > 0`. For each address of the union the total is
`max(poc, 0) + max(pow, 0) + max(pool, 0) + share`, which is
`poc + pow + pool + share` when no recorded amount is negative; after the uncle and
transaction loops the address gets exactly one `AddBalance` call, of the total, when
the total is positive, and no call otherwise. When the union is empty the only calls
are the credits to the default coinbase of `FrontierBlockReward` and of the team fee:
no share of `pow_fee` is credited to anyone. -/
theorem pow_fee_shares (ord : RangeOrder) (caller : NUCCaller) (state : StateDB)
    (header : Header) (uncles : List Header) (txs : List Transaction)
    (ctxs : CoinbaseTxs) (share : Int)
    (hctxs : ctxs = NUCReward4 ord header state caller)
    (hshare : share = powFeeShare (feeLoops state header uncles txs).2 ctxs) :
    ctxs.keys.Nodup ∧
    (∀ a, a ∈ ctxs.keys ↔
      a ∈ (GetAllPocers3 state caller).keys ∨ a ∈ (GetAllPowers3 caller).keys ∨
        a ∈ (GetAllPoolers3 caller).keys) ∧
    (0 < ctxs.length →
      share = Int.fdiv (powFeeOf (feeLoops state header uncles txs).2) (ctxs.length : Int)) ∧
    (∃ tail, (accumulateRewards ord caller state header uncles txs).state.journal
        = (feeLoops state header uncles txs).1.journal ++ tail ∧
      (∀ e ∈ ctxs, balanceCalls tail e.1
        = if rewardOf share e > 0 then [rewardOf share e] else []) ∧
      (ctxs = [] →
        tail = sinkOps 0 (teamFeeOf (feeLoops state header uncles txs).2) ∧
        ∀ op ∈ tail, ∃ x, op = StateOp.addBalance DefaultCoinbaseAddr x)) ∧
    (∀ e ∈ ctxs,
      rewardOf share e
        = max e.2.PocReward 0 + max e.2.PowReward 0 + max e.2.PoolReward 0 + share ∧
      (0 ≤ e.2.PocReward → 0 ≤ e.2.PowReward → 0 ≤ e.2.PoolReward →
        rewardOf share e = e.2.PocReward + e.2.PowReward + e.2.PoolReward + share)) := by
  subst hctxs
  subst hshare
  have hnd := NUCReward4_keys_nodup ord header state caller
  have hperm := ord.records_perm 6 (NUCReward4 ord header state caller)
  have hnd6 : (ord.records 6 (NUCReward4 ord header state caller)).keys.Nodup := by
    unfold CoinbaseTxs.keys at hnd ⊢
    exact (hperm.map Prod.fst).nodup_iff.mpr hnd
  refine ⟨hnd, NUCReward4_keys_iff ord header state caller, ?_, ?_, ?_⟩
  · intro hpos
    unfold powFeeShare
    rw [if_pos hpos, Int.fdiv_eq_ediv _ (Int.ofNat_nonneg _)]
  · refine ⟨_, accumulateRewards_journal ord caller state header uncles txs, ?_, ?_⟩
    · intro e he
      have hkey : e.1 ∈ (NUCReward4 ord header state caller).keys :=
        List.mem_map_of_mem _ he
      have hz : e.1 ≠ DefaultCoinbaseAddr := by
        intro hzero
        rw [NUCReward4_keys_iff, hzero] at hkey
        rcases hkey with h1 | h1 | h1
        · exact pocers_no_zero state caller h1
        · exact powers_no_zero caller h1
        · exact poolers_no_zero caller h1
      have he6 : e ∈ ord.records 6 (NUCReward4 ord header state caller) :=
        hperm.mem_iff.mpr he
      rw [balanceCalls_append, balanceCalls_sinkOps _ _ _ hz, List.append_nil,
        balanceCalls_payJournal _ _ _ hnd6, CoinbaseTxs.get?_of_mem _ e hnd6 he6]
    · intro hnil
      have h6 : ord.records 6 (NUCReward4 ord header state caller) = [] := by
        apply List.eq_nil_of_length_eq_zero
        rw [hperm.length_eq, hnil]
        rfl
      rw [h6]
      refine ⟨by simp [payJournal], ?_⟩
      intro op hop
      simp only [payJournal, List.map_nil, List.sum_nil, List.nil_append, sinkOps,
        List.mem_append] at hop
      rcases hop with h1 | h1
      · split at h1
        · simp only [List.mem_singleton] at h1
          exact ⟨_, h1⟩
        · cases h1
      · split at h1
        · simp only [List.mem_singleton] at h1
          exact ⟨_, h1⟩
        · cases h1
  · intro e _
    refine ⟨rfl, ?_⟩
    intro h1 h2 h3
    unfold rewardOf
    omega

/-- Witness of the amended C20: the registry with a bound PoC member, a bound PoW
member and their pool operator, in a block with one transaction. -/
theorem pow_fee_shares_witness :
    0 < (NUCReward4 insertionOrder zeroHeader emptyState pooledCaller).length ∧
    powFeeShare (feeLoops emptyState zeroHeader [] [⟨1000000000, 21000⟩]).2
        (NUCReward4 insertionOrder zeroHeader emptyState pooledCaller)
      = Int.fdiv (powFeeOf (feeLoops emptyState zeroHeader [] [⟨1000000000, 21000⟩]).2)
          ((NUCReward4 insertionOrder zeroHeader emptyState pooledCaller).length : Int) :=
  ⟨by decide,
    (pow_fee_shares insertionOrder pooledCaller emptyState zeroHeader []
      [⟨1000000000, 21000⟩] _ _ rfl rfl).2.2.1 (by decide)⟩

/-! ## The credits to the default coinbase -/

theorem feeLoops_no_uncles (state : StateDB) (header : Header) (txs : List Transaction) :
    (feeLoops state header [] txs).1 = state := rfl

theorem balanceCalls_sinkOps_default (paid teamFee : Int) :
    balanceCalls (sinkOps paid teamFee) DefaultCoinbaseAddr
      = (if paid < FrontierBlockReward then [FrontierBlockReward - paid] else [])
        ++ (if teamFee > 0 then [teamFee] else []) := by
  unfold sinkOps balanceCalls
  by_cases h1 : paid < FrontierBlockReward <;> by_cases h2 : teamFee > 0 <;> simp [h1, h2]

theorem totalCredits_payJournal (powFee : Int) (es : CoinbaseTxs) :
    totalCredits (payJournal powFee es) = (es.map (fun e => max (rewardOf powFee e) 0)).sum := by
  induction es with
  | nil => rfl
  | cons e rest ih =>
    unfold totalCredits at ih ⊢
    rw [payJournal, List.map_append, List.sum_append, ih, List.map_cons, List.sum_cons]
    congr 1
    unfold payOps
    by_cases hp : e.2.PocReward > 0 <;> by_cases hw : rewardOf powFee e > 0 <;>
      simp [hp, hw, StateOp.credit] <;> omega

theorem sum_max_of_nonneg (powFee : Int) (es : CoinbaseTxs) (h : 0 ≤ powFee) :
    (es.map (fun e => max (rewardOf powFee e) 0)).sum = (es.map (rewardOf powFee)).sum := by
  congr 1
  apply List.map_congr_left
  intro e _
  have := rewardOf_nonneg powFee e h
  omega

theorem gatherPages_zero {α : Type} (fetch : Int → Int → Option (List α))
    (body : MiningUsers → α → MiningUsers) (page : Nat) (l : MiningUsers) :
    gatherPages fetch body (pageCount (bigUint64 0)) page l = l := rfl

theorem NUCReward4_empty_registry (ord : RangeOrder) (header : Header) (state : StateDB)
    (caller : NUCCaller) (h1 : caller.PocerCount = some 0) (h2 : caller.PowerCount = some 0)
    (h3 : caller.PoolerCount = some 0) : NUCReward4 ord header state caller = [] := by
  have hpoc : GetAllPocers3 state caller = [] := by
    unfold GetAllPocers3; rw [h1]; rfl
  have hpow : GetAllPowers3 caller = [] := by
    unfold GetAllPowers3; rw [h2]; rfl
  have hpool : GetAllPoolers3 caller = [] := by
    unfold GetAllPoolers3; rw [h3]; rfl
  have hkeys : ∀ a, a ∉ (NUCReward4 ord header state caller).keys := by
    intro a ha
    rw [NUCReward4_keys_iff, hpoc, hpow, hpool] at ha
    simp [MiningUsers.keys] at ha
  cases hc : NUCReward4 ord header state caller with
  | nil => rfl
  | cons e rest =>
    exfalso
    apply hkeys e.1
    rw [hc]
    simp [CoinbaseTxs.keys]

/-- C21. In `accumulateRewards` with no uncles and non-negative gas prices, with `paid`
the sum of the per-address rewards (class rewards plus `pow_fee` shares), which is the
sum of the amounts credited by the loop over the records: the calls of `AddBalance`
for the default coinbase are one of `FrontierBlockReward - paid` if
`paid < FrontierBlockReward` (none for the shortfall otherwise), then one of
`team_fee` if `team_fee > 0`. With an empty registry (the three counts 0) the octets
written to the header and the octets saved are empty and the default coinbase is
credited `FrontierBlockReward + team_fee` in all. -/
theorem sink_credits (ord : RangeOrder) (caller : NUCCaller) (state : StateDB)
    (header : Header) (txs : List Transaction) (ctxs : CoinbaseTxs) (share paid teamFee : Int)
    (hprice : ∀ tx ∈ txs, 0 ≤ tx.GasPrice)
    (hctxs : ctxs = NUCReward4 ord header state caller)
    (hshare : share = powFeeShare (feeLoops state header [] txs).2 ctxs)
    (hpaid : paid = paidTotal share ctxs)
    (hteam : teamFee = teamFeeOf (feeLoops state header [] txs).2) :
    balanceCalls (accumulateRewards ord caller state header [] txs).state.journal
        DefaultCoinbaseAddr
      = balanceCalls state.journal DefaultCoinbaseAddr
        ++ ((if paid < FrontierBlockReward then [FrontierBlockReward - paid] else [])
          ++ (if teamFee > 0 then [teamFee] else [])) ∧
    paid = totalCredits (payJournal share (ord.records 6 ctxs)) ∧
    (caller.PocerCount = some 0 → caller.PowerCount = some 0 → caller.PoolerCount = some 0 →
      (accumulateRewards ord caller state header [] txs).header.CoinbaseTxs = [] ∧
      (accumulateRewards ord caller state header [] txs).saved.2 = [] ∧
      paid = 0 ∧
      (balanceCalls (accumulateRewards ord caller state header [] txs).state.journal
          DefaultCoinbaseAddr).sum
        = (balanceCalls state.journal DefaultCoinbaseAddr).sum
          + (FrontierBlockReward + teamFee)) := by
  subst hctxs hshare hpaid hteam
  have hfee : 0 ≤ (feeLoops state header [] txs).2 :=
    (feeLoops_spec state header [] txs).2.2.2 hprice
  have hshare0 := powFeeShare_nonneg (feeLoops state header [] txs).2
    (NUCReward4 ord header state caller) hfee
  have hperm := ord.records_perm 6 (NUCReward4 ord header state caller)
  have hnd := NUCReward4_keys_nodup ord header state caller
  have hnd6 : (ord.records 6 (NUCReward4 ord header state caller)).keys.Nodup := by
    unfold CoinbaseTxs.keys at hnd ⊢
    exact (hperm.map Prod.fst).nodup_iff.mpr hnd
  have hsum : ((ord.records 6 (NUCReward4 ord header state caller)).map
      (rewardOf (powFeeShare (feeLoops state header [] txs).2
        (NUCReward4 ord header state caller)))).sum
      = paidTotal (powFeeShare (feeLoops state header [] txs).2
        (NUCReward4 ord header state caller)) (NUCReward4 ord header state caller) := by
    unfold paidTotal
    exact (hperm.map _).sum_eq
  have hzero : DefaultCoinbaseAddr ∉ (ord.records 6 (NUCReward4 ord header state caller)).keys := by
    intro hmem
    have hmem2 : DefaultCoinbaseAddr ∈ (NUCReward4 ord header state caller).keys := by
      unfold CoinbaseTxs.keys at hmem ⊢
      exact (hperm.map Prod.fst).mem_iff.mp hmem
    rw [NUCReward4_keys_iff] at hmem2
    rcases hmem2 with h1 | h1 | h1
    · exact pocers_no_zero state caller h1
    · exact powers_no_zero caller h1
    · exact poolers_no_zero caller h1
  have hcalls : balanceCalls (accumulateRewards ord caller state header [] txs).state.journal
        DefaultCoinbaseAddr
      = balanceCalls state.journal DefaultCoinbaseAddr
        ++ ((if paidTotal (powFeeShare (feeLoops state header [] txs).2
                (NUCReward4 ord header state caller)) (NUCReward4 ord header state caller)
              < FrontierBlockReward then
            [FrontierBlockReward - paidTotal (powFeeShare (feeLoops state header [] txs).2
                (NUCReward4 ord header state caller)) (NUCReward4 ord header state caller)]
            else [])
          ++ (if teamFeeOf (feeLoops state header [] txs).2 > 0 then
            [teamFeeOf (feeLoops state header [] txs).2] else [])) := by
    rw [accumulateRewards_journal, feeLoops_no_uncles, balanceCalls_append, balanceCalls_append,
      balanceCalls_payJournal _ _ _ hnd6, (CoinbaseTxs.get?_eq_none_iff _ _).mpr hzero,
      balanceCalls_sinkOps_default, hsum]
    rfl
  refine ⟨hcalls, ?_, ?_⟩
  · rw [totalCredits_payJournal, sum_max_of_nonneg _ _ hshare0, hsum]
  · intro h1 h2 h3
    have hnil := NUCReward4_empty_registry ord header state caller h1 h2 h3
    have hnil2 := NUCReward4_empty_registry ord header (feeLoops state header [] txs).1 caller
      h1 h2 h3
    have hteam0 : 0 ≤ teamFeeOf (feeLoops state header [] txs).2 := by
      unfold teamFeeOf
      exact Int.ediv_nonneg (by positivity) (by norm_num)
    have henc : ∀ site, CoinbaseTxs.Encode ord site [] = [] := by
      intro site
      rw [Encode_eq_concat]
      have : ord.records site [] = [] := List.perm_nil.mp (ord.records_perm site [])
      rw [this]
      rfl
    have hpaid0 : paidTotal (powFeeShare (feeLoops state header [] txs).2
        (NUCReward4 ord header state caller)) (NUCReward4 ord header state caller) = 0 := by
      rw [hnil]; rfl
    refine ⟨?_, ?_, hpaid0, ?_⟩
    · show CoinbaseTxs.Encode ord 7 (NUCReward4 ord header (feeLoops state header [] txs).1 caller)
        = []
      rw [hnil2, henc]
    · show CoinbaseTxs.Encode ord 8 (NUCReward4 ord header (feeLoops state header [] txs).1 caller)
        = []
      rw [hnil2, henc]
    · rw [hcalls, hpaid0, List.sum_append]
      have hbr : (0 : Int) < FrontierBlockReward := by unfold FrontierBlockReward; norm_num
      rw [if_pos hbr]
      split
      · simp
      · have : teamFeeOf (feeLoops state header [] txs).2 = 0 := by omega
        simp [this]

/-- Witness of C21: the empty registry and one transaction of 21000 gas at 1 Gwei. -/
theorem sink_credits_witness :
    (∀ tx ∈ [(⟨1000000000, 21000⟩ : Transaction)], 0 ≤ tx.GasPrice) ∧
    emptyCaller.PocerCount = some 0 ∧
    (accumulateRewards insertionOrder emptyCaller emptyState zeroHeader []
      [⟨1000000000, 21000⟩]).header.CoinbaseTxs = [] ∧
    (balanceCalls (accumulateRewards insertionOrder emptyCaller emptyState zeroHeader []
        [⟨1000000000, 21000⟩]).state.journal DefaultCoinbaseAddr).sum
      = (balanceCalls emptyState.journal DefaultCoinbaseAddr).sum
        + (FrontierBlockReward
          + teamFeeOf (feeLoops emptyState zeroHeader [] [⟨1000000000, 21000⟩]).2) :=
  ⟨by decide, rfl,
    ((sink_credits insertionOrder emptyCaller emptyState zeroHeader [⟨1000000000, 21000⟩]
      _ _ _ _ (by decide) rfl rfl rfl rfl).2.2 rfl rfl rfl).1,
    ((sink_credits insertionOrder emptyCaller emptyState zeroHeader [⟨1000000000, 21000⟩]
      _ _ _ _ (by decide) rfl rfl rfl rfl).2.2 rfl rfl rfl).2.2.2⟩

/-! ## Registry errors in the gatherers -/

theorem scanPages_until_error {α : Type} (fetch : Int → Int → Option (List α))
    (pages : Nat → List α) (k n start : Nat) (hk : k < n)
    (hok : ∀ i, i < k → fetch (((start + i) * 1000 : Nat) : Int) 1000 = some (pages (start + i)))
    (herr : fetch (((start + k) * 1000 : Nat) : Int) 1000 = none) :
    scanPages fetch n start = concatFrom pages start k := by
  induction k generalizing n start with
  | zero =>
    obtain ⟨m, rfl⟩ : ∃ m, n = m + 1 := ⟨n - 1, by omega⟩
    unfold scanPages
    rw [Nat.add_zero] at herr
    rw [herr]
    rfl
  | succ k ih =>
    obtain ⟨m, rfl⟩ : ∃ m, n = m + 1 := ⟨n - 1, by omega⟩
    unfold scanPages concatFrom
    have h0 := hok 0 (by omega)
    rw [Nat.add_zero] at h0
    rw [h0]
    simp only []
    rw [ih m (start + 1) (by omega)]
    · intro i hi
      have := hok (i + 1) (by omega)
      rw [show start + (i + 1) = start + 1 + i by omega] at this
      exact this
    · rw [show start + 1 + k = start + (k + 1) by omega]
      exact herr

/-- Counterexample to C22 as stated: the first page of PoC members succeeds with one
member and the call for the second page fails; `GetAllPocers3` returns the member of
the first page, not an empty set. -/
theorem page_error_keeps_earlier_pages :
    brokenPageCaller.PocerCount = some 1001 ∧
    pageCount (bigUint64 1001) = 2 ∧
    brokenPageCaller.AllPocers 0 1000 = some [listedPocer] ∧
    brokenPageCaller.AllPocers 1000 1000 = none ∧
    GetAllPocers3 emptyState brokenPageCaller = [pocMember listedPocer] ∧
    GetAllPocers3 emptyState brokenPageCaller ≠ [] := by
  decide

/-- C22, amended. For each class gatherer `GetAllPocers3`, `GetAllPowers3` and
`GetAllPoolers3`: if the registry count call fails the gatherer returns an empty member
set; if the calls for the pages `0 .. k-1` succeed and the call for page `k` (offset
`1000 * k`, below `ceil(count / 1000)` pages) fails, the gatherer returns the members
gathered from the pages `0 .. k-1`, which is the empty set when `k = 0`. -/
theorem gatherer_page_error (state : StateDB) (caller : NUCCaller) :
    (caller.PocerCount = none → GetAllPocers3 state caller = []) ∧
    (caller.PowerCount = none → GetAllPowers3 caller = []) ∧
    (caller.PoolerCount = none → GetAllPoolers3 caller = []) ∧
    (∀ (c : Int) (pages : Nat → List Struct1) (k : Nat), caller.PocerCount = some c →
      k < pageCount (bigUint64 c) →
      (∀ i, i < k → caller.AllPocers ((i * 1000 : Nat) : Int) 1000 = some (pages i)) →
      caller.AllPocers ((k * 1000 : Nat) : Int) 1000 = none →
      GetAllPocers3 state caller = (concatFrom pages 0 k).foldl (pocerBody state) [] ∧
      (k = 0 → GetAllPocers3 state caller = [])) ∧
    (∀ (c : Int) (pages : Nat → List Struct2) (k : Nat), caller.PowerCount = some c →
      k < pageCount (bigUint64 c) →
      (∀ i, i < k → caller.AllPowers ((i * 1000 : Nat) : Int) 1000 = some (pages i)) →
      caller.AllPowers ((k * 1000 : Nat) : Int) 1000 = none →
      GetAllPowers3 caller = (concatFrom pages 0 k).foldl powerBody [] ∧
      (k = 0 → GetAllPowers3 caller = [])) ∧
    (∀ (c : Int) (pages : Nat → List Struct3) (k : Nat), caller.PoolerCount = some c →
      k < pageCount (bigUint64 c) →
      (∀ i, i < k → caller.AllPoolers ((i * 1000 : Nat) : Int) 1000 = some (pages i)) →
      caller.AllPoolers ((k * 1000 : Nat) : Int) 1000 = none →
      GetAllPoolers3 caller = (concatFrom pages 0 k).foldl poolerBody [] ∧
      (k = 0 → GetAllPoolers3 caller = [])) := by
  refine ⟨?_, ?_, ?_, ?_, ?_, ?_⟩
  · intro h
    unfold GetAllPocers3
    rw [h]
  · intro h
    unfold GetAllPowers3
    rw [h]
  · intro h
    unfold GetAllPoolers3
    rw [h]
  · intro c pages k hc hk hok herr
    have hscan := scanPages_until_error caller.AllPocers pages k _ 0 hk
      (fun i hi => by rw [Nat.zero_add]; exact hok i hi) (by rw [Nat.zero_add]; exact herr)
    have hres : GetAllPocers3 state caller = (concatFrom pages 0 k).foldl (pocerBody state) [] := by
      unfold GetAllPocers3
      rw [hc]
      simp only []
      rw [gatherPages_eq_foldl, hscan]
    refine ⟨hres, ?_⟩
    intro h0
    rw [hres, h0]
    rfl
  · intro c pages k hc hk hok herr
    have hscan := scanPages_until_error caller.AllPowers pages k _ 0 hk
      (fun i hi => by rw [Nat.zero_add]; exact hok i hi) (by rw [Nat.zero_add]; exact herr)
    have hres : GetAllPowers3 caller = (concatFrom pages 0 k).foldl powerBody [] := by
      unfold GetAllPowers3
      rw [hc]
      simp only []
      rw [gatherPages_eq_foldl, hscan]
    refine ⟨hres, ?_⟩
    intro h0
    rw [hres, h0]
    rfl
  · intro c pages k hc hk hok herr
    have hscan := scanPages_until_error caller.AllPoolers pages k _ 0 hk
      (fun i hi => by rw [Nat.zero_add]; exact hok i hi) (by rw [Nat.zero_add]; exact herr)
    have hres : GetAllPoolers3 caller = (concatFrom pages 0 k).foldl poolerBody [] := by
      unfold GetAllPoolers3
      rw [hc]
      simp only []
      rw [gatherPages_eq_foldl, hscan]
    refine ⟨hres, ?_⟩
    intro h0
    rw [hres, h0]
    rfl

/-- Witness of the amended C22: the registry whose second page of PoC members fails
returns the member of its first page. -/
theorem gatherer_page_error_witness :
    brokenPageCaller.PocerCount = some 1001 ∧ 1 < pageCount (bigUint64 1001) ∧
    brokenPageCaller.AllPocers ((1 * 1000 : Nat) : Int) 1000 = none ∧
    GetAllPocers3 emptyState brokenPageCaller
      = (concatFrom (fun _ => [listedPocer]) 0 1).foldl (pocerBody emptyState) [] :=
  ⟨rfl, by decide, by decide,
    ((gatherer_page_error emptyState brokenPageCaller).2.2.2.1 1001 (fun _ => [listedPocer]) 1
      rfl (by decide) (fun i hi => by
        have h0 : i = 0 := by omega
        subst h0
        decide) (by decide)).1⟩

/-! ## Single and batch header verification -/

/-- C23, the failing input: the genesis header of the example chain is known to the
chain, but its parent is not in the chain. `VerifyHeader`, which looks the header up
first, returns ok for it; as the first header of a batch it gets `ErrUnknownAncestor`,
because `verifyHeaderWorker` resolves the parent before it looks the header up. The
same holds for a known header that does not follow its predecessor in the batch. -/
theorem known_header_unknown_parent :
    (headerChain.GetHeader (exampleHash exampleParent) (bigUint64 exampleParent.Number)).isSome
      = true ∧
    VerifyHeader exampleHash exampleEthash exampleEnv headerChain exampleParent false = none ∧
    verifyHeaderWorker exampleHash exampleEthash exampleEnv headerChain [exampleParent] [false] 0
      = some (some Err.ErrUnknownAncestor) ∧
    (headerChain.GetHeader (exampleHash parentBlock.header)
      (bigUint64 parentBlock.header.Number)).isSome = true ∧
    verifyHeaderWorker exampleHash exampleEthash exampleEnv headerChain
      [freshChild, parentBlock.header] [false, false] 1 = some (some Err.ErrUnknownAncestor) := by
  decide

/-- C23, what the code does. In batch verification, for every batch and every index
`i` of the batch whose header is known to the chain: `verifyHeaderWorker` returns ok
only if the parent resolves, that is, for `i = 0` the chain has the header at
`(parent_hash, number - 1)` and for `i > 0` the hash of `headers[i-1]` is the parent
hash of `headers[i]`; otherwise it returns `ErrUnknownAncestor` although the header is
known. The flag `seals[i]` is not read. -/
theorem verifyHeaderWorker_known (hashOf : Header → Hash) (ethash : Ethash) (env : VerifyEnv)
    (chain : ChainReader) (headers : List Header) (seals : List Bool) (index : Nat)
    (header : Header) (hget : headers.get? index = some header)
    (hknown : (chain.GetHeader (hashOf header) (bigUint64 header.Number)).isSome = true) :
    (index = 0 →
      verifyHeaderWorker hashOf ethash env chain headers seals index =
        if (chain.GetHeader header.ParentHash
            ((bigUint64 header.Number + 2 ^ 64 - 1) % 2 ^ 64)).isSome
        then some none else some (some Err.ErrUnknownAncestor)) ∧
    (∀ prev, 0 < index → headers.get? (index - 1) = some prev →
      verifyHeaderWorker hashOf ethash env chain headers seals index =
        if hashOf prev = header.ParentHash
        then some none else some (some Err.ErrUnknownAncestor)) := by
  constructor
  · intro h0
    unfold verifyHeaderWorker
    rw [hget]
    simp only [h0, ↓reduceIte]
    cases hp : chain.GetHeader header.ParentHash
        ((bigUint64 header.Number + 2 ^ 64 - 1) % 2 ^ 64) with
    | none => rfl
    | some p => simp [hknown]
  · intro prev hpos hprev
    have hne : ¬ index = 0 := by omega
    unfold verifyHeaderWorker
    rw [hget]
    simp only [hne, ↓reduceIte, hprev]
    by_cases hh : hashOf prev = header.ParentHash
    · simp [hh, hknown]
    · simp [hh]

/-- Witness of the behaviour found for C23: the header at number 1 of the example
chain, known to the chain, as the first header of a batch. -/
theorem verifyHeaderWorker_known_witness :
    [parentBlock.header].get? 0 = some parentBlock.header ∧
    (headerChain.GetHeader (exampleHash parentBlock.header)
      (bigUint64 parentBlock.header.Number)).isSome = true ∧
    verifyHeaderWorker exampleHash exampleEthash exampleEnv headerChain [parentBlock.header]
      [true] 0 = some none :=
  ⟨rfl, by decide,
    ((verifyHeaderWorker_known exampleHash exampleEthash exampleEnv headerChain
      [parentBlock.header] [true] 0 parentBlock.header rfl (by decide)).1 rfl).trans
      (by decide)⟩

/-- C24. Outside `ModeFullFake`, `VerifyHeader` returns ok when the chain has the
header under its hash and number, whatever the parent; otherwise it returns
`ErrUnknownAncestor` when the chain has no header under `(parent_hash, number - 1)`;
otherwise its result is that of `verifyHeader(header, parent, is_uncle = false, seal)`
on the parent found. -/
theorem VerifyHeader_spec (hashOf : Header → Hash) (ethash : Ethash) (env : VerifyEnv)
    (chain : ChainReader) (header : Header) (checkSeal : Bool)
    (hmode : ethash.PowMode ≠ Mode.ModeFullFake) :
    ((chain.GetHeader (hashOf header) (bigUint64 header.Number)).isSome = true →
      VerifyHeader hashOf ethash env chain header checkSeal = none) ∧
    (chain.GetHeader (hashOf header) (bigUint64 header.Number) = none →
      chain.GetHeader header.ParentHash ((bigUint64 header.Number + 2 ^ 64 - 1) % 2 ^ 64) = none →
      VerifyHeader hashOf ethash env chain header checkSeal = some Err.ErrUnknownAncestor) ∧
    (∀ parent, chain.GetHeader (hashOf header) (bigUint64 header.Number) = none →
      chain.GetHeader header.ParentHash ((bigUint64 header.Number + 2 ^ 64 - 1) % 2 ^ 64)
        = some parent →
      VerifyHeader hashOf ethash env chain header checkSeal
        = verifyHeader ethash env header parent false checkSeal) := by
  refine ⟨?_, ?_, ?_⟩
  · intro hknown
    unfold VerifyHeader
    simp [hmode, hknown]
  · intro hnew hpar
    unfold VerifyHeader
    rw [if_neg hmode]
    simp only [hnew, Option.isSome_none, Bool.false_eq_true, ↓reduceIte, hpar]
  · intro parent hnew hpar
    unfold VerifyHeader
    rw [if_neg hmode]
    simp only [hnew, Option.isSome_none, Bool.false_eq_true, ↓reduceIte, hpar]

/-- Witness of C24: the genesis of the example chain is accepted although its parent
is unknown, and a new child of it gets the verdict of `verifyHeader`. -/
theorem VerifyHeader_spec_witness :
    exampleEthash.PowMode ≠ Mode.ModeFullFake ∧
    headerChain.GetHeader exampleParent.ParentHash
      ((bigUint64 exampleParent.Number + 2 ^ 64 - 1) % 2 ^ 64) = none ∧
    VerifyHeader exampleHash exampleEthash exampleEnv headerChain exampleParent true = none ∧
    VerifyHeader exampleHash exampleEthash exampleEnv headerChain freshChild true
      = verifyHeader exampleEthash exampleEnv freshChild exampleParent false true :=
  ⟨by decide, by decide,
    (VerifyHeader_spec exampleHash exampleEthash exampleEnv headerChain exampleParent true
      (by decide)).1 (by decide),
    (VerifyHeader_spec exampleHash exampleEthash exampleEnv headerChain freshChild true
      (by decide)).2.2 exampleParent (by decide) (by decide)⟩

/-! ## The future-block check -/

theorem verifySeal_not_future (ethash : Ethash) (header : Header) (fulldag : Bool) :
    verifySeal ethash header fulldag ≠ some Err.ErrFutureBlock := by
  induction ethash with
  | own mode fakeFail pow =>
    unfold verifySeal
    simp only []
    split_ifs <;> simp
  | sharing mode fakeFail shared ih =>
    unfold verifySeal
    split_ifs
    · simp
    · simp
    · exact ih

theorem tail_not_future (sealed dao fork : Option Err)
    (h : (match sealed with
      | some e => some e
      | none =>
        match dao with
        | some e => some e
        | none => fork) = some Err.ErrFutureBlock)
    (hseal : sealed ≠ some Err.ErrFutureBlock)
    (hdao : ∀ e, dao = some e → e ≠ Err.ErrFutureBlock)
    (hfork : ∀ e, fork = some e → e ≠ Err.ErrFutureBlock) : False := by
  cases sealed with
  | some e => exact hseal h
  | none =>
    cases dao with
    | some e => exact hdao e rfl (Option.some.inj h)
    | none => exact hfork _ h rfl

/-- C25. With a clock for which `now + 60` is a `uint64`: for every non-uncle header
whose extra-data length is within `MAX_EXTRA` and whose time is greater than
`now + 60`, `verifyHeader` returns `ErrFutureBlock`, whatever the other fields, the
parent, the engine and the seal flag are; for an uncle header `verifyHeader` never
returns `ErrFutureBlock`, the two fork checks of package `misc` having errors of their
own. -/
theorem verifyHeader_future_block (ethash : Ethash) (env : VerifyEnv) (header parent : Header)
    (checkSeal : Bool) (hnow : env.now + 60 < 2 ^ 64) :
    (header.Extra.length ≤ env.params.MaximumExtraDataSize → header.Time > env.now + 60 →
      verifyHeader ethash env header parent false checkSeal = some Err.ErrFutureBlock) ∧
    ((∀ e, env.VerifyDAOHeaderExtraData env.config header = some e → e ≠ Err.ErrFutureBlock) →
      (∀ e, env.VerifyForkHashes env.config header true = some e → e ≠ Err.ErrFutureBlock) →
      verifyHeader ethash env header parent true checkSeal ≠ some Err.ErrFutureBlock) := by
  have hmod : (env.now + allowedFutureBlockTime) % 2 ^ 64 = env.now + 60 := by
    unfold allowedFutureBlockTime; omega
  constructor
  · intro hextra htime
    unfold verifyHeader
    rw [if_neg (by omega), hmod]
    simp [htime]
  · intro hdao hfork h
    unfold verifyHeader at h
    simp only [Bool.not_true, Bool.false_and, Bool.false_eq_true, ↓reduceIte] at h
    split_ifs at h
    all_goals try (cases h)
    all_goals
      first
      | exact tail_not_future (VerifySeal ethash header) _ _ h
          (verifySeal_not_future ethash header false) hdao hfork
      | exact tail_not_future none _ _ h (by simp) hdao hfork

/-- Witness of C25: the example child with its time set to `now + 61`. -/
theorem verifyHeader_future_block_witness :
    exampleEnv.now + 60 < 2 ^ 64 ∧
    ({ exampleChild with Time := exampleEnv.now + 61 } : Header).Extra.length
      ≤ exampleEnv.params.MaximumExtraDataSize ∧
    verifyHeader exampleEthash exampleEnv { exampleChild with Time := exampleEnv.now + 61 }
      exampleParent false true = some Err.ErrFutureBlock ∧
    verifyHeader exampleEthash exampleEnv { exampleChild with Time := exampleEnv.now + 61 }
      exampleParent true true ≠ some Err.ErrFutureBlock :=
  ⟨by decide, by decide,
    (verifyHeader_future_block exampleEthash exampleEnv
      { exampleChild with Time := exampleEnv.now + 61 } exampleParent true (by decide)).1
      (by decide) (by decide),
    (verifyHeader_future_block exampleEthash exampleEnv
      { exampleChild with Time := exampleEnv.now + 61 } exampleParent true (by decide)).2
      (fun e h => by cases h) (fun e h => by cases h)⟩

/-! ## `Prepare` and `SealHash` -/

/-- C26. `Prepare`: if the chain has the parent under `(parent_hash, number - 1)`, it
sets `difficulty` and `nuc_difficulty` to `CalcDifficulty(header.time, parent)`,
leaves every other field of the header unchanged and returns ok, so that the prepared
header passes the difficulty check of `verifyHeader` against that parent; if the
parent is not found it returns `ErrUnknownAncestor` and leaves the header
unchanged. -/
theorem Prepare_spec (env : VerifyEnv) (chain : ChainReader) (header : Header) :
    (∀ parent,
      chain.GetHeader header.ParentHash ((bigUint64 header.Number + 2 ^ 64 - 1) % 2 ^ 64)
        = some parent →
      Prepare env chain header =
        (none, { header with
          Difficulty := CalcDifficulty env.params env.config header.Time parent,
          NUCDifficulty := CalcDifficulty env.params env.config header.Time parent }) ∧
      CalcDifficulty env.params env.config (Prepare env chain header).2.Time parent
        = (Prepare env chain header).2.Difficulty ∧
      (Prepare env chain header).2.NUCDifficulty = (Prepare env chain header).2.Difficulty) ∧
    (chain.GetHeader header.ParentHash ((bigUint64 header.Number + 2 ^ 64 - 1) % 2 ^ 64) = none →
      Prepare env chain header = (some Err.ErrUnknownAncestor, header)) := by
  constructor
  · intro parent hpar
    have hprep : Prepare env chain header =
        (none, { header with
          Difficulty := CalcDifficulty env.params env.config header.Time parent,
          NUCDifficulty := CalcDifficulty env.params env.config header.Time parent }) := by
      unfold Prepare
      rw [hpar]
    refine ⟨hprep, ?_, ?_⟩
    · rw [hprep]
    · rw [hprep]
  · intro hpar
    unfold Prepare
    rw [hpar]

/-- Witness of C26: a new child of the genesis of the example chain is prepared with
the difficulty 131136. -/
theorem Prepare_spec_witness :
    headerChain.GetHeader freshChild.ParentHash
      ((bigUint64 freshChild.Number + 2 ^ 64 - 1) % 2 ^ 64) = some exampleParent ∧
    (Prepare exampleEnv headerChain { freshChild with Difficulty := 0 }).1 = none ∧
    (Prepare exampleEnv headerChain { freshChild with Difficulty := 0 }).2.Difficulty = 131136 ∧
    Prepare exampleEnv headerChain exampleParent = (some Err.ErrUnknownAncestor, exampleParent) :=
  ⟨by decide,
    congrArg Prod.fst ((Prepare_spec exampleEnv headerChain
      { freshChild with Difficulty := 0 }).1 exampleParent (by decide)).1,
    (congrArg (fun p => p.2.Difficulty) ((Prepare_spec exampleEnv headerChain
      { freshChild with Difficulty := 0 }).1 exampleParent (by decide)).1).trans (by decide),
    (Prepare_spec exampleEnv headerChain exampleParent).2 (by decide)⟩

/-- C27. `SealHash(header)` is the Keccak-256 of the list encoding of exactly the 16
fields version, parent hash, uncle hash, coinbase, state root, transaction hash,
receipt hash, bloom, difficulty, NUC difficulty, coinbase records, number, gas limit,
gas used, time and extra data, in that order; so two headers that differ only in the
mix digest and the nonce have the same `SealHash`. -/
theorem SealHash_preimage (pow : Pow) (header : Header) :
    SealHash pow header =
      pow.rlpKeccak
        [ RlpField.uint header.Version, RlpField.octets header.ParentHash,
          RlpField.octets header.UncleHash, RlpField.octets header.Coinbase.bytes,
          RlpField.octets header.Root, RlpField.octets header.TxHash,
          RlpField.octets header.ReceiptHash, RlpField.octets header.Bloom,
          RlpField.big header.Difficulty, RlpField.big header.NUCDifficulty,
          RlpField.octets header.CoinbaseTxs, RlpField.big header.Number,
          RlpField.uint header.GasLimit, RlpField.uint header.GasUsed,
          RlpField.uint header.Time, RlpField.octets header.Extra ] ∧
    (∀ (mixDigest : Hash) (nonce : Nat),
      SealHash pow { header with MixDigest := mixDigest, Nonce := nonce }
        = SealHash pow header) ∧
    (∀ other : Header,
      { other with MixDigest := header.MixDigest, Nonce := header.Nonce } = header →
      SealHash pow other = SealHash pow header) := by
  refine ⟨rfl, fun _ _ => rfl, ?_⟩
  intro other h
  rw [← h]
  rfl

/-- Witness of C27: the example child and a copy with another mix digest and nonce. -/
theorem SealHash_preimage_witness :
    ({ ({ exampleChild with MixDigest := [1, 2], Nonce := 7 } : Header) with
        MixDigest := exampleChild.MixDigest, Nonce := exampleChild.Nonce } : Header)
      = exampleChild ∧
    SealHash examplePow { exampleChild with MixDigest := [1, 2], Nonce := 7 }
      = SealHash examplePow exampleChild :=
  ⟨rfl, (SealHash_preimage examplePow exampleChild).2.2
    { exampleChild with MixDigest := [1, 2], Nonce := 7 } rfl⟩

/-! ## The fork schedule and the later difficulty rules -/

/-- Counterexample to C28 as stated: with the configuration of the test (Homestead at
block 1150000), for a parent at number 1150000 and a block 10 s later the result of
`CalcDifficulty` is the Frontier value 2049512, not the Homestead value 2048512. -/
theorem homestead_not_selected :
    testConfig.HomesteadBlock = some 1150000 ∧
    homesteadParent.Number + 1 ≥ 1150000 ∧
    CalcDifficulty stockParams testConfig 1010 homesteadParent = 2049512 ∧
    calcDifficultyFrontier stockParams 1010 homesteadParent = 2049512 ∧
    calcDifficultyHomestead stockParams 1010 homesteadParent = 2048512 := by
  decide

/-- C28, amended. `CalcDifficulty` does not select the difficulty rule by the fork
schedule of the chain configuration: with the configuration of the test
(`HomesteadBlock = 1150000`) as with any other, for every time and every parent, at,
above or below the Homestead block, the result is the Frontier rule
`calcDifficultyFrontier(time, parent)`. It equals the Homestead rule
`calcDifficultyHomestead(time, parent)` where the two rules agree, as they do for a
block less than 10 s after its parent when `DURATION_LIMIT >= 10`. -/
theorem CalcDifficulty_ignores_schedule (P : Params) (config : ChainConfig) (time : Nat)
    (parent : Header) :
    CalcDifficulty P testConfig time parent = calcDifficultyFrontier P time parent ∧
    CalcDifficulty P config time parent = CalcDifficulty P testConfig time parent ∧
    (parent.Time ≤ time → time < parent.Time + 10 → 10 ≤ P.DurationLimit →
      CalcDifficulty P testConfig time parent = calcDifficultyHomestead P time parent) := by
  refine ⟨rfl, rfl, ?_⟩
  intro h1 h2 h3
  have hd : (time : Int) - (parent.Time : Int) < P.DurationLimit := by omega
  have hx : ((time : Int) - (parent.Time : Int)) / 10 = 0 := by omega
  have hpow : (0 : Int) < 2 ^ ((parent.Number + 1) / expDiffPeriod - 2).toNat := by positivity
  unfold CalcDifficulty calcDifficultyFrontier calcDifficultyHomestead
  simp only [hd, hx, ↓reduceIte, bigExp2, BigMax]
  simp only [Int.sub_zero, Int.mul_one]
  have h99 : ¬ (1 : Int) < -99 := by omega
  simp only [h99, ↓reduceIte]
  split_ifs <;> omega

/-- Witness of the amended C28: for the parent at number 1150000 and a block 5 s later
the Frontier result is also the Homestead value. -/
theorem CalcDifficulty_ignores_schedule_witness :
    homesteadParent.Time ≤ 1005 ∧ 1005 < homesteadParent.Time + 10 ∧
    10 ≤ stockParams.DurationLimit ∧
    CalcDifficulty stockParams testConfig 1005 homesteadParent
      = calcDifficultyHomestead stockParams 1005 homesteadParent :=
  ⟨by decide, by decide, by decide,
    (CalcDifficulty_ignores_schedule stockParams testConfig 1005 homesteadParent).2.2
      (by decide) (by decide) (by decide)⟩

/-- C29. For a positive `DIFF_BOUND_DIV`, every parent and every time:
`makeDifficultyCalculator(bomb_delay)(time, parent)` is the expression of the
specification with `u = 1` if `parent.uncle_hash` is the empty-uncle hash and `u = 2`
otherwise and with the step 9 (Byzantium with `bomb_delay = 3000000`, Constantinople
with `5000000`), and `calcDifficultyHomestead(time, parent)` is that expression with
`u = 1`, the step 10 and `bomb_delay = 0`. -/
theorem later_rules_eq_spec (P : Params) (EmptyUncleHash : Hash) (bombDelay : Int) (time : Nat)
    (parent : Header) (hdiv : 0 < P.DifficultyBoundDivisor) :
    makeDifficultyCalculator P EmptyUncleHash bombDelay time parent
      = adjustedSpec P (if parent.UncleHash = EmptyUncleHash then 1 else 2) 9 bombDelay
          time parent ∧
    calcDifficultyByzantium P EmptyUncleHash time parent
      = adjustedSpec P (if parent.UncleHash = EmptyUncleHash then 1 else 2) 9 3000000
          time parent ∧
    calcDifficultyConstantinople P EmptyUncleHash time parent
      = adjustedSpec P (if parent.UncleHash = EmptyUncleHash then 1 else 2) 9 5000000
          time parent ∧
    calcDifficultyHomestead P time parent = adjustedSpec P 1 10 0 time parent := by
  have e1 : Int.fdiv parent.Difficulty P.DifficultyBoundDivisor
      = parent.Difficulty / P.DifficultyBoundDivisor :=
    Int.fdiv_eq_ediv _ (le_of_lt hdiv)
  have e9 : Int.fdiv ((time : Int) - (parent.Time : Int)) 9
      = ((time : Int) - (parent.Time : Int)) / 9 := Int.fdiv_eq_ediv _ (by norm_num)
  have e10 : Int.fdiv ((time : Int) - (parent.Time : Int)) 10
      = ((time : Int) - (parent.Time : Int)) / 10 := Int.fdiv_eq_ediv _ (by norm_num)
  have ep : ∀ z : Int, Int.fdiv z 100000 = z / expDiffPeriod :=
    fun z => Int.fdiv_eq_ediv _ (by norm_num)
  have hmk : ∀ d : Int, makeDifficultyCalculator P EmptyUncleHash d time parent
      = adjustedSpec P (if parent.UncleHash = EmptyUncleHash then 1 else 2) 9 d time parent := by
    intro d
    unfold makeDifficultyCalculator adjustedSpec
    simp only [e1, e9, ep, bigExp2]
    generalize parent.Difficulty / P.DifficultyBoundDivisor = y
    generalize ((time : Int) - (parent.Time : Int)) / 9 = q
    have hfake : (if parent.Number ≥ d - 1 then parent.Number - (d - 1) else 0)
        = max (parent.Number - d + 1) 0 := by
      split <;> omega
    rw [hfake]
    generalize max (parent.Number - d + 1) 0 / expDiffPeriod = period
    have hx : (if (if parent.UncleHash = EmptyUncleHash then 1 - q else 2 - q) < -99 then -99
        else (if parent.UncleHash = EmptyUncleHash then 1 - q else 2 - q))
        = max ((if parent.UncleHash = EmptyUncleHash then (1 : Int) else 2) - q) (-99) := by
      split_ifs <;> omega
    rw [hx]
    generalize max ((if parent.UncleHash = EmptyUncleHash then (1 : Int) else 2) - q) (-99) = x
    generalize y * x = yx
    split_ifs <;> omega
  refine ⟨hmk bombDelay, hmk 3000000, hmk 5000000, ?_⟩
  unfold calcDifficultyHomestead adjustedSpec
  simp only [e1, e10, ep, bigExp2]
  generalize parent.Difficulty / P.DifficultyBoundDivisor = y
  generalize ((time : Int) - (parent.Time : Int)) / 10 = q
  have hx : (if 1 - q < -99 then -99 else 1 - q) = max (1 - q) (-99) := by
    split_ifs <;> omega
  rw [hx]
  generalize max (1 - q) (-99) = x
  generalize y * x = yx
  have hper : (max (parent.Number - 0 + 1) 0 / expDiffPeriod > 1)
      ↔ ((parent.Number + 1) / expDiffPeriod > 1) := by
    unfold expDiffPeriod
    omega
  have hper2 : parent.Number + 1 > 0 →
      max (parent.Number - 0 + 1) 0 / expDiffPeriod = (parent.Number + 1) / expDiffPeriod := by
    intro h
    rw [show max (parent.Number - 0 + 1) 0 = parent.Number + 1 by omega]
  by_cases hp : (parent.Number + 1) / expDiffPeriod > 1
  · have hpos : parent.Number + 1 > 0 := by
      unfold expDiffPeriod at hp
      omega
    rw [hper2 hpos, if_pos hp, if_pos hp]
    generalize (2 : Int) ^ ((parent.Number + 1) / expDiffPeriod - 2).toNat = b
    split_ifs <;> omega
  · have hp2 : ¬ max (parent.Number - 0 + 1) 0 / expDiffPeriod > 1 := fun h => hp (hper.mp h)
    rw [if_neg hp, if_neg hp2]
    omega

/-- Witness of C29: the stock constants and a parent at number 3300000 whose uncle
hash is not the empty-uncle hash, 30 s before the block. -/
theorem later_rules_eq_spec_witness :
    0 < stockParams.DifficultyBoundDivisor ∧
    calcDifficultyByzantium stockParams [1] 1030
        { homesteadParent with Number := 3300000 }
      = adjustedSpec stockParams
          (if ({ homesteadParent with Number := 3300000 } : Header).UncleHash = [1]
            then 1 else 2) 9 3000000 1030 { homesteadParent with Number := 3300000 } :=
  ⟨by decide,
    (later_rules_eq_spec stockParams [1] 3000000 1030
      { homesteadParent with Number := 3300000 } (by decide)).2.1⟩

/-- C30. With `DIFF_BOUND_DIV = 2048` and `DURATION_LIMIT = 13`, for every parent with
time 1000, difficulty 131072 and number 0: `CalcDifficulty` at time 1005 returns
`max(131072 + 131072/2048, MIN_DIFF) = max(131136, MIN_DIFF)` with no bomb term, which
is 131136 for every `MIN_DIFF` up to 131136, and `CalcDifficulty` at time 1020 returns
`max(131072 - 64, MIN_DIFF) = max(131008, MIN_DIFF)`; with the stock `MIN_DIFF` of
131072 the two values are 131136 and 131072. -/
theorem CalcDifficulty_scenarios (P : Params) (config : ChainConfig) (parent : Header)
    (hdiv : P.DifficultyBoundDivisor = 2048) (hdur : P.DurationLimit = 13)
    (htime : parent.Time = 1000) (hdiff : parent.Difficulty = 131072)
    (hnum : parent.Number = 0) :
    CalcDifficulty P config 1005 parent = max 131136 P.MinimumDifficulty ∧
    (P.MinimumDifficulty ≤ 131136 → CalcDifficulty P config 1005 parent = 131136) ∧
    CalcDifficulty P config 1020 parent = max 131008 P.MinimumDifficulty ∧
    (P.MinimumDifficulty = 131072 →
      CalcDifficulty P config 1005 parent = 131136 ∧
      CalcDifficulty P config 1020 parent = 131072) := by
  have h5 : CalcDifficulty P config 1005 parent = max 131136 P.MinimumDifficulty := by
    unfold CalcDifficulty calcDifficultyFrontier
    simp only [hdiv, hdur, htime, hdiff, hnum, expDiffPeriod]
    norm_num
    split_ifs <;> omega
  have h20 : CalcDifficulty P config 1020 parent = max 131008 P.MinimumDifficulty := by
    unfold CalcDifficulty calcDifficultyFrontier
    simp only [hdiv, hdur, htime, hdiff, hnum, expDiffPeriod]
    norm_num
    split_ifs <;> omega
  refine ⟨h5, ?_, h20, ?_⟩
  · intro hmin
    rw [h5]
    omega
  · intro hmin
    rw [h5, h20, hmin]
    constructor <;> decide

/-- Witness of C30: the stock constants and the example parent. -/
theorem CalcDifficulty_scenarios_witness :
    stockParams.DifficultyBoundDivisor = 2048 ∧ stockParams.DurationLimit = 13 ∧
    exampleParent.Time = 1000 ∧ exampleParent.Difficulty = 131072 ∧ exampleParent.Number = 0 ∧
    stockParams.MinimumDifficulty = 131072 ∧
    CalcDifficulty stockParams testConfig 1005 exampleParent = 131136 ∧
    CalcDifficulty stockParams testConfig 1020 exampleParent = 131072 :=
  ⟨rfl, rfl, rfl, rfl, rfl, rfl,
    ((CalcDifficulty_scenarios stockParams testConfig exampleParent rfl rfl rfl rfl rfl).2.2.2
      rfl).1,
    ((CalcDifficulty_scenarios stockParams testConfig exampleParent rfl rfl rfl rfl rfl).2.2.2
      rfl).2⟩

/-! ## Fake modes -/

/-- C31. In `ModeFake` and `ModeFullFake`, for every engine (shared or not), header and
`fulldag` flag, `verifySeal` returns `errInvalidPoW` when the configured `fakeFail`
equals `header.Number.Uint64()`, which for a block number in the `uint64` range means
`header.number = fake_fail`, and ok otherwise; the verdict depends on the engine only
through its mode and `fakeFail` (no digest is computed) and not on the nonce, the mix
digest or the NUC difficulty of the header. -/
theorem verifySeal_fake_mode (ethash : Ethash) (header : Header) (fulldag : Bool)
    (hmode : ethash.PowMode = Mode.ModeFake ∨ ethash.PowMode = Mode.ModeFullFake) :
    verifySeal ethash header fulldag
      = (if ethash.fakeFail = bigUint64 header.Number then some Err.errInvalidPoW else none) ∧
    (0 ≤ header.Number → header.Number < 2 ^ 64 →
      (verifySeal ethash header fulldag = some Err.errInvalidPoW
        ↔ header.Number = (ethash.fakeFail : Int)) ∧
      (header.Number ≠ (ethash.fakeFail : Int) → verifySeal ethash header fulldag = none)) ∧
    (∀ (nonce : Nat) (mixDigest : Hash) (nucDifficulty : Int),
      verifySeal ethash
          { header with Nonce := nonce, MixDigest := mixDigest, NUCDifficulty := nucDifficulty }
          fulldag
        = verifySeal ethash header fulldag) ∧
    (∀ other : Ethash, other.PowMode = ethash.PowMode → other.fakeFail = ethash.fakeFail →
      verifySeal other header fulldag = verifySeal ethash header fulldag) := by
  have hmain : ∀ (e : Ethash) (h : Header),
      (e.PowMode = Mode.ModeFake ∨ e.PowMode = Mode.ModeFullFake) →
      verifySeal e h fulldag
        = (if e.fakeFail = bigUint64 h.Number then some Err.errInvalidPoW else none) := by
    intro e h hm
    cases e with
    | own mode ff pow =>
      have hm2 : mode = Mode.ModeFake ∨ mode = Mode.ModeFullFake := hm
      unfold verifySeal
      rw [if_pos hm2]
      rfl
    | sharing mode ff shared =>
      have hm2 : mode = Mode.ModeFake ∨ mode = Mode.ModeFullFake := hm
      unfold verifySeal
      rw [if_pos hm2]
      rfl
  refine ⟨hmain ethash header hmode, ?_, ?_, ?_⟩
  · intro h0 h1
    obtain ⟨n, hn⟩ := Int.eq_ofNat_of_zero_le h0
    have hn2 : n < 2 ^ 64 := by
      rw [hn] at h1
      have : ((n : Nat) : Int) < ((2 ^ 64 : Nat) : Int) := by
        norm_num at h1 ⊢
        exact h1
      exact_mod_cast this
    have hu : bigUint64 header.Number = n := by
      rw [hn]
      unfold bigUint64
      simp only [Int.natAbs_ofNat]
      omega
    rw [hmain ethash header hmode, hu, hn]
    constructor
    · constructor
      · intro h
        split at h
        · rename_i he
          rw [he]
        · cases h
      · intro h
        have he : ethash.fakeFail = n := by exact_mod_cast h.symm
        rw [if_pos he]
    · intro hne
      have he : ¬ ethash.fakeFail = n := by
        intro he
        apply hne
        rw [he]
      rw [if_neg he]
  · intro nonce mixDigest nucDifficulty
    rw [hmain ethash _ hmode, hmain ethash header hmode]
  · intro other hm hf
    rw [hmain other header (by rw [hm]; exact hmode), hmain ethash header hmode, hf]

/-- Witness of C31: a full-fake engine that fails block 0 rejects the example parent
(number 0) and accepts the example child (number 1). -/
theorem verifySeal_fake_mode_witness :
    (fullFakeEthash.PowMode = Mode.ModeFake ∨ fullFakeEthash.PowMode = Mode.ModeFullFake) ∧
    verifySeal fullFakeEthash exampleParent false = some Err.errInvalidPoW ∧
    verifySeal fullFakeEthash exampleChild false = none :=
  ⟨by decide,
    ((verifySeal_fake_mode fullFakeEthash exampleParent false (by decide)).2.1
      (by decide) (by decide)).1.mpr (by decide),
    ((verifySeal_fake_mode fullFakeEthash exampleChild false (by decide)).2.1
      (by decide) (by decide)).2 (by decide)⟩

/-! ## Difficulty by miner account -/

/-- C32, the failing input: a miner with 1000 NUC and one wei in the state of the
parent block, which is more than `1000 * 10^18` wei, gets `node_diff` unchanged and
not `node_diff / 2`: the balance is first divided by `10^18`, which gives 1000, and
1000 is not above the threshold. -/
theorem one_wei_above_threshold :
    exampleChain.GetBlock (exampleHash parentBlock.header) 1 = some parentBlock ∧
    minerState.GetBalance (Address.ofByte 7) > 1000 * 10 ^ 18 ∧
    GetNUCDifficultyByMinerAccount 131072 (Address.ofByte 7) exampleChain
      (fun _ => some minerState) (exampleHash parentBlock.header) 1 = 131072 := by
  decide

/-- C32, what the code does. `GetNUCDifficultyByMinerAccount`: when the parent block
and its state are available and the miner's balance `b` there is below
`2^64 * 10^18` wei, the result is `node_diff / 2` only if `floor(b / 10^18) > 1000`,
that is if `b` is at least `1001 * 10^18` wei (1001 whole NUC), and `node_diff`
unchanged if `b` is below `1001 * 10^18` wei, also for a balance above 1000 NUC;
whenever the parent block or its state is unavailable the result is `node_diff`
unchanged. -/
theorem miner_account_threshold (node_diff : Int) (minerAddr : Address) (chain : ChainReader)
    (StateAt : Hash → Option StateDB) (parentHash : Hash) (number : Nat) :
    (chain.GetBlock parentHash number = none →
      GetNUCDifficultyByMinerAccount node_diff minerAddr chain StateAt parentHash number
        = node_diff) ∧
    (∀ parentBlock, chain.GetBlock parentHash number = some parentBlock →
      StateAt parentBlock.header.Root = none →
      GetNUCDifficultyByMinerAccount node_diff minerAddr chain StateAt parentHash number
        = node_diff) ∧
    (∀ parentBlock stateDb, chain.GetBlock parentHash number = some parentBlock →
      StateAt parentBlock.header.Root = some stateDb →
      0 ≤ stateDb.GetBalance minerAddr →
      stateDb.GetBalance minerAddr < 2 ^ 64 * 10 ^ 18 →
      (1001 * 10 ^ 18 ≤ stateDb.GetBalance minerAddr →
        GetNUCDifficultyByMinerAccount node_diff minerAddr chain StateAt parentHash number
          = Int.fdiv node_diff 2) ∧
      (stateDb.GetBalance minerAddr < 1001 * 10 ^ 18 →
        GetNUCDifficultyByMinerAccount node_diff minerAddr chain StateAt parentHash number
          = node_diff)) := by
  refine ⟨?_, ?_, ?_⟩
  · intro h
    unfold GetNUCDifficultyByMinerAccount
    rw [h]
  · intro pb h1 h2
    unfold GetNUCDifficultyByMinerAccount
    rw [h1]
    simp only []
    rw [h2]
  · intro pb st h1 h2 h0 hlt
    have hq0 : 0 ≤ st.GetBalance minerAddr / 1000000000000000000 :=
      Int.ediv_nonneg h0 (by norm_num)
    have hq1 : st.GetBalance minerAddr / 1000000000000000000 < 2 ^ 64 := by
      apply Int.ediv_lt_of_lt_mul (by norm_num)
      norm_num at hlt ⊢
      exact hlt
    obtain ⟨q, hq⟩ := Int.eq_ofNat_of_zero_le hq0
    have hq2 : q < 2 ^ 64 := by
      rw [hq] at hq1
      have : ((q : Nat) : Int) < ((2 ^ 64 : Nat) : Int) := by
        norm_num at hq1 ⊢
        exact hq1
      exact_mod_cast this
    have hu : bigUint64 (st.GetBalance minerAddr / 1000000000000000000) = q := by
      rw [hq]
      unfold bigUint64
      simp only [Int.natAbs_ofNat]
      omega
    have hres : GetNUCDifficultyByMinerAccount node_diff minerAddr chain StateAt parentHash number
        = if q > 1000 then node_diff / 2 else node_diff := by
      unfold GetNUCDifficultyByMinerAccount
      rw [h1]
      simp only []
      rw [h2]
      simp only [hu]
    rw [hres]
    constructor
    · intro hge
      have : (1000 : Int) < q := by
        rw [← hq]
        norm_num at hge
        omega
      have hq3 : q > 1000 := by exact_mod_cast this
      rw [if_pos hq3, Int.fdiv_eq_ediv _ (by norm_num)]
    · intro hsmall
      have : (q : Int) ≤ 1000 := by
        rw [← hq]
        norm_num at hsmall
        omega
      have hq3 : ¬ q > 1000 := by
        intro h
        have : (1000 : Int) < q := by exact_mod_cast h
        omega
      rw [if_neg hq3]

/-- Witness of the behaviour found for C32: the miner with 1000 NUC and one wei keeps
`node_diff`. -/
theorem miner_account_threshold_witness :
    exampleChain.GetBlock (exampleHash parentBlock.header) 1 = some parentBlock ∧
    0 ≤ minerState.GetBalance (Address.ofByte 7) ∧
    minerState.GetBalance (Address.ofByte 7) < 1001 * 10 ^ 18 ∧
    GetNUCDifficultyByMinerAccount 131072 (Address.ofByte 7) exampleChain
      (fun _ => some minerState) (exampleHash parentBlock.header) 1 = 131072 :=
  ⟨by decide, by decide, by decide,
    ((miner_account_threshold 131072 (Address.ofByte 7) exampleChain (fun _ => some minerState)
      (exampleHash parentBlock.header) 1).2.2 parentBlock minerState (by decide) rfl
      (by decide) (by decide)).2 (by decide)⟩

/-! ## `SetMortageBalance` -/

/-- C33, what the code does. After `SetMortageBalance(addr, b)` on a set that contains
`addr`, both `MortageBalance` and `CanPocBalance` of the user are
`floor(b * 120 / 100)`: the multiplication and the division have the `big.Int` that
`MortageBalance` points to as their receiver. The other fields of the user, the other
users and the keys are unchanged, and on a set that does not contain `addr` the call
changes nothing. For `b = 100` on `singleUser` the stake reads 120, not 100. -/
theorem SetMortageBalance_aliases (l : MiningUsers) (addr : Address) (b : Int) :
    (∀ u, l.get? addr = some u →
      (l.SetMortageBalance addr b).1.get? addr
        = some { u with MortageBalance := Int.fdiv (b * 120) 100,
                        CanPocBalance := Int.fdiv (b * 120) 100 }) ∧
    (∀ a, a ≠ addr → (l.SetMortageBalance addr b).1.get? a = l.get? a) ∧
    (l.SetMortageBalance addr b).1.keys = l.keys ∧
    (l.Has addr = false → (l.SetMortageBalance addr b).1 = l) ∧
    ((singleUser.SetMortageBalance (Address.ofByte 1) 100).1.map
        (fun u => (u.MortageBalance, u.CanPocBalance)) = [(120, 120)]) := by
  refine ⟨?_, ?_, MiningUsers.SetMortageBalance_keys l addr b, ?_, by decide⟩
  · intro u hu
    rw [MiningUsers.get?_SetMortageBalance, if_pos rfl, hu,
      Int.fdiv_eq_ediv _ (by norm_num : (0 : Int) ≤ 100)]
    rfl
  · intro a ha
    rw [MiningUsers.get?_SetMortageBalance, if_neg ha]
  · intro h
    unfold MiningUsers.SetMortageBalance
    simp [h]

/-- Witness of the behaviour found for C33: the class map with one user. -/
theorem SetMortageBalance_aliases_witness :
    singleUser.get? (Address.ofByte 1) = some soleUser ∧
    (singleUser.SetMortageBalance (Address.ofByte 1) 100).1.get? (Address.ofByte 1)
      = some { soleUser with MortageBalance := Int.fdiv (100 * 120) 100,
                                     CanPocBalance := Int.fdiv (100 * 120) 100 } :=
  ⟨by decide,
    (SetMortageBalance_aliases singleUser (Address.ofByte 1) 100).1 soleUser
      (by decide)⟩

/-! ## Header verification and the NUC difficulty -/

theorem bigBE_lt_pow (b : List Byte) : bigBE b < 256 ^ b.length := by
  induction b using List.reverseRecOn with
  | nil => simp [bigBE]
  | append_singleton l x ih =>
    rw [bigBE_append_singleton, List.length_append, List.length_singleton, pow_succ]
    have hx : x.val < 256 := x.isLt
    omega

/-- C35. `verifyHeader` does not constrain `header.NUCDifficulty`: without the seal
check the verdict for a header is the verdict for the same header with any other NUC
difficulty `d`, provided the two fork checks of package `misc` (outside the sources;
one of them reads the header hash) give the same answer on both headers. And in
normal mode, for a header with NUC difficulty 1 and a 32-octet hashimoto result,
`verifySeal` returns ok if and only if the recomputed digest equals
`header.MixDigest`, and `errInvalidMixDigest` otherwise: the target test cannot
fail. -/
theorem nuc_difficulty_unconstrained (ethash : Ethash) (env : VerifyEnv)
    (header parent : Header) (uncle : Bool) (mode : Mode) (fakeFail : Nat) (pow : Pow)
    (sealed : Header) (fulldag : Bool) :
    (∀ d : Int,
      env.VerifyDAOHeaderExtraData env.config { header with NUCDifficulty := d }
        = env.VerifyDAOHeaderExtraData env.config header →
      env.VerifyForkHashes env.config { header with NUCDifficulty := d } uncle
        = env.VerifyForkHashes env.config header uncle →
      verifyHeader ethash env { header with NUCDifficulty := d } parent uncle false
        = verifyHeader ethash env header parent uncle false) ∧
    (mode ≠ Mode.ModeFake ∧ mode ≠ Mode.ModeFullFake → sealed.NUCDifficulty = 1 →
      (sealValues mode pow sealed fulldag).2.length = 32 →
      (verifySeal (Ethash.own mode fakeFail pow) sealed fulldag = none
        ↔ (sealValues mode pow sealed fulldag).1 = sealed.MixDigest) ∧
      verifySeal (Ethash.own mode fakeFail pow) sealed fulldag
        = (if (sealValues mode pow sealed fulldag).1 = sealed.MixDigest then none
           else some Err.errInvalidMixDigest)) := by
  constructor
  · intro d hdao hfork
    unfold verifyHeader
    simp only [Bool.false_eq_true, ↓reduceIte, hdao, hfork]
  · intro hmode hone hlen
    have hfake : ¬ (mode = Mode.ModeFake ∨ mode = Mode.ModeFullFake) := by
      rintro (h | h)
      · exact hmode.1 h
      · exact hmode.2 h
    have hlt := bigBE_lt_pow (sealValues mode pow sealed fulldag).2
    rw [hlen] at hlt
    have htarget : ¬ ((bigBE (sealValues mode pow sealed fulldag).2 : Int)
        > two256 / sealed.NUCDifficulty) := by
      rw [hone]
      unfold two256
      have : ((bigBE (sealValues mode pow sealed fulldag).2 : Nat) : Int)
          < ((256 ^ 32 : Nat) : Int) := by exact_mod_cast hlt
      norm_num at this ⊢
      omega
    have hmain : verifySeal (Ethash.own mode fakeFail pow) sealed fulldag
        = (if (sealValues mode pow sealed fulldag).1 = sealed.MixDigest then none
           else some Err.errInvalidMixDigest) := by
      unfold verifySeal
      rw [if_neg hfake, if_neg (by rw [hone]; norm_num)]
      simp only []
      by_cases hd : (sealValues mode pow sealed fulldag).1 = sealed.MixDigest
      · rw [if_neg (fun h => h hd.symm), if_neg htarget, if_pos hd]
      · rw [if_pos (fun h => hd h.symm), if_neg hd]
    refine ⟨?_, hmain⟩
    rw [hmain]
    constructor
    · intro h
      by_contra hd
      rw [if_neg hd] at h
      cases h
    · intro hd
      rw [if_pos hd]

/-- Witness of C35: the example child passes the header checks with NUC difficulty 7
as it does with its own, and with NUC difficulty 1 its seal is accepted for the
largest 32-octet result. -/
theorem nuc_difficulty_unconstrained_witness :
    verifyHeader exampleEthash exampleEnv { exampleChild with NUCDifficulty := 7 }
        exampleParent false false
      = verifyHeader exampleEthash exampleEnv exampleChild exampleParent false false ∧
    (Mode.ModeNormal ≠ Mode.ModeFake ∧ Mode.ModeNormal ≠ Mode.ModeFullFake) ∧
    unitSealed.NUCDifficulty = 1 ∧
    (sealValues Mode.ModeNormal widePow unitSealed false).2.length = 32 ∧
    verifySeal (Ethash.own Mode.ModeNormal 0 widePow) unitSealed false = none :=
  ⟨(nuc_difficulty_unconstrained exampleEthash exampleEnv exampleChild exampleParent false
      Mode.ModeNormal 0 widePow unitSealed false).1 7 rfl rfl,
    by decide, rfl, by decide,
    ((nuc_difficulty_unconstrained exampleEthash exampleEnv exampleChild exampleParent false
      Mode.ModeNormal 0 widePow unitSealed false).2 (by decide) rfl (by decide)).1.mpr
      (by decide)⟩

/-! ## The 8-octet amount field -/

theorem natBytesAux_length_gt (fuel n k : Nat) (h : 256 ^ k ≤ n) (hf : n ≤ fuel) :
    k < (natBytesAux fuel n).length := by
  induction fuel generalizing n k with
  | zero =>
    have hpos : 0 < 256 ^ k := by positivity
    omega
  | succ f ih =>
    have hpos : 0 < 256 ^ k := by positivity
    unfold natBytesAux
    rw [if_neg (by omega)]
    simp only [List.length_append, List.length_singleton]
    cases k with
    | zero => omega
    | succ k =>
      have hdiv : 256 ^ k ≤ n / 256 := by
        rw [Nat.le_div_iff_mul_le (by norm_num)]
        rw [pow_succ] at h
        exact h
      have := ih (n / 256) k hdiv (by omega)
      omega

theorem bigBE_take_natBytesAux (fuel n k : Nat) (hf : n ≤ fuel)
    (hk : k ≤ (natBytesAux fuel n).length) :
    bigBE ((natBytesAux fuel n).take k)
      = n / 256 ^ ((natBytesAux fuel n).length - k) := by
  induction fuel generalizing n with
  | zero =>
    have h0 : n = 0 := by omega
    subst h0
    simp [natBytesAux, bigBE]
  | succ f ih =>
    unfold natBytesAux at hk ⊢
    by_cases h0 : n = 0
    · subst h0
      simp [bigBE]
    · rw [if_neg h0] at hk ⊢
      simp only [List.length_append, List.length_singleton] at hk ⊢
      by_cases hfull : k = (natBytesAux f (n / 256)).length + 1
      · rw [hfull, Nat.sub_self, pow_zero, Nat.div_one]
        have htake : ((natBytesAux f (n / 256)) ++ [Fin.ofNat (n % 256)]).take
            ((natBytesAux f (n / 256)).length + 1)
            = natBytesAux f (n / 256) ++ [Fin.ofNat (n % 256)] := by
          apply List.take_of_length_le
          simp
        rw [htake, bigBE_append_singleton, bigBE_natBytesAux f (n / 256) (by omega)]
        simp only [Fin.ofNat, Nat.succ_eq_add_one]
        omega
      · have hk2 : k ≤ (natBytesAux f (n / 256)).length := by omega
        rw [List.take_append_of_le_length hk2, ih (n / 256) (by omega) hk2]
        have hexp : (natBytesAux f (n / 256)).length + 1 - k
            = ((natBytesAux f (n / 256)).length - k) + 1 := by omega
        rw [hexp, pow_succ, Nat.div_div_eq_div_mul, Nat.mul_comm]

/-- C37. For every non-negative amount `n`: `FormatUint64Bytes` returns exactly 8
octets and `FormatUint64Bytes2` always decodes (big-endian) to `n`; `bigBytes n`, the
minimal big-endian representation, decodes to `n` and has at most `k` octets exactly
when `n < 256^k`. For `n < 2^64` the 8 octets are that representation padded with
zeros on the left, the same octets as `FormatUint64Bytes2`, and decode to `n`. For
`n ≥ 2^64` the representation has more than 8 octets, `FormatUint64Bytes` returns its
first 8, which decode to `floor(n / 256^(len - 8))` and not to `n`, while
`FormatUint64Bytes2` returns all `len` octets. The amounts `2^64` and `2^64 + 1`
encode identically. -/
theorem FormatUint64Bytes_spec (n : Nat) :
    (FormatUint64Bytes (n : Int)).length = 8 ∧
    bigBE (FormatUint64Bytes2 (n : Int)) = n ∧
    bigBE (bigBytes (n : Int)) = n ∧
    (∀ k, (bigBytes (n : Int)).length ≤ k ↔ n < 256 ^ k) ∧
    (n < 2 ^ 64 →
      FormatUint64Bytes (n : Int)
        = List.replicate (8 - (bigBytes (n : Int)).length) (0 : Byte) ++ bigBytes (n : Int) ∧
      FormatUint64Bytes (n : Int) = FormatUint64Bytes2 (n : Int) ∧
      bigBE (FormatUint64Bytes (n : Int)) = n) ∧
    (2 ^ 64 ≤ n →
      8 < (bigBytes (n : Int)).length ∧
      FormatUint64Bytes (n : Int) = (bigBytes (n : Int)).take 8 ∧
      bigBE (FormatUint64Bytes (n : Int)) = n / 256 ^ ((bigBytes (n : Int)).length - 8) ∧
      bigBE (FormatUint64Bytes (n : Int)) ≠ n ∧
      FormatUint64Bytes2 (n : Int) = bigBytes (n : Int)) ∧
    FormatUint64Bytes (2 ^ 64) = FormatUint64Bytes (2 ^ 64 + 1) := by
  have hb : bigBytes (n : Int) = natBytesAux n n := by
    unfold bigBytes
    simp only [Int.natAbs_ofNat]
  have hval : bigBE (bigBytes (n : Int)) = n := by
    rw [hb]
    exact bigBE_natBytesAux n n (le_refl _)
  have hmin : ∀ k, (bigBytes (n : Int)).length ≤ k ↔ n < 256 ^ k := by
    intro k
    rw [hb]
    constructor
    · intro h
      by_contra hn
      have := natBytesAux_length_gt n n k (by omega) (le_refl _)
      omega
    · exact natBytesAux_length_le n n k
  have h2 : bigBE (FormatUint64Bytes2 (n : Int)) = n := by
    unfold FormatUint64Bytes2
    simp only []
    split
    · rw [bigBE_replicate_zero_append, hval]
    · rw [List.nil_append, hval]
  refine ⟨FormatUint64Bytes_length _, h2, hval, hmin, ?_, ?_, by decide⟩
  · intro hn
    have hn8 : n < 256 ^ 8 := by
      norm_num at hn ⊢
      exact hn
    have hlen : (bigBytes (n : Int)).length ≤ 8 := (hmin 8).mpr hn8
    have hn2 : (n : Int) < 2 ^ 64 := by exact_mod_cast hn
    have hpad := FormatUint64Bytes_padded (n : Int) (Int.natCast_nonneg n) hn2
    refine ⟨hpad, ?_, ?_⟩
    · rw [hpad]
      unfold FormatUint64Bytes2
      simp only []
      split
      · rfl
      · rename_i h8
        have : (bigBytes (n : Int)).length = 8 := by
          by_contra hne
          exact h8 hne
        rw [this]
        rfl
    · rw [hpad, bigBE_replicate_zero_append, hval]
  · intro hn
    have hn8 : ¬ n < 256 ^ 8 := by
      norm_num at hn ⊢
      exact hn
    have hlen : 8 < (bigBytes (n : Int)).length := by
      by_contra hle
      exact hn8 ((hmin 8).mp (by omega))
    have hform : FormatUint64Bytes (n : Int) = (bigBytes (n : Int)).take 8 := by
      unfold FormatUint64Bytes
      simp only []
      rw [if_neg (by omega), List.nil_append]
    have hdec : bigBE (FormatUint64Bytes (n : Int))
        = n / 256 ^ ((bigBytes (n : Int)).length - 8) := by
      rw [hform, hb]
      apply bigBE_take_natBytesAux n n 8 (le_refl _)
      rw [← hb]
      omega
    refine ⟨hlen, hform, hdec, ?_, ?_⟩
    · rw [hdec]
      apply ne_of_lt
      apply Nat.div_lt_self
      · have : 0 < 2 ^ 64 := by positivity
        omega
      · apply Nat.one_lt_pow
        · omega
        · norm_num
    · unfold FormatUint64Bytes2
      simp only []
      rw [if_pos (by omega)]
      have : 8 - (bigBytes (n : Int)).length = 0 := by omega
      rw [this]
      rfl

/-- Witness of C37: the amount 300 decodes to itself, the amount `2^64` does not. -/
theorem FormatUint64Bytes_spec_witness :
    (300 : Nat) < 2 ^ 64 ∧
    bigBE (FormatUint64Bytes ((300 : Nat) : Int)) = 300 ∧
    (2 ^ 64 : Nat) ≤ 2 ^ 64 ∧
    bigBE (FormatUint64Bytes ((2 ^ 64 : Nat) : Int)) ≠ 2 ^ 64 :=
  ⟨by decide, ((FormatUint64Bytes_spec 300).2.2.2.2.1 (by decide)).2.2, le_refl _,
    ((FormatUint64Bytes_spec (2 ^ 64)).2.2.2.2.2.1 (le_refl _)).2.2.2.1⟩

/-! ## Uncle rewards in `accumulateRewards` -/

theorem uncleLoop_journal (header : Header) (uncles : List Header) (st : StateDB) (fee : Int) :
    (uncles.foldl (uncleBody FrontierBlockReward header) (st, fee)).1.journal
      = st.journal ++ uncles.map (fun u => StateOp.addBalance u.Coinbase (uncleReward header u)) := by
  induction uncles generalizing st fee with
  | nil => simp
  | cons u rest ih =>
    rw [List.foldl_cons]
    have hpair : uncleBody FrontierBlockReward header (st, fee) u
        = ((uncleBody FrontierBlockReward header (st, fee) u).1,
           (uncleBody FrontierBlockReward header (st, fee) u).2) := rfl
    rw [hpair, ih]
    simp only [uncleBody, StateDB.AddBalance, uncleReward, List.map_cons, List.append_assoc,
      List.singleton_append]

/-- C38. In `accumulateRewards`, the uncle loop credits, for every included uncle `u`
in order, the address `u.Coinbase` with
`floor((u.Number + 8 - header.Number) * FrontierBlockReward / 8)` and nothing else, and
adds `floor(FrontierBlockReward / 32)` per uncle to `fee` before the transaction loop:
with `k` uncles the transaction loop starts from `k * floor(FrontierBlockReward / 32)`,
so with no transactions `fee` is that value and with a first transaction it is scaled
by 70 % together with the price of the transaction. The rest of `accumulateRewards`
reads this `fee` only through `teamFee` and `powFee`. -/
theorem uncle_rewards (ord : RangeOrder) (caller : NUCCaller) (state : StateDB)
    (header : Header) (uncles : List Header) (txs : List Transaction) :
    (feeLoops state header uncles txs).1.journal
      = state.journal ++ uncles.map (fun u => StateOp.addBalance u.Coinbase
          (Int.fdiv ((u.Number + 8 - header.Number) * FrontierBlockReward) 8)) ∧
    (feeLoops state header uncles txs).2
      = txs.foldl txBody ((uncles.length : Int) * Int.fdiv FrontierBlockReward 32) ∧
    (txs = [] →
      (feeLoops state header uncles txs).2
        = (uncles.length : Int) * Int.fdiv FrontierBlockReward 32) ∧
    (∀ tx rest, txs = tx :: rest →
      (feeLoops state header uncles txs).2
        = rest.foldl txBody
            (Int.fdiv (((uncles.length : Int) * Int.fdiv FrontierBlockReward 32
              + tx.GasPrice * (tx.Gas : Int)) * 70) 100)) ∧
    (accumulateRewards ord caller state header uncles txs).state.journal
      = (state.journal ++ uncles.map (fun u => StateOp.addBalance u.Coinbase
          (Int.fdiv ((u.Number + 8 - header.Number) * FrontierBlockReward) 8)))
        ++ (payJournal (powFeeShare (feeLoops state header uncles txs).2
              (NUCReward4 ord header state caller))
            (ord.records 6 (NUCReward4 ord header state caller))
          ++ sinkOps
            (((ord.records 6 (NUCReward4 ord header state caller)).map
              (rewardOf (powFeeShare (feeLoops state header uncles txs).2
                (NUCReward4 ord header state caller)))).sum)
            (teamFeeOf (feeLoops state header uncles txs).2)) := by
  have e8 : ∀ u : Header, Int.fdiv ((u.Number + 8 - header.Number) * FrontierBlockReward) 8
      = uncleReward header u := by
    intro u
    rw [Int.fdiv_eq_ediv _ (by norm_num : (0 : Int) ≤ 8)]
    rfl
  have e32 : Int.fdiv FrontierBlockReward 32 = FrontierBlockReward / 32 :=
    Int.fdiv_eq_ediv _ (by norm_num)
  have hj : (feeLoops state header uncles txs).1.journal
      = state.journal ++ uncles.map (fun u => StateOp.addBalance u.Coinbase
          (Int.fdiv ((u.Number + 8 - header.Number) * FrontierBlockReward) 8)) := by
    simp only [e8]
    exact uncleLoop_journal header uncles state 0
  have hfee : (feeLoops state header uncles txs).2
      = txs.foldl txBody ((uncles.length : Int) * Int.fdiv FrontierBlockReward 32) := by
    rw [e32]
    unfold feeLoops
    simp only []
    rw [(uncleLoop_spec header uncles state 0).1, Int.zero_add]
  refine ⟨hj, hfee, ?_, ?_, ?_⟩
  · intro h
    rw [hfee, h]
    rfl
  · intro tx rest h
    rw [hfee, h, List.foldl_cons]
    congr 1
    unfold txBody
    rw [Int.fdiv_eq_ediv _ (by norm_num : (0 : Int) ≤ 100)]
  · rw [accumulateRewards_journal, hj]

/-- Witness of C38: one uncle and no transactions leave `fee` at
`floor(FrontierBlockReward / 32)`. -/
theorem uncle_rewards_witness :
    ([] : List Transaction) = [] ∧
    (feeLoops emptyState zeroHeader [uncleFour] []).2
      = (([uncleFour] : List Header).length : Int) * Int.fdiv FrontierBlockReward 32 :=
  ⟨rfl, (uncle_rewards insertionOrder emptyCaller emptyState zeroHeader [uncleFour] []).2.2.1 rfl⟩

/-! ## Bounds of the Frontier difficulty -/

theorem calcDifficultyFrontier_ge_min (P : Params) (time : Nat) (parent : Header) :
    P.MinimumDifficulty ≤ calcDifficultyFrontier P time parent := by
  unfold calcDifficultyFrontier
  simp only [bigExp2, BigMax]
  have hpow : (0 : Int) < 2 ^ ((parent.Number + 1) / expDiffPeriod - 2).toNat := by positivity
  split_ifs <;> omega

/-- C39. With the positive constants `DIFF_BOUND_DIV` and `MIN_DIFF` of `params`, for
every parent header and every time (also `time ≤ parent.Time`, any parent difficulty
and number): `calcDifficultyFrontier(time, parent) ≥ MIN_DIFF`, so `CalcDifficulty` is
positive, and whenever `Prepare` finds the parent the difficulty and the NUC
difficulty it writes are positive. Without the bomb term
(`floor((parent.Number + 1) / 100000) ≤ 1`) and when
`parent.Difficulty - floor(parent.Difficulty / DIFF_BOUND_DIV) ≥ MIN_DIFF`, the result
is the parent difficulty plus or minus `floor(parent.Difficulty / DIFF_BOUND_DIV)`, so
it differs from the parent difficulty by at most that quotient. -/
theorem calcDifficultyFrontier_bounds (env : VerifyEnv) (time : Nat) (parent : Header)
    (chain : ChainReader) (header : Header)
    (hdiv : 0 < env.params.DifficultyBoundDivisor) (hmin : 0 < env.params.MinimumDifficulty) :
    env.params.MinimumDifficulty ≤ calcDifficultyFrontier env.params time parent ∧
    0 < CalcDifficulty env.params env.config time parent ∧
    (∀ par,
      chain.GetHeader header.ParentHash ((bigUint64 header.Number + 2 ^ 64 - 1) % 2 ^ 64)
        = some par →
      0 < (Prepare env chain header).2.Difficulty ∧
      0 < (Prepare env chain header).2.NUCDifficulty) ∧
    (Int.fdiv (parent.Number + 1) 100000 ≤ 1 →
      env.params.MinimumDifficulty
        ≤ parent.Difficulty - Int.fdiv parent.Difficulty env.params.DifficultyBoundDivisor →
      (calcDifficultyFrontier env.params time parent
          = parent.Difficulty + Int.fdiv parent.Difficulty env.params.DifficultyBoundDivisor ∨
        calcDifficultyFrontier env.params time parent
          = parent.Difficulty - Int.fdiv parent.Difficulty env.params.DifficultyBoundDivisor) ∧
      |calcDifficultyFrontier env.params time parent - parent.Difficulty|
        ≤ Int.fdiv parent.Difficulty env.params.DifficultyBoundDivisor) := by
  have hge : ∀ t p, env.params.MinimumDifficulty ≤ calcDifficultyFrontier env.params t p :=
    fun t p => calcDifficultyFrontier_ge_min env.params t p
  refine ⟨hge time parent, ?_, ?_, ?_⟩
  · unfold CalcDifficulty
    have := hge time parent
    omega
  · intro par hpar
    have hprep : Prepare env chain header =
        (none, { header with
          Difficulty := CalcDifficulty env.params env.config header.Time par,
          NUCDifficulty := CalcDifficulty env.params env.config header.Time par }) := by
      unfold Prepare
      rw [hpar]
    rw [hprep]
    have := hge header.Time par
    simp only [CalcDifficulty]
    omega
  · intro hper hlow
    have e1 : Int.fdiv parent.Difficulty env.params.DifficultyBoundDivisor
        = parent.Difficulty / env.params.DifficultyBoundDivisor :=
      Int.fdiv_eq_ediv _ (le_of_lt hdiv)
    have e2 : Int.fdiv (parent.Number + 1) 100000 = (parent.Number + 1) / expDiffPeriod :=
      Int.fdiv_eq_ediv _ (by norm_num)
    rw [e1] at hlow ⊢
    rw [e2] at hper
    have hadj : 0 ≤ parent.Difficulty / env.params.DifficultyBoundDivisor := by
      by_contra hneg
      have hpd : parent.Difficulty < 0 := by
        by_contra hnn
        exact hneg (Int.ediv_nonneg (by omega) (le_of_lt hdiv))
      have hle : parent.Difficulty ≤ parent.Difficulty / env.params.DifficultyBoundDivisor := by
        apply Int.le_ediv_of_mul_le hdiv
        nlinarith
      omega
    have hres : calcDifficultyFrontier env.params time parent
          = parent.Difficulty + parent.Difficulty / env.params.DifficultyBoundDivisor ∨
        calcDifficultyFrontier env.params time parent
          = parent.Difficulty - parent.Difficulty / env.params.DifficultyBoundDivisor := by
      unfold calcDifficultyFrontier
      simp only []
      rw [if_neg (by omega)]
      split_ifs
      · omega
      · left; trivial
      · omega
      · right; trivial
    refine ⟨hres, ?_⟩
    rw [abs_le]
    rcases hres with h | h <;> rw [h] <;> constructor <;> omega

/-- Witness of C39: scenario 1 of the specification, where the child difficulty 131136
is the parent difficulty 131072 plus `floor(131072 / 2048) = 64`. -/
theorem calcDifficultyFrontier_bounds_witness :
    0 < exampleEnv.params.DifficultyBoundDivisor ∧ 0 < exampleEnv.params.MinimumDifficulty ∧
    exampleEnv.params.MinimumDifficulty ≤ calcDifficultyFrontier exampleEnv.params 1005 exampleParent ∧
    0 < (Prepare exampleEnv headerChain freshChild).2.Difficulty ∧
    Int.fdiv (heavyParent.Number + 1) 100000 ≤ 1 ∧
    exampleEnv.params.MinimumDifficulty
      ≤ heavyParent.Difficulty
        - Int.fdiv heavyParent.Difficulty exampleEnv.params.DifficultyBoundDivisor ∧
    |calcDifficultyFrontier exampleEnv.params 1005 heavyParent - heavyParent.Difficulty|
      ≤ Int.fdiv heavyParent.Difficulty exampleEnv.params.DifficultyBoundDivisor :=
  ⟨by decide, by decide,
    (calcDifficultyFrontier_bounds exampleEnv 1005 exampleParent headerChain freshChild
      (by decide) (by decide)).1,
    ((calcDifficultyFrontier_bounds exampleEnv 1005 exampleParent headerChain freshChild
      (by decide) (by decide)).2.2.1 exampleParent (by decide)).1,
    by decide, by decide,
    ((calcDifficultyFrontier_bounds exampleEnv 1005 heavyParent headerChain freshChild
      (by decide) (by decide)).2.2.2 (by decide) (by decide)).2⟩

/-! ## `DecodeFromBytes` on whole entries -/

theorem decodeEntries_wire (n : Nat) (b : List Byte) (acc : CoinbaseTxs) (fuel : Nat)
    (hlen : b.length = 44 * n) (hf : n ≤ fuel) :
    decodeEntries fuel b acc
      = some ((wireEntries n b).foldl (fun c e => decodeStep c e.addr e.poc e.pow e.pool) acc) := by
  induction n generalizing b acc fuel with
  | zero =>
    have hb : b = [] := List.eq_nil_of_length_eq_zero (by omega)
    subst hb
    cases fuel <;> rfl
  | succ k ih =>
    cases b with
    | nil => simp at hlen
    | cons x xs =>
      cases fuel with
      | zero => omega
      | succ f =>
        unfold decodeEntries
        have hnot : ¬ (x :: xs).length < 44 := by omega
        simp only [hnot, ↓reduceIte]
        have hrest : ((x :: xs).drop 44).length = 44 * k := by
          rw [List.length_drop]
          omega
        rw [ih _ _ f hrest (by omega)]
        rfl

theorem decodeEntries_short_fuel (n : Nat) (b : List Byte) (acc : CoinbaseTxs) (fuel : Nat)
    (hlen : b.length = 44 * n) (hf : fuel < n) : decodeEntries fuel b acc = none := by
  induction n generalizing b acc fuel with
  | zero => omega
  | succ k ih =>
    cases b with
    | nil => simp at hlen
    | cons x xs =>
      cases fuel with
      | zero => rfl
      | succ f =>
        unfold decodeEntries
        have hnot : ¬ (x :: xs).length < 44 := by omega
        simp only [hnot, ↓reduceIte]
        have hrest : ((x :: xs).drop 44).length = 44 * k := by
          rw [List.length_drop]
          omega
        exact ih _ _ f hrest (by omega)

theorem wireEntries_length (n : Nat) (b : List Byte) : (wireEntries n b).length = n := by
  induction n generalizing b with
  | zero => rfl
  | succ k ih => simp [wireEntries, ih]

theorem CoinbaseTxs.modify_length (c : CoinbaseTxs) (a : Address)
    (f : CoinbaseUserReward → CoinbaseUserReward) : (c.modify a f).length = c.length := by
  unfold CoinbaseTxs.modify
  rw [List.length_map]

theorem decodeStep_length (c : CoinbaseTxs) (a : Address) (poc pow pool : Int) :
    (decodeStep c a poc pow pool).length ≤ c.length + 1 := by
  unfold decodeStep
  rw [CoinbaseTxs.modify_length, CoinbaseTxs.modify_length, CoinbaseTxs.modify_length]
  unfold CoinbaseTxs.Add
  split
  · omega
  · simp

theorem decodeStep_keys_nodup (c : CoinbaseTxs) (a : Address) (poc pow pool : Int)
    (h : c.keys.Nodup) : (decodeStep c a poc pow pool).keys.Nodup := by
  unfold decodeStep
  rw [CoinbaseTxs.modify_keeps_keys, CoinbaseTxs.modify_keeps_keys,
    CoinbaseTxs.modify_keeps_keys]
  exact CoinbaseTxs.Add_keys_nodup c a h

theorem decodeStep_get? (c : CoinbaseTxs) (a x : Address) (poc pow pool : Int) :
    (decodeStep c a poc pow pool).get? x
      = if x = a then
          some { PoolReward := pool, PocReward := poc, PowReward := pow,
                 PostReward := ((c.get? a).getD zeroRecord).PostReward }
        else c.get? x := by
  unfold decodeStep
  rw [CoinbaseTxs.get?_modify, CoinbaseTxs.get?_modify, CoinbaseTxs.get?_modify,
    CoinbaseTxs.get?_Add]
  by_cases hx : x = a
  · subst hx
    simp only [↓reduceIte]
    by_cases hh : c.Has x = true
    · rw [if_pos hh]
      cases hg : c.get? x with
      | none =>
        exact absurd ((CoinbaseTxs.has_iff_mem_keys c x).mp hh)
          ((CoinbaseTxs.get?_eq_none_iff c x).mp hg)
      | some r => rfl
    · rw [if_neg hh]
      have hg : c.get? x = none :=
        (CoinbaseTxs.get?_eq_none_iff c x).mpr
          (fun hm => hh ((CoinbaseTxs.has_iff_mem_keys c x).mpr hm))
      rw [hg]
      rfl
  · simp only [hx, ↓reduceIte]
    split <;> rfl

theorem decode_fold_length (es : List WireEntry) (acc : CoinbaseTxs) :
    (es.foldl (fun c e => decodeStep c e.addr e.poc e.pow e.pool) acc).length
      ≤ acc.length + es.length := by
  induction es generalizing acc with
  | nil => simp
  | cons e rest ih =>
    rw [List.foldl_cons, List.length_cons]
    have h1 := ih (decodeStep acc e.addr e.poc e.pow e.pool)
    have h2 := decodeStep_length acc e.addr e.poc e.pow e.pool
    omega

theorem decode_fold_keys_nodup (es : List WireEntry) (acc : CoinbaseTxs) (h : acc.keys.Nodup) :
    (es.foldl (fun c e => decodeStep c e.addr e.poc e.pow e.pool) acc).keys.Nodup := by
  induction es generalizing acc with
  | nil => exact h
  | cons e rest ih =>
    rw [List.foldl_cons]
    exact ih _ (decodeStep_keys_nodup acc e.addr e.poc e.pow e.pool h)

theorem lastEntry_append_singleton (es : List WireEntry) (e : WireEntry) (a : Address) :
    lastEntry (es ++ [e]) a = if e.addr = a then some e.record else lastEntry es a := by
  unfold lastEntry
  rw [List.reverse_append, List.reverse_singleton, List.singleton_append, List.find?_cons]
  by_cases h : e.addr = a
  · simp [h]
  · simp [h]

theorem decode_fold_get? (es : List WireEntry) (a : Address) :
    (es.foldl (fun c e => decodeStep c e.addr e.poc e.pow e.pool) []).get? a
      = lastEntry es a := by
  induction es using List.reverseRecOn with
  | nil => rfl
  | append_singleton l e ih =>
    rw [List.foldl_append, List.foldl_cons, List.foldl_nil, decodeStep_get?,
      lastEntry_append_singleton]
    by_cases h : a = e.addr
    · subst h
      rw [if_pos rfl, if_pos rfl, ih]
      unfold lastEntry
      cases (l.reverse.find? (fun x => decide (x.addr = e.addr))) <;> rfl
    · rw [if_neg h, if_neg (fun h2 => h h2.symm), ih]

/-- C40. For every input whose decoded octet string `b` has length `44 * n`,
`DecodeFromBytes` returns a record set (no slice expression reaches past `len(b)`),
after exactly `n` iterations of its loop: `n` iterations give the result and fewer do
not end the loop. The set has at most `n` entries, with distinct addresses; for every
address it holds the amounts of the last of the `n` entries with that address, and no
record for an address without an entry; the PoST amount of every record is 0. -/
theorem DecodeFromBytes_whole_entries (FromHex : String → List Byte) (coinbaseTxs : String)
    (n : Nat) (hlen : (FromHex coinbaseTxs).length = 44 * n) :
    ∃ d : CoinbaseTxs,
      DecodeFromBytes FromHex coinbaseTxs = some d ∧
      decodeEntries n (FromHex coinbaseTxs) [] = some d ∧
      (∀ fuel, fuel < n → decodeEntries fuel (FromHex coinbaseTxs) [] = none) ∧
      d.length ≤ n ∧
      d.keys.Nodup ∧
      (∀ a, d.get? a = lastEntry (wireEntries n (FromHex coinbaseTxs)) a) ∧
      (∀ e ∈ d, e.2.PostReward = 0) := by
  have hn : n ≤ (FromHex coinbaseTxs).length := by omega
  have hnodup : ((wireEntries n (FromHex coinbaseTxs)).foldl
      (fun c e => decodeStep c e.addr e.poc e.pow e.pool) []).keys.Nodup :=
    decode_fold_keys_nodup _ [] List.nodup_nil
  refine ⟨(wireEntries n (FromHex coinbaseTxs)).foldl
      (fun c e => decodeStep c e.addr e.poc e.pow e.pool) [], ?_, ?_, ?_, ?_, hnodup, ?_, ?_⟩
  · unfold DecodeFromBytes
    exact decodeEntries_wire n _ [] _ hlen hn
  · exact decodeEntries_wire n _ [] n hlen (le_refl _)
  · intro fuel hf
    exact decodeEntries_short_fuel n _ [] fuel hlen hf
  · have h := decode_fold_length (wireEntries n (FromHex coinbaseTxs)) []
    rw [wireEntries_length] at h
    simpa using h
  · intro a
    exact decode_fold_get? _ a
  · intro e he
    have hg := CoinbaseTxs.get?_of_mem _ e hnodup he
    rw [decode_fold_get?] at hg
    unfold lastEntry at hg
    cases hf : (wireEntries n (FromHex coinbaseTxs)).reverse.find?
        (fun x => decide (x.addr = e.1)) with
    | none => rw [hf] at hg; cases hg
    | some w =>
      rw [hf] at hg
      simp only [Option.map_some', Option.some.injEq] at hg
      rw [← hg]
      rfl

/-- Witness of C40: two entries for one address decode to one record with the amounts
of the second entry. -/
theorem DecodeFromBytes_whole_entries_witness :
    ((fun _ : String => twiceListed) "").length = 44 * 2 ∧
    ∃ d : CoinbaseTxs,
      DecodeFromBytes (fun _ => twiceListed) "" = some d ∧
      d.length ≤ 2 ∧
      d.get? (BytesToAddress (List.replicate 20 1))
        = some { PoolReward := 6, PocReward := 4, PowReward := 5, PostReward := 0 } :=
  ⟨by decide,
    (DecodeFromBytes_whole_entries (fun _ => twiceListed) "" 2 (by decide)).imp
      (fun d h => ⟨h.1, h.2.2.2.1, (h.2.2.2.2.2.1 _).trans (by decide)⟩)⟩

/-! ## The class reward is not exceeded -/

theorem foldl_weight_sum (xs : List MiningUser) (init : Int) :
    xs.foldl (fun allCount v => allCount + v.Weight) init
      = init + (xs.map (fun v => v.Weight)).sum := by
  induction xs generalizing init with
  | nil => simp
  | cons x rest ih =>
    rw [List.foldl_cons, ih, List.map_cons, List.sum_cons]
    ring

theorem AllWeight_eq_sum (ord : RangeOrder) (l : MiningUsers) :
    l.AllWeight ord = (l.map (fun v => v.Weight)).sum := by
  unfold MiningUsers.AllWeight
  rw [foldl_weight_sum, Int.zero_add]
  exact ((ord.users_perm 0 l).map _).sum_eq

theorem GetRewardByType3_nonneg (B : Int) (header : Header) (caller : NUCCaller) (hB : 0 ≤ B) :
    0 ≤ GetRewardByType3 B header caller := by
  unfold GetRewardByType3
  cases caller.GetRewardRatio with
  | none => exact le_refl _
  | some r =>
    simp only [bigExp2]
    have hq : ∀ k : Nat, (0 : Int) ≤ B / 2 ^ k := fun k => Int.ediv_nonneg hB (by positivity)
    split_ifs
    all_goals first | exact hq _ | exact hB

theorem share_le_weighted (s : Int) (m : MiningUser) (hs : 0 ≤ s) (hw : 0 ≤ m.Weight) :
    memberShare s m + forwarded s m ≤ s * m.Weight := by
  unfold memberShare forwarded
  by_cases hb : m.HasBind = true
  · rw [if_pos hb, if_pos hb]
    omega
  · rw [if_neg hb, if_neg hb, Int.fdiv_eq_ediv _ (by norm_num : (0 : Int) ≤ 2)]
    have hprod : 0 ≤ s * m.Weight := mul_nonneg hs hw
    omega

theorem class_total_le (l : MiningUsers) (R : Int) (hR : 0 ≤ R)
    (hw : ∀ m ∈ l, 0 ≤ m.Weight) :
    (l.map (fun m => memberShare (everyUserReward R (l.map (fun v => v.Weight)).sum) m
        + forwarded (everyUserReward R (l.map (fun v => v.Weight)).sum) m)).sum ≤ R := by
  have hW : 0 ≤ (l.map (fun v => v.Weight)).sum := by
    apply List.sum_nonneg
    intro x hx
    obtain ⟨m, hm, rfl⟩ := List.mem_map.mp hx
    exact hw m hm
  generalize hWdef : (l.map (fun v => v.Weight)).sum = W at hW ⊢
  have hs : 0 ≤ everyUserReward R W := by
    unfold everyUserReward
    split
    · exact Int.ediv_nonneg hR hW
    · exact hR
  have h1 : (l.map (fun m => memberShare (everyUserReward R W) m
        + forwarded (everyUserReward R W) m)).sum
      ≤ (l.map (fun m => everyUserReward R W * m.Weight)).sum := by
    apply List.sum_le_sum
    intro m hm
    exact share_le_weighted _ m hs (hw m hm)
  have h2 : (l.map (fun m => everyUserReward R W * m.Weight)).sum = everyUserReward R W * W := by
    rw [← hWdef, List.sum_map_mul_left]
  have h3 : everyUserReward R W * W ≤ R := by
    unfold everyUserReward
    by_cases hpos : W > 0
    · rw [if_pos hpos]
      exact Int.ediv_mul_le R (by omega)
    · have h0 : W = 0 := by omega
      rw [h0, Int.mul_zero]
      exact hR
  omega

theorem powers_keys_source (us : List Struct2) (l : MiningUsers) (a : Address)
    (h : a ∈ (us.foldl powerBody l).keys) : a ∈ l.keys ∨ ∃ u ∈ us, u.UserAddr = a := by
  induction us generalizing l with
  | nil => exact Or.inl h
  | cons u rest ih =>
    rw [List.foldl_cons] at h
    rcases ih _ h with h1 | ⟨v, hv, hva⟩
    · have hk : (powerBody l u).keys = (l.Add u.UserAddr).keys := by
        unfold powerBody
        simp only []
        split
        · rw [MiningUsers.SetBindAddr_keys, MiningUsers.AddWeightCount_keys]
        · rw [MiningUsers.AddWeightCount_keys]
      rw [hk, MiningUsers.Add_keys] at h1
      split at h1
      · exact Or.inl h1
      · rcases List.mem_append.mp h1 with h2 | h2
        · exact Or.inl h2
        · right
          refine ⟨u, List.mem_cons_self _ _, ?_⟩
          simp only [List.mem_singleton] at h2
          exact h2.symm
    · exact Or.inr ⟨v, List.mem_cons_of_mem _ hv, hva⟩

theorem pocers_weight_nonneg (state : StateDB) (caller : NUCCaller)
    (hnodup : ((pocListing caller).map (fun u => u.UserAddr)).Nodup) :
    ∀ m ∈ GetAllPocers3 state caller, 0 ≤ m.Weight := by
  intro m hm
  have hget := MiningUsers.get?_member _ m (Gathered.GetAllPocers3 state caller).1 hm
  have hkey : m.Address ∈ (GetAllPocers3 state caller).keys := List.mem_map_of_mem _ hm
  rw [GetAllPocers3_eq_foldl, pocers_keys_iff] at hkey
  rcases hkey with h | ⟨u, hu, haddr, _, _⟩
  · cases h
  · have hcount : ((pocListing caller).map (fun v => v.UserAddr)).count u.UserAddr = 1 :=
      List.count_eq_one_of_mem hnodup (List.mem_map_of_mem _ hu)
    rw [← haddr, GetAllPocers3_eq_foldl,
      fold_get?_once (pocerBody state) (fun v => v.UserAddr) _
        (fun l v a hne => pocerBody_get?_other state l v a hne)
        (fun l v hnew => pocerBody_get?_own state l v hnew)
        (pocListing caller) [] u hu hcount (by simp [MiningUsers.keys])] at hget
    split at hget
    · have hm2 : m = pocMember u := (Option.some.inj hget).symm
      subst hm2
      simp only [pocMember]
      omega
    · cases hget

theorem powers_weight_nonneg (caller : NUCCaller)
    (hnodup : ((powListing caller).map (fun u => u.UserAddr)).Nodup) :
    ∀ m ∈ GetAllPowers3 caller, 0 ≤ m.Weight := by
  intro m hm
  have hget := MiningUsers.get?_member _ m (Gathered.GetAllPowers3 caller).1 hm
  have hkey : m.Address ∈ (GetAllPowers3 caller).keys := List.mem_map_of_mem _ hm
  rw [GetAllPowers3_eq_foldl] at hkey
  rcases powers_keys_source _ _ _ hkey with h | ⟨u, hu, haddr⟩
  · cases h
  · have hcount : ((powListing caller).map (fun v => v.UserAddr)).count u.UserAddr = 1 :=
      List.count_eq_one_of_mem hnodup (List.mem_map_of_mem _ hu)
    rw [← haddr, GetAllPowers3_eq_foldl,
      fold_get?_once powerBody (fun v => v.UserAddr) _
        (fun l v a hne => powerBody_get?_other l v a hne)
        (fun l v hnew => powerBody_get?_own l v hnew)
        (powListing caller) [] u hu hcount (by simp [MiningUsers.keys])] at hget
    split at hget
    · have hm2 : m = powMember u := (Option.some.inj hget).symm
      subst hm2
      simp only [powMember]
      omega
    · cases hget

/-- C36. `NUCReward4` never distributes more than the class reward. For every registry
whose PoC listing names each member address once, with `R` the PoC class reward
(`GetRewardByType3` of `PocBlockReward`), the sum over the gathered PoC members of
the PoC reward recorded for them, plus the sum of the amounts that PoC members
forward to their pool addresses, is at most `R`; likewise for the PoW class with the
PoW listing and the class reward of `PowBlockReward`. Nothing is assumed about the
total class weight, so this includes the case of total weight 0. -/
theorem class_reward_not_exceeded (ord : RangeOrder) (header : Header) (state : StateDB)
    (caller : NUCCaller) :
    (((pocListing caller).map (fun u => u.UserAddr)).Nodup →
      ((GetAllPocers3 state caller).map (fun m =>
          (((NUCReward4 ord header state caller).get? m.Address).getD zeroRecord).PocReward)).sum
        + ((GetAllPocers3 state caller).map
            (forwarded (pocShareUnit ord header state caller))).sum
        ≤ GetRewardByType3 PocBlockReward header caller) ∧
    (((powListing caller).map (fun u => u.UserAddr)).Nodup →
      ((GetAllPowers3 caller).map (fun m =>
          (((NUCReward4 ord header state caller).get? m.Address).getD zeroRecord).PowReward)).sum
        + ((GetAllPowers3 caller).map (forwarded (powShareUnit ord header caller))).sum
        ≤ GetRewardByType3 PowBlockReward header caller) := by
  constructor
  · intro hnodup
    have hrec : (GetAllPocers3 state caller).map (fun m =>
          (((NUCReward4 ord header state caller).get? m.Address).getD zeroRecord).PocReward)
        = (GetAllPocers3 state caller).map
            (memberShare (pocShareUnit ord header state caller)) := by
      apply List.map_congr_left
      intro m hm
      obtain ⟨r, hr, hp⟩ := NUCReward4_poc_member ord header state caller m hm
      rw [hr, Option.getD_some, hp]
    rw [hrec, ← List.sum_map_add]
    have h := class_total_le (GetAllPocers3 state caller)
      (GetRewardByType3 PocBlockReward header caller)
      (GetRewardByType3_nonneg _ _ _ (by decide)) (pocers_weight_nonneg state caller hnodup)
    rw [← AllWeight_eq_sum ord] at h
    exact h
  · intro hnodup
    have hrec : (GetAllPowers3 caller).map (fun m =>
          (((NUCReward4 ord header state caller).get? m.Address).getD zeroRecord).PowReward)
        = (GetAllPowers3 caller).map (memberShare (powShareUnit ord header caller)) := by
      apply List.map_congr_left
      intro m hm
      obtain ⟨r, hr, hp⟩ := NUCReward4_pow_member ord header state caller m hm
      rw [hr, Option.getD_some, hp]
    rw [hrec, ← List.sum_map_add]
    have h := class_total_le (GetAllPowers3 caller)
      (GetRewardByType3 PowBlockReward header caller)
      (GetRewardByType3_nonneg _ _ _ (by decide)) (powers_weight_nonneg caller hnodup)
    rw [← AllWeight_eq_sum ord] at h
    exact h

/-- Witness of C36: the registry with one bound PoC member, and the registry whose
only PoC member has weight 0. -/
theorem class_reward_not_exceeded_witness :
    ((pocListing unregisteredPoolCaller).map (fun u => u.UserAddr)).Nodup ∧
    ((GetAllPocers3 emptyState unregisteredPoolCaller).map (fun m =>
        (((NUCReward4 insertionOrder zeroHeader emptyState unregisteredPoolCaller).get?
          m.Address).getD zeroRecord).PocReward)).sum
      + ((GetAllPocers3 emptyState unregisteredPoolCaller).map
          (forwarded (pocShareUnit insertionOrder zeroHeader emptyState
            unregisteredPoolCaller))).sum
      ≤ GetRewardByType3 PocBlockReward zeroHeader unregisteredPoolCaller ∧
    ((pocListing recordlessCaller).map (fun u => u.UserAddr)).Nodup ∧
    (GetAllPocers3 emptyState recordlessCaller).AllWeight insertionOrder = 0 ∧
    ((GetAllPocers3 emptyState recordlessCaller).map (fun m =>
        (((NUCReward4 insertionOrder zeroHeader emptyState recordlessCaller).get?
          m.Address).getD zeroRecord).PocReward)).sum
      + ((GetAllPocers3 emptyState recordlessCaller).map
          (forwarded (pocShareUnit insertionOrder zeroHeader emptyState
            recordlessCaller))).sum
      ≤ GetRewardByType3 PocBlockReward zeroHeader recordlessCaller :=
  ⟨by decide,
    (class_reward_not_exceeded insertionOrder zeroHeader emptyState unregisteredPoolCaller).1
      (by decide),
    by decide, by decide,
    (class_reward_not_exceeded insertionOrder zeroHeader emptyState recordlessCaller).1
      (by decide)⟩

/-! ## Batch verification -/

theorem emitLoop_spec (n : Nat) (verdict : Nat → Option (Option Err)) (fuel : Nat)
    (s : HeaderBatch) (hfuel : n - s.out ≤ fuel) (hout : s.out < n)
    (hret : s.returned = false) (hlen : s.errorsOut.length = s.out)
    (hbelow : ∀ j, j < s.out → s.checked j = true)
    (hset : ∀ i, s.checked i = true → verdict i = some (s.errors i))
    (hdel : s.errorsOut.map some = (List.range s.errorsOut.length).map verdict) :
    (emitLoop n fuel s).checked = s.checked ∧ (emitLoop n fuel s).errors = s.errors ∧
    (emitLoop n fuel s).busy = s.busy ∧ (emitLoop n fuel s).done = s.done ∧
    (emitLoop n fuel s).inIndex = s.inIndex ∧
    (emitLoop n fuel s).abortClosed = s.abortClosed ∧
    (emitLoop n fuel s).errorsOut.map some
      = (List.range (emitLoop n fuel s).errorsOut.length).map verdict ∧
    (((emitLoop n fuel s).returned = false ∧
        (emitLoop n fuel s).errorsOut.length = (emitLoop n fuel s).out ∧
        (emitLoop n fuel s).out < n ∧
        (emitLoop n fuel s).checked (emitLoop n fuel s).out = false ∧
        ∀ j, j < (emitLoop n fuel s).out → (emitLoop n fuel s).checked j = true) ∨
      ((emitLoop n fuel s).returned = true ∧ (emitLoop n fuel s).errorsOut.length = n)) := by
  induction fuel generalizing s with
  | zero => omega
  | succ f ih =>
    unfold emitLoop
    by_cases hc : s.checked s.out = true
    · rw [if_pos hc]
      have hdel2 : (s.errorsOut ++ [s.errors s.out]).map some
          = (List.range (s.errorsOut ++ [s.errors s.out]).length).map verdict := by
        rw [List.length_append, List.length_singleton, List.range_succ, List.map_append,
          List.map_append, hdel, hlen]
        simp [hset s.out hc]
      simp only []
      by_cases hlast : s.out = n - 1
      · rw [if_pos hlast]
        refine ⟨rfl, rfl, rfl, rfl, rfl, rfl, hdel2, Or.inr ⟨rfl, ?_⟩⟩
        simp only [List.length_append, List.length_singleton, hlen]
        omega
      · rw [if_neg hlast]
        have h := ih { s with errorsOut := s.errorsOut ++ [s.errors s.out], out := s.out + 1 }
          (by simp only []; omega) (by simp only []; omega) hret
          (by simp only [List.length_append, List.length_singleton, hlen])
          (by
            intro j hj
            simp only [] at hj ⊢
            by_cases hjo : j = s.out
            · rw [hjo]; exact hc
            · exact hbelow j (by omega))
          hset hdel2
        exact h
    · rw [if_neg hc]
      refine ⟨rfl, rfl, rfl, rfl, rfl, rfl, hdel, Or.inl ⟨hret, hlen, hout, ?_, hbelow⟩⟩
      simpa using hc

theorem batchStep_send (n workers : Nat) (verdict : Nat → Option (Option Err)) (s : HeaderBatch) :
    batchStep n workers verdict Action.send s
      = if s.returned = false ∧ s.inIndex < n ∧ s.busy.length < workers then
          some { s with busy := s.busy ++ [s.inIndex], inIndex := s.inIndex + 1 }
        else none := rfl

theorem batchStep_finish (n workers : Nat) (verdict : Nat → Option (Option Err)) (index : Nat)
    (s : HeaderBatch) :
    batchStep n workers verdict (Action.finish index) s
      = if index ∈ s.busy ∧ s.done.length < workers then
          match verdict index with
          | none => none
          | some r =>
            some { s with errors := fun j => if j = index then r else s.errors j
                          busy := s.busy.erase index
                          done := s.done ++ [index] }
        else none := rfl

theorem batchStep_collect (n workers : Nat) (verdict : Nat → Option (Option Err))
    (s : HeaderBatch) :
    batchStep n workers verdict Action.collect s
      = if s.returned then none
        else
          match s.done with
          | [] => none
          | index :: rest =>
            some (emitLoop n n
              { s with done := rest
                       checked := fun j => if j = index then true else s.checked j }) := rfl

theorem batchStep_abort (n workers : Nat) (verdict : Nat → Option (Option Err))
    (s : HeaderBatch) :
    batchStep n workers verdict Action.abort s
      = if s.returned = false ∧ s.abortClosed = true then some { s with returned := true }
        else none := rfl

theorem batchStep_closeAbort (n workers : Nat) (verdict : Nat → Option (Option Err))
    (s : HeaderBatch) :
    batchStep n workers verdict Action.closeAbort s = some { s with abortClosed := true } := rfl

theorem BatchInv_step (n workers : Nat) (verdict : Nat → Option (Option Err)) (a : Action)
    (s t : HeaderBatch) (hinv : BatchInv n verdict s)
    (hstep : batchStep n workers verdict a s = some t) : BatchInv n verdict t := by
  cases a with
  | send =>
    rw [batchStep_send] at hstep
    split at hstep
    · rename_i hg
      simp only [Option.some.injEq] at hstep
      subst hstep
      exact
        { inIndex_le := by simp only []; omega
          busy_lt := by
            intro i hi
            simp only [List.mem_append, List.mem_singleton] at hi ⊢
            rcases hi with h | h
            · have := hinv.busy_lt i h
              omega
            · omega
          done_lt := by
            intro i hi
            have := hinv.done_lt i hi
            simp only []
            omega
          settled := hinv.settled
          covered := by
            intro i hi
            simp only [List.mem_append, List.mem_singleton] at hi ⊢
            by_cases hlt : i < s.inIndex
            · rcases hinv.covered i hlt with h | h | h
              · exact Or.inl (Or.inl h)
              · exact Or.inr (Or.inl h)
              · exact Or.inr (Or.inr h)
            · exact Or.inl (Or.inr (by omega))
          delivered := hinv.delivered
          running := hinv.running
          stopped := hinv.stopped }
    · cases hstep
  | finish index =>
    rw [batchStep_finish] at hstep
    split at hstep
    · rename_i hg
      cases hv : verdict index with
      | none => rw [hv] at hstep; cases hstep
      | some r =>
        rw [hv] at hstep
        simp only [Option.some.injEq] at hstep
        subst hstep
        exact
          { inIndex_le := hinv.inIndex_le
            busy_lt := fun i hi => hinv.busy_lt i (List.mem_of_mem_erase hi)
            done_lt := by
              intro i hi
              simp only [List.mem_append, List.mem_singleton] at hi
              rcases hi with h | h
              · exact hinv.done_lt i h
              · rw [h]; exact hinv.busy_lt index hg.1
            settled := by
              intro i hi
              simp only [List.mem_append, List.mem_singleton] at hi ⊢
              by_cases hii : i = index
              · rw [if_pos hii, hii, hv]
              · rw [if_neg hii]
                rcases hi with (h | h) | h
                · exact hinv.settled i (Or.inl h)
                · exact absurd h hii
                · exact hinv.settled i (Or.inr h)
            covered := by
              intro i hi
              simp only [List.mem_append, List.mem_singleton]
              by_cases hii : i = index
              · exact Or.inr (Or.inl (Or.inr hii))
              · rcases hinv.covered i hi with h | h | h
                · exact Or.inl ((List.mem_erase_of_ne hii).mpr h)
                · exact Or.inr (Or.inl (Or.inl h))
                · exact Or.inr (Or.inr h)
            delivered := hinv.delivered
            running := hinv.running
            stopped := hinv.stopped }
    · cases hstep
  | collect =>
    rw [batchStep_collect] at hstep
    split at hstep
    · cases hstep
    · rename_i hret
      have hret2 : s.returned = false := by simpa using hret
      cases hd : s.done with
      | nil => rw [hd] at hstep; cases hstep
      | cons index rest =>
        rw [hd] at hstep
        simp only [Option.some.injEq] at hstep
        have hrun := hinv.running hret2
        have hidx : index ∈ s.done := by rw [hd]; exact List.mem_cons_self _ _
        have hspec := emitLoop_spec n verdict n
          { s with done := rest, checked := fun j => if j = index then true else s.checked j }
          (by simp only []; omega) hrun.2.1 hret2 hrun.1
          (by
            intro j hj
            simp only []
            split
            · rfl
            · exact hrun.2.2.2 j hj)
          (by
            intro i hi
            simp only [] at hi ⊢
            by_cases hii : i = index
            · rw [hii]
              exact hinv.settled index (Or.inl hidx)
            · rw [if_neg hii] at hi
              exact hinv.settled i (Or.inr hi))
          hinv.delivered
        rw [hstep] at hspec
        obtain ⟨hck, herr, hbusy, hdone, hin, _, hdel, hfin⟩ := hspec
        simp only [] at hck herr hbusy hdone hin
        exact
          { inIndex_le := by rw [hin]; exact hinv.inIndex_le
            busy_lt := by
              intro i hi
              rw [hbusy] at hi
              rw [hin]
              exact hinv.busy_lt i hi
            done_lt := by
              intro i hi
              rw [hdone] at hi
              rw [hin]
              exact hinv.done_lt i (by rw [hd]; exact List.mem_cons_of_mem _ hi)
            settled := by
              intro i hi
              rw [hdone, hck, herr] at *
              by_cases hii : i = index
              · rw [hii]
                exact hinv.settled index (Or.inl hidx)
              · rcases hi with h | h
                · exact hinv.settled i (Or.inl (by rw [hd]; exact List.mem_cons_of_mem _ h))
                · simp only [hii, ↓reduceIte] at h
                  exact hinv.settled i (Or.inr h)
            covered := by
              intro i hi
              rw [hin] at hi
              rw [hbusy, hdone, hck]
              by_cases hii : i = index
              · exact Or.inr (Or.inr (by simp [hii]))
              · rcases hinv.covered i hi with h | h | h
                · exact Or.inl h
                · rw [hd] at h
                  rcases List.mem_cons.mp h with h1 | h1
                  · exact absurd h1 hii
                  · exact Or.inr (Or.inl h1)
                · exact Or.inr (Or.inr (by simp [hii, h]))
            delivered := hdel
            running := by
              intro hr
              rcases hfin with h | h
              · exact h.2
              · rw [h.1] at hr; cases hr
            stopped := by
              intro hr
              rcases hfin with h | h
              · rw [h.1] at hr; cases hr
              · exact ⟨by omega, fun _ => h.2⟩ }
  | abort =>
    rw [batchStep_abort] at hstep
    split at hstep
    · rename_i hg
      simp only [Option.some.injEq] at hstep
      subst hstep
      have hrun := hinv.running hg.1
      exact
        { inIndex_le := hinv.inIndex_le
          busy_lt := hinv.busy_lt
          done_lt := hinv.done_lt
          settled := hinv.settled
          covered := hinv.covered
          delivered := hinv.delivered
          running := by intro hr; cases hr
          stopped := by
            intro _
            refine ⟨by simp only []; omega, ?_⟩
            intro hc
            simp only [hg.2] at hc
            cases hc }
    · cases hstep
  | closeAbort =>
    rw [batchStep_closeAbort] at hstep
    simp only [Option.some.injEq] at hstep
    subst hstep
    exact
      { inIndex_le := hinv.inIndex_le
        busy_lt := hinv.busy_lt
        done_lt := hinv.done_lt
        settled := hinv.settled
        covered := hinv.covered
        delivered := hinv.delivered
        running := hinv.running
        stopped := by
          intro hr
          refine ⟨(hinv.stopped hr).1, ?_⟩
          intro hc
          cases hc }

theorem emitLoop_frame (n fuel : Nat) (s : HeaderBatch) :
    (emitLoop n fuel s).inIndex = s.inIndex ∧ (emitLoop n fuel s).busy = s.busy ∧
    (emitLoop n fuel s).done = s.done ∧
    (s.returned = true → (emitLoop n fuel s).returned = true) := by
  induction fuel generalizing s with
  | zero => exact ⟨rfl, rfl, rfl, fun h => h⟩
  | succ f ih =>
    unfold emitLoop
    split
    · simp only []
      split
      · exact ⟨rfl, rfl, rfl, fun _ => rfl⟩
      · exact ih _
    · exact ⟨rfl, rfl, rfl, fun h => h⟩

theorem batchMeasure_step (n workers : Nat) (verdict : Nat → Option (Option Err)) (a : Action)
    (s t : HeaderBatch) (hstep : batchStep n workers verdict a s = some t)
    (ha : a.isStep = true) : batchMeasure s + 1 ≤ batchMeasure t := by
  cases a with
  | send =>
    rw [batchStep_send] at hstep
    split at hstep
    · simp only [Option.some.injEq] at hstep
      subst hstep
      simp only [batchMeasure, List.length_append, List.length_singleton, Nat.cast_add,
        Nat.cast_one]
      omega
    · cases hstep
  | finish index =>
    rw [batchStep_finish] at hstep
    split at hstep
    · rename_i hg
      cases hv : verdict index with
      | none => rw [hv] at hstep; cases hstep
      | some r =>
        rw [hv] at hstep
        simp only [Option.some.injEq] at hstep
        subst hstep
        have hlen := List.length_erase_of_mem hg.1
        have hpos : 0 < s.busy.length := List.length_pos_of_mem hg.1
        simp only [batchMeasure, List.length_append, List.length_singleton, Nat.cast_add,
          Nat.cast_one, hlen]
        omega
    · cases hstep
  | collect =>
    rw [batchStep_collect] at hstep
    split at hstep
    · cases hstep
    · rename_i hret
      have hret2 : s.returned = false := by simpa using hret
      cases hd : s.done with
      | nil => rw [hd] at hstep; cases hstep
      | cons index rest =>
        rw [hd] at hstep
        simp only [Option.some.injEq] at hstep
        have hf := emitLoop_frame n n
          { s with done := rest, checked := fun j => if j = index then true else s.checked j }
        rw [hstep] at hf
        simp only [] at hf
        have hnn : (0 : Int) ≤ (if t.returned = true then 1 else 0) := by
          split <;> decide
        simp only [batchMeasure, hf.1, hf.2.1, hf.2.2.1, hd, hret2, List.length_cons,
          Nat.cast_add, Nat.cast_one, Bool.false_eq_true, ↓reduceIte]
        omega
  | abort =>
    rw [batchStep_abort] at hstep
    split at hstep
    · rename_i hg
      simp only [Option.some.injEq] at hstep
      subst hstep
      simp only [batchMeasure, hg.1]
      simp
    · cases hstep
  | closeAbort => cases ha

theorem BatchInv_run (n workers : Nat) (verdict : Nat → Option (Option Err))
    (schedule : List Action) (s t : HeaderBatch) (hinv : BatchInv n verdict s)
    (hrun : runSchedule (batchStep n workers verdict) schedule s = some t) :
    BatchInv n verdict t := by
  induction schedule generalizing s with
  | nil =>
    simp only [runSchedule, Option.some.injEq] at hrun
    subst hrun
    exact hinv
  | cons a rest ih =>
    unfold runSchedule at hrun
    cases hstep : batchStep n workers verdict a s with
    | none => rw [hstep] at hrun; cases hrun
    | some u =>
      rw [hstep] at hrun
      exact ih u (BatchInv_step n workers verdict a s u hinv hstep) hrun

theorem batchMeasure_run (n workers : Nat) (verdict : Nat → Option (Option Err))
    (schedule : List Action) (s t : HeaderBatch)
    (hrun : runSchedule (batchStep n workers verdict) schedule s = some t) :
    batchMeasure s + ((schedule.filter Action.isStep).length : Int) ≤ batchMeasure t := by
  induction schedule generalizing s with
  | nil =>
    simp only [runSchedule, Option.some.injEq] at hrun
    subst hrun
    simp
  | cons a rest ih =>
    unfold runSchedule at hrun
    cases hstep : batchStep n workers verdict a s with
    | none => rw [hstep] at hrun; cases hrun
    | some u =>
      rw [hstep] at hrun
      have h := ih u hrun
      rw [List.filter_cons]
      by_cases ha : a.isStep = true
      · have hm := batchMeasure_step n workers verdict a s u hstep ha
        rw [if_pos ha, List.length_cons]
        push_cast
        omega
      · rw [if_neg ha]
        cases a with
        | closeAbort =>
          rw [batchStep_closeAbort] at hstep
          simp only [Option.some.injEq] at hstep
          subst hstep
          exact h
        | send => exact absurd rfl ha
        | finish i => exact absurd rfl ha
        | collect => exact absurd rfl ha
        | abort => exact absurd rfl ha

theorem batch_progress (n workers : Nat) (verdict : Nat → Option (Option Err))
    (s : HeaderBatch) (hinv : BatchInv n verdict s) (hret : s.returned = false)
    (hw : 0 < workers) (hv : ∀ i, i < n → (verdict i).isSome = true) :
    ∃ a : Action, a.isStep = true ∧ a ≠ Action.abort ∧
      (batchStep n workers verdict a s).isSome = true := by
  have hrun := hinv.running hret
  cases hd : s.done with
  | cons index rest =>
    refine ⟨Action.collect, rfl, by simp, ?_⟩
    rw [batchStep_collect, hd]
    simp [hret]
  | nil =>
    cases hb : s.busy with
    | cons i rest =>
      have hi : i ∈ s.busy := by rw [hb]; exact List.mem_cons_self _ _
      have hlt : i < n := lt_of_lt_of_le (hinv.busy_lt i hi) hinv.inIndex_le
      obtain ⟨r, hr⟩ := Option.isSome_iff_exists.mp (hv i hlt)
      refine ⟨Action.finish i, rfl, by simp, ?_⟩
      rw [batchStep_finish, if_pos ⟨hi, by rw [hd]; exact hw⟩, hr]
      rfl
    | nil =>
      by_cases hin : s.inIndex < n
      · refine ⟨Action.send, rfl, by simp, ?_⟩
        rw [batchStep_send, if_pos ⟨hret, hin, by rw [hb]; exact hw⟩]
        rfl
      · exfalso
        have hall : s.inIndex = n := le_antisymm hinv.inIndex_le (by omega)
        rcases hinv.covered s.out (by rw [hall]; exact hrun.2.1) with h | h | h
        · rw [hb] at h; cases h
        · rw [hd] at h; cases h
        · rw [hrun.2.2.1] at h; cases h

theorem batch_idle_run (n workers : Nat) (verdict : Nat → Option (Option Err))
    (schedule : List Action) (s t : HeaderBatch) (hret : s.returned = true)
    (hbusy : s.busy = [])
    (hrun : runSchedule (batchStep n workers verdict) schedule s = some t) :
    t.returned = true ∧ t.errorsOut = s.errorsOut := by
  induction schedule generalizing s with
  | nil =>
    simp only [runSchedule, Option.some.injEq] at hrun
    subst hrun
    exact ⟨hret, rfl⟩
  | cons a rest ih =>
    unfold runSchedule at hrun
    cases a with
    | send =>
      rw [batchStep_send, if_neg (by simp [hret])] at hrun
      cases hrun
    | finish i =>
      rw [batchStep_finish, if_neg (by simp [hbusy])] at hrun
      cases hrun
    | collect =>
      rw [batchStep_collect, if_pos hret] at hrun
      cases hrun
    | abort =>
      rw [batchStep_abort, if_neg (by simp [hret])] at hrun
      cases hrun
    | closeAbort =>
      rw [batchStep_closeAbort] at hrun
      exact ih { s with abortClosed := true } hret hbusy hrun

theorem verifyHeaderWorker_returns (hashOf : Header → Hash) (ethash : Ethash) (env : VerifyEnv)
    (chain : ChainReader) (headers : List Header) (seals : List Bool) (index : Nat)
    (hindex : index < headers.length) (hseals : headers.length ≤ seals.length) :
    (verifyHeaderWorker hashOf ethash env chain headers seals index).isSome = true := by
  have hh : headers.get? index = some (headers.get ⟨index, hindex⟩) := List.get?_eq_get hindex
  have hs : seals.get? index = some (seals.get ⟨index, by omega⟩) :=
    List.get?_eq_get (by omega)
  unfold verifyHeaderWorker
  rw [hh]
  simp only [hs]
  split
  · rfl
  · split <;> rfl

theorem BatchInv_init (hashOf : Header → Hash) (ethash : Ethash) (env : VerifyEnv)
    (chain : ChainReader) (headers : List Header) (seals : List Bool) :
    BatchInv headers.length (batchVerdict hashOf ethash env chain headers seals)
      (VerifyHeaders ethash headers) := by
  unfold VerifyHeaders
  split
  · rename_i hc
    have hdel : (List.replicate headers.length (none : Option Err)).map some
        = (List.range headers.length).map
            (batchVerdict hashOf ethash env chain headers seals) := by
      rcases hc with h | h
      · have hv : batchVerdict hashOf ethash env chain headers seals = fun _ => some none := by
          funext i
          unfold batchVerdict
          rw [if_pos h]
        rw [hv]
        apply List.ext_getElem
        · simp
        · intro i h1 h2
          simp
      · rw [h]
        rfl
    exact
      { inIndex_le := Nat.zero_le _
        busy_lt := fun i hi => by cases hi
        done_lt := fun i hi => by cases hi
        settled := by
          intro i hi
          rcases hi with h | h
          · cases h
          · cases h
        covered := fun i hi => by cases hi
        delivered := by
          simp only [List.length_replicate]
          exact hdel
        running := fun h => by cases h
        stopped := fun _ => by simp }
  · rename_i hc
    have hn : 0 < headers.length := by
      rcases Nat.eq_zero_or_pos headers.length with h | h
      · exact absurd (Or.inr h) hc
      · exact h
    exact
      { inIndex_le := Nat.zero_le _
        busy_lt := fun i hi => by cases hi
        done_lt := fun i hi => by cases hi
        settled := by
          intro i hi
          rcases hi with h | h
          · cases h
          · cases h
        covered := fun i hi => by cases hi
        delivered := rfl
        running := fun _ => ⟨rfl, hn, rfl, fun j hj => by cases hj⟩
        stopped := fun h => by cases h }

/-- C34. `VerifyHeaders` on `headers`, with `seals` at least as long and at least one
allowed thread, under every interleaving of its goroutines and of the caller closing
`abort` (`schedule`), in the state `s` reached: the results channel holds at most
`len(headers)` results and the `k`-th of them is the verdict for `headers[k]`, whatever
the order in which the workers finished; if the coordinator has returned and `abort`
was not closed, it holds exactly `len(headers)` results; while the coordinator has not
returned some goroutine can take a step other than the abort case, and the abort case
is possible as soon as `abort` is closed; the goroutines take at most
`3 * len(headers) + 1` steps in all, so every run ends; and a full-fake engine or an
empty batch delivers `len(headers)` nil results at once. -/
theorem VerifyHeaders_in_order (hashOf : Header → Hash) (ethash : Ethash) (env : VerifyEnv)
    (chain : ChainReader) (headers : List Header) (seals : List Bool) (GOMAXPROCS : Nat)
    (schedule : List Action) (s : HeaderBatch)
    (hprocs : 0 < GOMAXPROCS) (hseals : headers.length ≤ seals.length)
    (hrun : runSchedule (headersStep hashOf ethash env chain headers seals GOMAXPROCS) schedule
      (VerifyHeaders ethash headers) = some s) :
    s.errorsOut.length ≤ headers.length ∧
    s.errorsOut.map some
      = (List.range s.errorsOut.length).map
          (batchVerdict hashOf ethash env chain headers seals) ∧
    (s.returned = true → s.abortClosed = false → s.errorsOut.length = headers.length) ∧
    (s.returned = false →
      ∃ a : Action, a.isStep = true ∧ a ≠ Action.abort ∧
        (headersStep hashOf ethash env chain headers seals GOMAXPROCS a s).isSome = true) ∧
    (s.returned = false → s.abortClosed = true →
      ∃ t, headersStep hashOf ethash env chain headers seals GOMAXPROCS Action.abort s = some t ∧
        t.returned = true ∧ t.errorsOut = s.errorsOut) ∧
    (schedule.filter Action.isStep).length ≤ 3 * headers.length + 1 ∧
    (ethash.PowMode = Mode.ModeFullFake ∨ headers.length = 0 →
      s.returned = true ∧ s.errorsOut = List.replicate headers.length none) := by
  have hinit := BatchInv_init hashOf ethash env chain headers seals
  have hinv := BatchInv_run _ _ _ schedule _ s hinit hrun
  have hlen : s.errorsOut.length ≤ headers.length := by
    cases hr : s.returned with
    | true => exact (hinv.stopped hr).1
    | false =>
      have := hinv.running hr
      omega
  refine ⟨hlen, hinv.delivered, fun hr => (hinv.stopped hr).2, ?_, ?_, ?_, ?_⟩
  · intro hr
    have hn : 0 < headers.length := by
      have := hinv.running hr
      omega
    apply batch_progress _ _ _ s hinv hr
    · unfold workerCount
      split <;> assumption
    · intro i hi
      unfold batchVerdict
      split
      · rfl
      · exact verifyHeaderWorker_returns hashOf ethash env chain headers seals i hi hseals
  · intro hr hc
    refine ⟨{ s with returned := true }, ?_, rfl, rfl⟩
    unfold headersStep
    rw [batchStep_abort, if_pos ⟨hr, hc⟩]
  · have hm := batchMeasure_run _ _ _ schedule _ s hrun
    have h0 : 0 ≤ batchMeasure (VerifyHeaders ethash headers) := by
      unfold VerifyHeaders
      split <;> simp [batchMeasure]
    have hub : batchMeasure s ≤ 3 * (headers.length : Int) + 1 := by
      have hin : (s.inIndex : Int) ≤ (headers.length : Int) := by exact_mod_cast hinv.inIndex_le
      have hb : (0 : Int) ≤ (s.busy.length : Int) := Int.natCast_nonneg _
      have hd : (0 : Int) ≤ (s.done.length : Int) := Int.natCast_nonneg _
      unfold batchMeasure
      split <;> omega
    have : ((schedule.filter Action.isStep).length : Int) ≤ 3 * (headers.length : Int) + 1 := by
      omega
    exact_mod_cast this
  · intro hc
    have hstart : VerifyHeaders ethash headers
        = { inIndex := 0, out := 0, checked := fun _ => false, errors := fun _ => none,
            busy := [], done := [], errorsOut := List.replicate headers.length none,
            returned := true, abortClosed := false } := by
      unfold VerifyHeaders
      rw [if_pos hc]
    rw [hstart] at hrun
    exact batch_idle_run _ _ _ schedule _ s rfl rfl hrun

set_option maxRecDepth 100000

/-- Witness of C34: three headers, two workers, the worker for header 1 finishing
first; the coordinator returns with the three results in the channel. -/
theorem VerifyHeaders_in_order_witness :
    0 < 2 ∧ threeHeaders.length ≤ [false, false, false].length ∧
    ∃ s, runSchedule
        (headersStep exampleHash exampleEthash exampleEnv headerChain threeHeaders
          [false, false, false] 2) outOfOrder (VerifyHeaders exampleEthash threeHeaders) = some s ∧
      s.returned = true ∧ s.errorsOut.length = 3 ∧
      s.errorsOut.map some
        = (List.range s.errorsOut.length).map
            (batchVerdict exampleHash exampleEthash exampleEnv headerChain threeHeaders
              [false, false, false]) := by
  have h : (runSchedule
      (headersStep exampleHash exampleEthash exampleEnv headerChain threeHeaders
        [false, false, false] 2) outOfOrder (VerifyHeaders exampleEthash threeHeaders)).isSome
      = true := by decide
  have he : runSchedule
      (headersStep exampleHash exampleEthash exampleEnv headerChain threeHeaders
        [false, false, false] 2) outOfOrder (VerifyHeaders exampleEthash threeHeaders)
      = some ((runSchedule
        (headersStep exampleHash exampleEthash exampleEnv headerChain threeHeaders
          [false, false, false] 2) outOfOrder (VerifyHeaders exampleEthash threeHeaders)).getD
        (VerifyHeaders exampleEthash threeHeaders)) := by
    cases hr : runSchedule
        (headersStep exampleHash exampleEthash exampleEnv headerChain threeHeaders
          [false, false, false] 2) outOfOrder (VerifyHeaders exampleEthash threeHeaders) with
    | none => rw [hr] at h; cases h
    | some x => rfl
  exact ⟨by decide, by decide, _, he, by decide, by decide,
    (VerifyHeaders_in_order exampleHash exampleEthash exampleEnv headerChain threeHeaders
      [false, false, false] 2 outOfOrder _ (by decide) (by decide) he).2.1⟩

end Nuc
